import Mathlib

/-!
# sensorbee: the default (non-grouping) SELECT execution plan

A shallow embedding of `bql/execution/default_select_execution_plan.go`.

* `performQueryOnBuffer`, with its closures `evalItem` and `rollback`, is
  translated from the source.  Go slices are modelled with an explicit heap of
  backing arrays (`Slice`, `Heap`, `goAppend`), because the function recycles
  the storage of `ep.prevResults` and the aliasing between `ep.prevResults`
  and `ep.curResults` is what its rollback is about.
* The rows of `ep.filteredInputRows` are pointers in the source; here they are
  addresses into `Heap.rows`.
* Functions of other packages that the source calls but that are not among
  the available sources (`data.Hash`, `assignOutputValue`, the expression
  evaluators, the formatting of a value, the growth policy of `append`) are
  parameters, collected in `Externals` and `Projection`.
* Further down: the cycle around `performQueryOnBuffer`, the capability check
  `CanBuildDefaultSelectExecutionPlan`, the shared-state registry with the
  state object of `core/shared_state_test.go`, and the rule functions of the
  generated parser `bql/parser/bql.peg.go`.
-/

namespace Sensorbee

/-! ## Values -/

/-- Modelled from the spec: package `data` is not among the sources.  The
runtime-typed value variant of §3 of the specification: Null, Bool, Int,
Float (carried as its IEEE-754 bit pattern, no arithmetic is modelled),
String, Blob, Timestamp (nanoseconds since the epoch), Array and Map (an
insertion-ordered list of fields). -/
inductive Value where
  | null
  | bool (b : Bool)
  | int (i : Int)
  | float (bits : Nat)
  | string (s : String)
  | blob (bytes : List Nat)
  | timestamp (nanos : Int)
  | array (vs : List Value)
  | map (kvs : List (String × Value))

mutual
/-- Decision procedure for equality of values (deep comparison). -/
def Value.decEq (a b : Value) : Decidable (a = b) := by
  cases a <;> cases b <;> first | exact isFalse (fun h => Value.noConfusion h) | skip
  case null.null => exact isTrue rfl
  case bool.bool x y => exact decidable_of_iff (x = y) (by simp)
  case int.int x y => exact decidable_of_iff (x = y) (by simp)
  case float.float x y => exact decidable_of_iff (x = y) (by simp)
  case string.string x y => exact decidable_of_iff (x = y) (by simp)
  case blob.blob x y => exact decidable_of_iff (x = y) (by simp)
  case timestamp.timestamp x y => exact decidable_of_iff (x = y) (by simp)
  case array.array x y =>
    exact match Value.decEqList x y with
    | isTrue h => isTrue (by rw [h])
    | isFalse h => isFalse (by intro h2; injection h2; contradiction)
  case map.map x y =>
    exact match Value.decEqFields x y with
    | isTrue h => isTrue (by rw [h])
    | isFalse h => isFalse (by intro h2; injection h2; contradiction)
/-- Decision procedure for equality of lists of values. -/
def Value.decEqList (as bs : List Value) : Decidable (as = bs) :=
  match as, bs with
  | [], [] => isTrue rfl
  | _ :: _, [] => isFalse (by intro h; cases h)
  | [], _ :: _ => isFalse (by intro h; cases h)
  | a :: as, b :: bs =>
    match Value.decEq a b, Value.decEqList as bs with
    | isTrue h1, isTrue h2 => isTrue (by rw [h1, h2])
    | isFalse h1, _ => isFalse (by intro h; injection h; contradiction)
    | _, isFalse h2 => isFalse (by intro h; injection h; contradiction)
/-- Decision procedure for equality of field lists. -/
def Value.decEqFields (as bs : List (String × Value)) : Decidable (as = bs) :=
  match as, bs with
  | [], [] => isTrue rfl
  | _ :: _, [] => isFalse (by intro h; cases h)
  | [], _ :: _ => isFalse (by intro h; cases h)
  | (k1, a) :: as, (k2, b) :: bs =>
    match String.decEq k1 k2, Value.decEq a b, Value.decEqFields as bs with
    | isTrue h0, isTrue h1, isTrue h2 => isTrue (by rw [h0, h1, h2])
    | isFalse h0, _, _ =>
      isFalse (by intro h; injection h with h3 h4; injection h3; contradiction)
    | _, isFalse h1, _ =>
      isFalse (by intro h; injection h with h3 h4; injection h3; contradiction)
    | _, _, isFalse h2 => isFalse (by intro h; injection h; contradiction)
end

instance : DecidableEq Value := Value.decEq

/-- The Go type `data.Map`: a mapping from field names to values. -/
abbrev Map := List (String × Value)

/-- The Go type `error` when it is not nil: the error message. -/
abbrev Error := String

/-- Modelled from the spec: `data.AsMap` is not among the sources.  It is the
type assertion its call site needs: a Map value yields its Map, every other
value an error. -/
def AsMap (v : Value) : Except Error Map :=
  match v with
  | .map kvs => .ok kvs
  | _ => .error "value is not a map"

/-- Modelled from the spec: the tuple type is not among the sources.  The
input unit of §3 of the specification, with the fields that `getTuples` of
the test file fills in; timestamps are in nanoseconds. -/
structure Tuple where
  Data : Map
  InputName : String
  Timestamp : Int
  ProcTimestamp : Int
  BatchID : Int
deriving DecidableEq

/-- One step of an alias path into a nested Map or Array. -/
inductive PathStep where
  | key (k : String)
  | index (i : Nat)
deriving DecidableEq

/-- One entry of `ep.projections`: the expression evaluator (`Eval`, a
function of the row it is given), the output alias (the field `alias` of the
source, a reserved word here) and the alias path. -/
structure Projection where
  evaluator : Tuple → Except Error Value
  aliasName : String
  aliasPath : List PathStep

/-- The functions that `performQueryOnBuffer` calls and whose source is not
available: `data.Hash`, `assignOutputValue` (which updates the Map it is
given, here it returns the updated Map), the `%v` formatting of a value, and
the capacity that `append` chooses when it has to allocate. -/
structure Externals where
  Hash : Value → Nat
  assignOutputValue : Map → String → List PathStep → Value → Except Error Map
  format : Option Value → String
  growCap : Nat → Nat

/-! ## Rows and result rows -/

/-- The Go struct `resultRow`: a projected Map and its hash. -/
structure resultRow where
  row : Map
  hash : Nat
deriving DecidableEq

/-- The zero value of `resultRow`, which fills a freshly allocated array. -/
def resultRow.zero : resultRow := ⟨[], 0⟩

/-- The Go struct `inputRowWithCachedResult`: the input, the cached projection
result (`none` is the nil interface value) and the hash of the cache. -/
structure inputRowWithCachedResult where
  input : Tuple
  cache : Option Value
  hash : Nat
deriving DecidableEq

/-! ## Go slices of result rows -/

/-- A Go slice header.  `array` is the address of the underlying array
(`none` for the nil slice); every slice of the plan starts at index 0 of its
array, since the only reslicing in the source is `[0:0]`. -/
structure Slice where
  array : Option Nat
  len : Nat
  cap : Nat
deriving DecidableEq

/-- The nil slice. -/
def Slice.nil : Slice := ⟨none, 0, 0⟩

/-- The Go expression `s[0:0]`: same array and capacity, length 0. -/
def Slice.reslice00 (s : Slice) : Slice := { s with len := 0 }

/-- The memory the plan works on: the row objects by address, the backing
arrays of result slices by address (a cell for every index), and the next
address the allocator hands out. -/
structure Heap where
  rows : Nat → inputRowWithCachedResult
  arrays : Nat → Nat → resultRow
  next : Nat

/-- The cells a slice sees: those of its array, zero values for nil. -/
def Heap.cells (h : Heap) (s : Slice) : Nat → resultRow :=
  match s.array with
  | some a => h.arrays a
  | none => fun _ => resultRow.zero

/-- The elements of a slice, in order. -/
def Heap.contents (h : Heap) (s : Slice) : List resultRow :=
  (List.range s.len).map (h.cells s)

/-- The allocating case of `append`: a new array at the fresh address
`h.next` receives a copy of the elements of `s` followed by `x`; its capacity
is the one the runtime chooses, at least `len + 1`. -/
def growAppend (ext : Externals) (h : Heap) (s : Slice) (x : resultRow) : Heap × Slice :=
  ({ h with
      arrays := Function.update h.arrays h.next
        (fun i => if i < s.len then h.cells s i else if i = s.len then x else resultRow.zero)
      next := h.next + 1 },
   ⟨some h.next, s.len + 1, max (ext.growCap s.cap) (s.len + 1)⟩)

/-- The Go builtin `append(s, x)` for one element.  With spare capacity the
element is written into the underlying array in place (visible through every
slice that shares the array); otherwise a new array is allocated. -/
def goAppend (ext : Externals) (h : Heap) (s : Slice) (x : resultRow) : Heap × Slice :=
  match s.array with
  | some a =>
    if s.len < s.cap then
      ({ h with arrays := Function.update h.arrays a (Function.update (h.arrays a) s.len x) },
       { s with len := s.len + 1 })
    else growAppend ext h s x
  | none => growAppend ext h s x

/-- Two slices share storage when they have the same underlying array. -/
def SharesStorage (p c : Slice) : Prop :=
  match p.array, c.array with
  | some a, some b => a = b
  | _, _ => False

instance (p c : Slice) : Decidable (SharesStorage p c) := by
  unfold SharesStorage
  split <;> infer_instance

/-- The underlying array of a slice, if any, has been allocated. -/
def Slice.AllocatedIn (s : Slice) (h : Heap) : Prop :=
  match s.array with
  | some a => a < h.next
  | none => True

instance (s : Slice) (h : Heap) : Decidable (s.AllocatedIn h) := by
  unfold Slice.AllocatedIn
  split <;> infer_instance

/-! ## The execution plan -/

/-- The fields of `defaultSelectExecutionPlan` (inherited from the embedded
`streamRelationStreamExecutionPlan`) that `performQueryOnBuffer` uses, and the
memory they point into. -/
structure defaultSelectExecutionPlan where
  projections : List Projection
  filteredInputRows : List Nat
  prevResults : Slice
  curResults : Slice
  heap : Heap

/-- The loop body `for _, proj := range ep.projections` of `evalItem`: evaluate
each projection on `d` and assign its value into `result`; the first error of
an evaluation or of an assignment is returned. -/
def evalProjections (ext : Externals) (projections : List Projection) (d : Tuple)
    (result : Map) : Except Error Map :=
  match projections with
  | [] => .ok result
  | proj :: rest =>
    match proj.evaluator d with
    | .error err => .error err
    | .ok value =>
      match ext.assignOutputValue result proj.aliasName proj.aliasPath value with
      | .error err => .error err
      | .ok result2 => evalProjections ext rest d result2

/-- The closure `evalItem` of `performQueryOnBuffer`, for the row at address
`io`; it returns the error (if any), the updated memory and the updated
`output` slice. -/
def evalItem (ext : Externals) (projections : List Projection) (h : Heap) (output : Slice)
    (io : Nat) : Option Error × Heap × Slice :=
  match (h.rows io).cache with
  | some c =>
    -- if we have a cached result, use this
    match AsMap c with
    | .error _ => (some ("cached data was not a map: " ++ ext.format (h.rows io).cache), h, output)
    | .ok cachedResults =>
      let r := goAppend ext h output ⟨cachedResults, (h.rows io).hash⟩
      (none, r.1, r.2)
  | none =>
    -- otherwise, compute all the expressions
    match evalProjections ext projections (h.rows io).input [] with
    | .error err => (some err, h, output)
    | .ok result =>
      -- update the fields of the input data for the next iteration
      let cache := Value.map result
      let hash := ext.Hash cache
      let h2 : Heap :=
        { h with rows := Function.update h.rows io ⟨(h.rows io).input, some cache, hash⟩ }
      let r := goAppend ext h2 output ⟨result, hash⟩
      (none, r.1, r.2)

/-- The loop over `ep.filteredInputRows` of `performQueryOnBuffer`: it stops at
the first row for which `evalItem` returns an error. -/
def evalItems (ext : Externals) (projections : List Projection) :
    List Nat → Heap → Slice → Option Error × Heap × Slice
  | [], h, output => (none, h, output)
  | io :: rest, h, output =>
    match evalItem ext projections h output io with
    | (some err, h2, output2) => (some err, h2, output2)
    | (none, h2, output2) => evalItems ext projections rest h2 output2

/-- The closure `rollback` of `performQueryOnBuffer`: `ep.prevResults = output`. -/
def rollback (ep : defaultSelectExecutionPlan) (output : Slice) : defaultSelectExecutionPlan :=
  { ep with prevResults := output }

/-- The method `performQueryOnBuffer`: returns the error (`none` is nil) and the
plan as the call leaves it. -/
def performQueryOnBuffer (ext : Externals) (ep : defaultSelectExecutionPlan) :
    Option Error × defaultSelectExecutionPlan :=
  -- reuse the allocated memory
  let output := ep.prevResults.reslice00
  -- remember the previous results
  let ep1 := { ep with prevResults := ep.curResults }
  match evalItems ext ep1.projections ep1.filteredInputRows ep1.heap output with
  | (some err, h2, output2) => (some err, rollback { ep1 with heap := h2 } output2)
  | (none, h2, output2) => (none, { ep1 with heap := h2, curResults := output2 })

/-! ## What the claims speak about -/

/-- The result row that a row object stands for: the cached Map with the
stored hash when the cache is present, otherwise the Map built by applying
every projection in list order, with its hash. -/
def rowResult (ext : Externals) (projections : List Projection)
    (r : inputRowWithCachedResult) : Except Error resultRow :=
  match r.cache with
  | some c =>
    match AsMap c with
    | .error _ => .error ("cached data was not a map: " ++ ext.format r.cache)
    | .ok m => .ok ⟨m, r.hash⟩
  | none =>
    match evalProjections ext projections r.input [] with
    | .error err => .error err
    | .ok m => .ok ⟨m, ext.Hash (Value.map m)⟩

/-- The row object as `evalItem` leaves it: a missing cache is filled with the
projected Map and its hash when every projection succeeds. -/
def filledRow (ext : Externals) (projections : List Projection)
    (r : inputRowWithCachedResult) : inputRowWithCachedResult :=
  match r.cache with
  | some _ => r
  | none =>
    match evalProjections ext projections r.input [] with
    | .error _ => r
    | .ok m => ⟨r.input, some (Value.map m), ext.Hash (Value.map m)⟩

/-- The results in front of the first error of a list of outcomes. -/
def resultsBeforeError : List (Except Error resultRow) → List resultRow
  | [] => []
  | .error _ :: _ => []
  | .ok x :: rest => x :: resultsBeforeError rest

/-- The first error of a list of outcomes, if any. -/
def firstError : List (Except Error resultRow) → Option Error
  | [] => none
  | .error err :: _ => some err
  | .ok _ :: rest => firstError rest

/-- The outcomes of the rows at the given addresses. -/
def outcomes (ext : Externals) (projections : List Projection) (h : Heap)
    (addrs : List Nat) : List (Except Error resultRow) :=
  addrs.map (fun io => rowResult ext projections (h.rows io))

/-- One cycle as the caller drives it: the filtered rows of the cycle are
stored in the plan and `performQueryOnBuffer` is called. -/
def cycle (ext : Externals) (ep : defaultSelectExecutionPlan) (filtered : List Nat) :
    Option Error × defaultSelectExecutionPlan :=
  performQueryOnBuffer ext { ep with filteredInputRows := filtered }

/-- The plan after a sequence of cycles, successful or not. -/
def runCycles (ext : Externals) (ep : defaultSelectExecutionPlan) :
    List (List Nat) → defaultSelectExecutionPlan
  | [] => ep
  | filtered :: rest => runCycles ext (cycle ext ep filtered).2 rest

/-- The state between two calls in which the aliasing claims are stated:
`prevResults` and `curResults` do not share storage, and their arrays have
been allocated. -/
def Separate (ep : defaultSelectExecutionPlan) : Prop :=
  ¬ SharesStorage ep.prevResults ep.curResults ∧
    ep.prevResults.AllocatedIn ep.heap ∧ ep.curResults.AllocatedIn ep.heap

instance (ep : defaultSelectExecutionPlan) : Decidable (Separate ep) := by
  unfold Separate
  infer_instance

/-- The memory after `evalItem` has filled the cache of the row at `io`. -/
def fillCache (ext : Externals) (projections : List Projection) (h : Heap) (io : Nat) : Heap :=
  { h with rows := Function.update h.rows io (filledRow ext projections (h.rows io)) }

/-- What a run of appends to `o` may do to the array memory: addresses are
only handed out upwards, the resulting slice lives in the array of `o` or in
one allocated meanwhile, and every other array allocated before is untouched. -/
def Frame (h : Heap) (o : Slice) (h2 : Heap) (o2 : Slice) : Prop :=
  h.next ≤ h2.next ∧
  (o2.array = o.array ∨ ∃ f, o2.array = some f ∧ h.next ≤ f ∧ f < h2.next) ∧
  (∀ b, b < h.next → some b ≠ o.array → h2.arrays b = h.arrays b)

/-- The run of the loop inside `performQueryOnBuffer`: it starts from
`ep.prevResults[0:0]` as output. -/
def loopResult (ext : Externals) (ep : defaultSelectExecutionPlan) : Option Error × Heap × Slice :=
  evalItems ext ep.projections ep.filteredInputRows ep.heap ep.prevResults.reslice00

/-- The result row held by a row object: its cached Map paired with its hash. -/
def cachedResult (r : inputRowWithCachedResult) : Option resultRow :=
  match r.cache with
  | some (.map m) => some ⟨m, r.hash⟩
  | _ => none

/-! ## The cycle around `performQueryOnBuffer`

`Process` hands `performQueryOnBuffer` to the method `process` of the embedded
`streamRelationStreamExecutionPlan`.  That struct, its constructor and its
methods are not among the available sources; what follows is modelled from
§4.2, §4.3 and §4.5 of the specification and from the expectations of
`default_select_execution_plan_test.go`. -/

/-- The emission modes of a query. -/
inductive Emitter where
  | Rstream
  | Istream
  | Dstream
deriving DecidableEq

/-- The window specification: `RANGE n TUPLES` or `RANGE d SECONDS`. -/
inductive WindowSpec where
  | Tuples (n : Nat)
  | Seconds (d : Nat)
deriving DecidableEq

/-- Modelled from the spec: the equality of the emission differ is not among
the sources.  §4.5: equality is by content hash with a final content
re-compare. -/
def resultRow.same (a b : resultRow) : Bool :=
  decide (a.hash = b.hash) && decide (a.row = b.row)

/-- Modelled from the spec: the removal of one occurrence from a list of result
rows, with the equality of §4.5: the first row that is the same as `x` is
dropped. -/
def resultRow.removeFirst (x : resultRow) : List resultRow → List resultRow
  | [] => []
  | p :: rest => if p.same x then rest else p :: resultRow.removeFirst x rest

/-- Modelled from the spec: the rows that DSTREAM emits, §4.5: the multiset
difference `prev − cur` with the equality of the differ.  Every row of `cur`
takes one equal row out of `prev`; what is left of `prev` is emitted, in the
order of `prev`. -/
def dstreamRows (prev cur : List resultRow) : List resultRow :=
  cur.foldl (fun acc c => resultRow.removeFirst c acc) prev

/-- Modelled from the spec: the emission differ (the comparison of the results
of this run with those of the previous run, announced in the comment of
`NewDefaultSelectExecutionPlan`) is not among the sources.  RSTREAM emits
every Map of `cur` in order.  ISTREAM emits the Maps of the rows of `cur`
that have no equal row in `prev`: the difference is taken by presence, not by
multiplicity.  This is what the test file asserts for `ISTREAM(2 AS a)` over
`[RANGE 2 SECONDS]` and `[RANGE 2 TUPLES]`, where the window grows from one
row to two rows with the same projection and nothing may be emitted
("nothing should be emitted because no new data appears"), and what scenario
2 of §8 of the specification lists; the multiset difference of §4.5 would
emit one Map there.  DSTREAM emits the multiset difference `prev − cur`, as
§4.5 has it: the four DSTREAM tests of the test file expect the same output
from the difference by presence and from the multiset difference, so they do
not decide between the two, and the branch follows the words of §4.5. -/
def computeResultTuples (emitterType : Emitter) (prev cur : List resultRow) : List Map :=
  match emitterType with
  | .Rstream => cur.map (fun res => res.row)
  | .Istream => (cur.filter (fun res => !(prev.any (fun p => res.same p)))).map (fun res => res.row)
  | .Dstream => (dstreamRows prev cur).map (fun res => res.row)

/-- The emission that the words of §4.5 of the specification describe for
ISTREAM, for comparison: the multiset difference `cur − prev` of the Maps. -/
def istreamBySpec (prev cur : List resultRow) : Multiset Map :=
  (Multiset.ofList (cur.map (fun res => res.row))) - Multiset.ofList (prev.map (fun res => res.row))

/-- Modelled from the spec: the eviction of a tuple-count window, §4.2: while
size > N, drop the head. -/
def evictTuples (n : Nat) : List Nat → List Nat
  | [] => []
  | a :: rest => if (a :: rest).length > n then evictTuples n rest else a :: rest

/-- Modelled from the spec: the eviction of a time window, §4.2: while the
event timestamp of the head is < nowTs − D, drop the head (D in seconds,
timestamps in nanoseconds). -/
def evictSeconds (d : Nat) (nowTs : Int) (rows : Nat → inputRowWithCachedResult) :
    List Nat → List Nat
  | [] => []
  | a :: rest =>
    if (rows a).input.Timestamp < nowTs - (d : Int) * 1000000000 then
      evictSeconds d nowTs rows rest
    else a :: rest

/-- Modelled from the spec: the eviction policy of the window buffer, §4.2. -/
def evict (w : WindowSpec) (nowTs : Int) (rows : Nat → inputRowWithCachedResult)
    (buffer : List Nat) : List Nat :=
  match w with
  | .Tuples n => evictTuples n buffer
  | .Seconds d => evictSeconds d nowTs rows buffer

/-- Modelled from the spec: the filter step of §4.3: the rows of the buffer
for which the filter expression is true, in order; a filter that raises an
error aborts with that error; a value other than true (false, Null) drops the
row. -/
def filterRows (filter : Tuple → Except Error Value) (rows : Nat → inputRowWithCachedResult) :
    List Nat → Except Error (List Nat)
  | [] => .ok []
  | a :: rest =>
    match filter (rows a).input with
    | .error err => .error err
    | .ok v =>
      match filterRows filter rows rest with
      | .error err => .error err
      | .ok keep => .ok (if v = Value.bool true then a :: keep else keep)

/-- Modelled from the spec: the state of the non-grouping plan, §4.3: the
part that `performQueryOnBuffer` works on, the window buffer (addresses of
row objects, in ingestion order), the window specification, the optional
filter, the emission mode, and the address for the next row object. -/
structure PlanState where
  ep : defaultSelectExecutionPlan
  buffer : List Nat
  window : WindowSpec
  filter : Option (Tuple → Except Error Value)
  emitterType : Emitter
  nextRow : Nat

/-- Modelled from the spec: the plan as its constructor leaves it: empty
buffer, empty (nil) result lists, no row holds a cache. -/
def newPlan (projections : List Projection) (window : WindowSpec)
    (filter : Option (Tuple → Except Error Value)) (emitterType : Emitter) : PlanState where
  ep :=
    { projections := projections
      filteredInputRows := []
      prevResults := Slice.nil
      curResults := Slice.nil
      heap := ⟨fun _ => ⟨⟨[], "", 0, 0, 0⟩, none, 0⟩, fun _ _ => resultRow.zero, 0⟩ }
  buffer := []
  window := window
  filter := filter
  emitterType := emitterType
  nextRow := 0

/-- Modelled from the spec: steps 1 and 2 of the cycle of §4.3: a new row
object for the tuple is appended to the buffer, the buffer is evicted with
the event timestamp of the tuple as nowTs. -/
def ingest (s : PlanState) (input : Tuple) : PlanState :=
  { s with
    ep := { s.ep with
      heap := { s.ep.heap with rows := Function.update s.ep.heap.rows s.nextRow ⟨input, none, 0⟩ } }
    buffer := evict s.window input.Timestamp
      (Function.update s.ep.heap.rows s.nextRow ⟨input, none, 0⟩) (s.buffer ++ [s.nextRow])
    nextRow := s.nextRow + 1 }

/-- Modelled from the spec: `filteredInputRows` of §4.3, step 2: the full
buffer, or the subset satisfying the filter. -/
def filteredRows (s : PlanState) : Except Error (List Nat) :=
  match s.filter with
  | none => .ok s.buffer
  | some f => filterRows f s.ep.heap.rows s.buffer

/-- Modelled from the spec: the per-input-tuple cycle `process` of §4.3:
ingest and evict, filter, `performQueryOnBuffer`, then the diff of `prev`
against `cur`; an error of the filter or of the query aborts the cycle. -/
def process (ext : Externals) (s : PlanState) (input : Tuple) :
    Except Error (List Map) × PlanState :=
  match filteredRows (ingest s input) with
  | .error err => (.error err, ingest s input)
  | .ok rows =>
    match cycle ext (ingest s input).ep rows with
    | (some err, ep2) => (.error err, { ingest s input with ep := ep2 })
    | (none, ep2) =>
      (.ok (computeResultTuples s.emitterType (ep2.heap.contents ep2.prevResults)
        (ep2.heap.contents ep2.curResults)), { ingest s input with ep := ep2 })

/-- The outputs of `process` on a stream of tuples, one per cycle. -/
def processAll (ext : Externals) : PlanState → List Tuple → List (Except Error (List Map))
  | _, [] => []
  | s, t :: rest => (process ext s t).1 :: processAll ext (process ext s t).2 rest

/-- The plan after `process` has run on a stream of tuples. -/
def stateAfter (ext : Externals) : PlanState → List Tuple → PlanState
  | s, [] => s
  | s, t :: rest => stateAfter ext (process ext s t).2 rest

/-- The state of a plan without filter, in ISTREAM mode, all of whose rows
stand for the same result row `x`: the two result slices are separate and
`curResults` holds `x` once per row of the buffer. -/
def ConstantInv (ext : Externals) (projections : List Projection) (x : resultRow)
    (w : WindowSpec) (s : PlanState) : Prop :=
  Separate s.ep ∧ s.ep.projections = projections ∧
    (∀ a, rowResult ext projections (s.ep.heap.rows a) = .ok x) ∧
    s.ep.heap.contents s.ep.curResults = List.replicate s.buffer.length x ∧
    s.filter = none ∧ s.emitterType = .Istream ∧ s.window = w

/-- The buffer ends with a row object that has been allocated and whose tuple
has the event timestamp `ts`. -/
def EndsWith (s : PlanState) (ts : Int) : Prop :=
  ∃ l a, s.buffer = l ++ [a] ∧ a < s.nextRow ∧ (s.ep.heap.rows a).input.Timestamp = ts

/-- One tuple per second: the event timestamp of `b` is one second after that
of `a`. -/
def OneSecondApart (a b : Tuple) : Prop := b.Timestamp = a.Timestamp + 1000000000

instance (a b : Tuple) : Decidable (OneSecondApart a b) := by
  unfold OneSecondApart
  infer_instance

/-! ## A worked example

The memory and plan on which the theorems below are instantiated: a plan
`SELECT int AS a` whose previous cycle produced one row. -/

/-- A hash for the worked examples: determined by the content of the value. -/
def exampleHash : Value → Nat
  | .map ((_, .int i) :: _) => i.natAbs + 1
  | _ => 0

/-- Externals for the worked examples: assignment appends the field. -/
def exampleExternals : Externals where
  Hash := exampleHash
  assignOutputValue := fun m name _ v => .ok (m ++ [(name, v)])
  format := fun _ => "?"
  growCap := fun c => 2 * c

/-- The evaluator of a column reference: the field of that name, or an error. -/
def column (name : String) : Tuple → Except Error Value :=
  fun t =>
    match t.Data.lookup name with
    | some v => .ok v
    | none => .error ("field not found: " ++ name)

/-- The tuple with index `i` that `getTuples` of the test file builds: field
`int` is `i + 1`, the timestamps are one second apart. -/
def getTuple (i : Nat) : Tuple where
  Data := [("int", .int (i + 1))]
  InputName := "input"
  Timestamp := (i : Int) * 1000000000
  ProcTimestamp := (60 + (i : Int)) * 1000000000
  BatchID := 7

/-- The tuples that `getTuples num` of the test file returns. -/
def getTuples (num : Nat) : List Tuple := (List.range num).map getTuple

/-- Row objects of the example: rows 0 and 1 hold the first two test tuples and
no cache, row 3 holds a cached Map with hash 5, every other row holds a tuple
without the field `int`. -/
def exampleRows : Nat → inputRowWithCachedResult
  | 0 => ⟨getTuple 0, none, 0⟩
  | 1 => ⟨getTuple 1, none, 0⟩
  | 3 => ⟨getTuple 3, some (.map [("a", .int 99)]), 5⟩
  | _ => ⟨⟨[], "input", 0, 0, 7⟩, none, 0⟩

/-- The example plan between two cycles: `prevResults` is nil, `curResults` is
a slice of capacity 1 over array 0 holding one result of the previous cycle. -/
def examplePlan (filtered : List Nat) : defaultSelectExecutionPlan where
  projections := [⟨column "int", "a", []⟩]
  filteredInputRows := filtered
  prevResults := Slice.nil
  curResults := ⟨some 0, 1, 1⟩
  heap := ⟨exampleRows, fun _ _ => ⟨[("a", .int 0)], 1⟩, 1⟩

/-- The emission that the words of §4.5 of the specification describe for
DSTREAM, for comparison: the multiset difference `prev − cur` of the Maps. -/
def dstreamBySpec (prev cur : List resultRow) : Multiset Map :=
  (Multiset.ofList (prev.map (fun res => res.row))) - Multiset.ofList (cur.map (fun res => res.row))

/-- The row objects at the addresses `0 .. hist.length - 1` hold the tuples
ingested so far, in ingestion order, and the next address is free. -/
def Ingested (s : PlanState) (hist : List Tuple) : Prop :=
  s.nextRow = hist.length ∧ ∀ i, i < hist.length → hist[i]? = some (s.ep.heap.rows i).input

/-- The event timestamp of the tuple held by the row object at address `a`. -/
def eventTs (s : PlanState) (a : Nat) : Int := (s.ep.heap.rows a).input.Timestamp

/-- The state of a time window of `d` seconds whose newest tuple has the event
timestamp `nowTs`, for a stream in timestamp order: the buffer holds the
ingested rows that are not older than `nowTs − d`, the timestamps do not
decrease along the addresses and none is later than `nowTs`. -/
def TimeWindowInv (d : Nat) (s : PlanState) (nowTs : Int) : Prop :=
  s.buffer = (List.range s.nextRow).filter
      (fun a => decide (nowTs - (d : Int) * 1000000000 ≤ eventTs s a)) ∧
    (∀ a b, a ≤ b → b < s.nextRow → eventTs s a ≤ eventTs s b) ∧
    (∀ a, a < s.nextRow → eventTs s a ≤ nowTs)

/-- The event timestamp of the last tuple of a stream, `nowTs` if it is empty. -/
def lastTs (nowTs : Int) : List Tuple → Int
  | [] => nowTs
  | t :: rest => lastTs t.Timestamp rest

/-- The state of a plan without filter all of whose buffered rows hold no
cache and a tuple on which the projections fail. -/
def FailingInv (ext : Externals) (projections : List Projection) (w : WindowSpec)
    (s : PlanState) : Prop :=
  s.ep.projections = projections ∧ s.filter = none ∧ s.window = w ∧
    ∀ a ∈ s.buffer, a < s.nextRow ∧ (s.ep.heap.rows a).cache = none ∧
      ∃ err, evalProjections ext projections (s.ep.heap.rows a).input [] = .error err

/-! ## Projection output assembly and the expressions of the test queries

`assignOutputValue`, the expression evaluators and the analyzer that names
the projections are not among the available sources; what follows is
modelled from §4.1 and §4.4 of the specification and from the expectations of
`default_select_execution_plan_test.go`. -/

/-- Modelled from the spec: writing a field of a Map, §3 and §4.4: the value
of an existing key is replaced in place, a new key is added at the end. -/
def setField (m : Map) (k : String) (v : Value) : Map :=
  match m with
  | [] => [(k, v)]
  | (k2, v2) :: rest => if k2 = k then (k, v) :: rest else (k2, v2) :: setField rest k v

/-- Modelled from the spec: merging every field of `fields` into `m`, in
order, §4.4 (wildcard without alias). -/
def mergeFields (m : Map) (fields : Map) : Map :=
  match fields with
  | [] => m
  | (k, v) :: rest => mergeFields (setField m k v) rest

/-- Modelled from the spec: nested assignment, §4.4: the value is written at
the end of the path below `current`; a missing intermediate is created as a
Map, writing through an intermediate that is not a Map fails with
`BadAssignment`. -/
def assignPath (current : Option Value) (path : List PathStep) (value : Value) :
    Except Error Value :=
  match path with
  | [] => .ok value
  | .key k :: rest =>
    match current with
    | none =>
      match assignPath none rest value with
      | .error err => .error err
      | .ok inner => .ok (.map [(k, inner)])
    | some (.map fields) =>
      match assignPath (fields.lookup k) rest value with
      | .error err => .error err
      | .ok inner => .ok (.map (setField fields k inner))
    | some _ => .error "BadAssignment"
  | .index _ :: _ => .error "BadAssignment"

/-- Modelled from the spec: the function `assignOutputValue` that
`performQueryOnBuffer` calls is not among the sources.  §4.4: a wildcard
without alias (alias `*`) merges every field of its Map into the output Map;
otherwise the value is written under the alias, later projections
overwriting earlier ones, along the alias path if there is one. -/
def assignOutputValue (result : Map) (aliasName : String) (aliasPath : List PathStep)
    (value : Value) : Except Error Map :=
  if aliasName = "*" then
    match value with
    | .map fields => .ok (mergeFields result fields)
    | _ => .error "BadAssignment"
  else
    match aliasPath with
    | [] => .ok (setField result aliasName value)
    | step :: rest =>
      match assignPath (result.lookup aliasName) (step :: rest) value with
      | .error err => .error err
      | .ok inner => .ok (setField result aliasName inner)

/-- The externals with `assignOutputValue` as the specification describes it. -/
def Externals.withAssign (ext : Externals) : Externals :=
  { ext with assignOutputValue := Sensorbee.assignOutputValue }

/-- The two's-complement wrap of §4.1 for 64-bit integers. -/
def wrap64 (i : Int) : Int :=
  (i + 9223372036854775808) % 18446744073709551616 - 9223372036854775808

/-- The binary operators of the grammar that the test queries use. -/
inductive Operator where
  | Plus
  | Minus
  | Multiply
  | Divide
  | Modulo
  | Equal
  | NotEqual
deriving DecidableEq

/-- Modelled from the spec: the expression trees of §4.1, restricted to the
nodes that the test queries use: literals, row-value lookup of a top-level
field, and binary arithmetic and equality. -/
inductive Expression where
  | NumericLiteral (i : Int)
  | StringLiteral (s : String)
  | BooleanLiteral (b : Bool)
  | NullLiteral
  | RowValue (column : String)
  | BinaryOp (op : Operator) (left right : Expression)

/-- Modelled from the spec: a binary operator on two values, §4.1.  A Null
operand propagates Null.  Int with Int stays Int and wraps; division and
modulo are truncated, a zero divisor is an error.  `=` and `<>` on values of
different types are false and true, on values of the same type they compare
the content.  Float operands are outside this model and yield an error. -/
def evalBinaryOp (op : Operator) (a b : Value) : Except Error Value :=
  match a, b with
  | .null, _ => .ok .null
  | _, .null => .ok .null
  | .float _, _ => .error "Float operands are not modelled"
  | _, .float _ => .error "Float operands are not modelled"
  | .int x, .int y =>
    match op with
    | .Plus => .ok (.int (wrap64 (x + y)))
    | .Minus => .ok (.int (wrap64 (x - y)))
    | .Multiply => .ok (.int (wrap64 (x * y)))
    | .Divide => if y = 0 then .error "division by zero" else .ok (.int (wrap64 (Int.tdiv x y)))
    | .Modulo => if y = 0 then .error "division by zero" else .ok (.int (Int.tmod x y))
    | .Equal => .ok (.bool (decide (x = y)))
    | .NotEqual => .ok (.bool (!decide (x = y)))
  | x, y =>
    match op with
    | .Equal => .ok (.bool (decide (x = y)))
    | .NotEqual => .ok (.bool (!decide (x = y)))
    | _ => .error "TypeMismatch"

/-- Modelled from the spec: `eval(binding)` of §4.1 on a tuple: a literal is its
value, a row value is the field of that name (`FieldNotFound` if it is
missing), a binary node evaluates its operands from left to right. -/
def Expression.eval (e : Expression) (t : Tuple) : Except Error Value :=
  match e with
  | .NumericLiteral i => .ok (.int i)
  | .StringLiteral s => .ok (.string s)
  | .BooleanLiteral b => .ok (.bool b)
  | .NullLiteral => .ok .null
  | .RowValue c => column c t
  | .BinaryOp op l r =>
    match l.eval t with
    | .error err => .error err
    | .ok a =>
      match r.eval t with
      | .error err => .error err
      | .ok b => evalBinaryOp op a b

/-- A projection as the rule `Projection` of the grammar reads it:
`AliasExpression` (an expression or the wildcard, `AS` a target), a plain
expression, or the wildcard. -/
inductive SelectItem where
  | aliasExpression (e : Expression) (target : String) (path : List PathStep)
  | aliasWildcard (target : String) (path : List PathStep)
  | expression (e : Expression)
  | wildcard

/-- Modelled from the spec: the name under which the analyzer outputs a plain
expression at 1-based position `k`: a row value keeps the name of its column
(the tests `ISTREAM(int)` and `ISTREAM(2, int)`), every other expression gets
`col_k` (§4.4, the tests `ISTREAM(2, int)` and `ISTREAM(* AS x, (int-1)*2)`). -/
def columnName (k : Nat) (e : Expression) : String :=
  match e with
  | .RowValue c => c
  | _ => "col_" ++ toString k

/-- Modelled from the spec: the projection that the analyzer builds for the
item at 1-based position `k`, §4.4: the wildcard evaluates to the top-level
Map of the row and, without alias, is marked by the alias `*`. -/
def analyzeProjection (k : Nat) (item : SelectItem) : Projection :=
  match item with
  | .aliasExpression e target path => ⟨e.eval, target, path⟩
  | .aliasWildcard target path => ⟨fun t => .ok (.map t.Data), target, path⟩
  | .expression e => ⟨e.eval, columnName k e, []⟩
  | .wildcard => ⟨fun t => .ok (.map t.Data), "*", []⟩

/-- The projections for the items from position `k` on. -/
def analyzeFrom (k : Nat) : List SelectItem → List Projection
  | [] => []
  | item :: rest => analyzeProjection k item :: analyzeFrom (k + 1) rest

/-- Modelled from the spec: the ordered projection list of the analyzed plan,
§6, positions counted from 1. -/
def analyzeProjections (items : List SelectItem) : List Projection := analyzeFrom 1 items

/-- The expression `(int - 1) * 2` of the test queries. -/
def intMinusOneTimesTwo : Expression :=
  .BinaryOp .Multiply (.BinaryOp .Minus (.RowValue "int") (.NumericLiteral 1)) (.NumericLiteral 2)

/-- The filter `int % 2 = 0` of the test queries. -/
def intIsEven : Expression :=
  .BinaryOp .Equal (.BinaryOp .Modulo (.RowValue "int") (.NumericLiteral 2)) (.NumericLiteral 0)

/-- The projection `p`, evaluated on `t`, writes the top-level name `a` of the
output Map: its alias is `a`, or it is a wildcard without alias whose Map has
a field `a`. -/
def WritesName (p : Projection) (t : Tuple) (a : String) : Prop :=
  (p.aliasName ≠ "*" ∧ p.aliasName = a) ∨
    (p.aliasName = "*" ∧ ∃ fields, p.evaluator t = .ok (.map fields) ∧ a ∈ fields.map Prod.fst)

/-- The filter lets the tuple pass: it evaluates, and to true. -/
def passes (filter : Tuple → Except Error Value) (t : Tuple) : Bool :=
  match filter t with
  | .ok v => decide (v = Value.bool true)
  | .error _ => false

/-- The projections `*, (int-1)*2 AS int` of the test queries. -/
def wildcardThenInt : List SelectItem :=
  [.wildcard, .aliasExpression intMinusOneTimesTwo "int" []]

/-- The projections `(int-1)*2 AS int, *` of the test queries. -/
def intThenWildcard : List SelectItem :=
  [.aliasExpression intMinusOneTimesTwo "int" [], .wildcard]

/-- The projections `int AS b` of the test query with a filter. -/
def intAsB : List SelectItem := [.aliasExpression (.RowValue "int") "b" []]

/-- The result row of the test tuple of index `a` under `int AS b`. -/
def resultOfB (ext : Externals) (a : Nat) : resultRow :=
  ⟨[("b", .int ((a : Int) + 1))], ext.Hash (Value.map [("b", .int ((a : Int) + 1))])⟩

/-- The state of the plan `SELECT ISTREAM(int AS b) FROM s [RANGE 2 SECONDS]
WHERE int % 2 = 0` after the first `k` test tuples: the rows `0 .. k - 1` hold
the test tuples, the buffer holds the last three of them, and `curResults`
holds the results of the buffered rows with an even `int`. -/
def EvenInv (ext : Externals) (s : PlanState) (k : Nat) : Prop :=
  Separate s.ep ∧ s.ep.projections = analyzeProjections intAsB ∧
    s.filter = some intIsEven.eval ∧ s.window = .Seconds 2 ∧ s.emitterType = .Istream ∧
    s.nextRow = k ∧
    (∀ a, a < k → (s.ep.heap.rows a).input = getTuple a) ∧
    (∀ a, a < k →
      rowResult ext.withAssign (analyzeProjections intAsB) (s.ep.heap.rows a)
        = .ok (resultOfB ext a)) ∧
    s.buffer = (List.range k).filter (fun a => decide (k ≤ a + 3)) ∧
    s.ep.heap.contents s.ep.curResults
      = ((List.range k).filter
          (fun a => decide ((a + 1) % 2 = 0) && decide (k ≤ a + 3))).map (resultOfB ext)

/-! ## The capability check -/

/-- Modelled from the spec: the declaration of `LogicalPlan` is not among the
sources.  The analyzed plan of §6: the emission mode, the window
specification, the ordered projection list, the optional filter, the name of
the input stream, and the flag `GroupingStmt` in which the analyzer records
that the statement has grouping expressions or aggregate functions
(`grouping_present` in §6). -/
structure LogicalPlan where
  GroupingStmt : Bool
  EmitterType : Emitter
  Window : WindowSpec
  Projections : List Projection
  Filter : Option (Tuple → Except Error Value)
  InputName : String

/-- The function `CanBuildDefaultSelectExecutionPlan`: `!lp.GroupingStmt`.  The
function registry `reg` is of a type of another package; the function does
not look at it.  The plan is a pointer in the source; here it is the plan
pointed to (the test passes the plan that `Analyze` returned without error). -/
def CanBuildDefaultSelectExecutionPlan {FunctionRegistry : Type} (lp : LogicalPlan)
    (_reg : FunctionRegistry) : Bool :=
  !lp.GroupingStmt

/-! ## A corrupted cache -/

/-- Row objects with a corrupted cache: row 0 holds the first test tuple, row
4 holds a cache that is not a Map (the Int 7), every other row holds a tuple
without the field `int` and no cache. -/
def corruptRows : Nat → inputRowWithCachedResult
  | 0 => ⟨getTuple 0, none, 0⟩
  | 4 => ⟨getTuple 4, some (.int 7), 0⟩
  | _ => ⟨⟨[], "input", 0, 0, 7⟩, none, 0⟩

/-- The example plan over the rows with a corrupted cache. -/
def corruptPlan (filtered : List Nat) : defaultSelectExecutionPlan where
  projections := [⟨column "int", "a", []⟩]
  filteredInputRows := filtered
  prevResults := Slice.nil
  curResults := ⟨some 0, 1, 1⟩
  heap := ⟨corruptRows, fun _ _ => ⟨[("a", .int 0)], 1⟩, 1⟩

/-! ## The naive implementation without storage reuse

The implementation that §9 of the specification (design notes, "storage
reuse") describes as the alternative to the ping-pong pattern of the source:
the results of a cycle are collected in a freshly allocated list, and nothing
is restored when a cycle fails.  It follows the words of the specification and
is compared with `performQueryOnBuffer` as translated from the source. -/

/-- The state of the naive implementation: the projections, the row objects,
and the two result lists as plain lists. -/
structure NaivePlan where
  projections : List Projection
  rows : Nat → inputRowWithCachedResult
  prevResults : List resultRow
  curResults : List resultRow

/-- The loop of the naive implementation: per row, the cached Map if there is
one, otherwise the projections are evaluated and the cache is filled; the
result is added at the end of the fresh list `output`. -/
def naiveEvalItems (ext : Externals) (projections : List Projection) :
    List Nat → (Nat → inputRowWithCachedResult) → List resultRow →
      Option Error × (Nat → inputRowWithCachedResult) × List resultRow
  | [], rows, output => (none, rows, output)
  | io :: rest, rows, output =>
    match (rows io).cache with
    | some c =>
      match AsMap c with
      | .error _ => (some ("cached data was not a map: " ++ ext.format (rows io).cache), rows, output)
      | .ok cachedResults =>
        naiveEvalItems ext projections rest rows (output ++ [⟨cachedResults, (rows io).hash⟩])
    | none =>
      match evalProjections ext projections (rows io).input [] with
      | .error err => (some err, rows, output)
      | .ok result =>
        naiveEvalItems ext projections rest
          (Function.update rows io
            ⟨(rows io).input, some (Value.map result), ext.Hash (Value.map result)⟩)
          (output ++ [⟨result, ext.Hash (Value.map result)⟩])

/-- One call of the naive implementation on the filtered rows: the previous
results are the current ones of before the call; the current results are
replaced by the fresh list when every row projects, and kept otherwise. -/
def naivePerformQuery (ext : Externals) (np : NaivePlan) (filtered : List Nat) :
    Option Error × NaivePlan :=
  match naiveEvalItems ext np.projections filtered np.rows [] with
  | (some err, rows2, _) => (some err, { np with rows := rows2, prevResults := np.curResults })
  | (none, rows2, output) =>
    (none, { np with rows := rows2, prevResults := np.curResults, curResults := output })

/-- The naive plan after a sequence of calls, successful or not. -/
def naiveRun (ext : Externals) (np : NaivePlan) : List (List Nat) → NaivePlan
  | [] => np
  | filtered :: rest => naiveRun ext (naivePerformQuery ext np filtered).2 rest

/-- The plan of the source and the naive plan agree: same projections, same
row objects, and `curResults` has the same contents. -/
def Refines (ep : defaultSelectExecutionPlan) (np : NaivePlan) : Prop :=
  ep.projections = np.projections ∧ ep.heap.rows = np.rows ∧
    ep.heap.contents ep.curResults = np.curResults

/-- The naive counterpart of the example plan. -/
def exampleNaivePlan : NaivePlan where
  projections := [⟨column "int", "a", []⟩]
  rows := exampleRows
  prevResults := []
  curResults := [⟨[("a", .int 0)], 1⟩]

/-! ## The shared-state registry

The registry itself (`NewDefaultSharedStateRegistry` and its methods `Add`,
`Get`, `List`, `Remove`) is not among the available sources; only its test,
`core/shared_state_test.go`, is.  The registry is modelled from §4.6 of the
specification; the state object of the test, `stubSharedState`, is translated
from the test file.  A state is a pointer in the source; here it is an
address into the store of state objects.  The lock of §4.6 and §5 has no
counterpart in this sequential model. -/

/-- How a call of a method of a state object ends: it returns nil, it returns
an error, or it panics. -/
inductive CallResult where
  | ok
  | error (e : Error)
  | panic (e : Error)
deriving DecidableEq

/-- The Go struct `stubSharedState` of the test file. -/
structure stubSharedState where
  initCnt : Int
  initFailAt : Int
  initPanicAt : Int
  terminateCnt : Int
  terminateFailAt : Int
  terminatePanicAt : Int
deriving DecidableEq

/-- The method `Init` of `stubSharedState`: the result of the call and the
object as the call leaves it. -/
def stubSharedState.Init (s : stubSharedState) : CallResult × stubSharedState :=
  let s1 := { s with initCnt := wrap64 (s.initCnt + 1) }
  if s1.initCnt = s1.initPanicAt then (.panic "mock shared state panic", s1)
  else if s1.initCnt = s1.initFailAt then (.error "mock shared state failure", s1)
  else (.ok, s1)

/-- The method `Terminate` of `stubSharedState`. -/
def stubSharedState.Terminate (s : stubSharedState) : CallResult × stubSharedState :=
  let s1 := { s with terminateCnt := wrap64 (s.terminateCnt + 1) }
  if s1.terminateCnt = s1.terminatePanicAt then (.panic "mock shared state panic", s1)
  else if s1.terminateCnt = s1.terminateFailAt then (.error "mock shared state failure", s1)
  else (.ok, s1)

/-- Modelled from the spec: the interface of a state object, §4.6, restricted
to the two methods the registry calls, `init(ctx)` and `terminate(ctx)`; each
returns its result and the object as the call leaves it. -/
structure SharedStateOps (σ : Type) where
  Init : σ → CallResult × σ
  Terminate : σ → CallResult × σ

/-- The interface as `stubSharedState` implements it. -/
def stubOps : SharedStateOps stubSharedState := ⟨stubSharedState.Init, stubSharedState.Terminate⟩

/-- A call that the registry makes on a state object: on behalf of which name
and on the object at which address. -/
inductive Event where
  | init (name : String) (state : Nat)
  | terminate (name : String) (state : Nat)
deriving DecidableEq

/-- The name of the registration an event belongs to. -/
def Event.name : Event → String
  | .init n _ => n
  | .terminate n _ => n

/-- The address of the state object an event is a call on. -/
def Event.state : Event → Nat
  | .init _ s => s
  | .terminate _ s => s

/-- Modelled from the spec: the error kinds of §7 that the registry returns:
`NameInUse`, `NotFound`, and the error of a state's `init` or `terminate`,
passed on as it is. -/
inductive RegistryError where
  | NameInUse (name : String)
  | NotFound (name : String)
  | fromState (e : Error)
deriving DecidableEq

/-- How a call of a method of the registry ends: it returns a value and an
error (`none` is nil), or it panics. -/
inductive Outcome (α : Type) where
  | returned (value : α) (err : Option RegistryError)
  | panicked (e : Error)
deriving DecidableEq

/-- Modelled from the spec: the registry of §4.6 with the objects it refers
to: the state objects by address, the mapping from names to states (a name
occurs at most once), and the record of the calls the registry has made on
state objects, oldest first. -/
structure Registry (σ : Type) where
  states : Nat → σ
  entries : List (String × Nat)
  log : List Event

/-- Modelled from the spec: `add(ctx, name, state)` of §4.6.  (1) A name that
is taken yields `NameInUse` without calling `init`.  (2) `init` is called.
(3) If it returns an error, nothing is inserted, the error is returned and
`terminate` is not called.  (4) If it panics, the panic is propagated and
nothing is inserted.  (5) On success the state is inserted; were the name
taken meanwhile, `terminate` would be called and `NameInUse` returned. -/
def Registry.add {σ : Type} (ops : SharedStateOps σ) (r : Registry σ) (name : String)
    (state : Nat) : Outcome Unit × Registry σ :=
  match r.entries.lookup name with
  | some _ => (.returned () (some (.NameInUse name)), r)
  | none =>
    let r1 : Registry σ :=
      { r with
        states := Function.update r.states state (ops.Init (r.states state)).2
        log := r.log ++ [.init name state] }
    match (ops.Init (r.states state)).1 with
    | .error e => (.returned () (some (.fromState e)), r1)
    | .panic e => (.panicked e, r1)
    | .ok =>
      match r1.entries.lookup name with
      | some _ =>
        (.returned () (some (.NameInUse name)),
          { r1 with
            states := Function.update r1.states state (ops.Terminate (r1.states state)).2
            log := r1.log ++ [.terminate name state] })
      | none => (.returned () none, { r1 with entries := (name, state) :: r1.entries })

/-- Modelled from the spec: `get(ctx, name)` of §4.6: the state or `NotFound`. -/
def Registry.get {σ : Type} (r : Registry σ) (name : String) : Outcome (Option Nat) :=
  match r.entries.lookup name with
  | some state => .returned (some state) none
  | none => .returned none (some (.NotFound name))

/-- Modelled from the spec: `list(ctx)` of §4.6: a snapshot of the mapping. -/
def Registry.list {σ : Type} (r : Registry σ) : List (String × Nat) := r.entries

/-- Modelled from the spec: `remove(ctx, name)` of §4.6.  An absent name
yields (nil, no error).  Otherwise the entry is removed, then `terminate` is
called; the state is returned whether `terminate` failed or not, with the
error of `terminate`; if `terminate` panics the entry has been removed and the
panic is propagated. -/
def Registry.remove {σ : Type} (ops : SharedStateOps σ) (r : Registry σ) (name : String) :
    Outcome (Option Nat) × Registry σ :=
  match r.entries.lookup name with
  | none => (.returned none none, r)
  | some state =>
    let r1 : Registry σ :=
      { states := Function.update r.states state (ops.Terminate (r.states state)).2
        entries := r.entries.filter (fun entry => !(entry.1 == name))
        log := r.log ++ [.terminate name state] }
    match (ops.Terminate (r.states state)).1 with
    | .ok => (.returned (some state) none, r1)
    | .error e => (.returned (some state) (some (.fromState e)), r1)
    | .panic e => (.panicked e, r1)

/-- A call of a client on the registry. -/
inductive RegistryCall where
  | add (name : String) (state : Nat)
  | get (name : String)
  | list
  | remove (name : String)
deriving DecidableEq

/-- The registry after one call of a client, whatever the call returned; a
panic is caught by the caller, as in the test file. -/
def Registry.step {σ : Type} (ops : SharedStateOps σ) (r : Registry σ) :
    RegistryCall → Registry σ
  | .add name state => (r.add ops name state).2
  | .get _ => r
  | .list => r
  | .remove name => (r.remove ops name).2

/-- The registry after a sequence of calls. -/
def Registry.run {σ : Type} (ops : SharedStateOps σ) (r : Registry σ) :
    List RegistryCall → Registry σ
  | [] => r
  | c :: rest => (r.step ops c).run ops rest

/-- Modelled from the spec: `NewDefaultSharedStateRegistry` leaves an empty
registry; the state objects are those of the test: all counters are 0, the
object at address 1 fails its first `init`, the one at address 2 fails its
first `terminate`, the one at address 3 panics in its first `terminate`. -/
def exampleRegistry : Registry stubSharedState where
  states := fun a =>
    match a with
    | 1 => ⟨0, 1, 0, 0, 0, 0⟩
    | 2 => ⟨0, 0, 0, 0, 1, 0⟩
    | 3 => ⟨0, 0, 0, 0, 0, 1⟩
    | _ => ⟨0, 0, 0, 0, 0, 0⟩
  entries := []
  log := []

/-! ## The parser of `bql/parser/bql.peg.go`

The file is generated from a parsing expression grammar: every entry of the
array `_rules` is a function without arguments that tries to match one rule at
the current `position` of `buffer`, returns `true` with `position` moved behind
what it matched, or restores `position` and returns `false`.  Each function is
the straight-line encoding of the parsing expression quoted in the comment in
front of it: a sequence is a run of tests that jump to the failure label, an
ordered choice saves the position, tries its alternatives in order and
restores the position before each, `e*` loops until `e` fails, `e?` and `!e`
restore the position after a failure resp. a success of `e`.

The token tree (`add`, `tokenIndex`, `depth`) has no influence on what is
matched.  `Peg.run` leaves it out and represents the position in the buffer by
the rest of the buffer from that position on, without the end symbol that
`Init` appends: at the end symbol every test of a character fails, as on the
empty rest.  `Peg.exec`, further down, executes the same expressions on the
variables `position`, `tokenIndex` and `depth` of the source. -/

/-- The rules of the grammar: the constants `ruleStatements` to `rulecomment`
of type `pegRule`.  The constants `ruleAction0` to `ruleAction95` are the
numbers of `Peg.action`. -/
inductive pegRule where
  | ruleStatements
  | ruleStatement
  | ruleSourceStmt
  | ruleSinkStmt
  | ruleStateStmt
  | ruleStreamStmt
  | ruleSelectStmt
  | ruleCreateStreamAsSelectStmt
  | ruleCreateSourceStmt
  | ruleCreateSinkStmt
  | ruleCreateStateStmt
  | ruleUpdateStateStmt
  | ruleUpdateSourceStmt
  | ruleUpdateSinkStmt
  | ruleInsertIntoSelectStmt
  | ruleInsertIntoFromStmt
  | rulePauseSourceStmt
  | ruleResumeSourceStmt
  | ruleRewindSourceStmt
  | ruleDropSourceStmt
  | ruleDropStreamStmt
  | ruleDropSinkStmt
  | ruleDropStateStmt
  | ruleEmitter
  | ruleProjections
  | ruleProjection
  | ruleAliasExpression
  | ruleWindowedFrom
  | ruleInterval
  | ruleTimeInterval
  | ruleTuplesInterval
  | ruleRelations
  | ruleFilter
  | ruleGrouping
  | ruleGroupList
  | ruleHaving
  | ruleRelationLike
  | ruleAliasedStreamWindow
  | ruleStreamWindow
  | ruleStreamLike
  | ruleUDSFFuncApp
  | ruleSourceSinkSpecs
  | ruleUpdateSourceSinkSpecs
  | ruleSourceSinkParam
  | ruleSourceSinkParamVal
  | rulePausedOpt
  | ruleExpression
  | ruleorExpr
  | ruleandExpr
  | rulenotExpr
  | rulecomparisonExpr
  | ruleotherOpExpr
  | ruleisExpr
  | ruletermExpr
  | ruleproductExpr
  | ruleminusExpr
  | rulecastExpr
  | rulebaseExpr
  | ruleFuncTypeCast
  | ruleFuncApp
  | ruleFuncParams
  | ruleLiteral
  | ruleComparisonOp
  | ruleOtherOp
  | ruleIsOp
  | rulePlusMinusOp
  | ruleMultDivOp
  | ruleStream
  | ruleRowMeta
  | ruleRowTimestamp
  | ruleRowValue
  | ruleNumericLiteral
  | ruleFloatLiteral
  | ruleFunction
  | ruleNullLiteral
  | ruleBooleanLiteral
  | ruleTRUE
  | ruleFALSE
  | ruleWildcard
  | ruleStringLiteral
  | ruleISTREAM
  | ruleDSTREAM
  | ruleRSTREAM
  | ruleTUPLES
  | ruleSECONDS
  | ruleStreamIdentifier
  | ruleSourceSinkType
  | ruleSourceSinkParamKey
  | rulePaused
  | ruleUnpaused
  | ruleType
  | ruleBool
  | ruleInt
  | ruleFloat
  | ruleString
  | ruleBlob
  | ruleTimestamp
  | ruleArray
  | ruleMap
  | ruleOr
  | ruleAnd
  | ruleNot
  | ruleEqual
  | ruleLess
  | ruleLessOrEqual
  | ruleGreater
  | ruleGreaterOrEqual
  | ruleNotEqual
  | ruleConcat
  | ruleIs
  | ruleIsNot
  | rulePlus
  | ruleMinus
  | ruleMultiply
  | ruleDivide
  | ruleModulo
  | ruleUnaryMinus
  | ruleIdentifier
  | ruleTargetIdentifier
  | ruleident
  | rulejsonPath
  | rulesp
  | rulecomment
deriving DecidableEq


/-- A parsing expression, as the functions of `_rules` encode them: a
character test (`buffer[position] != rune(c)`), a range test, `matchDot`, the
empty sequence, the call of an action rule (which only records a token and
returns `true`), the call of a rule, sequence, ordered choice, `e*`, `e?`, the
predicate `!e`, and `<e>`, which matches `e` and records a token for its text. -/
inductive Peg where
  | char (c : Char)
  | range (lo hi : Char)
  | dot
  | empty
  | action (n : Nat)
  | call (r : pegRule)
  | seq (a b : Peg)
  | choice (a b : Peg)
  | star (a : Peg)
  | optional (a : Peg)
  | notPredicate (a : Peg)
  | text (a : Peg)

/-- The sequence of the expressions of a list, in order. -/
def Peg.seqs : List Peg → Peg
  | [] => .empty
  | [e] => e
  | e :: rest => .seq e (Peg.seqs rest)

/-- The ordered choice between the expressions of a list; the choice between
no alternatives fails. -/
def Peg.choices : List Peg → Peg
  | [] => .notPredicate .empty
  | [e] => e
  | e :: rest => .choice e (Peg.choices rest)

/-- The expression `e+`: generated as `e` followed by the loop of `e*`. -/
def Peg.plus (a : Peg) : Peg := .seq a (.star a)

/-- A letter of a keyword, in lower or upper case: `('s' / 'S')`. -/
def ci (lower upper : Char) : Peg := .choice (.char lower) (.char upper)

/-- The array `_rules`: the parsing expression that the function of each rule
encodes.  The characters tab, line feed, carriage return and apostrophe are
written by their code points 9, 10, 13 and 39, the double quote by 34. -/
def rules : pegRule → Peg
  | .ruleStatements => .seqs [.call .rulesp, .choices [.seqs [.call .ruleStatement,
    .call .rulesp, .char ';', .star (.dot)], .call .ruleStatement], .notPredicate (.dot)]
  | .ruleStatement => .choices [.call .ruleSelectStmt, .call .ruleSourceStmt,
    .call .ruleSinkStmt, .call .ruleStateStmt, .call .ruleStreamStmt]
  | .ruleSourceStmt => .choices [.call .ruleCreateSourceStmt, .call .ruleUpdateSourceStmt,
    .call .ruleDropSourceStmt, .call .rulePauseSourceStmt, .call .ruleResumeSourceStmt,
    .call .ruleRewindSourceStmt]
  | .ruleSinkStmt => .choices [.call .ruleCreateSinkStmt, .call .ruleUpdateSinkStmt,
    .call .ruleDropSinkStmt]
  | .ruleStateStmt => .choices [.call .ruleCreateStateStmt, .call .ruleUpdateStateStmt,
    .call .ruleDropStateStmt]
  | .ruleStreamStmt => .choices [.call .ruleCreateStreamAsSelectStmt, .call .ruleDropStreamStmt,
    .call .ruleInsertIntoSelectStmt, .call .ruleInsertIntoFromStmt]
  | .ruleSelectStmt => .seqs [ci 's' 'S', ci 'e' 'E', ci 'l' 'L', ci 'e' 'E', ci 'c' 'C',
    ci 't' 'T', .call .rulesp, .call .ruleEmitter, .call .rulesp, .call .ruleProjections,
    .call .rulesp, .call .ruleWindowedFrom, .call .rulesp, .call .ruleFilter, .call .rulesp,
    .call .ruleGrouping, .call .rulesp, .call .ruleHaving, .call .rulesp, .action 0]
  | .ruleCreateStreamAsSelectStmt => .seqs [ci 'c' 'C', ci 'r' 'R', ci 'e' 'E', ci 'a' 'A',
    ci 't' 'T', ci 'e' 'E', .call .rulesp, .seqs [ci 's' 'S', ci 't' 'T', ci 'r' 'R', ci 'e' 'E',
    ci 'a' 'A', ci 'm' 'M'], .call .rulesp, .call .ruleStreamIdentifier, .call .rulesp,
    .seqs [ci 'a' 'A', ci 's' 'S'], .call .rulesp, .seqs [ci 's' 'S', ci 'e' 'E', ci 'l' 'L',
    ci 'e' 'E', ci 'c' 'C', ci 't' 'T'], .call .rulesp, .call .ruleEmitter, .call .rulesp,
    .call .ruleProjections, .call .rulesp, .call .ruleWindowedFrom, .call .rulesp,
    .call .ruleFilter, .call .rulesp, .call .ruleGrouping, .call .rulesp, .call .ruleHaving,
    .call .rulesp, .action 1]
  | .ruleCreateSourceStmt => .seqs [ci 'c' 'C', ci 'r' 'R', ci 'e' 'E', ci 'a' 'A', ci 't' 'T',
    ci 'e' 'E', .call .rulesp, .call .rulePausedOpt, .call .rulesp, .seqs [ci 's' 'S',
    ci 'o' 'O', ci 'u' 'U', ci 'r' 'R', ci 'c' 'C', ci 'e' 'E'], .call .rulesp,
    .call .ruleStreamIdentifier, .call .rulesp, .seqs [ci 't' 'T', ci 'y' 'Y', ci 'p' 'P',
    ci 'e' 'E'], .call .rulesp, .call .ruleSourceSinkType, .call .rulesp,
    .call .ruleSourceSinkSpecs, .action 2]
  | .ruleCreateSinkStmt => .seqs [ci 'c' 'C', ci 'r' 'R', ci 'e' 'E', ci 'a' 'A', ci 't' 'T',
    ci 'e' 'E', .call .rulesp, .seqs [ci 's' 'S', ci 'i' 'I', ci 'n' 'N', ci 'k' 'K'],
    .call .rulesp, .call .ruleStreamIdentifier, .call .rulesp, .seqs [ci 't' 'T', ci 'y' 'Y',
    ci 'p' 'P', ci 'e' 'E'], .call .rulesp, .call .ruleSourceSinkType, .call .rulesp,
    .call .ruleSourceSinkSpecs, .action 3]
  | .ruleCreateStateStmt => .seqs [ci 'c' 'C', ci 'r' 'R', ci 'e' 'E', ci 'a' 'A', ci 't' 'T',
    ci 'e' 'E', .call .rulesp, .seqs [ci 's' 'S', ci 't' 'T', ci 'a' 'A', ci 't' 'T',
    ci 'e' 'E'], .call .rulesp, .call .ruleStreamIdentifier, .call .rulesp, .seqs [ci 't' 'T',
    ci 'y' 'Y', ci 'p' 'P', ci 'e' 'E'], .call .rulesp, .call .ruleSourceSinkType, .call .rulesp,
    .call .ruleSourceSinkSpecs, .action 4]
  | .ruleUpdateStateStmt => .seqs [ci 'u' 'U', ci 'p' 'P', ci 'd' 'D', ci 'a' 'A', ci 't' 'T',
    ci 'e' 'E', .call .rulesp, .seqs [ci 's' 'S', ci 't' 'T', ci 'a' 'A', ci 't' 'T',
    ci 'e' 'E'], .call .rulesp, .call .ruleStreamIdentifier, .call .rulesp,
    .call .ruleUpdateSourceSinkSpecs, .action 5]
  | .ruleUpdateSourceStmt => .seqs [ci 'u' 'U', ci 'p' 'P', ci 'd' 'D', ci 'a' 'A', ci 't' 'T',
    ci 'e' 'E', .call .rulesp, .seqs [ci 's' 'S', ci 'o' 'O', ci 'u' 'U', ci 'r' 'R', ci 'c' 'C',
    ci 'e' 'E'], .call .rulesp, .call .ruleStreamIdentifier, .call .rulesp,
    .call .ruleUpdateSourceSinkSpecs, .action 6]
  | .ruleUpdateSinkStmt => .seqs [ci 'u' 'U', ci 'p' 'P', ci 'd' 'D', ci 'a' 'A', ci 't' 'T',
    ci 'e' 'E', .call .rulesp, .seqs [ci 's' 'S', ci 'i' 'I', ci 'n' 'N', ci 'k' 'K'],
    .call .rulesp, .call .ruleStreamIdentifier, .call .rulesp, .call .ruleUpdateSourceSinkSpecs,
    .action 7]
  | .ruleInsertIntoSelectStmt => .seqs [ci 'i' 'I', ci 'n' 'N', ci 's' 'S', ci 'e' 'E',
    ci 'r' 'R', ci 't' 'T', .call .rulesp, .seqs [ci 'i' 'I', ci 'n' 'N', ci 't' 'T',
    ci 'o' 'O'], .call .rulesp, .call .ruleStreamIdentifier, .call .rulesp,
    .call .ruleSelectStmt, .action 8]
  | .ruleInsertIntoFromStmt => .seqs [ci 'i' 'I', ci 'n' 'N', ci 's' 'S', ci 'e' 'E', ci 'r' 'R',
    ci 't' 'T', .call .rulesp, .seqs [ci 'i' 'I', ci 'n' 'N', ci 't' 'T', ci 'o' 'O'],
    .call .rulesp, .call .ruleStreamIdentifier, .call .rulesp, .seqs [ci 'f' 'F', ci 'r' 'R',
    ci 'o' 'O', ci 'm' 'M'], .call .rulesp, .call .ruleStreamIdentifier, .action 9]
  | .rulePauseSourceStmt => .seqs [ci 'p' 'P', ci 'a' 'A', ci 'u' 'U', ci 's' 'S', ci 'e' 'E',
    .call .rulesp, .seqs [ci 's' 'S', ci 'o' 'O', ci 'u' 'U', ci 'r' 'R', ci 'c' 'C',
    ci 'e' 'E'], .call .rulesp, .call .ruleStreamIdentifier, .action 10]
  | .ruleResumeSourceStmt => .seqs [ci 'r' 'R', ci 'e' 'E', ci 's' 'S', ci 'u' 'U', ci 'm' 'M',
    ci 'e' 'E', .call .rulesp, .seqs [ci 's' 'S', ci 'o' 'O', ci 'u' 'U', ci 'r' 'R', ci 'c' 'C',
    ci 'e' 'E'], .call .rulesp, .call .ruleStreamIdentifier, .action 11]
  | .ruleRewindSourceStmt => .seqs [ci 'r' 'R', ci 'e' 'E', ci 'w' 'W', ci 'i' 'I', ci 'n' 'N',
    ci 'd' 'D', .call .rulesp, .seqs [ci 's' 'S', ci 'o' 'O', ci 'u' 'U', ci 'r' 'R', ci 'c' 'C',
    ci 'e' 'E'], .call .rulesp, .call .ruleStreamIdentifier, .action 12]
  | .ruleDropSourceStmt => .seqs [ci 'd' 'D', ci 'r' 'R', ci 'o' 'O', ci 'p' 'P', .call .rulesp,
    .seqs [ci 's' 'S', ci 'o' 'O', ci 'u' 'U', ci 'r' 'R', ci 'c' 'C', ci 'e' 'E'],
    .call .rulesp, .call .ruleStreamIdentifier, .action 13]
  | .ruleDropStreamStmt => .seqs [ci 'd' 'D', ci 'r' 'R', ci 'o' 'O', ci 'p' 'P', .call .rulesp,
    .seqs [ci 's' 'S', ci 't' 'T', ci 'r' 'R', ci 'e' 'E', ci 'a' 'A', ci 'm' 'M'],
    .call .rulesp, .call .ruleStreamIdentifier, .action 14]
  | .ruleDropSinkStmt => .seqs [ci 'd' 'D', ci 'r' 'R', ci 'o' 'O', ci 'p' 'P', .call .rulesp,
    .seqs [ci 's' 'S', ci 'i' 'I', ci 'n' 'N', ci 'k' 'K'], .call .rulesp,
    .call .ruleStreamIdentifier, .action 15]
  | .ruleDropStateStmt => .seqs [ci 'd' 'D', ci 'r' 'R', ci 'o' 'O', ci 'p' 'P', .call .rulesp,
    .seqs [ci 's' 'S', ci 't' 'T', ci 'a' 'A', ci 't' 'T', ci 'e' 'E'], .call .rulesp,
    .call .ruleStreamIdentifier, .action 16]
  | .ruleEmitter => .seqs [.choices [.call .ruleISTREAM, .call .ruleDSTREAM, .call .ruleRSTREAM],
    .action 17]
  | .ruleProjections => .seqs [.text (.seqs [.call .ruleProjection, .call .rulesp,
    .star (.seqs [.char ',', .call .rulesp, .call .ruleProjection])]), .action 18]
  | .ruleProjection => .choices [.call .ruleAliasExpression, .call .ruleExpression,
    .call .ruleWildcard]
  | .ruleAliasExpression => .seqs [.choices [.call .ruleExpression, .call .ruleWildcard],
    .call .rulesp, .seqs [ci 'a' 'A', ci 's' 'S'], .call .rulesp, .call .ruleTargetIdentifier,
    .action 19]
  | .ruleWindowedFrom => .seqs [.text (.optional (.seqs [ci 'f' 'F', ci 'r' 'R', ci 'o' 'O',
    ci 'm' 'M', .call .rulesp, .call .ruleRelations, .call .rulesp])), .action 20]
  | .ruleInterval => .choices [.call .ruleTimeInterval, .call .ruleTuplesInterval]
  | .ruleTimeInterval => .seqs [.call .ruleNumericLiteral, .call .rulesp, .call .ruleSECONDS,
    .action 21]
  | .ruleTuplesInterval => .seqs [.call .ruleNumericLiteral, .call .rulesp, .call .ruleTUPLES,
    .action 22]
  | .ruleRelations => .seqs [.call .ruleRelationLike, .call .rulesp, .star (.seqs [.char ',',
    .call .rulesp, .call .ruleRelationLike])]
  | .ruleFilter => .seqs [.text (.optional (.seqs [ci 'w' 'W', ci 'h' 'H', ci 'e' 'E',
    ci 'r' 'R', ci 'e' 'E', .call .rulesp, .call .ruleExpression])), .action 23]
  | .ruleGrouping => .seqs [.text (.optional (.seqs [ci 'g' 'G', ci 'r' 'R', ci 'o' 'O',
    ci 'u' 'U', ci 'p' 'P', .call .rulesp, .seqs [ci 'b' 'B', ci 'y' 'Y'], .call .rulesp,
    .call .ruleGroupList])), .action 24]
  | .ruleGroupList => .seqs [.call .ruleExpression, .call .rulesp, .star (.seqs [.char ',',
    .call .rulesp, .call .ruleExpression])]
  | .ruleHaving => .seqs [.text (.optional (.seqs [ci 'h' 'H', ci 'a' 'A', ci 'v' 'V',
    ci 'i' 'I', ci 'n' 'N', ci 'g' 'G', .call .rulesp, .call .ruleExpression])), .action 25]
  | .ruleRelationLike => .choices [.call .ruleAliasedStreamWindow,
    .seqs [.call .ruleStreamWindow, .action 26]]
  | .ruleAliasedStreamWindow => .seqs [.call .ruleStreamWindow, .call .rulesp, .seqs [ci 'a' 'A',
    ci 's' 'S'], .call .rulesp, .call .ruleIdentifier, .action 27]
  | .ruleStreamWindow => .seqs [.call .ruleStreamLike, .call .rulesp, .char '[', .call .rulesp,
    .seqs [ci 'r' 'R', ci 'a' 'A', ci 'n' 'N', ci 'g' 'G', ci 'e' 'E'], .call .rulesp,
    .call .ruleInterval, .call .rulesp, .char ']', .action 28]
  | .ruleStreamLike => .choices [.call .ruleUDSFFuncApp, .call .ruleStream]
  | .ruleUDSFFuncApp => .seqs [.call .ruleFuncApp, .action 29]
  | .ruleSourceSinkSpecs => .seqs [.text (.optional (.seqs [ci 'w' 'W', ci 'i' 'I', ci 't' 'T',
    ci 'h' 'H', .call .rulesp, .call .ruleSourceSinkParam, .call .rulesp,
    .star (.seqs [.char ',', .call .rulesp, .call .ruleSourceSinkParam])])), .action 30]
  | .ruleUpdateSourceSinkSpecs => .seqs [.text (.seqs [ci 's' 'S', ci 'e' 'E', ci 't' 'T',
    .call .rulesp, .call .ruleSourceSinkParam, .call .rulesp, .star (.seqs [.char ',',
    .call .rulesp, .call .ruleSourceSinkParam])]), .action 31]
  | .ruleSourceSinkParam => .seqs [.call .ruleSourceSinkParamKey, .char '=',
    .call .ruleSourceSinkParamVal, .action 32]
  | .ruleSourceSinkParamVal => .choices [.call .ruleBooleanLiteral, .call .ruleLiteral]
  | .rulePausedOpt => .seqs [.text (.optional (.choices [.call .rulePaused,
    .call .ruleUnpaused])), .action 33]
  | .ruleExpression => .call .ruleorExpr
  | .ruleorExpr => .seqs [.text (.seqs [.call .ruleandExpr, .call .rulesp,
    .optional (.seqs [.call .ruleOr, .call .rulesp, .call .ruleandExpr])]), .action 34]
  | .ruleandExpr => .seqs [.text (.seqs [.call .rulenotExpr, .call .rulesp,
    .optional (.seqs [.call .ruleAnd, .call .rulesp, .call .rulenotExpr])]), .action 35]
  | .rulenotExpr => .seqs [.text (.seqs [.optional (.seqs [.call .ruleNot, .call .rulesp]),
    .call .rulecomparisonExpr]), .action 36]
  | .rulecomparisonExpr => .seqs [.text (.seqs [.call .ruleotherOpExpr, .call .rulesp,
    .optional (.seqs [.call .ruleComparisonOp, .call .rulesp, .call .ruleotherOpExpr])]),
    .action 37]
  | .ruleotherOpExpr => .seqs [.text (.seqs [.call .ruleisExpr, .call .rulesp,
    .star (.seqs [.call .ruleOtherOp, .call .rulesp, .call .ruleisExpr, .call .rulesp])]),
    .action 38]
  | .ruleisExpr => .seqs [.text (.seqs [.call .ruletermExpr, .call .rulesp,
    .optional (.seqs [.call .ruleIsOp, .call .rulesp, .call .ruleNullLiteral])]), .action 39]
  | .ruletermExpr => .seqs [.text (.seqs [.call .ruleproductExpr, .call .rulesp,
    .star (.seqs [.call .rulePlusMinusOp, .call .rulesp, .call .ruleproductExpr,
    .call .rulesp])]), .action 40]
  | .ruleproductExpr => .seqs [.text (.seqs [.call .ruleminusExpr, .call .rulesp,
    .star (.seqs [.call .ruleMultDivOp, .call .rulesp, .call .ruleminusExpr, .call .rulesp])]),
    .action 41]
  | .ruleminusExpr => .seqs [.text (.seqs [.optional (.seqs [.call .ruleUnaryMinus,
    .call .rulesp]), .call .rulecastExpr]), .action 42]
  | .rulecastExpr => .seqs [.text (.seqs [.call .rulebaseExpr, .optional (.seqs [.call .rulesp,
    .seqs [.char ':', .char ':'], .call .rulesp, .call .ruleType, .call .rulesp])]), .action 43]
  | .rulebaseExpr => .choices [.seqs [.char '(', .call .rulesp, .call .ruleExpression,
    .call .rulesp, .char ')'], .call .ruleBooleanLiteral, .call .ruleNullLiteral,
    .call .ruleRowMeta, .call .ruleFuncTypeCast, .call .ruleFuncApp, .call .ruleRowValue,
    .call .ruleLiteral]
  | .ruleFuncTypeCast => .seqs [.text (.seqs [ci 'c' 'C', ci 'a' 'A', ci 's' 'S', ci 't' 'T',
    .call .rulesp, .char '(', .call .rulesp, .call .ruleExpression, .call .rulesp,
    .seqs [ci 'a' 'A', ci 's' 'S'], .call .rulesp, .call .ruleType, .call .rulesp, .char ')']),
    .action 44]
  | .ruleFuncApp => .seqs [.call .ruleFunction, .call .rulesp, .char '(', .call .rulesp,
    .call .ruleFuncParams, .call .rulesp, .char ')', .action 45]
  | .ruleFuncParams => .seqs [.text (.choices [.call .ruleWildcard,
    .optional (.seqs [.call .ruleExpression, .call .rulesp, .star (.seqs [.char ',',
    .call .rulesp, .call .ruleExpression])])]), .action 46]
  | .ruleLiteral => .choices [.call .ruleFloatLiteral, .call .ruleNumericLiteral,
    .call .ruleStringLiteral]
  | .ruleComparisonOp => .choices [.call .ruleEqual, .call .ruleNotEqual, .call .ruleLessOrEqual,
    .call .ruleLess, .call .ruleGreaterOrEqual, .call .ruleGreater, .call .ruleNotEqual]
  | .ruleOtherOp => .call .ruleConcat
  | .ruleIsOp => .choices [.call .ruleIsNot, .call .ruleIs]
  | .rulePlusMinusOp => .choices [.call .rulePlus, .call .ruleMinus]
  | .ruleMultDivOp => .choices [.call .ruleMultiply, .call .ruleDivide, .call .ruleModulo]
  | .ruleStream => .seqs [.text (.call .ruleident), .action 47]
  | .ruleRowMeta => .call .ruleRowTimestamp
  | .ruleRowTimestamp => .seqs [.text (.seqs [.optional (.seqs [.call .ruleident, .char ':']),
    .seqs [.char 't', .char 's', .char '(', .char ')']]), .action 48]
  | .ruleRowValue => .seqs [.text (.seqs [.optional (.seqs [.call .ruleident, .char ':']),
    .call .rulejsonPath]), .action 49]
  | .ruleNumericLiteral => .seqs [.text (.seqs [.optional (.char '-'), .plus (.range '0' '9')]),
    .action 50]
  | .ruleFloatLiteral => .seqs [.text (.seqs [.optional (.char '-'), .plus (.range '0' '9'),
    .char '.', .plus (.range '0' '9')]), .action 51]
  | .ruleFunction => .seqs [.text (.call .ruleident), .action 52]
  | .ruleNullLiteral => .seqs [.text (.seqs [ci 'n' 'N', ci 'u' 'U', ci 'l' 'L', ci 'l' 'L']),
    .action 53]
  | .ruleBooleanLiteral => .choices [.call .ruleTRUE, .call .ruleFALSE]
  | .ruleTRUE => .seqs [.text (.seqs [ci 't' 'T', ci 'r' 'R', ci 'u' 'U', ci 'e' 'E']),
    .action 54]
  | .ruleFALSE => .seqs [.text (.seqs [ci 'f' 'F', ci 'a' 'A', ci 'l' 'L', ci 's' 'S',
    ci 'e' 'E']), .action 55]
  | .ruleWildcard => .seqs [.text (.char '*'), .action 56]
  | .ruleStringLiteral => .seqs [.text (.seqs [.char (Char.ofNat 39),
    .star (.choices [.seqs [.char (Char.ofNat 39), .char (Char.ofNat 39)],
    .seqs [.notPredicate (.char (Char.ofNat 39)), .dot]]), .char (Char.ofNat 39)]), .action 57]
  | .ruleISTREAM => .seqs [.text (.seqs [ci 'i' 'I', ci 's' 'S', ci 't' 'T', ci 'r' 'R',
    ci 'e' 'E', ci 'a' 'A', ci 'm' 'M']), .action 58]
  | .ruleDSTREAM => .seqs [.text (.seqs [ci 'd' 'D', ci 's' 'S', ci 't' 'T', ci 'r' 'R',
    ci 'e' 'E', ci 'a' 'A', ci 'm' 'M']), .action 59]
  | .ruleRSTREAM => .seqs [.text (.seqs [ci 'r' 'R', ci 's' 'S', ci 't' 'T', ci 'r' 'R',
    ci 'e' 'E', ci 'a' 'A', ci 'm' 'M']), .action 60]
  | .ruleTUPLES => .seqs [.text (.seqs [ci 't' 'T', ci 'u' 'U', ci 'p' 'P', ci 'l' 'L',
    ci 'e' 'E', ci 's' 'S']), .action 61]
  | .ruleSECONDS => .seqs [.text (.seqs [ci 's' 'S', ci 'e' 'E', ci 'c' 'C', ci 'o' 'O',
    ci 'n' 'N', ci 'd' 'D', ci 's' 'S']), .action 62]
  | .ruleStreamIdentifier => .seqs [.text (.call .ruleident), .action 63]
  | .ruleSourceSinkType => .seqs [.text (.call .ruleident), .action 64]
  | .ruleSourceSinkParamKey => .seqs [.text (.call .ruleident), .action 65]
  | .rulePaused => .seqs [.text (.seqs [ci 'p' 'P', ci 'a' 'A', ci 'u' 'U', ci 's' 'S',
    ci 'e' 'E', ci 'd' 'D']), .action 66]
  | .ruleUnpaused => .seqs [.text (.seqs [ci 'u' 'U', ci 'n' 'N', ci 'p' 'P', ci 'a' 'A',
    ci 'u' 'U', ci 's' 'S', ci 'e' 'E', ci 'd' 'D']), .action 67]
  | .ruleType => .choices [.call .ruleBool, .call .ruleInt, .call .ruleFloat, .call .ruleString,
    .call .ruleBlob, .call .ruleTimestamp, .call .ruleArray, .call .ruleMap]
  | .ruleBool => .seqs [.text (.seqs [ci 'b' 'B', ci 'o' 'O', ci 'o' 'O', ci 'l' 'L']),
    .action 68]
  | .ruleInt => .seqs [.text (.seqs [ci 'i' 'I', ci 'n' 'N', ci 't' 'T']), .action 69]
  | .ruleFloat => .seqs [.text (.seqs [ci 'f' 'F', ci 'l' 'L', ci 'o' 'O', ci 'a' 'A',
    ci 't' 'T']), .action 70]
  | .ruleString => .seqs [.text (.seqs [ci 's' 'S', ci 't' 'T', ci 'r' 'R', ci 'i' 'I',
    ci 'n' 'N', ci 'g' 'G']), .action 71]
  | .ruleBlob => .seqs [.text (.seqs [ci 'b' 'B', ci 'l' 'L', ci 'o' 'O', ci 'b' 'B']),
    .action 72]
  | .ruleTimestamp => .seqs [.text (.seqs [ci 't' 'T', ci 'i' 'I', ci 'm' 'M', ci 'e' 'E',
    ci 's' 'S', ci 't' 'T', ci 'a' 'A', ci 'm' 'M', ci 'p' 'P']), .action 73]
  | .ruleArray => .seqs [.text (.seqs [ci 'a' 'A', ci 'r' 'R', ci 'r' 'R', ci 'a' 'A',
    ci 'y' 'Y']), .action 74]
  | .ruleMap => .seqs [.text (.seqs [ci 'm' 'M', ci 'a' 'A', ci 'p' 'P']), .action 75]
  | .ruleOr => .seqs [.text (.seqs [ci 'o' 'O', ci 'r' 'R']), .action 76]
  | .ruleAnd => .seqs [.text (.seqs [ci 'a' 'A', ci 'n' 'N', ci 'd' 'D']), .action 77]
  | .ruleNot => .seqs [.text (.seqs [ci 'n' 'N', ci 'o' 'O', ci 't' 'T']), .action 78]
  | .ruleEqual => .seqs [.text (.char '='), .action 79]
  | .ruleLess => .seqs [.text (.char '<'), .action 80]
  | .ruleLessOrEqual => .seqs [.text (.seqs [.char '<', .char '=']), .action 81]
  | .ruleGreater => .seqs [.text (.char '>'), .action 82]
  | .ruleGreaterOrEqual => .seqs [.text (.seqs [.char '>', .char '=']), .action 83]
  | .ruleNotEqual => .seqs [.text (.choices [.seqs [.char '!', .char '='], .seqs [.char '<',
    .char '>']]), .action 84]
  | .ruleConcat => .seqs [.text (.seqs [.char '|', .char '|']), .action 85]
  | .ruleIs => .seqs [.text (.seqs [ci 'i' 'I', ci 's' 'S']), .action 86]
  | .ruleIsNot => .seqs [.text (.seqs [ci 'i' 'I', ci 's' 'S', .call .rulesp, .seqs [ci 'n' 'N',
    ci 'o' 'O', ci 't' 'T']]), .action 87]
  | .rulePlus => .seqs [.text (.char '+'), .action 88]
  | .ruleMinus => .seqs [.text (.char '-'), .action 89]
  | .ruleMultiply => .seqs [.text (.char '*'), .action 90]
  | .ruleDivide => .seqs [.text (.char '/'), .action 91]
  | .ruleModulo => .seqs [.text (.char '%'), .action 92]
  | .ruleUnaryMinus => .seqs [.text (.char '-'), .action 93]
  | .ruleIdentifier => .seqs [.text (.call .ruleident), .action 94]
  | .ruleTargetIdentifier => .seqs [.text (.call .rulejsonPath), .action 95]
  | .ruleident => .seqs [.choices [.range 'a' 'z', .range 'A' 'Z'],
    .star (.choices [.range 'a' 'z', .range 'A' 'Z', .range '0' '9', .char '_'])]
  | .rulejsonPath => .seqs [.choices [.range 'a' 'z', .range 'A' 'Z'],
    .star (.choices [.range 'a' 'z', .range 'A' 'Z', .range '0' '9', .char '_', .char '.',
    .char '[', .char ']', .char (Char.ofNat 34)])]
  | .rulesp => .star (.choices [.char ' ', .char (Char.ofNat 9), .char (Char.ofNat 10),
    .char (Char.ofNat 13), .call .rulecomment])
  | .rulecomment => .seqs [.char '-', .char '-',
    .star (.seqs [.notPredicate (.choices [.char (Char.ofNat 13), .char (Char.ofNat 10)]),
    .dot]), .choices [.char (Char.ofNat 13), .char (Char.ofNat 10)]]

/-- How the function of a rule ends: it returns `true` and leaves the position
behind what it matched (given by the rest of the buffer), it returns `false`
with the position restored, or the bound on the depth of calls and the number
of loop iterations was too small to tell. -/
inductive MatchResult where
  | matched (rest : List Char)
  | failed
  | outOfFuel
deriving DecidableEq

/-- The execution of a parsing expression on the rest of the buffer.  `fuel`
bounds the depth of the evaluation (nested expressions, calls of rules and
iterations of loops); a loop whose body matches without moving the position
does not end in the source and runs out of fuel here. -/
def Peg.run : Nat → Peg → List Char → MatchResult
  | 0, _, _ => .outOfFuel
  | fuel + 1, e, input =>
    match e with
    | .char c =>
      match input with
      | x :: rest => if x = c then .matched rest else .failed
      | [] => .failed
    | .range lo hi =>
      match input with
      | x :: rest => if lo.toNat ≤ x.toNat ∧ x.toNat ≤ hi.toNat then .matched rest else .failed
      | [] => .failed
    | .dot =>
      match input with
      | _ :: rest => .matched rest
      | [] => .failed
    | .empty => .matched input
    | .action _ => .matched input
    | .call r => Peg.run fuel (rules r) input
    | .seq a b =>
      match Peg.run fuel a input with
      | .matched rest => Peg.run fuel b rest
      | .failed => .failed
      | .outOfFuel => .outOfFuel
    | .choice a b =>
      match Peg.run fuel a input with
      | .matched rest => .matched rest
      | .failed => Peg.run fuel b input
      | .outOfFuel => .outOfFuel
    | .star a =>
      match Peg.run fuel a input with
      | .matched rest => Peg.run fuel (.star a) rest
      | .failed => .matched input
      | .outOfFuel => .outOfFuel
    | .optional a =>
      match Peg.run fuel a input with
      | .matched rest => .matched rest
      | .failed => .matched input
      | .outOfFuel => .outOfFuel
    | .notPredicate a =>
      match Peg.run fuel a input with
      | .matched _ => .failed
      | .failed => .matched input
      | .outOfFuel => .outOfFuel
    | .text a => Peg.run fuel a input

/-- The expression, run on `input`, returns with the result `r`: some fuel is
enough for the run to end, and it ends with `r`. -/
def Returns (e : Peg) (input : List Char) (r : MatchResult) : Prop :=
  r ≠ .outOfFuel ∧ ∃ fuel, Peg.run fuel e input = r

/-- The statement of the test "SELECT clause with a column alias". -/
def aliasStatement : String :=
  "CREATE STREAM box AS SELECT ISTREAM(int-1 AS a, int AS b) FROM src [RANGE 2 SECONDS]"

/-- The same statement with the projection list not in parentheses. -/
def aliasStatementPlain : String :=
  "CREATE STREAM box AS SELECT ISTREAM int-1 AS a, int AS b FROM src [RANGE 2 SECONDS]"

/-- The statement of the test "SELECT clause with a constant". -/
def constantStatement : String :=
  "CREATE STREAM box AS SELECT ISTREAM(2) FROM src [RANGE 2 SECONDS]"

/-- The statement of the test "SELECT clause with a wildcard". -/
def wildcardStatement : String :=
  "CREATE STREAM box AS SELECT ISTREAM(*) FROM src [RANGE 2 SECONDS]"

/-- A statement with blanks and a comment in front of it and with text that is
no statement behind a semicolon. -/
def semicolonStatement : String :=
  "  -- c\n SELECT ISTREAM a FROM b [RANGE 1 TUPLES] ; garbage (("

/-- A statement followed by text that is no statement, without a semicolon. -/
def trailingStatement : String := "SELECT ISTREAM a FROM b [RANGE 1 TUPLES] garbage"

/-! ## The rule functions on `position`, `tokenIndex` and `depth`

`Peg.exec` executes the parsing expressions on the variables that the rule
functions share: `position` and `depth` are of type `uint32`, so `position++`,
`depth++` and `depth--` wrap around at 2^32; `tokenIndex` is an `int` that
counts the tokens added and is taken as a natural number.  The contents of
the token tree are not modelled.  A read `buffer[position]` outside the buffer
is an outcome of its own.  On inputs of fewer than 2^32 runes `Peg.exec` and
`Peg.run` agree (`exec_run`, further down); on longer inputs `position` wraps
around, which has no counterpart on the rest of the buffer. -/

/-- The constant `end_symbol`. -/
def end_symbol : Nat := 1114112

/-- The step `x++` on a `uint32`. -/
def uint32Inc (x : Nat) : Nat := (x + 1) % 4294967296

/-- The step `x--` on a `uint32`. -/
def uint32Dec (x : Nat) : Nat := (x + 4294967295) % 4294967296

/-- The buffer that `Init` leaves: the runes of the text, followed by the end
symbol unless the last rune is the end symbol already. -/
def Init (runes : List Nat) : List Nat :=
  if runes.getLast? = some end_symbol then runes else runes ++ [end_symbol]

/-- The runes of a text (`[]rune(p.Buffer)`): the code points of its
characters. -/
def runesOf (input : List Char) : List Nat := input.map Char.toNat

/-- The variables `position`, `tokenIndex` and `depth`. -/
structure ParserState where
  position : Nat
  tokenIndex : Nat
  depth : Nat
deriving DecidableEq

/-- How the execution of a parsing expression ends: it matched and leaves the
variables in a state; it failed (the code jumps to a label that restores
saved variables); it read `buffer[position]` outside the buffer; or the fuel
was too small to tell. -/
inductive ExecResult where
  | matched (s : ParserState)
  | failed
  | outOfBounds
  | outOfFuel
deriving DecidableEq

/-- The execution of a parsing expression on the variables of the parser.
The call of a rule is the body of its function between the saving of the
variables and the two ways out: `depth++`, the expression of the rule,
`depth--` and `add(rule, begin)`, which counts one token; `<e>` is the same
around `e`; an action rule only adds its token.  An ordered choice, `e*`, `e?`
and `!e` continue after a failure from the variables they saved. -/
def Peg.exec (buffer : List Nat) : Nat → Peg → ParserState → ExecResult
  | 0, _, _ => .outOfFuel
  | fuel + 1, e, s =>
    match e with
    | .char c =>
      match buffer[s.position]? with
      | none => .outOfBounds
      | some x =>
        if x = c.toNat then .matched { s with position := uint32Inc s.position } else .failed
    | .range lo hi =>
      match buffer[s.position]? with
      | none => .outOfBounds
      | some x =>
        if lo.toNat ≤ x ∧ x ≤ hi.toNat then .matched { s with position := uint32Inc s.position }
        else .failed
    | .dot =>
      match buffer[s.position]? with
      | none => .outOfBounds
      | some x =>
        if x ≠ end_symbol then .matched { s with position := uint32Inc s.position } else .failed
    | .empty => .matched s
    | .action _ => .matched { s with tokenIndex := s.tokenIndex + 1 }
    | .call r =>
      match Peg.exec buffer fuel (rules r) { s with depth := uint32Inc s.depth } with
      | .matched s2 =>
        .matched { s2 with depth := uint32Dec s2.depth, tokenIndex := s2.tokenIndex + 1 }
      | .failed => .failed
      | .outOfBounds => .outOfBounds
      | .outOfFuel => .outOfFuel
    | .text a =>
      match Peg.exec buffer fuel a { s with depth := uint32Inc s.depth } with
      | .matched s2 =>
        .matched { s2 with depth := uint32Dec s2.depth, tokenIndex := s2.tokenIndex + 1 }
      | .failed => .failed
      | .outOfBounds => .outOfBounds
      | .outOfFuel => .outOfFuel
    | .seq a b =>
      match Peg.exec buffer fuel a s with
      | .matched s2 => Peg.exec buffer fuel b s2
      | .failed => .failed
      | .outOfBounds => .outOfBounds
      | .outOfFuel => .outOfFuel
    | .choice a b =>
      match Peg.exec buffer fuel a s with
      | .matched s2 => .matched s2
      | .failed => Peg.exec buffer fuel b s
      | .outOfBounds => .outOfBounds
      | .outOfFuel => .outOfFuel
    | .star a =>
      match Peg.exec buffer fuel a s with
      | .matched s2 => Peg.exec buffer fuel (.star a) s2
      | .failed => .matched s
      | .outOfBounds => .outOfBounds
      | .outOfFuel => .outOfFuel
    | .optional a =>
      match Peg.exec buffer fuel a s with
      | .matched s2 => .matched s2
      | .failed => .matched s
      | .outOfBounds => .outOfBounds
      | .outOfFuel => .outOfFuel
    | .notPredicate a =>
      match Peg.exec buffer fuel a s with
      | .matched _ => .failed
      | .failed => .matched s
      | .outOfBounds => .outOfBounds
      | .outOfFuel => .outOfFuel

/-- How the call of a rule function ends: it returns `true` or `false` and
leaves the variables in a state, or one of the two other outcomes. -/
inductive RuleReturn where
  | returned (ok : Bool) (s : ParserState)
  | outOfBounds
  | outOfFuel
deriving DecidableEq

/-- The function `_rules[r]`, called with the variables in state `s`.  When
its expression fails, the function ends at its last label, which restores the
variables saved in its first line (`position, tokenIndex, depth = position0,
tokenIndex0, depth0`) and returns `false`. -/
def callRule (buffer : List Nat) (fuel : Nat) (r : pegRule) (s : ParserState) : RuleReturn :=
  match Peg.exec buffer fuel (.call r) s with
  | .matched s2 => .returned true s2
  | .failed => .returned false s
  | .outOfBounds => .outOfBounds
  | .outOfFuel => .outOfFuel

/-- The comparison operator at the head of a text, and the text behind it:
`=`, `!=`, `<>`, `<=`, `<`, `>=` or `>`, the operators of two characters first. -/
def comparisonOperator : List Char → Option (pegRule × List Char)
  | [] => none
  | x :: t =>
    if x = '=' then some (.ruleEqual, t)
    else if x = '!' then
      match t with
      | y :: t2 => if y = '=' then some (.ruleNotEqual, t2) else none
      | [] => none
    else if x = '<' then
      match t with
      | y :: t2 =>
        if y = '>' then some (.ruleNotEqual, t2)
        else if y = '=' then some (.ruleLessOrEqual, t2)
        else some (.ruleLess, t)
      | [] => some (.ruleLess, t)
    else if x = '>' then
      match t with
      | y :: t2 => if y = '=' then some (.ruleGreaterOrEqual, t2) else some (.ruleGreater, t)
      | [] => some (.ruleGreater, t)
    else none

/-- The alternatives of the rule `ComparisonOp`, in the order in which its
function tries them. -/
def comparisonAlternatives : List pegRule :=
  [.ruleEqual, .ruleNotEqual, .ruleLessOrEqual, .ruleLess, .ruleGreaterOrEqual, .ruleGreater,
    .ruleNotEqual]

/-- The text `op a op a ...` for the operators of a list, each of one
character and followed by the operand `a`. -/
def operands : List Char → List Char
  | [] => []
  | op :: ops => op :: 'a' :: operands ops

/-- The text `||a||a...` with `n` operators. -/
def concatenations : Nat → List Char
  | 0 => []
  | n + 1 => '|' :: '|' :: 'a' :: concatenations n

/-- What a rule of the form `operand sp (operator sp operand)?` has consumed
when it leaves `rest`: one operand and blanks, followed by at most one
operator with its operand. -/
def AtMostOneOperator (operand operator : pegRule) (input rest : List Char) : Prop :=
  ∃ i1 i2, Returns (.call operand) input (.matched i1) ∧ Returns (.call .rulesp) i1 (.matched i2) ∧
    (rest = i2 ∨ ∃ i3 i4, Returns (.call operator) i2 (.matched i3) ∧
      Returns (.call .rulesp) i3 (.matched i4) ∧ Returns (.call operand) i4 (.matched rest))

/-- The text behind the first carriage return or line feed of a text, if it
has one. -/
def afterLineEnd : List Char → Option (List Char)
  | [] => none
  | x :: rest => if x = Char.ofNat 13 ∨ x = Char.ofNat 10 then some rest else afterLineEnd rest

/-- The text behind a run of blanks and comments, with a bound on the number
of blanks and comments. -/
def skipBlanksAndCommentsN : Nat → List Char → List Char
  | 0, input => input
  | n + 1, input =>
    match input with
    | [] => []
    | x :: rest =>
      if x = ' ' ∨ x = Char.ofNat 9 ∨ x = Char.ofNat 10 ∨ x = Char.ofNat 13 then
        skipBlanksAndCommentsN n rest
      else if x = '-' then
        match rest with
        | [] => input
        | y :: rest2 =>
          if y = '-' then
            match afterLineEnd rest2 with
            | some after => skipBlanksAndCommentsN n after
            | none => input
          else input
      else input

/-- The text behind the leading run of spaces, tabs, carriage returns, line
feeds and comments; a comment is `--` and what follows it up to and including
the first carriage return or line feed. -/
def skipBlanksAndComments (input : List Char) : List Char :=
  skipBlanksAndCommentsN input.length input

/-! ## The form of the grammar: nullable expressions, loops and ranks -/

/-- The rules that can return `true` without moving the position. -/
def nullableRule : pegRule → Bool
  | .ruleWindowedFrom | .ruleFilter | .ruleGrouping | .ruleHaving | .ruleSourceSinkSpecs
  | .rulePausedOpt | .ruleFuncParams | .rulesp => true
  | _ => false

/-- Whether an expression can match without moving the position, going by its
form. -/
def Peg.nullable : Peg → Bool
  | .char _ => false
  | .range _ _ => false
  | .dot => false
  | .empty => true
  | .action _ => true
  | .call r => nullableRule r
  | .seq a b => a.nullable && b.nullable
  | .choice a b => a.nullable || b.nullable
  | .star _ => true
  | .optional _ => true
  | .notPredicate _ => true
  | .text a => a.nullable

/-- A rank of the rules: a rule that another rule can call before a rune is
consumed has the smaller rank. -/
def rank : pegRule → Nat
  | .ruleProjections => 17
  | .ruleProjection => 16
  | .ruleAliasExpression | .ruleGroupList | .ruleFuncParams => 15
  | .ruleExpression => 14
  | .ruleorExpr => 13
  | .ruleandExpr => 12
  | .rulenotExpr => 11
  | .rulecomparisonExpr => 10
  | .ruleotherOpExpr => 9
  | .ruleRelations | .ruleisExpr => 8
  | .ruleRelationLike | .ruletermExpr => 7
  | .ruleAliasedStreamWindow | .ruleproductExpr => 6
  | .ruleStreamWindow | .ruleminusExpr => 5
  | .ruleStreamLike | .rulecastExpr => 4
  | .ruleStatements | .ruleUDSFFuncApp | .rulebaseExpr => 3
  | .ruleStatement | .ruleInterval | .ruleSourceSinkParam | .ruleSourceSinkParamVal | .ruleFuncApp |
    .ruleRowMeta => 2
  | .ruleSourceStmt | .ruleSinkStmt | .ruleStateStmt | .ruleStreamStmt | .ruleEmitter |
    .ruleTimeInterval | .ruleTuplesInterval | .rulePausedOpt | .ruleLiteral | .ruleComparisonOp |
    .ruleOtherOp | .ruleIsOp | .rulePlusMinusOp | .ruleMultDivOp | .ruleStream | .ruleRowTimestamp
    | .ruleRowValue | .ruleFunction | .ruleBooleanLiteral | .ruleStreamIdentifier |
    .ruleSourceSinkType | .ruleSourceSinkParamKey | .ruleType | .ruleIdentifier |
    .ruleTargetIdentifier | .rulesp => 1
  | _ => 0


/-- Every loop `e*` inside the expression has a body that cannot match without
moving the position. -/
def Peg.loopsConsume : Peg → Bool
  | .seq a b => a.loopsConsume && b.loopsConsume
  | .choice a b => a.loopsConsume && b.loopsConsume
  | .star a => !a.nullable && a.loopsConsume
  | .optional a => a.loopsConsume
  | .notPredicate a => a.loopsConsume
  | .text a => a.loopsConsume
  | _ => true

/-- Every rule that the expression can call before a rune is consumed has a
rank below `k`. -/
def Peg.callsBelow (k : Nat) : Peg → Bool
  | .call r => decide (rank r < k)
  | .seq a b => a.callsBelow k && (!a.nullable || b.callsBelow k)
  | .choice a b => a.callsBelow k && b.callsBelow k
  | .star a => a.callsBelow k
  | .optional a => a.callsBelow k
  | .notPredicate a => a.callsBelow k
  | .text a => a.callsBelow k
  | _ => true

/-- The bodies of the loops `e*` inside an expression. -/
def Peg.starBodies : Peg → List Peg
  | .seq a b => a.starBodies ++ b.starBodies
  | .choice a b => a.starBodies ++ b.starBodies
  | .star a => a :: a.starBodies
  | .optional a => a.starBodies
  | .notPredicate a => a.starBodies
  | .text a => a.starBodies
  | _ => []

/-- The result of an execution on the variables of the parser, entered in
state `s`, agrees with a result on the rest of the buffer: both failed, both
ran out of fuel, or both matched, and then the rest is the text from the new
position on, the position has not moved backwards and is at most the index of
the end symbol, `depth` is as on entry and no token was removed. -/
def Simulates (input : List Char) (s : ParserState) : MatchResult → ExecResult → Prop
  | .matched rest, .matched s2 =>
    input.drop s2.position = rest ∧ s.position ≤ s2.position ∧ s2.position ≤ input.length ∧
      s2.depth = s.depth ∧ s.tokenIndex ≤ s2.tokenIndex
  | .failed, .failed => True
  | .outOfFuel, .outOfFuel => True
  | _, _ => False

/-- The function of rule `r`, called with `position` at `p`, returns `true`
with `position` at `q` and `depth` as on entry, whatever `tokenIndex` and
`depth` are on entry. -/
def RuleMatches (input : List Char) (r : pegRule) (p q : Nat) : Prop :=
  ∀ t d, d < 4294967296 →
    ∃ fuel t2, callRule (Init (runesOf input)) fuel r ⟨p, t, d⟩ = .returned true ⟨q, t2, d⟩

/-- The function of rule `r`, called with `position` at `p`, returns `false`
with the variables as on entry, whatever `tokenIndex` and `depth` are on
entry. -/
def RuleFails (input : List Char) (r : pegRule) (p : Nat) : Prop :=
  ∀ t d, d < 4294967296 →
    ∃ fuel, callRule (Init (runesOf input)) fuel r ⟨p, t, d⟩ = .returned false ⟨p, t, d⟩

/-- What the function of a rule of the form `operand sp (operator sp operand)?`
has consumed when it returns `true` at `q`, having been called at `p`: one
operand and blanks, followed by at most one operator with its operand. -/
def AtMostOneOperatorAt (input : List Char) (operand operator : pegRule) (p q : Nat) : Prop :=
  ∃ p1 p2, RuleMatches input operand p p1 ∧ RuleMatches input .rulesp p1 p2 ∧
    (q = p2 ∨ ∃ p3 p4, RuleMatches input operator p2 p3 ∧ RuleMatches input .rulesp p3 p4 ∧
      RuleMatches input operand p4 q)

/-! ## Lemmas on append -/

theorem goAppend_len (ext : Externals) (h : Heap) (s : Slice) (x : resultRow) :
    (goAppend ext h s x).2.len = s.len + 1 := by
  unfold goAppend growAppend
  split
  · split <;> rfl
  · rfl

theorem goAppend_rows (ext : Externals) (h : Heap) (s : Slice) (x : resultRow) :
    (goAppend ext h s x).1.rows = h.rows := by
  unfold goAppend growAppend
  split
  · split <;> rfl
  · rfl

theorem goAppend_cells_lt (ext : Externals) (h : Heap) (s : Slice) (x : resultRow)
    (i : Nat) (hi : i < s.len) :
    (goAppend ext h s x).1.cells (goAppend ext h s x).2 i = h.cells s i := by
  unfold goAppend growAppend
  split
  · rename_i a ha
    split
    · simp [Heap.cells, ha, Function.update, Nat.ne_of_lt hi]
    · simp [Heap.cells, ha, hi]
  · rename_i ha
    simp [Heap.cells, ha, hi]

theorem goAppend_cells_len (ext : Externals) (h : Heap) (s : Slice) (x : resultRow) :
    (goAppend ext h s x).1.cells (goAppend ext h s x).2 s.len = x := by
  unfold goAppend growAppend
  split
  · rename_i a ha
    split
    · simp [Heap.cells, ha]
    · simp [Heap.cells, ha]
  · rename_i ha
    simp [Heap.cells, ha]

theorem contents_goAppend (ext : Externals) (h : Heap) (s : Slice) (x : resultRow) :
    (goAppend ext h s x).1.contents (goAppend ext h s x).2 = h.contents s ++ [x] := by
  unfold Heap.contents
  rw [goAppend_len, List.range_succ, List.map_append]
  congr 1
  · apply List.map_congr_left
    intro i hi
    exact goAppend_cells_lt ext h s x i (List.mem_range.mp hi)
  · simp [goAppend_cells_len]

theorem Frame.refl (h : Heap) (o : Slice) : Frame h o h o :=
  ⟨Nat.le_refl _, Or.inl rfl, fun _ _ _ => rfl⟩

theorem Frame.trans {h h1 h2 : Heap} {o o1 o2 : Slice}
    (f1 : Frame h o h1 o1) (f2 : Frame h1 o1 h2 o2) : Frame h o h2 o2 := by
  obtain ⟨n1, a1, k1⟩ := f1
  obtain ⟨n2, a2, k2⟩ := f2
  refine ⟨Nat.le_trans n1 n2, ?_, ?_⟩
  · rcases a2 with e2 | ⟨f, e2, l2, u2⟩
    · rcases a1 with e1 | ⟨f, e1, l1, u1⟩
      · exact Or.inl (e2.trans e1)
      · exact Or.inr ⟨f, e2.trans e1, l1, Nat.lt_of_lt_of_le u1 n2⟩
    · exact Or.inr ⟨f, e2, Nat.le_trans n1 l2, u2⟩
  · intro b hb hne
    rw [k2 b (Nat.lt_of_lt_of_le hb n1), k1 b hb hne]
    rcases a1 with e1 | ⟨f, e1, l1, _⟩
    · rw [e1]; exact hne
    · rw [e1]
      intro hbf
      have : b = f := Option.some.inj hbf
      omega

theorem goAppend_frame (ext : Externals) (h : Heap) (s : Slice) (x : resultRow) :
    Frame h s (goAppend ext h s x).1 (goAppend ext h s x).2 := by
  unfold goAppend growAppend
  split
  · rename_i a ha
    split
    · refine ⟨Nat.le_refl _, Or.inl rfl, ?_⟩
      intro b _ hne
      have hba : b ≠ a := by
        intro e
        apply hne
        rw [ha, e]
      simp [Function.update, hba]
    · refine ⟨Nat.le_succ _, Or.inr ⟨h.next, rfl, Nat.le_refl _, Nat.lt_succ_self _⟩, ?_⟩
      intro b hb _
      simp [Function.update, Nat.ne_of_lt hb]
  · refine ⟨Nat.le_succ _, Or.inr ⟨h.next, rfl, Nat.le_refl _, Nat.lt_succ_self _⟩, ?_⟩
    intro b hb _
    simp [Function.update, Nat.ne_of_lt hb]

/-- A slice that does not share storage with the output keeps its cells. -/
theorem Frame.cells {h h2 : Heap} {o o2 c : Slice} (f : Frame h o h2 o2)
    (hs : ¬ SharesStorage o c) (hc : c.AllocatedIn h) : h2.cells c = h.cells c := by
  unfold Heap.cells
  cases hca : c.array with
  | none => rfl
  | some b =>
    simp only
    apply f.2.2 b
    · simpa [Slice.AllocatedIn, hca] using hc
    · intro e
      apply hs
      simp [SharesStorage, hca, ← e]

theorem Frame.contents {h h2 : Heap} {o o2 c : Slice} (f : Frame h o h2 o2)
    (hs : ¬ SharesStorage o c) (hc : c.AllocatedIn h) : h2.contents c = h.contents c := by
  unfold Heap.contents
  rw [f.cells hs hc]

theorem Frame.allocated {h h2 : Heap} {o o2 c : Slice} (f : Frame h o h2 o2)
    (hc : c.AllocatedIn h) : c.AllocatedIn h2 := by
  unfold Slice.AllocatedIn at *
  cases hca : c.array with
  | none => trivial
  | some b =>
    simp only [hca] at hc ⊢
    exact Nat.lt_of_lt_of_le hc f.1

theorem Frame.allocated_out {h h2 : Heap} {o o2 : Slice} (f : Frame h o h2 o2)
    (ho : o.AllocatedIn h) : o2.AllocatedIn h2 := by
  rcases f.2.1 with e | ⟨b, e, _, u⟩
  · have := f.allocated ho
    unfold Slice.AllocatedIn at *
    rw [e]
    exact this
  · unfold Slice.AllocatedIn
    simp only [e]
    exact u

theorem Frame.not_shares {h h2 : Heap} {o o2 c : Slice} (f : Frame h o h2 o2)
    (hs : ¬ SharesStorage o c) (hc : c.AllocatedIn h) : ¬ SharesStorage o2 c := by
  rcases f.2.1 with e | ⟨b, e, l, _⟩
  · unfold SharesStorage at *
    rw [e]
    exact hs
  · unfold SharesStorage Slice.AllocatedIn at *
    cases hca : c.array with
    | none => simp [e]
    | some d =>
      simp only [hca] at hc
      simp only [e]
      omega

/-! ## Lemmas on `evalItem` and the loop -/

theorem rowResult_filledRow (ext : Externals) (projections : List Projection)
    (r : inputRowWithCachedResult) :
    rowResult ext projections (filledRow ext projections r) = rowResult ext projections r := by
  unfold filledRow
  cases hc : r.cache with
  | some c => rfl
  | none =>
    simp only
    cases hp : evalProjections ext projections r.input [] with
    | error err => rfl
    | ok m => simp [rowResult, hc, hp, AsMap]

theorem filledRow_input (ext : Externals) (projections : List Projection)
    (r : inputRowWithCachedResult) : (filledRow ext projections r).input = r.input := by
  unfold filledRow
  split
  · rfl
  · split <;> rfl

theorem filledRow_of_cached (ext : Externals) (projections : List Projection)
    (r : inputRowWithCachedResult) (hc : r.cache ≠ none) : filledRow ext projections r = r := by
  unfold filledRow
  split
  · rfl
  · rename_i hn
    exact absurd hn hc

theorem filledRow_idem (ext : Externals) (projections : List Projection)
    (r : inputRowWithCachedResult) :
    filledRow ext projections (filledRow ext projections r) = filledRow ext projections r := by
  cases hc : r.cache with
  | some c =>
    have e : filledRow ext projections r = r :=
      filledRow_of_cached ext projections r (by simp [hc])
    rw [e, e]
  | none =>
    cases hp : evalProjections ext projections r.input [] with
    | error err =>
      have : filledRow ext projections r = r := by simp [filledRow, hc, hp]
      rw [this, this]
    | ok m =>
      apply filledRow_of_cached
      simp [filledRow, hc, hp]

/-- The closure `evalItem` in terms of `rowResult`: on an error nothing
changes; otherwise the cache of the row is filled and the result appended. -/
theorem evalItem_eq (ext : Externals) (projections : List Projection) (h : Heap) (o : Slice)
    (io : Nat) :
    evalItem ext projections h o io =
      match rowResult ext projections (h.rows io) with
      | .error err => (some err, h, o)
      | .ok x =>
        (none, (goAppend ext (fillCache ext projections h io) o x).1,
          (goAppend ext (fillCache ext projections h io) o x).2) := by
  unfold evalItem rowResult fillCache filledRow
  cases hc : (h.rows io).cache with
  | some c =>
    simp only
    cases hm : AsMap c with
    | error e => rfl
    | ok m =>
      simp only
      have : Function.update h.rows io (h.rows io) = h.rows := Function.update_eq_self io h.rows
      rw [this]
  | none =>
    simp only
    cases hp : evalProjections ext projections (h.rows io).input [] with
    | error e => rfl
    | ok m => rfl

theorem fillCache_rowResult (ext : Externals) (projections : List Projection) (h : Heap)
    (io j : Nat) :
    rowResult ext projections ((fillCache ext projections h io).rows j) =
      rowResult ext projections (h.rows j) := by
  unfold fillCache
  by_cases e : j = io
  · subst e
    simp [rowResult_filledRow]
  · simp [Function.update, e]

theorem fillCache_outcomes (ext : Externals) (projections : List Projection) (h : Heap)
    (io : Nat) (addrs : List Nat) :
    outcomes ext projections (fillCache ext projections h io) addrs =
      outcomes ext projections h addrs := by
  unfold outcomes
  apply List.map_congr_left
  intro j _
  exact fillCache_rowResult ext projections h io j

theorem goAppend_outcomes (ext : Externals) (projections : List Projection) (h : Heap)
    (s : Slice) (x : resultRow) (addrs : List Nat) :
    outcomes ext projections (goAppend ext h s x).1 addrs = outcomes ext projections h addrs := by
  unfold outcomes
  rw [goAppend_rows]

theorem fillCache_frame (ext : Externals) (projections : List Projection) (h : Heap)
    (io : Nat) (o : Slice) : Frame h o (fillCache ext projections h io) o :=
  ⟨Nat.le_refl _, Or.inl rfl, fun _ _ _ => rfl⟩

theorem fillCache_contents (ext : Externals) (projections : List Projection) (h : Heap)
    (io : Nat) (o : Slice) : (fillCache ext projections h io).contents o = h.contents o := rfl

/-- The error of the loop is the first error among the outcomes of the rows. -/
theorem evalItems_error (ext : Externals) (projections : List Projection) (addrs : List Nat) :
    ∀ (h : Heap) (o : Slice),
      (evalItems ext projections addrs h o).1 = firstError (outcomes ext projections h addrs) := by
  induction addrs with
  | nil => intro h o; rfl
  | cons io rest ih =>
    intro h o
    unfold evalItems
    rw [evalItem_eq]
    cases hr : rowResult ext projections (h.rows io) with
    | error err => simp [outcomes, firstError, hr]
    | ok x =>
      simp only
      rw [ih, goAppend_outcomes, fillCache_outcomes]
      simp [outcomes, firstError, hr]

/-- The loop appends to the output the results in front of the first error. -/
theorem evalItems_contents (ext : Externals) (projections : List Projection)
    (addrs : List Nat) :
    ∀ (h : Heap) (o : Slice),
      (evalItems ext projections addrs h o).2.1.contents (evalItems ext projections addrs h o).2.2
        = h.contents o ++ resultsBeforeError (outcomes ext projections h addrs) := by
  induction addrs with
  | nil => intro h o; simp [evalItems, outcomes, resultsBeforeError]
  | cons io rest ih =>
    intro h o
    unfold evalItems
    rw [evalItem_eq]
    cases hr : rowResult ext projections (h.rows io) with
    | error err => simp [outcomes, resultsBeforeError, hr]
    | ok x =>
      simp only
      rw [ih, goAppend_outcomes, fillCache_outcomes, contents_goAppend, fillCache_contents]
      simp [outcomes, resultsBeforeError, hr]

theorem evalItems_frame (ext : Externals) (projections : List Projection) (addrs : List Nat) :
    ∀ (h : Heap) (o : Slice),
      Frame h o (evalItems ext projections addrs h o).2.1
        (evalItems ext projections addrs h o).2.2 := by
  induction addrs with
  | nil => intro h o; exact Frame.refl h o
  | cons io rest ih =>
    intro h o
    unfold evalItems
    rw [evalItem_eq]
    cases hr : rowResult ext projections (h.rows io) with
    | error err => exact Frame.refl h o
    | ok x =>
      simp only
      exact ((fillCache_frame ext projections h io o).trans (goAppend_frame ext _ o x)).trans
        (ih _ _)

/-- Every row object is, after the loop, as it was or with its cache filled. -/
theorem evalItems_rows (ext : Externals) (projections : List Projection) (addrs : List Nat) :
    ∀ (h : Heap) (o : Slice) (j : Nat),
      (evalItems ext projections addrs h o).2.1.rows j = h.rows j ∨
      (evalItems ext projections addrs h o).2.1.rows j = filledRow ext projections (h.rows j) := by
  induction addrs with
  | nil => intro h o j; exact Or.inl rfl
  | cons io rest ih =>
    intro h o j
    unfold evalItems
    rw [evalItem_eq]
    cases hr : rowResult ext projections (h.rows io) with
    | error err => exact Or.inl rfl
    | ok x =>
      simp only
      have hstep : (goAppend ext (fillCache ext projections h io) o x).1.rows j = h.rows j ∨
          (goAppend ext (fillCache ext projections h io) o x).1.rows j
            = filledRow ext projections (h.rows j) := by
        rw [goAppend_rows]
        unfold fillCache
        by_cases e : j = io
        · subst e
          right
          simp
        · left
          simp [Function.update, e]
      rcases ih (goAppend ext (fillCache ext projections h io) o x).1
        (goAppend ext (fillCache ext projections h io) o x).2 j with e1 | e1
      · rw [e1]; exact hstep
      · rw [e1]
        rcases hstep with e2 | e2
        · rw [e2]; exact Or.inr rfl
        · rw [e2, filledRow_idem]; exact Or.inr rfl

theorem evalItems_rowResult (ext : Externals) (projections : List Projection)
    (addrs : List Nat) (h : Heap) (o : Slice) (j : Nat) :
    rowResult ext projections ((evalItems ext projections addrs h o).2.1.rows j) =
      rowResult ext projections (h.rows j) := by
  rcases evalItems_rows ext projections addrs h o j with e | e
  · rw [e]
  · rw [e, rowResult_filledRow]

theorem evalItems_outcomes (ext : Externals) (projections : List Projection)
    (addrs : List Nat) (h : Heap) (o : Slice) (others : List Nat) :
    outcomes ext projections (evalItems ext projections addrs h o).2.1 others =
      outcomes ext projections h others := by
  unfold outcomes
  apply List.map_congr_left
  intro j _
  exact evalItems_rowResult ext projections addrs h o j

/-- After a successful loop every visited row holds its cache. -/
theorem evalItems_rows_mem (ext : Externals) (projections : List Projection)
    (addrs : List Nat) :
    ∀ (h : Heap) (o : Slice), (evalItems ext projections addrs h o).1 = none →
      ∀ j ∈ addrs,
        (evalItems ext projections addrs h o).2.1.rows j = filledRow ext projections (h.rows j) := by
  induction addrs with
  | nil => intro h o _ j hj; cases hj
  | cons io rest ih =>
    intro h o hok j hj
    unfold evalItems at hok ⊢
    rw [evalItem_eq] at hok ⊢
    cases hr : rowResult ext projections (h.rows io) with
    | error err => simp [hr] at hok
    | ok x =>
      simp only [hr] at hok ⊢
      have hstep : ∀ k, (goAppend ext (fillCache ext projections h io) o x).1.rows k = h.rows k ∨
          (goAppend ext (fillCache ext projections h io) o x).1.rows k
            = filledRow ext projections (h.rows k) := by
        intro k
        rw [goAppend_rows]
        unfold fillCache
        by_cases e : k = io
        · subst e
          right
          simp
        · left
          simp [Function.update, e]
      have hhead : (goAppend ext (fillCache ext projections h io) o x).1.rows io
          = filledRow ext projections (h.rows io) := by
        rw [goAppend_rows]
        simp [fillCache]
      by_cases hmem : j ∈ rest
      · rw [ih _ _ hok j hmem]
        rcases hstep j with e | e
        · rw [e]
        · rw [e, filledRow_idem]
      · have hj2 : j = io := by
          rcases List.mem_cons.mp hj with e | e
          · exact e
          · exact absurd e hmem
        subst hj2
        rcases evalItems_rows ext projections rest
          (goAppend ext (fillCache ext projections h j) o x).1
          (goAppend ext (fillCache ext projections h j) o x).2 j with e | e
        · rw [e, hhead]
        · rw [e, hhead, filledRow_idem]

theorem cachedResult_filledRow (ext : Externals) (projections : List Projection)
    (r : inputRowWithCachedResult) (x : resultRow)
    (hr : rowResult ext projections r = .ok x) :
    cachedResult (filledRow ext projections r) = some x := by
  unfold rowResult at hr
  unfold filledRow
  cases hc : r.cache with
  | some c =>
    simp only [hc] at hr ⊢
    cases c <;> simp [AsMap] at hr
    simp [cachedResult, hc, hr]
  | none =>
    simp only [hc] at hr ⊢
    cases hp : evalProjections ext projections r.input [] with
    | error err => simp [hp] at hr
    | ok m =>
      simp only [hp, Except.ok.injEq] at hr
      simp [cachedResult, hr]

theorem firstError_none (l : List (Except Error resultRow)) (hl : firstError l = none) :
    l = (resultsBeforeError l).map Except.ok := by
  induction l with
  | nil => rfl
  | cons a rest ih =>
    cases a with
    | error err => simp [firstError] at hl
    | ok x =>
      simp only [firstError] at hl
      simp only [resultsBeforeError, List.map_cons]
      rw [← ih hl]

theorem contents_reslice00 (h : Heap) (s : Slice) : h.contents s.reslice00 = [] := rfl

/-! ## Lemmas on `performQueryOnBuffer` -/

theorem performQueryOnBuffer_eq (ext : Externals) (ep : defaultSelectExecutionPlan) :
    performQueryOnBuffer ext ep =
      match (loopResult ext ep).1 with
      | some err =>
        (some err, { ep with prevResults := (loopResult ext ep).2.2
                             heap := (loopResult ext ep).2.1 })
      | none =>
        (none, { ep with prevResults := ep.curResults
                         heap := (loopResult ext ep).2.1
                         curResults := (loopResult ext ep).2.2 }) := by
  unfold performQueryOnBuffer loopResult rollback
  simp only
  rcases evalItems ext ep.projections ep.filteredInputRows ep.heap ep.prevResults.reslice00
    with ⟨_ | err, h2, o2⟩ <;> rfl

theorem performQueryOnBuffer_error (ext : Externals) (ep : defaultSelectExecutionPlan) :
    (performQueryOnBuffer ext ep).1
      = firstError (outcomes ext ep.projections ep.heap ep.filteredInputRows) := by
  rw [performQueryOnBuffer_eq, ← evalItems_error ext ep.projections ep.filteredInputRows ep.heap
    ep.prevResults.reslice00]
  unfold loopResult
  split <;> simp_all

theorem performQueryOnBuffer_heap (ext : Externals) (ep : defaultSelectExecutionPlan) :
    (performQueryOnBuffer ext ep).2.heap = (loopResult ext ep).2.1 := by
  rw [performQueryOnBuffer_eq]
  split <;> rfl

theorem performQueryOnBuffer_projections (ext : Externals) (ep : defaultSelectExecutionPlan) :
    (performQueryOnBuffer ext ep).2.projections = ep.projections := by
  rw [performQueryOnBuffer_eq]
  split <;> rfl

theorem performQueryOnBuffer_ok (ext : Externals) (ep : defaultSelectExecutionPlan)
    (hok : (performQueryOnBuffer ext ep).1 = none) :
    (performQueryOnBuffer ext ep).2.curResults = (loopResult ext ep).2.2 ∧
      (performQueryOnBuffer ext ep).2.prevResults = ep.curResults := by
  rw [performQueryOnBuffer_eq] at hok ⊢
  split
  · rename_i err he
    simp [he] at hok
  · exact ⟨rfl, rfl⟩

theorem performQueryOnBuffer_failed (ext : Externals) (ep : defaultSelectExecutionPlan)
    (hfail : (performQueryOnBuffer ext ep).1 ≠ none) :
    (performQueryOnBuffer ext ep).2.prevResults = (loopResult ext ep).2.2 ∧
      (performQueryOnBuffer ext ep).2.curResults = ep.curResults := by
  rw [performQueryOnBuffer_eq] at hfail ⊢
  split
  · exact ⟨rfl, rfl⟩
  · rename_i he
    simp [he] at hfail

theorem loopResult_frame (ext : Externals) (ep : defaultSelectExecutionPlan) :
    Frame ep.heap ep.prevResults.reslice00 (loopResult ext ep).2.1 (loopResult ext ep).2.2 :=
  evalItems_frame ext ep.projections ep.filteredInputRows ep.heap ep.prevResults.reslice00

theorem loopResult_contents (ext : Externals) (ep : defaultSelectExecutionPlan) :
    (loopResult ext ep).2.1.contents (loopResult ext ep).2.2
      = resultsBeforeError (outcomes ext ep.projections ep.heap ep.filteredInputRows) := by
  unfold loopResult
  rw [evalItems_contents, contents_reslice00, List.nil_append]

/-- A call keeps `prevResults` and `curResults` separate. -/
theorem performQueryOnBuffer_separate (ext : Externals) (ep : defaultSelectExecutionPlan)
    (hsep : Separate ep) : Separate (performQueryOnBuffer ext ep).2 := by
  obtain ⟨hs, hp, hc⟩ := hsep
  have f := loopResult_frame ext ep
  have hs0 : ¬ SharesStorage ep.prevResults.reslice00 ep.curResults := hs
  have hp0 : ep.prevResults.reslice00.AllocatedIn ep.heap := hp
  have h1 : ¬ SharesStorage (loopResult ext ep).2.2 ep.curResults := f.not_shares hs0 hc
  have h2 : (loopResult ext ep).2.2.AllocatedIn (loopResult ext ep).2.1 := f.allocated_out hp0
  have h3 : ep.curResults.AllocatedIn (loopResult ext ep).2.1 := f.allocated hc
  unfold Separate
  rw [performQueryOnBuffer_heap]
  by_cases hok : (performQueryOnBuffer ext ep).1 = none
  · obtain ⟨e1, e2⟩ := performQueryOnBuffer_ok ext ep hok
    rw [e1, e2]
    refine ⟨?_, h3, h2⟩
    intro hsh
    apply h1
    unfold SharesStorage at hsh ⊢
    cases ha : (loopResult ext ep).2.2.array <;> cases hb : ep.curResults.array <;>
      simp_all
  · obtain ⟨e1, e2⟩ := performQueryOnBuffer_failed ext ep hok
    rw [e1, e2]
    exact ⟨h1, h2, h3⟩

/-- A call leaves the elements of the slice that was `curResults` in place. -/
theorem performQueryOnBuffer_keeps_cur (ext : Externals) (ep : defaultSelectExecutionPlan)
    (hsep : Separate ep) :
    (performQueryOnBuffer ext ep).2.heap.contents ep.curResults
      = ep.heap.contents ep.curResults := by
  rw [performQueryOnBuffer_heap]
  exact (loopResult_frame ext ep).contents hsep.1 hsep.2.2

theorem firstError_none_mem (l : List (Except Error resultRow)) (hl : firstError l = none)
    (e : Except Error resultRow) (he : e ∈ l) : ∃ x, e = .ok x := by
  rw [firstError_none l hl] at he
  obtain ⟨x, _, hx⟩ := List.mem_map.mp he
  exact ⟨x, hx.symm⟩

/-- On success the contents of `curResults` are the outcomes of the filtered
rows, in order. -/
theorem performQueryOnBuffer_ok_outcomes (ext : Externals) (ep : defaultSelectExecutionPlan)
    (hok : (performQueryOnBuffer ext ep).1 = none) :
    ((performQueryOnBuffer ext ep).2.heap.contents
        (performQueryOnBuffer ext ep).2.curResults).map Except.ok
      = ep.filteredInputRows.map (fun io => rowResult ext ep.projections (ep.heap.rows io)) := by
  have herr : firstError (outcomes ext ep.projections ep.heap ep.filteredInputRows) = none := by
    rw [← performQueryOnBuffer_error]; exact hok
  rw [performQueryOnBuffer_heap, (performQueryOnBuffer_ok ext ep hok).1, loopResult_contents,
    ← firstError_none _ herr]
  rfl

/-! ## The claims on `performQueryOnBuffer` -/

/-- C1: when `performQueryOnBuffer` succeeds, `curResults` holds exactly one
result row per row of `filteredInputRows`, in the same order: the i-th result
is the result the i-th filtered row stands for on entry (its cached Map with
its stored hash if it has a cache, otherwise the Map built by applying every
projection in list order, with the hash of that Map), it is the cached Map of
that row paired with that row's hash as the call leaves the row, and the two
lists have the same length. -/
theorem performQueryOnBuffer_results (ext : Externals) (ep : defaultSelectExecutionPlan)
    (hok : (performQueryOnBuffer ext ep).1 = none) :
    ((performQueryOnBuffer ext ep).2.heap.contents
        (performQueryOnBuffer ext ep).2.curResults).map Except.ok
      = ep.filteredInputRows.map (fun io => rowResult ext ep.projections (ep.heap.rows io)) ∧
    ((performQueryOnBuffer ext ep).2.heap.contents
        (performQueryOnBuffer ext ep).2.curResults).map some
      = ep.filteredInputRows.map
          (fun io => cachedResult ((performQueryOnBuffer ext ep).2.heap.rows io)) ∧
    ((performQueryOnBuffer ext ep).2.heap.contents
        (performQueryOnBuffer ext ep).2.curResults).length = ep.filteredInputRows.length := by
  have herr : firstError (outcomes ext ep.projections ep.heap ep.filteredInputRows) = none := by
    rw [← performQueryOnBuffer_error]; exact hok
  have hloop : (loopResult ext ep).1 = none := by
    unfold loopResult
    rw [evalItems_error]; exact herr
  have h1 := performQueryOnBuffer_ok_outcomes ext ep hok
  refine ⟨h1, ?_, ?_⟩
  · have h2 : ((performQueryOnBuffer ext ep).2.heap.contents
          (performQueryOnBuffer ext ep).2.curResults).map some
        = (((performQueryOnBuffer ext ep).2.heap.contents
          (performQueryOnBuffer ext ep).2.curResults).map
            (Except.ok : resultRow → Except Error resultRow)).map Except.toOption := by
      rw [List.map_map]
      rfl
    rw [h2, h1, List.map_map]
    apply List.map_congr_left
    intro io hio
    obtain ⟨x, hx⟩ := firstError_none_mem _ herr (rowResult ext ep.projections (ep.heap.rows io))
      (List.mem_map.mpr ⟨io, hio, rfl⟩)
    have hrow : (performQueryOnBuffer ext ep).2.heap.rows io
        = filledRow ext ep.projections (ep.heap.rows io) := by
      rw [performQueryOnBuffer_heap]
      exact evalItems_rows_mem ext ep.projections ep.filteredInputRows ep.heap
        ep.prevResults.reslice00 hloop io hio
    simp only [Function.comp]
    rw [hrow, cachedResult_filledRow ext ep.projections _ x hx, hx]
    rfl
  · have := congrArg List.length h1
    simpa using this

/-- A successful call on rows 0 and 1 of the example yields their two
projections, in order. -/
theorem performQueryOnBuffer_results_witness :
    (performQueryOnBuffer exampleExternals (examplePlan [0, 1])).1 = none ∧
    (performQueryOnBuffer exampleExternals (examplePlan [0, 1])).2.heap.contents
        (performQueryOnBuffer exampleExternals (examplePlan [0, 1])).2.curResults
      = [⟨[("a", .int 1)], 2⟩, ⟨[("a", .int 2)], 3⟩] ∧
    ((performQueryOnBuffer exampleExternals (examplePlan [0, 1])).2.heap.contents
        (performQueryOnBuffer exampleExternals (examplePlan [0, 1])).2.curResults).length
      = (examplePlan [0, 1]).filteredInputRows.length :=
  ⟨by decide, by decide,
    (performQueryOnBuffer_results exampleExternals (examplePlan [0, 1]) (by decide)).2.2⟩

/-- C3: whenever `performQueryOnBuffer` returns an error, entered with
`prevResults` and `curResults` not sharing storage, `curResults` is the same
slice as before the call and has the same elements in the same order. -/
theorem performQueryOnBuffer_error_keeps_cur (ext : Externals)
    (ep : defaultSelectExecutionPlan) (hsep : Separate ep)
    (hfail : (performQueryOnBuffer ext ep).1 ≠ none) :
    (performQueryOnBuffer ext ep).2.curResults = ep.curResults ∧
    (performQueryOnBuffer ext ep).2.heap.contents (performQueryOnBuffer ext ep).2.curResults
      = ep.heap.contents ep.curResults := by
  have e := (performQueryOnBuffer_failed ext ep hfail).2
  refine ⟨e, ?_⟩
  rw [e]
  exact performQueryOnBuffer_keeps_cur ext ep hsep

/-- A failing call on the example (row 2 has no field `int`) keeps the one
result of the previous cycle in `curResults`. -/
theorem performQueryOnBuffer_error_keeps_cur_witness :
    Separate (examplePlan [0, 2]) ∧
    (performQueryOnBuffer exampleExternals (examplePlan [0, 2])).1 ≠ none ∧
    (performQueryOnBuffer exampleExternals (examplePlan [0, 2])).2.heap.contents
        (performQueryOnBuffer exampleExternals (examplePlan [0, 2])).2.curResults
      = (examplePlan [0, 2]).heap.contents (examplePlan [0, 2]).curResults :=
  ⟨by decide, by decide,
    (performQueryOnBuffer_error_keeps_cur exampleExternals (examplePlan [0, 2])
      (by decide) (by decide)).2⟩

/-- C8: when `performQueryOnBuffer` succeeds, entered with `prevResults` and
`curResults` not sharing storage, `prevResults` afterwards has exactly the
contents `curResults` had before the call. -/
theorem performQueryOnBuffer_moves_cur_to_prev (ext : Externals)
    (ep : defaultSelectExecutionPlan) (hsep : Separate ep)
    (hok : (performQueryOnBuffer ext ep).1 = none) :
    (performQueryOnBuffer ext ep).2.heap.contents (performQueryOnBuffer ext ep).2.prevResults
      = ep.heap.contents ep.curResults := by
  rw [(performQueryOnBuffer_ok ext ep hok).2]
  exact performQueryOnBuffer_keeps_cur ext ep hsep

/-- A successful call on the example moves the result of the previous cycle
to `prevResults`. -/
theorem performQueryOnBuffer_moves_cur_to_prev_witness :
    Separate (examplePlan [0, 1]) ∧
    (performQueryOnBuffer exampleExternals (examplePlan [0, 1])).1 = none ∧
    (performQueryOnBuffer exampleExternals (examplePlan [0, 1])).2.heap.contents
        (performQueryOnBuffer exampleExternals (examplePlan [0, 1])).2.prevResults
      = [⟨[("a", .int 0)], 1⟩] :=
  ⟨by decide, by decide,
    performQueryOnBuffer_moves_cur_to_prev exampleExternals (examplePlan [0, 1])
      (by decide) (by decide)⟩

theorem firstError_some (l : List (Except Error resultRow)) (hl : firstError l ≠ none) :
    ∃ k err, l[k]? = some (.error err) ∧ firstError l = some err ∧
      (resultsBeforeError l).map Except.ok = l.take k := by
  induction l with
  | nil => simp [firstError] at hl
  | cons a rest ih =>
    cases a with
    | error err => exact ⟨0, err, by simp, by simp [firstError], by simp [resultsBeforeError]⟩
    | ok x =>
      simp only [firstError] at hl
      obtain ⟨k, err, h1, h2, h3⟩ := ih hl
      exact ⟨k + 1, err, by simpa using h1, by simpa [firstError] using h2,
        by simp [resultsBeforeError, h3]⟩

/-- C4, counterexample: on the example, with the filtered rows 0 and 2, the
call fails on row 2 after row 0 has been projected; `prevResults` then holds
the projection of row 0, made during the failed call, and not the result of
the previous cycle that `curResults` held on entry. -/
theorem performQueryOnBuffer_error_prev_counterexample :
    Separate (examplePlan [0, 2]) ∧
    (performQueryOnBuffer exampleExternals (examplePlan [0, 2])).1
      = some "field not found: int" ∧
    (examplePlan [0, 2]).heap.contents (examplePlan [0, 2]).curResults
      = [⟨[("a", .int 0)], 1⟩] ∧
    (performQueryOnBuffer exampleExternals (examplePlan [0, 2])).2.heap.contents
        (performQueryOnBuffer exampleExternals (examplePlan [0, 2])).2.prevResults
      = [⟨[("a", .int 1)], 2⟩] ∧
    (performQueryOnBuffer exampleExternals (examplePlan [0, 2])).2.heap.contents
        (performQueryOnBuffer exampleExternals (examplePlan [0, 2])).2.prevResults
      ≠ (examplePlan [0, 2]).heap.contents (examplePlan [0, 2]).curResults ∧
    rowResult exampleExternals (examplePlan [0, 2]).projections
        ((examplePlan [0, 2]).heap.rows 0)
      = .ok ⟨[("a", .int 1)], 2⟩ :=
  ⟨by decide, by decide, by decide, by decide, by decide, rfl⟩

/-- C4, amended: when `performQueryOnBuffer` fails, entered with `prevResults`
and `curResults` not sharing storage, `prevResults` afterwards holds the
output built during the failed call: the results of the filtered rows in
front of the failing row `k`, in order.  It shares no storage with
`curResults`, and it is `curResults` that still holds the results of the
previous cycle. -/
theorem performQueryOnBuffer_error_prev (ext : Externals) (ep : defaultSelectExecutionPlan)
    (hsep : Separate ep) (hfail : (performQueryOnBuffer ext ep).1 ≠ none) :
    (∃ k err,
      (ep.filteredInputRows.map
          (fun io => rowResult ext ep.projections (ep.heap.rows io)))[k]? = some (.error err) ∧
      (performQueryOnBuffer ext ep).1 = some err ∧
      ((performQueryOnBuffer ext ep).2.heap.contents
          (performQueryOnBuffer ext ep).2.prevResults).map Except.ok
        = (ep.filteredInputRows.take k).map
            (fun io => rowResult ext ep.projections (ep.heap.rows io))) ∧
    ¬ SharesStorage (performQueryOnBuffer ext ep).2.prevResults
        (performQueryOnBuffer ext ep).2.curResults ∧
    (performQueryOnBuffer ext ep).2.heap.contents (performQueryOnBuffer ext ep).2.curResults
      = ep.heap.contents ep.curResults := by
  refine ⟨?_, (performQueryOnBuffer_separate ext ep hsep).1, ?_⟩
  · have herr : firstError (outcomes ext ep.projections ep.heap ep.filteredInputRows) ≠ none := by
      rw [← performQueryOnBuffer_error]; exact hfail
    obtain ⟨k, err, h1, h2, h3⟩ := firstError_some _ herr
    refine ⟨k, err, h1, ?_, ?_⟩
    · rw [performQueryOnBuffer_error]; exact h2
    · rw [performQueryOnBuffer_heap, (performQueryOnBuffer_failed ext ep hfail).1,
        loopResult_contents, h3]
      simp [outcomes, List.map_take]
  · rw [(performQueryOnBuffer_failed ext ep hfail).2]
    exact performQueryOnBuffer_keeps_cur ext ep hsep

/-- On the example, after the failing call, `prevResults` and `curResults` do
not share storage. -/
theorem performQueryOnBuffer_error_prev_witness :
    Separate (examplePlan [0, 2]) ∧
    (performQueryOnBuffer exampleExternals (examplePlan [0, 2])).1 ≠ none ∧
    ¬ SharesStorage (performQueryOnBuffer exampleExternals (examplePlan [0, 2])).2.prevResults
        (performQueryOnBuffer exampleExternals (examplePlan [0, 2])).2.curResults :=
  ⟨by decide, by decide,
    (performQueryOnBuffer_error_prev exampleExternals (examplePlan [0, 2])
      (by decide) (by decide)).2.1⟩

/-! ## Cycles -/

theorem cycle_error (ext : Externals) (ep : defaultSelectExecutionPlan) (filtered : List Nat) :
    (cycle ext ep filtered).1 = firstError (outcomes ext ep.projections ep.heap filtered) :=
  performQueryOnBuffer_error ext { ep with filteredInputRows := filtered }

theorem cycle_projections (ext : Externals) (ep : defaultSelectExecutionPlan)
    (filtered : List Nat) : (cycle ext ep filtered).2.projections = ep.projections :=
  performQueryOnBuffer_projections ext { ep with filteredInputRows := filtered }

theorem cycle_separate (ext : Externals) (ep : defaultSelectExecutionPlan)
    (filtered : List Nat) (hsep : Separate ep) : Separate (cycle ext ep filtered).2 :=
  performQueryOnBuffer_separate ext { ep with filteredInputRows := filtered } hsep

theorem cycle_keeps_cur (ext : Externals) (ep : defaultSelectExecutionPlan)
    (filtered : List Nat) (hsep : Separate ep) :
    (cycle ext ep filtered).2.heap.contents ep.curResults = ep.heap.contents ep.curResults :=
  performQueryOnBuffer_keeps_cur ext { ep with filteredInputRows := filtered } hsep

theorem cycle_outcomes (ext : Externals) (ep : defaultSelectExecutionPlan)
    (filtered others : List Nat) :
    outcomes ext ep.projections (cycle ext ep filtered).2.heap others
      = outcomes ext ep.projections ep.heap others := by
  unfold cycle
  rw [performQueryOnBuffer_heap]
  exact evalItems_outcomes ext ep.projections filtered ep.heap ep.prevResults.reslice00 others

theorem cycle_cur_contents (ext : Externals) (ep : defaultSelectExecutionPlan)
    (filtered : List Nat) (hok : (cycle ext ep filtered).1 = none) :
    (cycle ext ep filtered).2.heap.contents (cycle ext ep filtered).2.curResults
      = resultsBeforeError (outcomes ext ep.projections ep.heap filtered) := by
  unfold cycle at hok ⊢
  rw [performQueryOnBuffer_heap, (performQueryOnBuffer_ok ext _ hok).1, loopResult_contents]

theorem cycle_rows (ext : Externals) (ep : defaultSelectExecutionPlan) (filtered : List Nat)
    (j : Nat) :
    (cycle ext ep filtered).2.heap.rows j = ep.heap.rows j ∨
    (cycle ext ep filtered).2.heap.rows j = filledRow ext ep.projections (ep.heap.rows j) := by
  unfold cycle
  rw [performQueryOnBuffer_heap]
  exact evalItems_rows ext ep.projections filtered ep.heap ep.prevResults.reslice00 j

theorem runCycles_projections (ext : Externals) (cycles : List (List Nat)) :
    ∀ ep : defaultSelectExecutionPlan, (runCycles ext ep cycles).projections = ep.projections := by
  induction cycles with
  | nil => intro ep; rfl
  | cons filtered rest ih =>
    intro ep
    unfold runCycles
    rw [ih, cycle_projections]

theorem runCycles_separate (ext : Externals) (cycles : List (List Nat)) :
    ∀ ep : defaultSelectExecutionPlan, Separate ep → Separate (runCycles ext ep cycles) := by
  induction cycles with
  | nil => intro ep hsep; exact hsep
  | cons filtered rest ih =>
    intro ep hsep
    unfold runCycles
    exact ih _ (cycle_separate ext ep filtered hsep)

theorem runCycles_cached_row (ext : Externals) (cycles : List (List Nat)) (j : Nat) :
    ∀ ep : defaultSelectExecutionPlan, (ep.heap.rows j).cache ≠ none →
      (runCycles ext ep cycles).heap.rows j = ep.heap.rows j := by
  induction cycles with
  | nil => intro ep _; rfl
  | cons filtered rest ih =>
    intro ep hc
    unfold runCycles
    have hstep : (cycle ext ep filtered).2.heap.rows j = ep.heap.rows j := by
      rcases cycle_rows ext ep filtered j with e | e
      · exact e
      · rw [e, filledRow_of_cached ext ep.projections _ hc]
    rw [ih _ (by rw [hstep]; exact hc), hstep]

/-- C2: for every plan state in which `prevResults` and `curResults` do not
share storage, a call that fails followed by a call that succeeds on the
filtered rows `R` leaves `prevResults` and `curResults` with the same
contents as a single call on `R` made from the original state, which succeeds
as well: `prevResults` holds the original contents of `curResults`, and
`curResults` the projections of `R`. -/
theorem cycle_after_failed_cycle (ext : Externals) (ep : defaultSelectExecutionPlan)
    (hsep : Separate ep) (failing R : List Nat)
    (hfail : (cycle ext ep failing).1 ≠ none)
    (hok : (cycle ext (cycle ext ep failing).2 R).1 = none) :
    (cycle ext ep R).1 = none ∧
    (cycle ext (cycle ext ep failing).2 R).2.heap.contents
        (cycle ext (cycle ext ep failing).2 R).2.prevResults
      = (cycle ext ep R).2.heap.contents (cycle ext ep R).2.prevResults ∧
    (cycle ext (cycle ext ep failing).2 R).2.heap.contents
        (cycle ext (cycle ext ep failing).2 R).2.curResults
      = (cycle ext ep R).2.heap.contents (cycle ext ep R).2.curResults ∧
    (cycle ext ep R).2.heap.contents (cycle ext ep R).2.prevResults
      = ep.heap.contents ep.curResults ∧
    ((cycle ext ep R).2.heap.contents (cycle ext ep R).2.curResults).map Except.ok
      = R.map (fun io => rowResult ext ep.projections (ep.heap.rows io)) := by
  have hproj : (cycle ext ep failing).2.projections = ep.projections :=
    cycle_projections ext ep failing
  have hcur : (cycle ext ep failing).2.curResults = ep.curResults :=
    (performQueryOnBuffer_failed ext _ hfail).2
  have hsep1 : Separate (cycle ext ep failing).2 := cycle_separate ext ep failing hsep
  have hout : outcomes ext (cycle ext ep failing).2.projections (cycle ext ep failing).2.heap R
      = outcomes ext ep.projections ep.heap R := by
    rw [hproj]; exact cycle_outcomes ext ep failing R
  have hok2 : (cycle ext ep R).1 = none := by
    rw [cycle_error, ← hout, ← cycle_error]; exact hok
  have hprev2 : (cycle ext ep R).2.heap.contents (cycle ext ep R).2.prevResults
      = ep.heap.contents ep.curResults := by
    have e : (cycle ext ep R).2.prevResults = ep.curResults :=
      (performQueryOnBuffer_ok ext _ hok2).2
    rw [e]; exact cycle_keeps_cur ext ep R hsep
  have hprev1 : (cycle ext (cycle ext ep failing).2 R).2.heap.contents
      (cycle ext (cycle ext ep failing).2 R).2.prevResults = ep.heap.contents ep.curResults := by
    have e : (cycle ext (cycle ext ep failing).2 R).2.prevResults
        = (cycle ext ep failing).2.curResults := (performQueryOnBuffer_ok ext _ hok).2
    rw [e, cycle_keeps_cur ext _ R hsep1, hcur]
    exact cycle_keeps_cur ext ep failing hsep
  refine ⟨hok2, ?_, ?_, hprev2, ?_⟩
  · rw [hprev1, hprev2]
  · rw [cycle_cur_contents ext _ R hok, cycle_cur_contents ext ep R hok2, hout]
  · exact performQueryOnBuffer_ok_outcomes ext { ep with filteredInputRows := R } hok2

/-- On the example: a failing cycle on rows 0 and 2, then a successful cycle
on rows 0 and 1. -/
theorem cycle_after_failed_cycle_witness :
    Separate (examplePlan []) ∧
    (cycle exampleExternals (examplePlan []) [0, 2]).1 ≠ none ∧
    (cycle exampleExternals (cycle exampleExternals (examplePlan []) [0, 2]).2 [0, 1]).1 = none ∧
    (cycle exampleExternals (cycle exampleExternals (examplePlan []) [0, 2]).2
        [0, 1]).2.heap.contents
      (cycle exampleExternals (cycle exampleExternals (examplePlan []) [0, 2]).2
        [0, 1]).2.curResults
      = (cycle exampleExternals (examplePlan []) [0, 1]).2.heap.contents
          (cycle exampleExternals (examplePlan []) [0, 1]).2.curResults :=
  ⟨by decide, by decide, by decide,
    (cycle_after_failed_cycle exampleExternals (examplePlan []) (by decide) [0, 2] [0, 1]
      (by decide) (by decide)).2.2.1⟩

/-- C5: in every state reached by calls to `performQueryOnBuffer`, successful
or failing, from a state where `prevResults` and `curResults` do not share an
underlying array, they do not share one; hence the next call, which appends
into the storage recycled from `prevResults`, leaves every element of the
slice that was `curResults` as it was. -/
theorem runCycles_never_share (ext : Externals) (ep : defaultSelectExecutionPlan)
    (hsep : Separate ep) (cycles : List (List Nat)) :
    ¬ SharesStorage (runCycles ext ep cycles).prevResults (runCycles ext ep cycles).curResults ∧
    ∀ filtered : List Nat,
      ¬ SharesStorage (cycle ext (runCycles ext ep cycles) filtered).2.prevResults
          (cycle ext (runCycles ext ep cycles) filtered).2.curResults ∧
      (cycle ext (runCycles ext ep cycles) filtered).2.heap.contents
          (runCycles ext ep cycles).curResults
        = (runCycles ext ep cycles).heap.contents (runCycles ext ep cycles).curResults := by
  have h := runCycles_separate ext cycles ep hsep
  refine ⟨h.1, ?_⟩
  intro filtered
  exact ⟨(cycle_separate ext _ filtered h).1, cycle_keeps_cur ext _ filtered h⟩

/-- On the example: after a successful, a failing and a successful cycle the
two slices do not share storage. -/
theorem runCycles_never_share_witness :
    Separate (examplePlan []) ∧
    ¬ SharesStorage (runCycles exampleExternals (examplePlan []) [[0], [0, 2], [0, 1]]).prevResults
        (runCycles exampleExternals (examplePlan []) [[0], [0, 2], [0, 1]]).curResults :=
  ⟨by decide,
    (runCycles_never_share exampleExternals (examplePlan []) (by decide)
      [[0], [0, 2], [0, 1]]).1⟩

/-- C6: for a filtered row whose cache is present and is a Map `m`, with
stored hash `hash`, `evalItem` returns no error and appends the result row
`(m, hash)` to the output, leaving the row objects as they are; it does so
whatever the projections, the hash function and the assignment function are,
so no projection is evaluated and no hash computed. -/
theorem evalItem_cached (ext : Externals) (projections : List Projection) (h : Heap)
    (o : Slice) (io : Nat) (m : Map) (hc : (h.rows io).cache = some (Value.map m)) :
    evalItem ext projections h o io
      = (none, (goAppend ext h o ⟨m, (h.rows io).hash⟩).1,
          (goAppend ext h o ⟨m, (h.rows io).hash⟩).2) ∧
    (evalItem ext projections h o io).2.1.contents (evalItem ext projections h o io).2.2
      = h.contents o ++ [⟨m, (h.rows io).hash⟩] ∧
    (evalItem ext projections h o io).2.1.rows = h.rows ∧
    ∀ (projections2 : List Projection) (hash2 : Value → Nat)
      (assign2 : Map → String → List PathStep → Value → Except Error Map),
      evalItem ⟨hash2, assign2, ext.format, ext.growCap⟩ projections2 h o io
        = evalItem ext projections h o io := by
  have e : ∀ (ext2 : Externals) (projections2 : List Projection),
      evalItem ext2 projections2 h o io
        = (none, (goAppend ext2 h o ⟨m, (h.rows io).hash⟩).1,
            (goAppend ext2 h o ⟨m, (h.rows io).hash⟩).2) := by
    intro ext2 projections2
    unfold evalItem
    simp [hc, AsMap]
  refine ⟨e ext projections, ?_, ?_, ?_⟩
  · rw [e ext projections]
    exact contents_goAppend ext h o _
  · rw [e ext projections]
    exact goAppend_rows ext h o _
  · intro projections2 hash2 assign2
    rw [e, e]
    unfold goAppend growAppend
    rfl

/-- On the example, row 3 holds the cached Map `a: 99` with hash 5, although
its projection would be `a: 4` now; that cached row is appended. -/
theorem evalItem_cached_witness :
    ((examplePlan []).heap.rows 3).cache = some (Value.map [("a", .int 99)]) ∧
    (evalItem exampleExternals (examplePlan []).projections (examplePlan []).heap Slice.nil
        3).2.1.contents
      (evalItem exampleExternals (examplePlan []).projections (examplePlan []).heap Slice.nil 3).2.2
      = (examplePlan []).heap.contents Slice.nil ++ [⟨[("a", .int 99)], 5⟩] :=
  ⟨by decide,
    (evalItem_cached exampleExternals (examplePlan []).projections (examplePlan []).heap
      Slice.nil 3 [("a", .int 99)] (by decide)).2.1⟩

/-- C7: once a call to `performQueryOnBuffer` has filled the cache of a row,
the cache is the Map `m` obtained by evaluating all projections on the input
of the row in list order and the hash is the hash of `m`; every later call,
successful or failing, leaves the row as it is, so that in every later state
re-projecting the row yields the Map in its cache and the hash it stores. -/
theorem cache_filled_once (ext : Externals) (ep : defaultSelectExecutionPlan)
    (filtered : List Nat) (io : Nat)
    (hempty : (ep.heap.rows io).cache = none)
    (hfilled : ((cycle ext ep filtered).2.heap.rows io).cache ≠ none) :
    ∃ m, evalProjections ext ep.projections (ep.heap.rows io).input [] = .ok m ∧
      ∀ later : List (List Nat),
        (runCycles ext (cycle ext ep filtered).2 later).heap.rows io
          = ⟨(ep.heap.rows io).input, some (Value.map m), ext.Hash (Value.map m)⟩ ∧
        evalProjections ext (runCycles ext (cycle ext ep filtered).2 later).projections
            ((runCycles ext (cycle ext ep filtered).2 later).heap.rows io).input []
          = .ok m := by
  have hrow : (cycle ext ep filtered).2.heap.rows io
      = filledRow ext ep.projections (ep.heap.rows io) := by
    rcases cycle_rows ext ep filtered io with e | e
    · rw [e] at hfilled
      exact absurd hempty hfilled
    · exact e
  cases hp : evalProjections ext ep.projections (ep.heap.rows io).input [] with
  | error err =>
    have : filledRow ext ep.projections (ep.heap.rows io) = ep.heap.rows io := by
      simp [filledRow, hempty, hp]
    rw [hrow, this] at hfilled
    exact absurd hempty hfilled
  | ok m =>
    have hval : (cycle ext ep filtered).2.heap.rows io
        = ⟨(ep.heap.rows io).input, some (Value.map m), ext.Hash (Value.map m)⟩ := by
      rw [hrow]
      simp [filledRow, hempty, hp]
    refine ⟨m, rfl, ?_⟩
    intro later
    have hkeep := runCycles_cached_row ext later io (cycle ext ep filtered).2 hfilled
    refine ⟨by rw [hkeep, hval], ?_⟩
    rw [runCycles_projections, cycle_projections, hkeep, hval]
    exact hp

/-- On the example, the first cycle fills the cache of row 0, and two more
cycles, one of them failing, leave it as it is. -/
theorem cache_filled_once_witness :
    ((examplePlan []).heap.rows 0).cache = none ∧
    ((cycle exampleExternals (examplePlan []) [0]).2.heap.rows 0).cache ≠ none ∧
    ∃ m, evalProjections exampleExternals (examplePlan []).projections
        ((examplePlan []).heap.rows 0).input [] = .ok m ∧
      ∀ later : List (List Nat),
        (runCycles exampleExternals (cycle exampleExternals (examplePlan []) [0]).2
            later).heap.rows 0
          = ⟨((examplePlan []).heap.rows 0).input, some (Value.map m),
              exampleExternals.Hash (Value.map m)⟩ ∧
        evalProjections exampleExternals
            (runCycles exampleExternals (cycle exampleExternals (examplePlan []) [0]).2
              later).projections
            ((runCycles exampleExternals (cycle exampleExternals (examplePlan []) [0]).2
              later).heap.rows 0).input []
          = .ok m :=
  ⟨by decide, by decide,
    cache_filled_once exampleExternals (examplePlan []) [0] 0 (by decide) (by decide)⟩

/-! ## The emission differ -/

theorem any_same_iff (hashOf : Map → Nat) (prev : List resultRow)
    (hprev : ∀ p ∈ prev, p.hash = hashOf p.row) (res : resultRow)
    (hres : res.hash = hashOf res.row) :
    prev.any (fun p => res.same p) = decide (res.row ∈ prev.map (fun p => p.row)) := by
  rw [Bool.eq_iff_iff]
  simp only [List.any_eq_true, decide_eq_true_eq, List.mem_map, resultRow.same,
    Bool.and_eq_true]
  constructor
  · rintro ⟨p, hp, _, e⟩
    exact ⟨p, hp, e.symm⟩
  · rintro ⟨p, hp, e⟩
    exact ⟨p, hp, by rw [hres, hprev p hp, e], e.symm⟩

/-- With hashes determined by the content, ISTREAM keeps the Maps of `cur`
that are not among the Maps of `prev`. -/
theorem istream_eq_filter (hashOf : Map → Nat) (prev cur : List resultRow)
    (hprev : ∀ p ∈ prev, p.hash = hashOf p.row) (hcur : ∀ c ∈ cur, c.hash = hashOf c.row) :
    computeResultTuples .Istream prev cur
      = (cur.map (fun c => c.row)).filter
          (fun m => decide (m ∉ prev.map (fun p => p.row))) := by
  unfold computeResultTuples
  simp only
  rw [List.filter_map]
  congr 1
  apply List.filter_congr
  intro c hc
  simp only [Function.comp]
  rw [any_same_iff hashOf prev hprev c (hcur c hc), decide_not]

/-- C9, counterexample: with `prev` holding the Map `a: 2` once and `cur`
holding it twice (the second cycle of the test "ISTREAM/2 SECONDS statement
with a constant"), ISTREAM emits nothing, where the multiset difference
`cur − prev` holds the Map once; so (ISTREAM output) ⊎ (prev ∩ cur) is not
`cur`. -/
theorem istream_multiset_counterexample :
    computeResultTuples .Istream [⟨[("a", .int 2)], 3⟩]
        [⟨[("a", .int 2)], 3⟩, ⟨[("a", .int 2)], 3⟩] = [] ∧
    istreamBySpec [⟨[("a", .int 2)], 3⟩] [⟨[("a", .int 2)], 3⟩, ⟨[("a", .int 2)], 3⟩]
      = Multiset.ofList [[("a", .int 2)]] ∧
    Multiset.ofList (computeResultTuples .Istream [⟨[("a", .int 2)], 3⟩]
        [⟨[("a", .int 2)], 3⟩, ⟨[("a", .int 2)], 3⟩])
      + (Multiset.ofList [([("a", .int 2)] : Map)]
          ∩ Multiset.ofList [[("a", .int 2)], [("a", .int 2)]])
      ≠ Multiset.ofList [[("a", .int 2)], [("a", .int 2)]] ∧
    processAll exampleExternals
        (newPlan [⟨fun _ => .ok (.int 2), "a", []⟩] (.Seconds 2) none .Istream) (getTuples 2)
      = [.ok [[("a", .int 2)]], .ok []] ∧
    (stateAfter exampleExternals
        (newPlan [⟨fun _ => .ok (.int 2), "a", []⟩] (.Seconds 2) none .Istream)
        (getTuples 2)).ep.heap.contents
      (stateAfter exampleExternals
        (newPlan [⟨fun _ => .ok (.int 2), "a", []⟩] (.Seconds 2) none .Istream)
        (getTuples 2)).ep.prevResults = [⟨[("a", .int 2)], 3⟩] ∧
    (stateAfter exampleExternals
        (newPlan [⟨fun _ => .ok (.int 2), "a", []⟩] (.Seconds 2) none .Istream)
        (getTuples 2)).ep.heap.contents
      (stateAfter exampleExternals
        (newPlan [⟨fun _ => .ok (.int 2), "a", []⟩] (.Seconds 2) none .Istream)
        (getTuples 2)).ep.curResults = [⟨[("a", .int 2)], 3⟩, ⟨[("a", .int 2)], 3⟩] :=
  ⟨by decide, by decide, by decide, rfl, by decide, by decide⟩

/-- C9, amended: in ISTREAM mode a cycle emits the Maps of the rows of `cur`
that have no equal row in `prev` (the hash of a row being determined by its
Map): a Map that occurs in `prev` is not emitted at all, however often it
occurs in `cur`, and a Map that does not occur in `prev` is emitted as many
times as it occurs in `cur`.  Whenever no Map of `prev` occurs more often in
`cur` than in `prev`, this is the multiset difference `cur − prev`, and
(ISTREAM output) ⊎ (prev ∩ cur) = cur as multisets. -/
theorem istream_emits_absent_maps (hashOf : Map → Nat) (prev cur : List resultRow)
    (hprev : ∀ p ∈ prev, p.hash = hashOf p.row) (hcur : ∀ c ∈ cur, c.hash = hashOf c.row) :
    (∀ m : Map, Multiset.count m (Multiset.ofList (computeResultTuples .Istream prev cur))
      = if m ∈ prev.map (fun p => p.row) then 0
        else Multiset.count m (Multiset.ofList (cur.map (fun c => c.row)))) ∧
    ((∀ m ∈ prev.map (fun p => p.row),
        Multiset.count m (Multiset.ofList (cur.map (fun c => c.row)))
          ≤ Multiset.count m (Multiset.ofList (prev.map (fun p => p.row)))) →
      Multiset.ofList (computeResultTuples .Istream prev cur) = istreamBySpec prev cur ∧
      Multiset.ofList (computeResultTuples .Istream prev cur)
        + (Multiset.ofList (prev.map (fun p => p.row))
            ∩ Multiset.ofList (cur.map (fun c => c.row)))
        = Multiset.ofList (cur.map (fun c => c.row))) := by
  have hcount : ∀ m : Map,
      Multiset.count m (Multiset.ofList (computeResultTuples .Istream prev cur))
      = if m ∈ prev.map (fun p => p.row) then 0
        else Multiset.count m (Multiset.ofList (cur.map (fun c => c.row))) := by
    intro m
    rw [istream_eq_filter hashOf prev cur hprev hcur, ← Multiset.filter_coe]
    by_cases hm : m ∈ prev.map (fun p => p.row)
    · rw [if_pos hm]
      exact Multiset.count_filter_of_neg (fun h => h hm)
    · rw [if_neg hm]
      exact Multiset.count_filter_of_pos hm
  refine ⟨hcount, ?_⟩
  intro hle
  have hzero : ∀ m : Map, m ∉ prev.map (fun p => p.row) →
      Multiset.count m (Multiset.ofList (prev.map (fun p => p.row))) = 0 := by
    intro m hm
    exact Multiset.count_eq_zero_of_not_mem hm
  constructor
  · ext m
    unfold istreamBySpec
    rw [hcount m, Multiset.count_sub]
    by_cases hm : m ∈ prev.map (fun p => p.row)
    · rw [if_pos hm]
      have := hle m hm
      omega
    · rw [if_neg hm, hzero m hm]
      rfl
  · ext m
    rw [Multiset.count_add, Multiset.count_inter, hcount m]
    by_cases hm : m ∈ prev.map (fun p => p.row)
    · rw [if_pos hm]
      have := hle m hm
      simp only [zero_add]
      exact min_eq_right this
    · rw [if_neg hm, hzero m hm]
      simp

/-- On `prev = [a: 1]`, `cur = [a: 1, a: 2]` ISTREAM emits the one new Map. -/
theorem istream_emits_absent_maps_witness :
    (∀ p ∈ [(⟨[("a", .int 1)], 2⟩ : resultRow)],
      p.hash = exampleHash (Value.map p.row)) ∧
    (∀ c ∈ [(⟨[("a", .int 1)], 2⟩ : resultRow), ⟨[("a", .int 2)], 3⟩],
      c.hash = exampleHash (Value.map c.row)) ∧
    Multiset.count [("a", .int 2)]
        (Multiset.ofList (computeResultTuples .Istream [⟨[("a", .int 1)], 2⟩]
          [⟨[("a", .int 1)], 2⟩, ⟨[("a", .int 2)], 3⟩]))
      = if ([("a", .int 2)] : Map) ∈ [(⟨[("a", .int 1)], 2⟩ : resultRow)].map (fun p => p.row)
        then 0
        else Multiset.count [("a", .int 2)]
          (Multiset.ofList ([(⟨[("a", .int 1)], 2⟩ : resultRow), ⟨[("a", .int 2)], 3⟩].map
            (fun c => c.row))) :=
  ⟨by decide, by decide,
    (istream_emits_absent_maps (fun m => exampleHash (Value.map m)) [⟨[("a", .int 1)], 2⟩]
      [⟨[("a", .int 1)], 2⟩, ⟨[("a", .int 2)], 3⟩] (by decide) (by decide)).1 [("a", .int 2)]⟩

/-! ## A constant projection in ISTREAM mode -/

theorem evictTuples_ne_nil (n : Nat) :
    ∀ buffer : List Nat, buffer ≠ [] → evictTuples (n + 1) buffer ≠ [] := by
  intro buffer
  induction buffer with
  | nil => intro h; exact absurd rfl h
  | cons a rest ih =>
    intro _
    unfold evictTuples
    split
    · rename_i hlen
      apply ih
      intro e
      subst e
      simp at hlen
    · simp

theorem evictSeconds_ne_nil (d : Nat) (nowTs : Int) (rows : Nat → inputRowWithCachedResult)
    (a : Nat) (ha : (rows a).input.Timestamp = nowTs) :
    ∀ buffer : List Nat, evictSeconds d nowTs rows (buffer ++ [a]) ≠ [] := by
  intro buffer
  induction buffer with
  | nil =>
    have hnot : ¬ (rows a).input.Timestamp < nowTs - (d : Int) * 1000000000 := by
      rw [ha]; omega
    simp [evictSeconds, hnot]
  | cons b rest ih =>
    simp only [List.cons_append]
    unfold evictSeconds
    split
    · exact ih
    · simp

theorem evict_ne_nil (w : WindowSpec) (hw : w = .Tuples 2 ∨ w = .Seconds 2) (nowTs : Int)
    (rows : Nat → inputRowWithCachedResult) (a : Nat) (ha : (rows a).input.Timestamp = nowTs)
    (buffer : List Nat) : evict w nowTs rows (buffer ++ [a]) ≠ [] := by
  rcases hw with e | e
  · subst e
    exact evictTuples_ne_nil 1 _ (by simp)
  · subst e
    exact evictSeconds_ne_nil 2 nowTs rows a ha buffer

theorem evict_single (w : WindowSpec) (hw : w = .Tuples 2 ∨ w = .Seconds 2) (nowTs : Int)
    (rows : Nat → inputRowWithCachedResult) (a : Nat) (ha : (rows a).input.Timestamp = nowTs) :
    evict w nowTs rows [a] = [a] := by
  rcases hw with e | e
  · subst e
    simp [evict, evictTuples]
  · subst e
    have hnot : ¬ (rows a).input.Timestamp < nowTs - ((2 : Nat) : Int) * 1000000000 := by
      rw [ha]; omega
    simp only [evict, evictSeconds, hnot, if_false]

theorem firstError_replicate (n : Nat) (x : resultRow) :
    firstError (List.replicate n (.ok x)) = none := by
  induction n with
  | zero => rfl
  | succ k ih => simpa [List.replicate_succ, firstError] using ih

theorem resultsBeforeError_replicate (n : Nat) (x : resultRow) :
    resultsBeforeError (List.replicate n (.ok x)) = List.replicate n x := by
  induction n with
  | zero => rfl
  | succ k ih => simp [List.replicate_succ, resultsBeforeError, ih]

theorem resultRow.same_self (x : resultRow) : x.same x = true := by
  simp [resultRow.same]

/-- ISTREAM on `k` and `n` copies of one row: everything if `prev` is empty,
nothing otherwise. -/
theorem istream_replicate (k n : Nat) (x : resultRow) :
    computeResultTuples .Istream (List.replicate k x) (List.replicate n x)
      = if k = 0 then List.replicate n x.row else [] := by
  unfold computeResultTuples
  simp only
  cases k with
  | zero => simp
  | succ j =>
    have hnil : (List.replicate n x).filter
        (fun res => !((List.replicate (j + 1) x).any (fun p => res.same p))) = [] := by
      rw [List.filter_eq_nil_iff]
      intro r hr
      have e : r = x := List.eq_of_mem_replicate hr
      subst e
      simp [List.replicate_succ, resultRow.same_self]
    rw [hnil]
    simp

theorem process_ok (ext : Externals) (s : PlanState) (t : Tuple) (rows : List Nat)
    (hf : filteredRows (ingest s t) = .ok rows)
    (hok : (cycle ext (ingest s t).ep rows).1 = none) :
    process ext s t =
      (.ok (computeResultTuples s.emitterType
          ((cycle ext (ingest s t).ep rows).2.heap.contents
            (cycle ext (ingest s t).ep rows).2.prevResults)
          ((cycle ext (ingest s t).ep rows).2.heap.contents
            (cycle ext (ingest s t).ep rows).2.curResults)),
        { ingest s t with ep := (cycle ext (ingest s t).ep rows).2 }) := by
  unfold process
  rw [hf]
  simp only
  rcases hc : cycle ext (ingest s t).ep rows with ⟨e, ep2⟩
  rw [hc] at hok
  simp only at hok
  subst hok
  rfl

theorem outcomes_constant (ext : Externals) (projections : List Projection) (h : Heap)
    (x : resultRow) (hrows : ∀ a, rowResult ext projections (h.rows a) = .ok x)
    (addrs : List Nat) :
    outcomes ext projections h addrs = List.replicate addrs.length (.ok x) := by
  unfold outcomes
  induction addrs with
  | nil => rfl
  | cons a rest ih => simp [List.replicate_succ, hrows a, ih]

/-- One cycle of a plan with a constant projection: the invariant is kept, the
buffer is the evicted one, and the output is every Map of `cur` when the
buffer was empty before, nothing otherwise. -/
theorem process_constant (ext : Externals) (projections : List Projection) (m : Map)
    (hconst : ∀ t, evalProjections ext projections t [] = .ok m) (w : WindowSpec)
    (s : PlanState) (t : Tuple)
    (hinv : ConstantInv ext projections ⟨m, ext.Hash (Value.map m)⟩ w s) :
    ConstantInv ext projections ⟨m, ext.Hash (Value.map m)⟩ w (process ext s t).2 ∧
    (process ext s t).2.buffer = (ingest s t).buffer ∧
    (process ext s t).1
      = .ok (if s.buffer.length = 0 then List.replicate (ingest s t).buffer.length m else []) ∧
    (process ext s t).2
      = { ingest s t with ep := (cycle ext (ingest s t).ep (ingest s t).buffer).2 } := by
  obtain ⟨hsep, hproj, hrows, hcur, hfilter, hemit, hwin⟩ := hinv
  have hf : filteredRows (ingest s t) = .ok (ingest s t).buffer := by
    have : (ingest s t).filter = none := hfilter
    simp [filteredRows, this]
  have hproj1 : (ingest s t).ep.projections = projections := hproj
  have hrows1 : ∀ a, rowResult ext projections ((ingest s t).ep.heap.rows a)
      = .ok ⟨m, ext.Hash (Value.map m)⟩ := by
    intro a
    show rowResult ext projections
      (Function.update s.ep.heap.rows s.nextRow ⟨t, none, 0⟩ a) = _
    by_cases e : a = s.nextRow
    · subst e
      simp [rowResult, hconst]
    · simp [Function.update, e, hrows a]
  have hsep1 : Separate (ingest s t).ep := hsep
  have hcur1 : (ingest s t).ep.heap.contents (ingest s t).ep.curResults
      = List.replicate s.buffer.length ⟨m, ext.Hash (Value.map m)⟩ := hcur
  have hout : outcomes ext (ingest s t).ep.projections (ingest s t).ep.heap (ingest s t).buffer
      = List.replicate (ingest s t).buffer.length (.ok ⟨m, ext.Hash (Value.map m)⟩) := by
    rw [hproj1]
    exact outcomes_constant ext projections _ _ hrows1 _
  have hok : (cycle ext (ingest s t).ep (ingest s t).buffer).1 = none := by
    rw [cycle_error, hout, firstError_replicate]
  have hprev : (cycle ext (ingest s t).ep (ingest s t).buffer).2.heap.contents
      (cycle ext (ingest s t).ep (ingest s t).buffer).2.prevResults
        = List.replicate s.buffer.length ⟨m, ext.Hash (Value.map m)⟩ := by
    have e : (cycle ext (ingest s t).ep (ingest s t).buffer).2.prevResults
        = (ingest s t).ep.curResults := (performQueryOnBuffer_ok ext _ hok).2
    rw [e, cycle_keeps_cur ext _ _ hsep1, hcur1]
  have hnew : (cycle ext (ingest s t).ep (ingest s t).buffer).2.heap.contents
      (cycle ext (ingest s t).ep (ingest s t).buffer).2.curResults
        = List.replicate (ingest s t).buffer.length ⟨m, ext.Hash (Value.map m)⟩ := by
    rw [cycle_cur_contents ext _ _ hok, hout, resultsBeforeError_replicate]
  rw [process_ok ext s t _ hf hok]
  refine ⟨⟨cycle_separate ext _ _ hsep1, ?_, ?_, hnew, hfilter, hemit, hwin⟩, rfl, ?_, rfl⟩
  · rw [cycle_projections]; exact hproj1
  · intro a
    have h1 := cycle_rows ext (ingest s t).ep (ingest s t).buffer a
    rw [hproj1] at h1
    rcases h1 with e | e
    · rw [e]; exact hrows1 a
    · rw [e, rowResult_filledRow]; exact hrows1 a
  · simp only
    rw [hprev, hnew, hemit, istream_replicate]

theorem ingest_buffer_ne_nil (w : WindowSpec) (hw : w = .Tuples 2 ∨ w = .Seconds 2)
    (s : PlanState) (hwin : s.window = w) (t : Tuple) : (ingest s t).buffer ≠ [] := by
  show evict s.window t.Timestamp (Function.update s.ep.heap.rows s.nextRow ⟨t, none, 0⟩)
    (s.buffer ++ [s.nextRow]) ≠ []
  rw [hwin]
  exact evict_ne_nil w hw _ _ _ (by simp) _

/-- Once the buffer is not empty, a plan with a constant projection emits
nothing, whatever tuples follow. -/
theorem processAll_constant_later (ext : Externals) (projections : List Projection) (m : Map)
    (hconst : ∀ t, evalProjections ext projections t [] = .ok m) (w : WindowSpec)
    (hw : w = .Tuples 2 ∨ w = .Seconds 2) (ts : List Tuple) :
    ∀ s : PlanState, ConstantInv ext projections ⟨m, ext.Hash (Value.map m)⟩ w s →
      s.buffer ≠ [] → processAll ext s ts = List.replicate ts.length (.ok []) := by
  induction ts with
  | nil => intro s _ _; rfl
  | cons t rest ih =>
    intro s hinv hne
    obtain ⟨hinv2, hbuf, hout, _⟩ := process_constant ext projections m hconst w s t hinv
    have hlen : s.buffer.length ≠ 0 := by
      intro e
      exact hne (List.length_eq_zero.mp e)
    unfold processAll
    rw [hout, if_neg hlen, ih _ hinv2]
    · rfl
    · rw [hbuf]
      exact ingest_buffer_ne_nil w hw s hinv.2.2.2.2.2.2 t

theorem newPlan_constant (ext : Externals) (projections : List Projection) (m : Map)
    (hconst : ∀ t, evalProjections ext projections t [] = .ok m) (w : WindowSpec) :
    ConstantInv ext projections ⟨m, ext.Hash (Value.map m)⟩ w
      (newPlan projections w none .Istream) := by
  refine ⟨⟨?_, trivial, trivial⟩, rfl, ?_, rfl, rfl, rfl, rfl⟩
  · intro h
    exact h
  · intro a
    simp [newPlan, rowResult, hconst]

theorem stateAfter_constant (ext : Externals) (projections : List Projection) (m : Map)
    (hconst : ∀ t, evalProjections ext projections t [] = .ok m) (w : WindowSpec)
    (ts : List Tuple) :
    ∀ s : PlanState, ConstantInv ext projections ⟨m, ext.Hash (Value.map m)⟩ w s →
      ConstantInv ext projections ⟨m, ext.Hash (Value.map m)⟩ w (stateAfter ext s ts) := by
  induction ts with
  | nil => intro s hinv; exact hinv
  | cons t rest ih =>
    intro s hinv
    unfold stateAfter
    exact ih _ (process_constant ext projections m hconst w s t hinv).1

theorem evict_keeps_last (w : WindowSpec) (hw : w = .Tuples 2 ∨ w = .Seconds 2) (nowTs : Int)
    (rows : Nat → inputRowWithCachedResult) (b : Nat) (hb : (rows b).input.Timestamp = nowTs) :
    ∀ l : List Nat, ∃ l2, evict w nowTs rows (l ++ [b]) = l2 ++ [b] := by
  intro l
  induction l with
  | nil => exact ⟨[], by simpa using evict_single w hw nowTs rows b hb⟩
  | cons c rest ih =>
    obtain ⟨l2, h2⟩ := ih
    rcases hw with e | e
    · subst e
      simp only [evict, List.cons_append] at h2 ⊢
      unfold evictTuples
      split
      · exact ⟨l2, h2⟩
      · exact ⟨c :: rest, rfl⟩
    · subst e
      simp only [evict, List.cons_append] at h2 ⊢
      unfold evictSeconds
      split
      · exact ⟨l2, h2⟩
      · exact ⟨c :: rest, rfl⟩

theorem evict_keeps_two (w : WindowSpec) (hw : w = .Tuples 2 ∨ w = .Seconds 2) (nowTs : Int)
    (rows : Nat → inputRowWithCachedResult) (a b : Nat)
    (ha : nowTs - 2000000000 ≤ (rows a).input.Timestamp) :
    ∀ l : List Nat, ∃ l2, evict w nowTs rows (l ++ [a, b]) = l2 ++ [a, b] := by
  intro l
  induction l with
  | nil =>
    rcases hw with e | e
    · subst e
      exact ⟨[], by simp [evict, evictTuples]⟩
    · subst e
      have hnot : ¬ (rows a).input.Timestamp < nowTs - ((2 : Nat) : Int) * 1000000000 := by
        omega
      exact ⟨[], by simp only [evict, List.nil_append, evictSeconds, hnot, if_false]⟩
  | cons c rest ih =>
    obtain ⟨l2, h2⟩ := ih
    rcases hw with e | e
    · subst e
      simp only [evict, List.cons_append] at h2 ⊢
      unfold evictTuples
      split
      · exact ⟨l2, h2⟩
      · exact ⟨c :: rest, rfl⟩
    · subst e
      simp only [evict, List.cons_append] at h2 ⊢
      unfold evictSeconds
      split
      · exact ⟨l2, h2⟩
      · exact ⟨c :: rest, rfl⟩

/-- After a cycle the buffer ends with the row of the tuple just ingested. -/
theorem process_constant_endsWith (ext : Externals) (projections : List Projection) (m : Map)
    (hconst : ∀ t, evalProjections ext projections t [] = .ok m) (w : WindowSpec)
    (hw : w = .Tuples 2 ∨ w = .Seconds 2) (s : PlanState) (t : Tuple)
    (hinv : ConstantInv ext projections ⟨m, ext.Hash (Value.map m)⟩ w s) :
    EndsWith (process ext s t).2 t.Timestamp := by
  have hst := (process_constant ext projections m hconst w s t hinv).2.2.2
  have hwin : s.window = w := hinv.2.2.2.2.2.2
  obtain ⟨l2, h2⟩ := evict_keeps_last w hw t.Timestamp
    (Function.update s.ep.heap.rows s.nextRow ⟨t, none, 0⟩) s.nextRow (by simp) s.buffer
  refine ⟨l2, s.nextRow, ?_, ?_, ?_⟩
  · rw [hst]
    show evict s.window t.Timestamp _ (s.buffer ++ [s.nextRow]) = _
    rw [hwin]
    exact h2
  · rw [hst]
    exact Nat.lt_succ_self _
  · rw [hst]
    show ((cycle ext (ingest s t).ep (ingest s t).buffer).2.heap.rows s.nextRow).input.Timestamp
      = t.Timestamp
    have hrow : ((ingest s t).ep.heap.rows s.nextRow).input = t := by
      show (Function.update s.ep.heap.rows s.nextRow ⟨t, none, 0⟩ s.nextRow).input = t
      simp
    rcases cycle_rows ext (ingest s t).ep (ingest s t).buffer s.nextRow with e | e
    · rw [e, hrow]
    · rw [e, filledRow_input, hrow]

/-- With one tuple per second, after a cycle that found the buffer not empty
the buffer holds at least two rows. -/
theorem process_constant_two (ext : Externals) (projections : List Projection) (m : Map)
    (hconst : ∀ t, evalProjections ext projections t [] = .ok m) (w : WindowSpec)
    (hw : w = .Tuples 2 ∨ w = .Seconds 2) (s : PlanState) (t : Tuple) (ts : Int)
    (hinv : ConstantInv ext projections ⟨m, ext.Hash (Value.map m)⟩ w s)
    (hend : EndsWith s ts) (hsec : t.Timestamp = ts + 1000000000) :
    2 ≤ (process ext s t).2.buffer.length := by
  have hst := (process_constant ext projections m hconst w s t hinv).2.2.2
  have hwin : s.window = w := hinv.2.2.2.2.2.2
  obtain ⟨l, a, hl, ha, hts⟩ := hend
  have hrow : (Function.update s.ep.heap.rows s.nextRow ⟨t, none, 0⟩ a).input.Timestamp = ts := by
    simp [Function.update, Nat.ne_of_lt ha, hts]
  obtain ⟨l2, h2⟩ := evict_keeps_two w hw t.Timestamp
    (Function.update s.ep.heap.rows s.nextRow ⟨t, none, 0⟩) a s.nextRow
    (by rw [hrow]; omega) l
  have hbuf : (process ext s t).2.buffer = l2 ++ [a, s.nextRow] := by
    rw [hst]
    show evict s.window t.Timestamp _ (s.buffer ++ [s.nextRow]) = _
    rw [hwin, hl, List.append_assoc]
    exact h2
  rw [hbuf]
  simp

theorem stateAfter_constant_two (ext : Externals) (projections : List Projection) (m : Map)
    (hconst : ∀ t, evalProjections ext projections t [] = .ok m) (w : WindowSpec)
    (hw : w = .Tuples 2 ∨ w = .Seconds 2) (ts : List Tuple) :
    ∀ (s : PlanState) (a : Tuple),
      ConstantInv ext projections ⟨m, ext.Hash (Value.map m)⟩ w s →
      EndsWith s a.Timestamp → List.Chain OneSecondApart a ts → ts ≠ [] →
      2 ≤ (stateAfter ext s ts).buffer.length := by
  induction ts with
  | nil => intro s a _ _ _ hne; exact absurd rfl hne
  | cons t rest ih =>
    intro s a hinv hend hchain _
    obtain ⟨hat, hrest⟩ := List.chain_cons.mp hchain
    have hinv2 := (process_constant ext projections m hconst w s t hinv).1
    have hend2 := process_constant_endsWith ext projections m hconst w hw s t hinv
    have htwo := process_constant_two ext projections m hconst w hw s t a.Timestamp hinv hend hat
    unfold stateAfter
    cases rest with
    | nil => exact htwo
    | cons u rest2 => exact ih _ t hinv2 hend2 hrest (by simp)

/-- C10: for an ISTREAM query without filter whose projections yield the same
Map `m` for every tuple, over a window of 2 tuples or of 2 seconds, the first
cycle emits exactly that one Map and every later cycle emits nothing, for
every stream of tuples (one tuple per second in particular), although all
rows of the window project to `m`: after the stream `curResults` holds `m`,
with its hash, once per buffered row, and with one tuple per second the
buffer holds at least two rows from the second cycle on. -/
theorem istream_constant_emits_once (ext : Externals) (projections : List Projection) (m : Map)
    (hconst : ∀ t, evalProjections ext projections t [] = .ok m) (w : WindowSpec)
    (hw : w = .Tuples 2 ∨ w = .Seconds 2) (t : Tuple) (ts : List Tuple) :
    processAll ext (newPlan projections w none .Istream) (t :: ts)
      = .ok [m] :: List.replicate ts.length (.ok []) ∧
    (stateAfter ext (newPlan projections w none .Istream) (t :: ts)).ep.heap.contents
        (stateAfter ext (newPlan projections w none .Istream) (t :: ts)).ep.curResults
      = List.replicate (stateAfter ext (newPlan projections w none .Istream) (t :: ts)).buffer.length
          ⟨m, ext.Hash (Value.map m)⟩ ∧
    (stateAfter ext (newPlan projections w none .Istream) (t :: ts)).buffer ≠ [] ∧
    (List.Chain' OneSecondApart (t :: ts) → ts ≠ [] →
      2 ≤ (stateAfter ext (newPlan projections w none .Istream) (t :: ts)).buffer.length) := by
  have hinv := newPlan_constant ext projections m hconst w
  obtain ⟨hinv2, hbuf, hout, _⟩ :=
    process_constant ext projections m hconst w (newPlan projections w none .Istream) t hinv
  have hfirst : (ingest (newPlan projections w none .Istream) t).buffer = [0] := by
    show evict w t.Timestamp _ ([] ++ [0]) = [0]
    exact evict_single w hw _ _ _ (by simp [newPlan])
  have hne : (process ext (newPlan projections w none .Istream) t).2.buffer ≠ [] := by
    rw [hbuf, hfirst]; simp
  have hend := process_constant_endsWith ext projections m hconst w hw
    (newPlan projections w none .Istream) t hinv
  refine ⟨?_, (stateAfter_constant ext projections m hconst w (t :: ts) _ hinv).2.2.2.1, ?_, ?_⟩
  · unfold processAll
    rw [processAll_constant_later ext projections m hconst w hw ts _ hinv2 hne, hout, hfirst]
    rfl
  · unfold stateAfter
    clear hout hbuf hfirst hinv
    generalize process ext (newPlan projections w none .Istream) t = r at hinv2 hne
    obtain ⟨_, s⟩ := r
    simp only at hinv2 hne ⊢
    induction ts generalizing s with
    | nil => exact hne
    | cons u rest ih =>
      unfold stateAfter
      obtain ⟨hinv3, hbuf3, _, _⟩ := process_constant ext projections m hconst w s u hinv2
      apply ih _ hinv3
      rw [hbuf3]
      exact ingest_buffer_ne_nil w hw s hinv2.2.2.2.2.2.2 u
  · intro hchain hne2
    unfold stateAfter
    exact stateAfter_constant_two ext projections m hconst w hw ts _ t hinv2 hend hchain hne2

/-- The tests "ISTREAM/2 SECONDS statement with a constant" and "ISTREAM/2
TUPLES statement with a constant": the constant 2 under the alias `a`, fed
the four test tuples, is emitted in the first cycle only, while the window
ends with three rows, respectively two rows, projecting to it. -/
theorem istream_constant_emits_once_witness :
    (∀ t, evalProjections exampleExternals [⟨fun _ => .ok (.int 2), "a", []⟩] t []
      = .ok [("a", .int 2)]) ∧
    processAll exampleExternals
        (newPlan [⟨fun _ => .ok (.int 2), "a", []⟩] (.Seconds 2) none .Istream) (getTuples 4)
      = [.ok [[("a", .int 2)]], .ok [], .ok [], .ok []] ∧
    processAll exampleExternals
        (newPlan [⟨fun _ => .ok (.int 2), "a", []⟩] (.Tuples 2) none .Istream) (getTuples 4)
      = [.ok [[("a", .int 2)]], .ok [], .ok [], .ok []] ∧
    (stateAfter exampleExternals
        (newPlan [⟨fun _ => .ok (.int 2), "a", []⟩] (.Seconds 2) none .Istream)
        (getTuples 4)).buffer.length = 3 ∧
    (stateAfter exampleExternals
        (newPlan [⟨fun _ => .ok (.int 2), "a", []⟩] (.Tuples 2) none .Istream)
        (getTuples 4)).buffer.length = 2 :=
  ⟨fun _ => rfl,
    (istream_constant_emits_once exampleExternals [⟨fun _ => .ok (.int 2), "a", []⟩]
      [("a", .int 2)] (fun _ => rfl) (.Seconds 2) (Or.inr rfl) (getTuple 0)
      [getTuple 1, getTuple 2, getTuple 3]).1,
    (istream_constant_emits_once exampleExternals [⟨fun _ => .ok (.int 2), "a", []⟩]
      [("a", .int 2)] (fun _ => rfl) (.Tuples 2) (Or.inl rfl) (getTuple 0)
      [getTuple 1, getTuple 2, getTuple 3]).1,
    by decide, by decide⟩

/-! ## The cycle `process`, case by case -/

theorem process_filter_error (ext : Externals) (s : PlanState) (t : Tuple) (err : Error)
    (hf : filteredRows (ingest s t) = .error err) :
    process ext s t = (.error err, ingest s t) := by
  unfold process
  rw [hf]

theorem process_failed (ext : Externals) (s : PlanState) (t : Tuple) (rows : List Nat)
    (err : Error) (hf : filteredRows (ingest s t) = .ok rows)
    (hfail : (cycle ext (ingest s t).ep rows).1 = some err) :
    process ext s t
      = (.error err, { ingest s t with ep := (cycle ext (ingest s t).ep rows).2 }) := by
  unfold process
  rw [hf]
  simp only
  rcases hc : cycle ext (ingest s t).ep rows with ⟨e, ep2⟩
  rw [hc] at hfail
  simp only at hfail
  subst hfail
  rfl

theorem cycle_input (ext : Externals) (ep : defaultSelectExecutionPlan) (filtered : List Nat)
    (a : Nat) : ((cycle ext ep filtered).2.heap.rows a).input = (ep.heap.rows a).input := by
  rcases cycle_rows ext ep filtered a with e | e
  · rw [e]
  · rw [e, filledRow_input]

/-- Whatever the outcome of the cycle, the buffer, the counters and the
settings of the plan are those of the ingest step, and every row object keeps
its tuple. -/
theorem process_frame (ext : Externals) (s : PlanState) (t : Tuple) :
    (process ext s t).2.buffer = (ingest s t).buffer ∧
    (process ext s t).2.nextRow = s.nextRow + 1 ∧
    (process ext s t).2.window = s.window ∧
    (process ext s t).2.filter = s.filter ∧
    (process ext s t).2.emitterType = s.emitterType ∧
    (process ext s t).2.ep.projections = s.ep.projections ∧
    ∀ a, ((process ext s t).2.ep.heap.rows a).input = ((ingest s t).ep.heap.rows a).input := by
  cases hf : filteredRows (ingest s t) with
  | error err =>
    rw [process_filter_error ext s t err hf]
    exact ⟨rfl, rfl, rfl, rfl, rfl, rfl, fun _ => rfl⟩
  | ok rows =>
    cases hc : (cycle ext (ingest s t).ep rows).1 with
    | none =>
      rw [process_ok ext s t rows hf hc]
      exact ⟨rfl, rfl, rfl, rfl, rfl, cycle_projections ext _ rows,
        fun a => cycle_input ext _ rows a⟩
    | some err =>
      rw [process_failed ext s t rows err hf hc]
      exact ⟨rfl, rfl, rfl, rfl, rfl, cycle_projections ext _ rows,
        fun a => cycle_input ext _ rows a⟩

theorem process_ok_inv (ext : Externals) (s : PlanState) (t : Tuple) (out : List Map)
    (hout : (process ext s t).1 = .ok out) :
    ∃ rows, filteredRows (ingest s t) = .ok rows ∧
      (cycle ext (ingest s t).ep rows).1 = none := by
  cases hf : filteredRows (ingest s t) with
  | error err =>
    rw [process_filter_error ext s t err hf] at hout
    cases hout
  | ok rows =>
    refine ⟨rows, rfl, ?_⟩
    cases hc : (cycle ext (ingest s t).ep rows).1 with
    | none => rfl
    | some err =>
      rw [process_failed ext s t rows err hf hc] at hout
      cases hout

/-! ## RSTREAM and DSTREAM -/

/-- C12: in RSTREAM mode a cycle that succeeds emits every Map of `cur`, one
output per result row and in the order `cur` holds them, so the output equals
`cur` as a multiset; `cur` holds one row per row of the filtered window, so the
output has one entry per filtered row, the projection of that row. -/
theorem rstream_emits_cur (ext : Externals) (s : PlanState) (t : Tuple) (rows : List Nat)
    (out : List Map) (hmode : s.emitterType = .Rstream)
    (hf : filteredRows (ingest s t) = .ok rows) (hout : (process ext s t).1 = .ok out) :
    out = ((process ext s t).2.ep.heap.contents (process ext s t).2.ep.curResults).map
        (fun res => res.row) ∧
    Multiset.ofList out
      = Multiset.ofList (((process ext s t).2.ep.heap.contents
          (process ext s t).2.ep.curResults).map (fun res => res.row)) ∧
    out.length = rows.length ∧
    out.map Except.ok
      = rows.map (fun io =>
          (rowResult ext s.ep.projections ((ingest s t).ep.heap.rows io)).map
            (fun res => res.row)) := by
  obtain ⟨rows2, hf2, hok⟩ := process_ok_inv ext s t out hout
  rw [hf] at hf2
  cases hf2
  have hp := process_ok ext s t rows hf hok
  rw [hp] at hout ⊢
  simp only [Except.ok.injEq] at hout
  rw [hmode] at hout
  have h1 : out = ((cycle ext (ingest s t).ep rows).2.heap.contents
      (cycle ext (ingest s t).ep rows).2.curResults).map (fun res => res.row) := hout.symm
  have h2 := performQueryOnBuffer_ok_outcomes ext
    { (ingest s t).ep with filteredInputRows := rows } hok
  have h3 : (((cycle ext (ingest s t).ep rows).2.heap.contents
      (cycle ext (ingest s t).ep rows).2.curResults).map (fun res => res.row)).map
        (Except.ok : Map → Except Error Map)
      = rows.map (fun io =>
          (rowResult ext s.ep.projections ((ingest s t).ep.heap.rows io)).map
            (fun res => res.row)) := by
    have := congrArg (List.map (Except.map (fun res : resultRow => res.row))) h2
    simpa [List.map_map, Function.comp, Except.map] using this
  refine ⟨h1, by rw [h1], ?_, ?_⟩
  · have := congrArg List.length h3
    simpa [h1] using this
  · rw [h1]
    exact h3

/-- The test "RSTREAM/2 SECONDS statement with a column": the third cycle emits
the three rows of the window in order, and the four cycles emit what the test
expects. -/
theorem rstream_emits_cur_witness :
    (stateAfter exampleExternals (newPlan [⟨column "int", "a", []⟩] (.Seconds 2) none .Rstream)
      (getTuples 2)).emitterType = .Rstream ∧
    filteredRows (ingest (stateAfter exampleExternals
      (newPlan [⟨column "int", "a", []⟩] (.Seconds 2) none .Rstream) (getTuples 2)) (getTuple 2))
      = .ok [0, 1, 2] ∧
    (process exampleExternals (stateAfter exampleExternals
      (newPlan [⟨column "int", "a", []⟩] (.Seconds 2) none .Rstream) (getTuples 2)) (getTuple 2)).1
      = .ok [[("a", .int 1)], [("a", .int 2)], [("a", .int 3)]] ∧
    ([[("a", .int 1)], [("a", .int 2)], [("a", .int 3)]] : List Map).length
      = ([0, 1, 2] : List Nat).length ∧
    processAll exampleExternals (newPlan [⟨column "int", "a", []⟩] (.Seconds 2) none .Rstream)
        (getTuples 4)
      = [.ok [[("a", .int 1)]], .ok [[("a", .int 1)], [("a", .int 2)]],
         .ok [[("a", .int 1)], [("a", .int 2)], [("a", .int 3)]],
         .ok [[("a", .int 2)], [("a", .int 3)], [("a", .int 4)]]] :=
  ⟨rfl, rfl, rfl,
    (rstream_emits_cur exampleExternals (stateAfter exampleExternals
      (newPlan [⟨column "int", "a", []⟩] (.Seconds 2) none .Rstream) (getTuples 2)) (getTuple 2)
      [0, 1, 2] [[("a", .int 1)], [("a", .int 2)], [("a", .int 3)]] rfl rfl rfl).2.2.1,
    rfl⟩

theorem resultRow.same_iff_row (hashOf : Map → Nat) (p x : resultRow)
    (hp : p.hash = hashOf p.row) (hx : x.hash = hashOf x.row) :
    p.same x = true ↔ p.row = x.row := by
  unfold resultRow.same
  rw [Bool.and_eq_true, decide_eq_true_eq, decide_eq_true_eq]
  constructor
  · exact fun h => h.2
  · intro h
    exact ⟨by rw [hp, hx, h], h⟩

theorem resultRow.removeFirst_subset (x : resultRow) (l : List resultRow) :
    ∀ p ∈ resultRow.removeFirst x l, p ∈ l := by
  induction l with
  | nil => exact fun p hp => hp
  | cons a rest ih =>
    intro p hp
    unfold resultRow.removeFirst at hp
    split at hp
    · exact List.mem_cons_of_mem _ hp
    · rcases List.mem_cons.1 hp with h | h
      · rw [h]
        exact List.mem_cons_self _ _
      · exact List.mem_cons_of_mem _ (ih p h)

/-- With hashes determined by the content, the removal of the first row equal
to `x` removes the Map of `x` once. -/
theorem resultRow.removeFirst_rows (hashOf : Map → Nat) (x : resultRow)
    (hx : x.hash = hashOf x.row) (l : List resultRow) (hl : ∀ p ∈ l, p.hash = hashOf p.row) :
    Multiset.ofList ((resultRow.removeFirst x l).map (fun res => res.row))
      = (Multiset.ofList (l.map (fun res => res.row))).erase x.row := by
  induction l with
  | nil => rfl
  | cons a rest ih =>
    have ha := hl a (List.mem_cons_self _ _)
    have hrest : ∀ p ∈ rest, p.hash = hashOf p.row :=
      fun p hp => hl p (List.mem_cons_of_mem _ hp)
    unfold resultRow.removeFirst
    by_cases h : a.same x = true
    · rw [if_pos h]
      have e := (resultRow.same_iff_row hashOf a x ha hx).1 h
      rw [List.map_cons, ← Multiset.cons_coe, e, Multiset.erase_cons_head]
    · rw [if_neg h]
      have e : a.row ≠ x.row :=
        fun e => h ((resultRow.same_iff_row hashOf a x ha hx).2 e)
      rw [List.map_cons, List.map_cons, ← Multiset.cons_coe, ← Multiset.cons_coe,
        Multiset.erase_cons_tail _ e, ih hrest]

/-- With hashes determined by the content, the Maps of the rows that DSTREAM
keeps are the multiset difference of the Maps of `prev` and of `cur`. -/
theorem dstreamRows_rows (hashOf : Map → Nat) (cur : List resultRow)
    (hcur : ∀ c ∈ cur, c.hash = hashOf c.row) :
    ∀ prev : List resultRow, (∀ p ∈ prev, p.hash = hashOf p.row) →
      Multiset.ofList ((dstreamRows prev cur).map (fun res => res.row))
        = Multiset.ofList (prev.map (fun res => res.row))
          - Multiset.ofList (cur.map (fun res => res.row)) := by
  induction cur with
  | nil =>
    intro prev _
    show Multiset.ofList (prev.map (fun res => res.row)) = _ - 0
    rw [Multiset.sub_zero]
  | cons c cs ih =>
    intro prev hprev
    have hc := hcur c (List.mem_cons_self _ _)
    have hcs : ∀ x ∈ cs, x.hash = hashOf x.row :=
      fun x hx => hcur x (List.mem_cons_of_mem _ hx)
    show Multiset.ofList ((dstreamRows (resultRow.removeFirst c prev) cs).map
      (fun res => res.row)) = _
    rw [ih hcs (resultRow.removeFirst c prev)
        (fun p hp => hprev p (resultRow.removeFirst_subset c prev p hp)),
      resultRow.removeFirst_rows hashOf c hc prev hprev, List.map_cons, ← Multiset.cons_coe,
      Multiset.sub_cons]

theorem dstreamRows_nil (cur : List resultRow) : dstreamRows [] cur = [] := by
  induction cur with
  | nil => rfl
  | cons c cs ih => exact ih

/-- While the window only grows, every row of `prev` is taken out by its own
copy in `cur`, and DSTREAM keeps nothing. -/
theorem dstreamRows_grown (grown : List resultRow) :
    ∀ prev : List resultRow, dstreamRows prev (prev ++ grown) = [] := by
  intro prev
  induction prev with
  | nil => exact dstreamRows_nil _
  | cons a rest ih =>
    show dstreamRows (resultRow.removeFirst a (a :: rest)) (rest ++ grown) = []
    unfold resultRow.removeFirst
    rw [if_pos (resultRow.same_self a)]
    exact ih

/-- C11, counterexample: the tests "DSTREAM/2 TUPLES statement with a constant"
and "DSTREAM/2 SECONDS statement with a constant": in the third cycle of the
first one row 0 leaves the window (the buffer goes from rows 0, 1 to rows
1, 2), and nothing is emitted, in this cycle or in any other, since the row
that enters projects to the same Map `a: 2` as the row that leaves: `prev` and
`cur` hold this Map twice each. -/
theorem dstream_silent_when_row_leaves :
    processAll exampleExternals
        (newPlan [⟨fun _ => .ok (.int 2), "a", []⟩] (.Tuples 2) none .Dstream) (getTuples 4)
      = [.ok [], .ok [], .ok [], .ok []] ∧
    processAll exampleExternals
        (newPlan [⟨fun _ => .ok (.int 2), "a", []⟩] (.Seconds 2) none .Dstream) (getTuples 4)
      = [.ok [], .ok [], .ok [], .ok []] ∧
    (stateAfter exampleExternals
        (newPlan [⟨fun _ => .ok (.int 2), "a", []⟩] (.Tuples 2) none .Dstream)
        (getTuples 2)).buffer = [0, 1] ∧
    (stateAfter exampleExternals
        (newPlan [⟨fun _ => .ok (.int 2), "a", []⟩] (.Tuples 2) none .Dstream)
        (getTuples 3)).buffer = [1, 2] ∧
    (process exampleExternals (stateAfter exampleExternals
        (newPlan [⟨fun _ => .ok (.int 2), "a", []⟩] (.Tuples 2) none .Dstream)
        (getTuples 2)) (getTuple 2)).1 = .ok [] ∧
    (stateAfter exampleExternals
        (newPlan [⟨fun _ => .ok (.int 2), "a", []⟩] (.Tuples 2) none .Dstream)
        (getTuples 3)).ep.heap.contents
      (stateAfter exampleExternals
        (newPlan [⟨fun _ => .ok (.int 2), "a", []⟩] (.Tuples 2) none .Dstream)
        (getTuples 3)).ep.prevResults
      = [⟨[("a", .int 2)], 3⟩, ⟨[("a", .int 2)], 3⟩] ∧
    (stateAfter exampleExternals
        (newPlan [⟨fun _ => .ok (.int 2), "a", []⟩] (.Tuples 2) none .Dstream)
        (getTuples 3)).ep.heap.contents
      (stateAfter exampleExternals
        (newPlan [⟨fun _ => .ok (.int 2), "a", []⟩] (.Tuples 2) none .Dstream)
        (getTuples 3)).ep.curResults
      = [⟨[("a", .int 2)], 3⟩, ⟨[("a", .int 2)], 3⟩] :=
  ⟨rfl, rfl, by decide, by decide, rfl, by decide, by decide⟩

/-- C11, amended: in DSTREAM mode a cycle emits the multiset difference
`prev − cur` of the Maps (the hash of a row being determined by its Map), so
that (DSTREAM output) ⊎ (prev ∩ cur) = prev as multisets: a Map is emitted as
many times as it occurs more often in `prev` than in `cur`, and it is emitted
at all exactly when it does so.  So the projection of a row that leaves the
window is emitted in that cycle only as far as the rows of the new window do
not make up for it with the same projection, and nothing is emitted while the
window only grows. -/
theorem dstream_emits_multiset_difference (hashOf : Map → Nat) (prev cur : List resultRow)
    (hprev : ∀ p ∈ prev, p.hash = hashOf p.row) (hcur : ∀ c ∈ cur, c.hash = hashOf c.row) :
    Multiset.ofList (computeResultTuples .Dstream prev cur) = dstreamBySpec prev cur ∧
    Multiset.ofList (computeResultTuples .Dstream prev cur)
      + (Multiset.ofList (prev.map (fun p => p.row))
          ∩ Multiset.ofList (cur.map (fun c => c.row)))
      = Multiset.ofList (prev.map (fun p => p.row)) ∧
    (∀ m : Map, Multiset.count m (Multiset.ofList (computeResultTuples .Dstream prev cur))
      = Multiset.count m (Multiset.ofList (prev.map (fun p => p.row)))
        - Multiset.count m (Multiset.ofList (cur.map (fun c => c.row)))) ∧
    (∀ m : Map, m ∈ computeResultTuples .Dstream prev cur ↔
      Multiset.count m (Multiset.ofList (cur.map (fun c => c.row)))
        < Multiset.count m (Multiset.ofList (prev.map (fun p => p.row)))) ∧
    (Multiset.ofList (prev.map (fun p => p.row)) ≤ Multiset.ofList (cur.map (fun c => c.row)) →
      computeResultTuples .Dstream prev cur = []) ∧
    (∀ grown : List resultRow, computeResultTuples .Dstream prev (prev ++ grown) = []) := by
  have hd : Multiset.ofList (computeResultTuples .Dstream prev cur) = dstreamBySpec prev cur :=
    dstreamRows_rows hashOf cur hcur prev hprev
  have hcount : ∀ m : Map,
      Multiset.count m (Multiset.ofList (computeResultTuples .Dstream prev cur))
        = Multiset.count m (Multiset.ofList (prev.map (fun p => p.row)))
          - Multiset.count m (Multiset.ofList (cur.map (fun c => c.row))) := by
    intro m
    rw [hd]
    exact Multiset.count_sub m _ _
  refine ⟨hd, ?_, hcount, fun m => ?_, fun hle => ?_, fun grown => ?_⟩
  · rw [hd]
    exact Multiset.sub_add_inter _ _
  · rw [← Multiset.mem_coe, ← Multiset.count_pos, hcount m]
    omega
  · have h0 : Multiset.ofList (computeResultTuples .Dstream prev cur) = 0 := by
      rw [hd]
      exact tsub_eq_zero_of_le hle
    exact (Multiset.coe_eq_zero _).1 h0
  · show (dstreamRows prev (prev ++ grown)).map (fun res => res.row) = []
    rw [dstreamRows_grown grown prev]
    rfl

/-- The test "DSTREAM/2 SECONDS statement with a column", fourth cycle: `prev`
holds `a: 1`, `a: 2`, `a: 3` and `cur` holds `a: 2`, `a: 3`, `a: 4`; the Map
`a: 1` of the row that left the window occurs once in `prev` and not in `cur`,
and is emitted once.  The four cycles of this test and of the test over
`[RANGE 2 TUPLES]` emit what the tests expect. -/
theorem dstream_emits_multiset_difference_witness :
    (∀ p ∈ [(⟨[("a", .int 1)], 2⟩ : resultRow), ⟨[("a", .int 2)], 3⟩, ⟨[("a", .int 3)], 4⟩],
      p.hash = exampleHash (Value.map p.row)) ∧
    (∀ c ∈ [(⟨[("a", .int 2)], 3⟩ : resultRow), ⟨[("a", .int 3)], 4⟩, ⟨[("a", .int 4)], 5⟩],
      c.hash = exampleHash (Value.map c.row)) ∧
    computeResultTuples .Dstream
        [⟨[("a", .int 1)], 2⟩, ⟨[("a", .int 2)], 3⟩, ⟨[("a", .int 3)], 4⟩]
        [⟨[("a", .int 2)], 3⟩, ⟨[("a", .int 3)], 4⟩, ⟨[("a", .int 4)], 5⟩]
      = [[("a", .int 1)]] ∧
    Multiset.ofList (computeResultTuples .Dstream
        [⟨[("a", .int 1)], 2⟩, ⟨[("a", .int 2)], 3⟩, ⟨[("a", .int 3)], 4⟩]
        [⟨[("a", .int 2)], 3⟩, ⟨[("a", .int 3)], 4⟩, ⟨[("a", .int 4)], 5⟩])
      = dstreamBySpec [⟨[("a", .int 1)], 2⟩, ⟨[("a", .int 2)], 3⟩, ⟨[("a", .int 3)], 4⟩]
          [⟨[("a", .int 2)], 3⟩, ⟨[("a", .int 3)], 4⟩, ⟨[("a", .int 4)], 5⟩] ∧
    processAll exampleExternals (newPlan [⟨column "int", "a", []⟩] (.Seconds 2) none .Dstream)
        (getTuples 4)
      = [.ok [], .ok [], .ok [], .ok [[("a", .int 1)]]] ∧
    processAll exampleExternals (newPlan [⟨column "int", "a", []⟩] (.Tuples 2) none .Dstream)
        (getTuples 4)
      = [.ok [], .ok [], .ok [[("a", .int 1)]], .ok [[("a", .int 2)]]] :=
  ⟨by decide, by decide, by decide,
    (dstream_emits_multiset_difference (fun m => exampleHash (Value.map m))
      [⟨[("a", .int 1)], 2⟩, ⟨[("a", .int 2)], 3⟩, ⟨[("a", .int 3)], 4⟩]
      [⟨[("a", .int 2)], 3⟩, ⟨[("a", .int 3)], 4⟩, ⟨[("a", .int 4)], 5⟩]
      (by decide) (by decide)).1,
    rfl, rfl⟩

/-! ## The window buffer -/

theorem ingest_buffer (s : PlanState) (t : Tuple) :
    (ingest s t).buffer = evict s.window t.Timestamp
      (Function.update s.ep.heap.rows s.nextRow ⟨t, none, 0⟩) (s.buffer ++ [s.nextRow]) := rfl

theorem ingest_input_new (s : PlanState) (t : Tuple) :
    ((ingest s t).ep.heap.rows s.nextRow).input = t := by
  show (Function.update s.ep.heap.rows s.nextRow ⟨t, none, 0⟩ s.nextRow).input = t
  simp

theorem ingest_row_old (s : PlanState) (t : Tuple) (a : Nat) (ha : a ≠ s.nextRow) :
    (ingest s t).ep.heap.rows a = s.ep.heap.rows a := by
  show Function.update s.ep.heap.rows s.nextRow ⟨t, none, 0⟩ a = s.ep.heap.rows a
  simp [Function.update, ha]

theorem newPlan_ingested (projections : List Projection) (w : WindowSpec)
    (filter : Option (Tuple → Except Error Value)) (emitterType : Emitter) :
    Ingested (newPlan projections w filter emitterType) [] :=
  ⟨rfl, fun i hi => absurd hi (Nat.not_lt_zero i)⟩

theorem process_ingested (ext : Externals) (s : PlanState) (t : Tuple) (hist : List Tuple)
    (hing : Ingested s hist) : Ingested (process ext s t).2 (hist ++ [t]) := by
  obtain ⟨hn, hrows⟩ := hing
  obtain ⟨_, hnext, _, _, _, _, hinput⟩ := process_frame ext s t
  refine ⟨by rw [hnext, hn]; simp, ?_⟩
  intro i hi
  rw [hinput i]
  by_cases e : i = s.nextRow
  · subst e
    rw [ingest_input_new, hn]
    simp
  · have hlt : i < hist.length := by
      simp only [List.length_append, List.length_singleton] at hi
      omega
    rw [ingest_row_old s t i e, List.getElem?_append_left hlt]
    exact hrows i hlt

theorem stateAfter_ingested (ext : Externals) (stream : List Tuple) :
    ∀ (s : PlanState) (hist : List Tuple), Ingested s hist →
      Ingested (stateAfter ext s stream) (hist ++ stream) := by
  induction stream with
  | nil => intro s hist h; simpa [stateAfter] using h
  | cons t rest ih =>
    intro s hist h
    unfold stateAfter
    have := ih _ _ (process_ingested ext s t hist h)
    simpa using this

theorem evictTuples_eq_drop (n : Nat) :
    ∀ l : List Nat, evictTuples n l = l.drop (l.length - n) := by
  intro l
  induction l with
  | nil => simp [evictTuples]
  | cons a rest ih =>
    unfold evictTuples
    split
    · rename_i h
      rw [ih]
      simp only [List.length_cons] at h ⊢
      have e : rest.length + 1 - n = (rest.length - n) + 1 := by omega
      rw [e, List.drop_succ_cons]
    · rename_i h
      simp only [List.length_cons] at h ⊢
      have e : rest.length + 1 - n = 0 := by omega
      rw [e, List.drop_zero]

/-- Appending the next address to the last `N` of `0 .. k - 1` and evicting
leaves the last `N` of `0 .. k`. -/
theorem evictTuples_range (n k : Nat) :
    evictTuples n ((List.range k).drop (k - n) ++ [k]) = (List.range (k + 1)).drop (k + 1 - n) := by
  rw [evictTuples_eq_drop, List.range_succ]
  have hle : k - n ≤ (List.range k).length := by simp
  rw [← List.drop_append_of_le_length hle, List.drop_drop]
  congr 1
  simp only [List.length_drop, List.length_append, List.length_range, List.length_singleton]
  omega

theorem stateAfter_tuples (ext : Externals) (n : Nat) (stream : List Tuple) :
    ∀ s : PlanState, s.window = .Tuples n →
      s.buffer = (List.range s.nextRow).drop (s.nextRow - n) →
      (stateAfter ext s stream).buffer
        = (List.range (s.nextRow + stream.length)).drop (s.nextRow + stream.length - n) := by
  induction stream with
  | nil => intro s _ hb; simpa [stateAfter] using hb
  | cons t rest ih =>
    intro s hw hb
    unfold stateAfter
    obtain ⟨hbuf, hnext, hwin, _, _, _, _⟩ := process_frame ext s t
    have hb2 : (process ext s t).2.buffer
        = (List.range (process ext s t).2.nextRow).drop ((process ext s t).2.nextRow - n) := by
      rw [hbuf, hnext, ingest_buffer, hw, hb]
      exact evictTuples_range n s.nextRow
    rw [ih _ (by rw [hwin]; exact hw) hb2, hnext]
    simp only [List.length_cons]
    have e : s.nextRow + 1 + rest.length = s.nextRow + (rest.length + 1) := by omega
    rw [e]

theorem ingested_map (s : PlanState) (hist : List Tuple) (hing : Ingested s hist) :
    (List.range hist.length).map (fun a => (s.ep.heap.rows a).input) = hist := by
  apply List.ext_getElem?
  intro i
  by_cases hi : i < hist.length
  · rw [List.getElem?_map, List.getElem?_range hi, hing.2 i hi]
    rfl
  · have h1 : hist.length ≤ i := Nat.le_of_not_lt hi
    rw [List.getElem?_eq_none (by simpa using h1), List.getElem?_eq_none h1]

/-- C14: for a window of N tuples, after ingesting the k-th tuple of any stream
(whatever the filter, the emission mode and the outcome of the cycles) the
buffer holds exactly the last min(k, N) ingested rows in ingestion order: the
addresses of the last min(k, N) row objects, which hold the last min(k, N)
tuples of the stream; it never holds more than N rows. -/
theorem tuples_window_holds_last (ext : Externals) (projections : List Projection) (n : Nat)
    (filter : Option (Tuple → Except Error Value)) (emitterType : Emitter)
    (stream : List Tuple) :
    (stateAfter ext (newPlan projections (.Tuples n) filter emitterType) stream).buffer
      = (List.range stream.length).drop (stream.length - n) ∧
    (stateAfter ext (newPlan projections (.Tuples n) filter emitterType) stream).buffer.map
        (fun a => ((stateAfter ext (newPlan projections (.Tuples n) filter emitterType)
          stream).ep.heap.rows a).input)
      = stream.drop (stream.length - n) ∧
    (stateAfter ext (newPlan projections (.Tuples n) filter emitterType) stream).buffer.length
      = min stream.length n ∧
    (stateAfter ext (newPlan projections (.Tuples n) filter emitterType) stream).buffer.length
      ≤ n := by
  have hb := stateAfter_tuples ext n stream (newPlan projections (.Tuples n) filter emitterType)
    rfl (by simp [newPlan])
  have hzero : (newPlan projections (.Tuples n) filter emitterType).nextRow = 0 := rfl
  rw [hzero] at hb
  simp only [Nat.zero_add] at hb
  have hing := stateAfter_ingested ext stream _ _
    (newPlan_ingested projections (.Tuples n) filter emitterType)
  simp only [List.nil_append] at hing
  refine ⟨hb, ?_, ?_, ?_⟩
  · rw [hb, List.map_drop, ingested_map _ stream hing]
  · rw [hb]
    simp only [List.length_drop, List.length_range]
    omega
  · rw [hb]
    simp only [List.length_drop, List.length_range]
    omega

/-- On a list along which the timestamps do not decrease, dropping the heads
that are too old leaves exactly the rows that are not too old. -/
theorem evictSeconds_eq_filter (d : Nat) (nowTs : Int) (rows : Nat → inputRowWithCachedResult) :
    ∀ l : List Nat,
      l.Pairwise (fun a b => (rows a).input.Timestamp ≤ (rows b).input.Timestamp) →
      evictSeconds d nowTs rows l
        = l.filter (fun a => decide (nowTs - (d : Int) * 1000000000 ≤ (rows a).input.Timestamp)) := by
  intro l
  induction l with
  | nil => intro _; rfl
  | cons a rest ih =>
    intro hp
    obtain ⟨ha, hrest⟩ := List.pairwise_cons.mp hp
    unfold evictSeconds
    split
    · rename_i hold
      rw [ih hrest, List.filter_cons_of_neg]
      simp only [decide_eq_true_eq]
      omega
    · rename_i hnew
      rw [List.filter_cons_of_pos (by simp only [decide_eq_true_eq]; omega)]
      congr 1
      symm
      rw [List.filter_eq_self]
      intro b hb
      have := ha b hb
      simp only [decide_eq_true_eq]
      omega

theorem process_eventTs (ext : Externals) (s : PlanState) (t : Tuple) (a : Nat) :
    eventTs (process ext s t).2 a = if a = s.nextRow then t.Timestamp else eventTs s a := by
  unfold eventTs
  rw [(process_frame ext s t).2.2.2.2.2.2 a]
  by_cases e : a = s.nextRow
  · subst e
    rw [if_pos rfl, ingest_input_new]
  · rw [if_neg e, ingest_row_old s t a e]

theorem process_timeWindow (ext : Externals) (d : Nat) (s : PlanState) (t : Tuple) (nowTs : Int)
    (hw : s.window = .Seconds d) (hinv : TimeWindowInv d s nowTs) (hnow : nowTs ≤ t.Timestamp) :
    TimeWindowInv d (process ext s t).2 t.Timestamp := by
  obtain ⟨hbuf, hmono, hle⟩ := hinv
  obtain ⟨hb2, hnext, _, _, _, _, hinput⟩ := process_frame ext s t
  have hts : ∀ a, ((ingest s t).ep.heap.rows a).input.Timestamp
      = if a = s.nextRow then t.Timestamp else eventTs s a := by
    intro a
    have := process_eventTs ext s t a
    unfold eventTs at this ⊢
    rw [← this, hinput a]
  have hmono2 : ∀ a b, a ≤ b → b < s.nextRow + 1 →
      eventTs (process ext s t).2 a ≤ eventTs (process ext s t).2 b := by
    intro a b hab hb
    rw [process_eventTs, process_eventTs]
    by_cases eb : b = s.nextRow
    · rw [if_pos eb]
      by_cases ea : a = s.nextRow
      · rw [if_pos ea]
      · rw [if_neg ea]
        have := hle a (by omega)
        omega
    · rw [if_neg eb, if_neg (by omega)]
      exact hmono a b hab (by omega)
  have hle2 : ∀ a, a < s.nextRow + 1 → eventTs (process ext s t).2 a ≤ t.Timestamp := by
    intro a ha
    rw [process_eventTs]
    by_cases ea : a = s.nextRow
    · rw [if_pos ea]
    · rw [if_neg ea]
      have := hle a (by omega)
      omega
  refine ⟨?_, by rw [hnext]; exact hmono2, by rw [hnext]; exact hle2⟩
  rw [hb2, hnext, ingest_buffer, hw]
  show evictSeconds d t.Timestamp _ (s.buffer ++ [s.nextRow]) = _
  have hsorted : (s.buffer ++ [s.nextRow]).Pairwise (fun a b =>
      ((ingest s t).ep.heap.rows a).input.Timestamp
        ≤ ((ingest s t).ep.heap.rows b).input.Timestamp) := by
    have hsub : List.Sublist (s.buffer ++ [s.nextRow]) (List.range (s.nextRow + 1)) := by
      rw [hbuf, List.range_succ]
      exact List.Sublist.append (List.filter_sublist _) (List.Sublist.refl _)
    apply List.Pairwise.sublist hsub
    apply List.Pairwise.imp_of_mem _ (List.pairwise_lt_range (s.nextRow + 1))
    intro a b _ hb hab
    have h1 := hmono2 a b (Nat.le_of_lt hab) (List.mem_range.mp hb)
    rw [process_eventTs, process_eventTs] at h1
    rw [hts a, hts b]
    exact h1
  have hev := evictSeconds_eq_filter d t.Timestamp (ingest s t).ep.heap.rows _ hsorted
  have hrows : (ingest s t).ep.heap.rows
      = Function.update s.ep.heap.rows s.nextRow ⟨t, none, 0⟩ := rfl
  rw [hrows] at hev
  rw [hev, List.filter_append, hbuf, List.filter_filter, List.range_succ, List.filter_append]
  have hrows2 : ∀ a, (Function.update s.ep.heap.rows s.nextRow ⟨t, none, 0⟩ a).input.Timestamp
      = if a = s.nextRow then t.Timestamp else eventTs s a := hts
  congr 1
  · apply List.filter_congr
    intro a ha
    have ha2 : a < s.nextRow := List.mem_range.mp ha
    have hne : a ≠ s.nextRow := Nat.ne_of_lt ha2
    rw [hrows2 a, process_eventTs, if_neg hne]
    have := hle a ha2
    rw [Bool.eq_iff_iff]
    simp only [Bool.and_eq_true, decide_eq_true_eq]
    constructor
    · rintro ⟨h1, _⟩
      exact h1
    · intro h1
      exact ⟨h1, by omega⟩
  · apply List.filter_congr
    intro a ha
    have ea : a = s.nextRow := by simpa using ha
    rw [hrows2 a, process_eventTs]

theorem stateAfter_timeWindow (ext : Externals) (d : Nat) (stream : List Tuple) :
    ∀ (s : PlanState) (nowTs : Int), s.window = .Seconds d → TimeWindowInv d s nowTs →
      (∀ t ∈ stream, nowTs ≤ t.Timestamp) →
      stream.Pairwise (fun a b : Tuple => a.Timestamp ≤ b.Timestamp) →
      TimeWindowInv d (stateAfter ext s stream) (lastTs nowTs stream) := by
  induction stream with
  | nil => intro s nowTs _ hinv _ _; exact hinv
  | cons t rest ih =>
    intro s nowTs hw hinv hnow hsorted
    obtain ⟨ht, hrest⟩ := List.pairwise_cons.mp hsorted
    unfold stateAfter lastTs
    apply ih
    · rw [(process_frame ext s t).2.2.1]; exact hw
    · exact process_timeWindow ext d s t nowTs hw hinv (hnow t (List.mem_cons_self _ _))
    · exact ht
    · exact hrest

theorem lastTs_append (nowTs : Int) (stream : List Tuple) (t : Tuple) :
    lastTs nowTs (stream ++ [t]) = t.Timestamp := by
  induction stream generalizing nowTs with
  | nil => rfl
  | cons u rest ih => simpa [lastTs] using ih u.Timestamp

/-- C13, counterexample: a window of 2 seconds fed tuples with the event
timestamps 0 s, 10 s and 5 s.  After the third ingest nowTs is 5 s, the head
of the buffer (the row of 10 s) is not older than 3 s and stays, so the buffer
holds a row whose timestamp is outside [3 s, 5 s]. -/
theorem seconds_window_counterexample :
    (stateAfter exampleExternals (newPlan [⟨column "int", "a", []⟩] (.Seconds 2) none .Rstream)
      [getTuple 0, getTuple 10, getTuple 5]).buffer = [1, 2] ∧
    eventTs (stateAfter exampleExternals
      (newPlan [⟨column "int", "a", []⟩] (.Seconds 2) none .Rstream)
      [getTuple 0, getTuple 10, getTuple 5]) 1 = 10000000000 ∧
    (getTuple 5).Timestamp = 5000000000 ∧
    ¬ (eventTs (stateAfter exampleExternals
      (newPlan [⟨column "int", "a", []⟩] (.Seconds 2) none .Rstream)
      [getTuple 0, getTuple 10, getTuple 5]) 1 ≤ (getTuple 5).Timestamp) ∧
    (stateAfter exampleExternals (newPlan [⟨column "int", "a", []⟩] (.Seconds 2) none .Rstream)
      [getTuple 0, getTuple 10, getTuple 5]).buffer
      ≠ (List.range 3).filter (fun a =>
          decide ((getTuple 5).Timestamp - 2 * 1000000000
              ≤ eventTs (stateAfter exampleExternals
                (newPlan [⟨column "int", "a", []⟩] (.Seconds 2) none .Rstream)
                [getTuple 0, getTuple 10, getTuple 5]) a ∧
            eventTs (stateAfter exampleExternals
                (newPlan [⟨column "int", "a", []⟩] (.Seconds 2) none .Rstream)
                [getTuple 0, getTuple 10, getTuple 5]) a ≤ (getTuple 5).Timestamp)) := by
  refine ⟨by decide, by decide, by decide, by decide, by decide⟩

/-- C13, amended: for a time window of D seconds and every finite tuple stream
whose event timestamps do not decrease, after each ingest (whatever the
filter, the emission mode and the outcome of the cycles) the buffer holds, in
ingestion order, exactly the ingested rows whose event timestamp lies within
[nowTs − D, nowTs], nowTs being the event timestamp of the just-ingested
tuple `t`; a row exactly D seconds old is retained. -/
theorem seconds_window_sorted (ext : Externals) (projections : List Projection) (d : Nat)
    (filter : Option (Tuple → Except Error Value)) (emitterType : Emitter)
    (stream : List Tuple) (t : Tuple)
    (hsorted : (stream ++ [t]).Pairwise (fun a b : Tuple => a.Timestamp ≤ b.Timestamp)) :
    (stateAfter ext (newPlan projections (.Seconds d) filter emitterType) (stream ++ [t])).buffer
      = (List.range (stream.length + 1)).filter (fun a =>
          decide (t.Timestamp - (d : Int) * 1000000000
              ≤ eventTs (stateAfter ext (newPlan projections (.Seconds d) filter emitterType)
                  (stream ++ [t])) a ∧
            eventTs (stateAfter ext (newPlan projections (.Seconds d) filter emitterType)
                  (stream ++ [t])) a ≤ t.Timestamp)) ∧
    (List.range (stream.length + 1)).map
        (fun a => ((stateAfter ext (newPlan projections (.Seconds d) filter emitterType)
          (stream ++ [t])).ep.heap.rows a).input)
      = stream ++ [t] ∧
    ∀ a, a < stream.length + 1 →
      eventTs (stateAfter ext (newPlan projections (.Seconds d) filter emitterType)
          (stream ++ [t])) a = t.Timestamp - (d : Int) * 1000000000 →
      a ∈ (stateAfter ext (newPlan projections (.Seconds d) filter emitterType)
          (stream ++ [t])).buffer := by
  have hing := stateAfter_ingested ext (stream ++ [t]) _ _
    (newPlan_ingested projections (.Seconds d) filter emitterType)
  simp only [List.nil_append] at hing
  have hlen : (stream ++ [t]).length = stream.length + 1 := by simp
  have hfirst : ∃ u, (stream ++ [t]).head? = some u := by
    cases stream with
    | nil => exact ⟨t, rfl⟩
    | cons u rest => exact ⟨u, rfl⟩
  obtain ⟨u, hu⟩ := hfirst
  have hall : ∀ v ∈ stream ++ [t], u.Timestamp ≤ v.Timestamp := by
    intro v hv
    cases hs : stream ++ [t] with
    | nil => rw [hs] at hv; cases hv
    | cons w rest =>
      rw [hs] at hu hv hsorted
      simp only [List.head?_cons, Option.some.injEq] at hu
      subst hu
      rcases List.mem_cons.mp hv with e | e
      · rw [e]
      · exact (List.pairwise_cons.mp hsorted).1 v e
  have hinit : TimeWindowInv d (newPlan projections (.Seconds d) filter emitterType)
      u.Timestamp := by
    refine ⟨by simp [newPlan], ?_, ?_⟩
    · intro a b _ hb
      exact absurd hb (Nat.not_lt_zero b)
    · intro a ha
      exact absurd ha (Nat.not_lt_zero a)
  have hinv := stateAfter_timeWindow ext d (stream ++ [t]) _ u.Timestamp rfl hinit hall hsorted
  rw [lastTs_append] at hinv
  obtain ⟨hbuf, _, hle⟩ := hinv
  rw [hing.1, hlen] at hbuf hle
  have hbuf2 : (stateAfter ext (newPlan projections (.Seconds d) filter emitterType)
      (stream ++ [t])).buffer
      = (List.range (stream.length + 1)).filter (fun a =>
          decide (t.Timestamp - (d : Int) * 1000000000
              ≤ eventTs (stateAfter ext (newPlan projections (.Seconds d) filter emitterType)
                  (stream ++ [t])) a ∧
            eventTs (stateAfter ext (newPlan projections (.Seconds d) filter emitterType)
                  (stream ++ [t])) a ≤ t.Timestamp)) := by
    rw [hbuf]
    apply List.filter_congr
    intro a ha
    have := hle a (List.mem_range.mp ha)
    rw [Bool.eq_iff_iff]
    simp only [decide_eq_true_eq]
    constructor
    · intro h1
      exact ⟨h1, this⟩
    · rintro ⟨h1, _⟩
      exact h1
  refine ⟨hbuf2, ?_, ?_⟩
  · have := ingested_map _ (stream ++ [t]) hing
    rw [hlen] at this
    exact this
  · intro a ha hts
    rw [hbuf2, List.mem_filter]
    refine ⟨List.mem_range.mpr ha, ?_⟩
    simp only [decide_eq_true_eq]
    rw [hts]
    constructor
    · exact Int.le_refl _
    · have : (0 : Int) ≤ (d : Int) * 1000000000 := by positivity
      omega

/-- The test "RSTREAM/2 SECONDS statement with a column": after the third
tuple the window of 2 seconds holds the rows of 0 s, 1 s and 2 s, the first of
them exactly 2 seconds old; after the fourth it holds those of 1 s, 2 s, 3 s. -/
theorem seconds_window_sorted_witness :
    ([getTuple 0, getTuple 1] ++ [getTuple 2]).Pairwise
      (fun a b : Tuple => a.Timestamp ≤ b.Timestamp) ∧
    (stateAfter exampleExternals (newPlan [⟨column "int", "a", []⟩] (.Seconds 2) none .Rstream)
      ([getTuple 0, getTuple 1] ++ [getTuple 2])).buffer = [0, 1, 2] ∧
    (stateAfter exampleExternals (newPlan [⟨column "int", "a", []⟩] (.Seconds 2) none .Rstream)
      (getTuples 4)).buffer = [1, 2, 3] ∧
    (stateAfter exampleExternals (newPlan [⟨column "int", "a", []⟩] (.Seconds 2) none .Rstream)
      ([getTuple 0, getTuple 1] ++ [getTuple 2])).buffer
      = (List.range (([getTuple 0, getTuple 1] : List Tuple).length + 1)).filter (fun a =>
          decide ((getTuple 2).Timestamp - ((2 : Nat) : Int) * 1000000000
              ≤ eventTs (stateAfter exampleExternals
                  (newPlan [⟨column "int", "a", []⟩] (.Seconds 2) none .Rstream)
                  ([getTuple 0, getTuple 1] ++ [getTuple 2])) a ∧
            eventTs (stateAfter exampleExternals
                  (newPlan [⟨column "int", "a", []⟩] (.Seconds 2) none .Rstream)
                  ([getTuple 0, getTuple 1] ++ [getTuple 2])) a ≤ (getTuple 2).Timestamp)) :=
  ⟨by decide, by decide, by decide,
    (seconds_window_sorted exampleExternals [⟨column "int", "a", []⟩] 2 none .Rstream
      [getTuple 0, getTuple 1] (getTuple 2) (by decide)).1⟩

theorem evictTuples_zero (l : List Nat) : evictTuples 0 l = [] := by
  rw [evictTuples_eq_drop]
  simp

theorem evictSeconds_keeps_last (d : Nat) (nowTs : Int) (rows : Nat → inputRowWithCachedResult)
    (b : Nat) (hb : (rows b).input.Timestamp = nowTs) :
    ∀ l : List Nat, ∃ l2, evictSeconds d nowTs rows (l ++ [b]) = l2 ++ [b] := by
  intro l
  induction l with
  | nil =>
    have hnot : ¬ (rows b).input.Timestamp < nowTs - (d : Int) * 1000000000 := by
      have : (0 : Int) ≤ (d : Int) * 1000000000 := by positivity
      rw [hb]; omega
    exact ⟨[], by simp [evictSeconds, hnot]⟩
  | cons c rest ih =>
    obtain ⟨l2, h2⟩ := ih
    simp only [List.cons_append]
    unfold evictSeconds
    split
    · exact ⟨l2, h2⟩
    · exact ⟨c :: rest, rfl⟩

theorem evictSeconds_head (d : Nat) (nowTs : Int) (rows : Nat → inputRowWithCachedResult) :
    ∀ (l : List Nat) (a : Nat), (evictSeconds d nowTs rows l).head? = some a →
      nowTs - (d : Int) * 1000000000 ≤ (rows a).input.Timestamp := by
  intro l
  induction l with
  | nil => intro a h; simp [evictSeconds] at h
  | cons c rest ih =>
    intro a h
    unfold evictSeconds at h
    split at h
    · exact ih a h
    · rename_i hnot
      simp only [List.head?_cons, Option.some.injEq] at h
      subst h
      omega

/-- C15, counterexample: with a window of 0 seconds the row of the tuple just
ingested is not evicted, its event timestamp being nowTs itself and not less
than nowTs − 0: after the first test tuple the buffer holds row 0, and in
RSTREAM mode every cycle emits the projection of the row just ingested. -/
theorem zero_seconds_window_counterexample :
    (stateAfter exampleExternals (newPlan [⟨column "int", "a", []⟩] (.Seconds 0) none .Rstream)
      [getTuple 0]).buffer = [0] ∧
    (ingest (newPlan [⟨column "int", "a", []⟩] (.Seconds 0) none .Rstream) (getTuple 0)).buffer
      ≠ [] ∧
    processAll exampleExternals (newPlan [⟨column "int", "a", []⟩] (.Seconds 0) none .Rstream)
        (getTuples 2)
      = [.ok [[("a", .int 1)]], .ok [[("a", .int 2)]]] :=
  ⟨by decide, by decide, rfl⟩

/-- C15, amended: with a window of N = 0 tuples every appended row is evicted
immediately by the eviction rule, so each cycle runs on an empty buffer and
on no filtered rows.  With a window of D = 0 seconds the row just appended is
never evicted: the buffer ends with it after the eviction, and what has been
evicted are the heads with an event timestamp before nowTs, the head of the
buffer being no older than nowTs. -/
theorem zero_window (s : PlanState) (t : Tuple) :
    (s.window = .Tuples 0 →
      (ingest s t).buffer = [] ∧ filteredRows (ingest s t) = .ok []) ∧
    (s.window = .Seconds 0 →
      (∃ l, (ingest s t).buffer = l ++ [s.nextRow]) ∧
      ∀ a, (ingest s t).buffer.head? = some a → t.Timestamp ≤ eventTs (ingest s t) a) := by
  constructor
  · intro hw
    have hb : (ingest s t).buffer = [] := by
      rw [ingest_buffer, hw]
      exact evictTuples_zero _
    refine ⟨hb, ?_⟩
    unfold filteredRows
    rw [hb]
    cases (ingest s t).filter with
    | none => rfl
    | some f => rfl
  · intro hw
    constructor
    · rw [ingest_buffer, hw]
      exact evictSeconds_keeps_last 0 t.Timestamp _ s.nextRow (by simp) s.buffer
    · intro a ha
      rw [ingest_buffer, hw] at ha
      have := evictSeconds_head 0 t.Timestamp _ _ a ha
      simp only [Nat.cast_zero, zero_mul, sub_zero] at this
      exact this

/-- A window of 0 tuples fed the first test tuple: the buffer is empty after
the ingest and the cycle emits nothing. -/
theorem zero_window_witness :
    (newPlan [⟨column "int", "a", []⟩] (.Tuples 0) none .Rstream).window = .Tuples 0 ∧
    (ingest (newPlan [⟨column "int", "a", []⟩] (.Tuples 0) none .Rstream) (getTuple 0)).buffer
      = [] ∧
    filteredRows (ingest (newPlan [⟨column "int", "a", []⟩] (.Tuples 0) none .Rstream)
      (getTuple 0)) = .ok [] ∧
    processAll exampleExternals (newPlan [⟨column "int", "a", []⟩] (.Tuples 0) none .Rstream)
        (getTuples 2)
      = [.ok [], .ok []] :=
  ⟨rfl,
    ((zero_window (newPlan [⟨column "int", "a", []⟩] (.Tuples 0) none .Rstream)
      (getTuple 0)).1 rfl).1,
    ((zero_window (newPlan [⟨column "int", "a", []⟩] (.Tuples 0) none .Rstream)
      (getTuple 0)).1 rfl).2,
    rfl⟩

/-! ## Errors of the projections -/

theorem evalProjections_cons (ext : Externals) (p : Projection) (rest : List Projection)
    (d : Tuple) (r : Map) :
    evalProjections ext (p :: rest) d r =
      match p.evaluator d with
      | .error err => .error err
      | .ok value =>
        match ext.assignOutputValue r p.aliasName p.aliasPath value with
        | .error err => .error err
        | .ok result2 => evalProjections ext rest d result2 := rfl

theorem evalItems_cons (ext : Externals) (projections : List Projection) (io : Nat)
    (rest : List Nat) (h : Heap) (o : Slice) :
    evalItems ext projections (io :: rest) h o =
      match evalItem ext projections h o io with
      | (some err, h2, output2) => (some err, h2, output2)
      | (none, h2, output2) => evalItems ext projections rest h2 output2 := rfl

theorem evalProjections_append (ext : Externals) (ps qs : List Projection) (d : Tuple) :
    ∀ r : Map, evalProjections ext (ps ++ qs) d r =
      match evalProjections ext ps d r with
      | .error err => .error err
      | .ok r2 => evalProjections ext qs d r2 := by
  induction ps with
  | nil => intro r; rfl
  | cons p rest ih =>
    intro r
    simp only [List.cons_append]
    rw [evalProjections_cons ext p (rest ++ qs), evalProjections_cons ext p rest]
    cases p.evaluator d with
    | error err => rfl
    | ok value =>
      simp only
      cases ext.assignOutputValue r p.aliasName p.aliasPath value with
      | error err => rfl
      | ok r2 => exact ih r2

/-- The projections in front of a failing one having succeeded, the error of
the failing evaluation or assignment is the result, whatever follows it. -/
theorem evalProjections_first_error (ext : Externals) (pre post : List Projection)
    (p : Projection) (d : Tuple) (r built : Map) (err : Error)
    (hpre : evalProjections ext pre d r = .ok built)
    (hfail : p.evaluator d = .error err ∨
      ∃ v, p.evaluator d = .ok v ∧
        ext.assignOutputValue built p.aliasName p.aliasPath v = .error err) :
    evalProjections ext (pre ++ p :: post) d r = .error err := by
  rw [evalProjections_append, hpre]
  simp only
  rw [evalProjections_cons]
  rcases hfail with h | ⟨v, h1, h2⟩
  · rw [h]
  · rw [h1]
    simp only
    rw [h2]

theorem evalItems_append (ext : Externals) (projections : List Projection) (l1 l2 : List Nat) :
    ∀ (h : Heap) (o : Slice), evalItems ext projections (l1 ++ l2) h o =
      match (evalItems ext projections l1 h o).1 with
      | some err => (some err, (evalItems ext projections l1 h o).2.1,
          (evalItems ext projections l1 h o).2.2)
      | none => evalItems ext projections l2 (evalItems ext projections l1 h o).2.1
          (evalItems ext projections l1 h o).2.2 := by
  induction l1 with
  | nil => intro h o; rfl
  | cons io rest ih =>
    intro h o
    simp only [List.cons_append]
    rw [evalItems_cons ext projections io (rest ++ l2), evalItems_cons ext projections io rest]
    rcases evalItem ext projections h o io with ⟨_ | err, h2, o2⟩
    · simp only
      exact ih h2 o2
    · rfl

theorem firstError_replicate_ok (l : List (Except Error resultRow))
    (hall : ∀ e ∈ l, ∃ x, e = .ok x) : firstError l = none := by
  induction l with
  | nil => rfl
  | cons a rest ih =>
    obtain ⟨x, hx⟩ := hall a (List.mem_cons_self _ _)
    subst hx
    simp only [firstError]
    exact ih (fun e he => hall e (List.mem_cons_of_mem _ he))

/-- The loop stops at the first failing row: the rows in front of it having
succeeded, the result is the error of that row and the memory and output as
the rows in front of it left them. -/
theorem evalItems_stops (ext : Externals) (projections : List Projection)
    (before after : List Nat) (io : Nat) (h : Heap) (o : Slice) (err : Error)
    (hbefore : ∀ j ∈ before, ∃ x, rowResult ext projections (h.rows j) = .ok x)
    (hio : rowResult ext projections (h.rows io) = .error err) :
    evalItems ext projections (before ++ io :: after) h o
      = (some err, (evalItems ext projections before h o).2.1,
          (evalItems ext projections before h o).2.2) := by
  have hnone : (evalItems ext projections before h o).1 = none := by
    rw [evalItems_error]
    apply firstError_replicate_ok
    intro e he
    obtain ⟨j, hj, hje⟩ := List.mem_map.mp he
    obtain ⟨x, hx⟩ := hbefore j hj
    exact ⟨x, by rw [← hje, hx]⟩
  rw [evalItems_append, hnone]
  simp only
  rw [evalItems_cons, evalItem_eq, evalItems_rowResult, hio]

/-- C19: when the rows in front of row `io` project without error and, on row
`io`, the projections in front of `p` succeed while the evaluation of `p` or
the assignment of its value fails with `err` (rows taken in the order of
`filteredInputRows`, projections in list order), `performQueryOnBuffer`
returns exactly `err`; the error and the plan it leaves are the same whatever
rows follow `io`, and the projection of the row fails with `err` whatever
projections follow `p`: no projection and no row after the failing one is
evaluated. -/
theorem performQueryOnBuffer_first_error (ext : Externals) (ep : defaultSelectExecutionPlan)
    (before after : List Nat) (io : Nat) (pre post : List Projection) (p : Projection)
    (built : Map) (err : Error)
    (hproj : ep.projections = pre ++ p :: post)
    (hbefore : ∀ j ∈ before, ∃ x, rowResult ext ep.projections (ep.heap.rows j) = .ok x)
    (hcache : (ep.heap.rows io).cache = none)
    (hpre : evalProjections ext pre (ep.heap.rows io).input [] = .ok built)
    (hfail : p.evaluator (ep.heap.rows io).input = .error err ∨
      ∃ v, p.evaluator (ep.heap.rows io).input = .ok v ∧
        ext.assignOutputValue built p.aliasName p.aliasPath v = .error err) :
    (performQueryOnBuffer ext { ep with filteredInputRows := before ++ io :: after }).1
      = some err ∧
    (∀ after2 : List Nat,
      (performQueryOnBuffer ext { ep with filteredInputRows := before ++ io :: after2 }).1
        = some err ∧
      (performQueryOnBuffer ext { ep with filteredInputRows := before ++ io :: after2 }).2.heap
        = (performQueryOnBuffer ext
            { ep with filteredInputRows := before ++ io :: after }).2.heap ∧
      (performQueryOnBuffer ext
          { ep with filteredInputRows := before ++ io :: after2 }).2.prevResults
        = (performQueryOnBuffer ext
            { ep with filteredInputRows := before ++ io :: after }).2.prevResults ∧
      (performQueryOnBuffer ext
          { ep with filteredInputRows := before ++ io :: after2 }).2.curResults
        = (performQueryOnBuffer ext
            { ep with filteredInputRows := before ++ io :: after }).2.curResults) ∧
    (∀ post2 : List Projection,
      evalProjections ext (pre ++ p :: post2) (ep.heap.rows io).input [] = .error err) := by
  have hrow : rowResult ext ep.projections (ep.heap.rows io) = .error err := by
    unfold rowResult
    rw [hcache]
    simp only
    rw [hproj, evalProjections_first_error ext pre post p _ [] built err hpre hfail]
  have hloop : ∀ rest : List Nat,
      loopResult ext { ep with filteredInputRows := before ++ io :: rest }
        = (some err,
            (evalItems ext ep.projections before ep.heap ep.prevResults.reslice00).2.1,
            (evalItems ext ep.projections before ep.heap ep.prevResults.reslice00).2.2) := by
    intro rest
    exact evalItems_stops ext ep.projections before rest io ep.heap ep.prevResults.reslice00 err
      hbefore hrow
  have hcall : ∀ rest : List Nat,
      performQueryOnBuffer ext { ep with filteredInputRows := before ++ io :: rest }
        = (some err,
            { ep with
              filteredInputRows := before ++ io :: rest
              prevResults :=
                (evalItems ext ep.projections before ep.heap ep.prevResults.reslice00).2.2
              heap :=
                (evalItems ext ep.projections before ep.heap ep.prevResults.reslice00).2.1 }) := by
    intro rest
    rw [performQueryOnBuffer_eq, hloop rest]
  refine ⟨by rw [hcall after], ?_, ?_⟩
  · intro after2
    rw [hcall after2, hcall after]
    exact ⟨rfl, rfl, rfl, rfl⟩
  · intro post2
    exact evalProjections_first_error ext pre post2 p _ [] built err hpre hfail

/-- On the example, with the filtered rows 0, 2, 1: row 0 projects, row 2 has
no field `int`, and the call returns the error of that evaluation. -/
theorem performQueryOnBuffer_first_error_witness :
    (examplePlan []).projections = [] ++ (⟨column "int", "a", []⟩ : Projection) :: [] ∧
    ((examplePlan []).heap.rows 2).cache = none ∧
    (performQueryOnBuffer exampleExternals
      { examplePlan [] with filteredInputRows := [0] ++ 2 :: [1] }).1
      = some "field not found: int" :=
  ⟨rfl, rfl,
    (performQueryOnBuffer_first_error exampleExternals (examplePlan []) [0] [1] 2 [] []
      ⟨column "int", "a", []⟩ [] "field not found: int" rfl
      (by
        intro j hj
        have e : j = 0 := by simpa using hj
        subst e
        exact ⟨⟨[("a", .int 1)], 2⟩, rfl⟩)
      rfl rfl (Or.inl rfl)).1⟩

theorem evictSeconds_mem (d : Nat) (nowTs : Int) (rows : Nat → inputRowWithCachedResult) :
    ∀ (l : List Nat) (a : Nat), a ∈ evictSeconds d nowTs rows l → a ∈ l := by
  intro l
  induction l with
  | nil => intro a h; simp [evictSeconds] at h
  | cons c rest ih =>
    intro a h
    unfold evictSeconds at h
    split at h
    · exact List.mem_cons_of_mem _ (ih a h)
    · exact h

theorem evict_mem (w : WindowSpec) (nowTs : Int) (rows : Nat → inputRowWithCachedResult)
    (l : List Nat) (a : Nat) (h : a ∈ evict w nowTs rows l) : a ∈ l := by
  cases w with
  | Tuples n =>
    simp only [evict, evictTuples_eq_drop] at h
    exact List.mem_of_mem_drop h
  | Seconds d => exact evictSeconds_mem d nowTs rows l a h

theorem evict_append_ne_nil (w : WindowSpec)
    (hw : (∃ n, w = .Tuples (n + 1)) ∨ ∃ d, w = .Seconds d) (nowTs : Int)
    (rows : Nat → inputRowWithCachedResult) (b : Nat) (hb : (rows b).input.Timestamp = nowTs)
    (l : List Nat) : evict w nowTs rows (l ++ [b]) ≠ [] := by
  rcases hw with ⟨n, e⟩ | ⟨d, e⟩
  · subst e
    exact evictTuples_ne_nil n _ (by simp)
  · subst e
    exact evictSeconds_ne_nil d nowTs rows b hb l

theorem filledRow_of_failing (ext : Externals) (projections : List Projection)
    (r : inputRowWithCachedResult) (err : Error) (hc : r.cache = none)
    (hp : evalProjections ext projections r.input [] = .error err) :
    filledRow ext projections r = r := by
  simp [filledRow, hc, hp]

theorem rowResult_of_failing (ext : Externals) (projections : List Projection)
    (r : inputRowWithCachedResult) (err : Error) (hc : r.cache = none)
    (hp : evalProjections ext projections r.input [] = .error err) :
    rowResult ext projections r = .error err := by
  simp [rowResult, hc, hp]

theorem cycle_failing_row (ext : Externals) (ep : defaultSelectExecutionPlan)
    (filtered : List Nat) (io : Nat) (err : Error) (hc : (ep.heap.rows io).cache = none)
    (hp : evalProjections ext ep.projections (ep.heap.rows io).input [] = .error err) :
    (cycle ext ep filtered).2.heap.rows io = ep.heap.rows io := by
  rcases cycle_rows ext ep filtered io with e | e
  · exact e
  · rw [e, filledRow_of_failing ext ep.projections _ err hc hp]

theorem runCycles_failing_row (ext : Externals) (cycles : List (List Nat)) (io : Nat)
    (err : Error) :
    ∀ ep : defaultSelectExecutionPlan, (ep.heap.rows io).cache = none →
      evalProjections ext ep.projections (ep.heap.rows io).input [] = .error err →
      (runCycles ext ep cycles).heap.rows io = ep.heap.rows io := by
  induction cycles with
  | nil => intro ep _ _; rfl
  | cons filtered rest ih =>
    intro ep hc hp
    unfold runCycles
    have hstep := cycle_failing_row ext ep filtered io err hc hp
    rw [ih (cycle ext ep filtered).2 (by rw [hstep]; exact hc)
      (by rw [hstep, cycle_projections]; exact hp), hstep]

theorem cycle_fails_of_mem (ext : Externals) (ep : defaultSelectExecutionPlan)
    (filtered : List Nat) (io : Nat) (err : Error) (hmem : io ∈ filtered)
    (hrow : rowResult ext ep.projections (ep.heap.rows io) = .error err) :
    (cycle ext ep filtered).1 ≠ none := by
  intro hnone
  rw [cycle_error] at hnone
  obtain ⟨x, hx⟩ := firstError_none_mem _ hnone
    (rowResult ext ep.projections (ep.heap.rows io)) (List.mem_map.mpr ⟨io, hmem, rfl⟩)
  rw [hrow] at hx
  cases hx

/-- A cycle of a plan all of whose buffered rows fail to project returns an
error and leaves all buffered rows without cache. -/
theorem process_failing (ext : Externals) (projections : List Projection) (w : WindowSpec)
    (hw : (∃ n, w = .Tuples (n + 1)) ∨ ∃ d, w = .Seconds d) (s : PlanState) (t : Tuple)
    (hinv : FailingInv ext projections w s)
    (ht : ∃ err, evalProjections ext projections t [] = .error err) :
    FailingInv ext projections w (process ext s t).2 ∧
    ∃ err, (process ext s t).1 = .error err := by
  obtain ⟨hproj, hfilter, hwin, hrows⟩ := hinv
  have hf : filteredRows (ingest s t) = .ok (ingest s t).buffer := by
    have : (ingest s t).filter = none := hfilter
    simp [filteredRows, this]
  have hproj1 : (ingest s t).ep.projections = projections := hproj
  have hrows1 : ∀ a ∈ (ingest s t).buffer, a < s.nextRow + 1 ∧
      ((ingest s t).ep.heap.rows a).cache = none ∧
      ∃ err, evalProjections ext projections ((ingest s t).ep.heap.rows a).input []
        = .error err := by
    intro a ha
    rw [ingest_buffer] at ha
    have hmem := evict_mem _ _ _ _ a ha
    rcases List.mem_append.mp hmem with h1 | h1
    · obtain ⟨hlt, hc, hp⟩ := hrows a h1
      rw [ingest_row_old s t a (Nat.ne_of_lt hlt)]
      exact ⟨by omega, hc, hp⟩
    · have e : a = s.nextRow := by simpa using h1
      subst e
      refine ⟨Nat.lt_succ_self _, ?_, ?_⟩
      · show (Function.update s.ep.heap.rows s.nextRow ⟨t, none, 0⟩ s.nextRow).cache = none
        simp
      · rw [ingest_input_new]
        exact ht
  have hne : (ingest s t).buffer ≠ [] := by
    rw [ingest_buffer, hwin]
    exact evict_append_ne_nil w hw _ _ _ (by simp) _
  obtain ⟨a, rest, hbuf⟩ := List.exists_cons_of_ne_nil hne
  have ha : a ∈ (ingest s t).buffer := by rw [hbuf]; exact List.mem_cons_self _ _
  obtain ⟨_, hca, erra, hpa⟩ := hrows1 a ha
  have hfails : (cycle ext (ingest s t).ep (ingest s t).buffer).1 ≠ none := by
    apply cycle_fails_of_mem ext _ _ a erra ha
    rw [hproj1]
    exact rowResult_of_failing ext projections _ erra hca hpa
  obtain ⟨err, herr⟩ := Option.ne_none_iff_exists'.mp hfails
  have hp := process_failed ext s t _ err hf herr
  refine ⟨?_, err, by rw [hp]⟩
  rw [hp]
  refine ⟨by rw [← hproj1]; exact cycle_projections ext _ _, hfilter, hwin, ?_⟩
  intro b hb
  obtain ⟨hlt, hc, errb, hpb⟩ := hrows1 b hb
  have hkeep := cycle_failing_row ext (ingest s t).ep (ingest s t).buffer b errb hc
    (by rw [hproj1]; exact hpb)
  refine ⟨hlt, ?_, errb, ?_⟩
  · show ((cycle ext (ingest s t).ep (ingest s t).buffer).2.heap.rows b).cache = none
    rw [hkeep]; exact hc
  · show evalProjections ext projections
      ((cycle ext (ingest s t).ep (ingest s t).buffer).2.heap.rows b).input [] = _
    rw [hkeep]; exact hpb

theorem processAll_failing (ext : Externals) (projections : List Projection) (w : WindowSpec)
    (hw : (∃ n, w = .Tuples (n + 1)) ∨ ∃ d, w = .Seconds d) (stream : List Tuple) :
    ∀ s : PlanState, FailingInv ext projections w s →
      (∀ t ∈ stream, ∃ err, evalProjections ext projections t [] = .error err) →
      ∀ r ∈ processAll ext s stream, ∃ err, r = .error err := by
  induction stream with
  | nil => intro s _ _ r hr; simp [processAll] at hr
  | cons t rest ih =>
    intro s hinv hall r hr
    obtain ⟨hinv2, err, herr⟩ := process_failing ext projections w hw s t hinv
      (hall t (List.mem_cons_self _ _))
    unfold processAll at hr
    rcases List.mem_cons.mp hr with e | e
    · exact ⟨err, by rw [e, herr]⟩
    · exact ih _ hinv2 (fun u hu => hall u (List.mem_cons_of_mem _ hu)) r e

theorem processAll_length (ext : Externals) (stream : List Tuple) :
    ∀ s : PlanState, (processAll ext s stream).length = stream.length := by
  induction stream with
  | nil => intro s; rfl
  | cons t rest ih => intro s; simp [processAll, ih]

/-- C20: a row without cache on which the projections fail with `err` gets no
cache entry: `evalItem` returns `err` and leaves the memory and the output as
they are, so no partially built Map is cached.  After any sequence of later
calls the row is as it was, and every call that has it among the filtered
rows fails again.  Hence a query whose projections fail on every tuple of
the stream (a field that no tuple has), without filter, over a window of at
least one tuple or of any number of seconds, returns an error for every input
tuple. -/
theorem failing_row_never_cached (ext : Externals) (ep : defaultSelectExecutionPlan)
    (io : Nat) (err : Error) (hcache : (ep.heap.rows io).cache = none)
    (hfail : evalProjections ext ep.projections (ep.heap.rows io).input [] = .error err) :
    (∀ o : Slice, evalItem ext ep.projections ep.heap o io = (some err, ep.heap, o)) ∧
    (∀ cycles : List (List Nat), (runCycles ext ep cycles).heap.rows io = ep.heap.rows io) ∧
    (∀ (cycles : List (List Nat)) (filtered : List Nat), io ∈ filtered →
      (cycle ext (runCycles ext ep cycles) filtered).1 ≠ none) ∧
    (∀ (w : WindowSpec) (emitterType : Emitter) (stream : List Tuple),
      ((∃ n, w = .Tuples (n + 1)) ∨ ∃ d, w = .Seconds d) →
      (∀ t ∈ stream, ∃ e, evalProjections ext ep.projections t [] = .error e) →
      (processAll ext (newPlan ep.projections w none emitterType) stream).length
          = stream.length ∧
        ∀ r ∈ processAll ext (newPlan ep.projections w none emitterType) stream,
          ∃ e, r = .error e) := by
  refine ⟨?_, ?_, ?_, ?_⟩
  · intro o
    rw [evalItem_eq, rowResult_of_failing ext ep.projections _ err hcache hfail]
  · intro cycles
    exact runCycles_failing_row ext cycles io err ep hcache hfail
  · intro cycles filtered hmem
    have hkeep := runCycles_failing_row ext cycles io err ep hcache hfail
    apply cycle_fails_of_mem ext _ filtered io err hmem
    rw [runCycles_projections, hkeep]
    exact rowResult_of_failing ext ep.projections _ err hcache hfail
  · intro w emitterType stream hw hall
    refine ⟨processAll_length ext stream _, ?_⟩
    apply processAll_failing ext ep.projections w hw stream _ _ hall
    exact ⟨rfl, rfl, rfl, fun a ha => by simp [newPlan] at ha⟩

/-- On the example, row 2 has no field `int`: it stays without cache through
a cycle on rows 0 and 2 and a cycle on rows 2 and 1, which both fail; and the
test "SELECT clause with a non-existing column" (`ISTREAM(hoge)`) returns an
error for each of the four tuples. -/
theorem failing_row_never_cached_witness :
    ((examplePlan []).heap.rows 2).cache = none ∧
    evalProjections exampleExternals (examplePlan []).projections
      ((examplePlan []).heap.rows 2).input [] = .error "field not found: int" ∧
    (runCycles exampleExternals (examplePlan []) [[0, 2], [2, 1]]).heap.rows 2
      = (examplePlan []).heap.rows 2 ∧
    processAll exampleExternals (newPlan [⟨column "hoge", "hoge", []⟩] (.Seconds 2) none .Istream)
        (getTuples 4)
      = [.error "field not found: hoge", .error "field not found: hoge",
         .error "field not found: hoge", .error "field not found: hoge"] :=
  ⟨rfl, rfl,
    (failing_row_never_cached exampleExternals (examplePlan []) 2 "field not found: int"
      rfl rfl).2.1 [[0, 2], [2, 1]],
    rfl⟩

/-! ## Projection output assembly -/

theorem lookup_cons_eq (a k : String) (v : Value) (rest : Map) :
    List.lookup a ((k, v) :: rest) = if a = k then some v else List.lookup a rest := by
  by_cases e : a = k
  · subst e
    simp [List.lookup]
  · have hb : (a == k) = false := by simpa using e
    simp [List.lookup, hb, e]

theorem lookup_setField (m : Map) (k a : String) (v : Value) :
    (setField m k v).lookup a = if a = k then some v else m.lookup a := by
  induction m with
  | nil =>
    show List.lookup a [(k, v)] = _
    rw [lookup_cons_eq]
  | cons head rest ih =>
    obtain ⟨k2, v2⟩ := head
    unfold setField
    by_cases e2 : k2 = k
    · rw [if_pos e2, lookup_cons_eq, lookup_cons_eq, e2]
      by_cases e : a = k
      · rw [if_pos e, if_pos e]
      · rw [if_neg e, if_neg e, if_neg e]
    · rw [if_neg e2, lookup_cons_eq, lookup_cons_eq, ih]
      by_cases e : a = k
      · have hne : ¬ (a = k2) := by rw [e]; exact fun h => e2 h.symm
        rw [if_pos e, if_neg hne, if_pos e]
      · rw [if_neg e, if_neg e]

theorem lookup_mergeFields_of_not_mem (fields : Map) (a : String)
    (ha : a ∉ fields.map Prod.fst) :
    ∀ m : Map, (mergeFields m fields).lookup a = m.lookup a := by
  induction fields with
  | nil => intro m; rfl
  | cons head rest ih =>
    obtain ⟨k, v⟩ := head
    intro m
    simp only [List.map_cons, List.mem_cons, not_or] at ha
    unfold mergeFields
    rw [ih ha.2, lookup_setField, if_neg ha.1]

theorem lookup_mergeFields (fields : Map) (a : String) (v : Value)
    (hnodup : (fields.map Prod.fst).Nodup) (hmem : (a, v) ∈ fields) :
    ∀ m : Map, (mergeFields m fields).lookup a = some v := by
  induction fields with
  | nil => cases hmem
  | cons head rest ih =>
    obtain ⟨k, w⟩ := head
    intro m
    simp only [List.map_cons, List.nodup_cons] at hnodup
    unfold mergeFields
    rcases List.mem_cons.mp hmem with e | e
    · have hk : a = k := by injection e
      have hw : v = w := by injection e
      subst hk hw
      rw [lookup_mergeFields_of_not_mem rest a hnodup.1, lookup_setField, if_pos rfl]
    · exact ih hnodup.2 e _

/-- An assignment leaves the names that the projection does not write. -/
theorem assignOutputValue_other (p : Projection) (t : Tuple) (a : String) (m m2 : Map)
    (v : Value) (hv : p.evaluator t = .ok v) (hnot : ¬ WritesName p t a)
    (hm : assignOutputValue m p.aliasName p.aliasPath v = .ok m2) :
    m2.lookup a = m.lookup a := by
  unfold assignOutputValue at hm
  by_cases hstar : p.aliasName = "*"
  · rw [if_pos hstar] at hm
    cases v with
    | map fields =>
      simp only [Except.ok.injEq] at hm
      subst hm
      apply lookup_mergeFields_of_not_mem
      intro hmem
      exact hnot (Or.inr ⟨hstar, fields, hv, hmem⟩)
    | _ => simp at hm
  · rw [if_neg hstar] at hm
    have hne : a ≠ p.aliasName := by
      intro e
      exact hnot (Or.inl ⟨hstar, e.symm⟩)
    cases hpath : p.aliasPath with
    | nil =>
      rw [hpath] at hm
      simp only [Except.ok.injEq] at hm
      subst hm
      rw [lookup_setField, if_neg hne]
    | cons step rest =>
      rw [hpath] at hm
      simp only at hm
      cases hin : assignPath (m.lookup p.aliasName) (step :: rest) v with
      | error err => rw [hin] at hm; simp at hm
      | ok inner =>
        rw [hin] at hm
        simp only [Except.ok.injEq] at hm
        subst hm
        rw [lookup_setField, if_neg hne]

/-- The projections after the last one that writes a name leave its value. -/
theorem evalProjections_keeps_name (ext : Externals) (qs : List Projection) (t : Tuple)
    (a : String) (hlater : ∀ q ∈ qs, ¬ WritesName q t a) :
    ∀ m1 m : Map, evalProjections ext.withAssign qs t m1 = .ok m → m.lookup a = m1.lookup a := by
  induction qs with
  | nil =>
    intro m1 m hm
    simp only [evalProjections, Except.ok.injEq] at hm
    rw [hm]
  | cons q rest ih =>
    intro m1 m hm
    rw [evalProjections_cons] at hm
    cases hq : q.evaluator t with
    | error err => rw [hq] at hm; simp at hm
    | ok v =>
      rw [hq] at hm
      simp only at hm
      cases ha : ext.withAssign.assignOutputValue m1 q.aliasName q.aliasPath v with
      | error err => rw [ha] at hm; simp at hm
      | ok m2 =>
        rw [ha] at hm
        simp only at hm
        rw [ih (fun r hr => hlater r (List.mem_cons_of_mem _ hr)) m2 m hm]
        exact assignOutputValue_other q t a m1 m2 v hq (hlater q (List.mem_cons_self _ _)) ha

/-- The value that the last projection writing the name `a` has written. -/
theorem evalProjections_last_writer (ext : Externals) (ps qs : List Projection)
    (p : Projection) (t : Tuple) (m : Map) (a : String)
    (hm : evalProjections ext.withAssign (ps ++ p :: qs) t [] = .ok m)
    (hlater : ∀ q ∈ qs, ¬ WritesName q t a) :
    ∃ built v written, evalProjections ext.withAssign ps t [] = .ok built ∧
      p.evaluator t = .ok v ∧
      assignOutputValue built p.aliasName p.aliasPath v = .ok written ∧
      m.lookup a = written.lookup a := by
  rw [evalProjections_append] at hm
  cases hps : evalProjections ext.withAssign ps t [] with
  | error err => rw [hps] at hm; simp at hm
  | ok built =>
    rw [hps] at hm
    simp only at hm
    rw [evalProjections_cons] at hm
    cases hp : p.evaluator t with
    | error err => rw [hp] at hm; simp at hm
    | ok v =>
      rw [hp] at hm
      simp only at hm
      cases ha : ext.withAssign.assignOutputValue built p.aliasName p.aliasPath v with
      | error err => rw [ha] at hm; simp at hm
      | ok written =>
        rw [ha] at hm
        simp only at hm
        exact ⟨built, v, written, rfl, rfl, ha,
          evalProjections_keeps_name ext qs t a hlater written m hm⟩

theorem wrap64_of_range (i : Int) (hlo : -9223372036854775808 ≤ i)
    (hhi : i < 9223372036854775808) : wrap64 i = i := by
  unfold wrap64
  omega

theorem eval_intMinusOneTimesTwo (i : Nat) (hi : 2 * (i : Int) < 9223372036854775808) :
    intMinusOneTimesTwo.eval (getTuple i) = .ok (.int (2 * (i : Int))) := by
  have h1 : wrap64 (i : Int) = (i : Int) := by
    rw [wrap64_of_range] <;> omega
  have h2 : wrap64 ((i : Int) * 2) = 2 * (i : Int) := by
    rw [wrap64_of_range] <;> omega
  simp [intMinusOneTimesTwo, Expression.eval, column, getTuple, List.lookup, evalBinaryOp, h1, h2]

/-- C16: the projections are evaluated and assigned in their list order (the
Map built by the projections in front of `p` is the one `p` and its
successors write into, for any externals), so with `assignOutputValue` as §4.4
describes it the value found under a name `a` in the result is the one
written by the last projection that writes `a`: the value of `p` if `p` has
the alias `a`, the field `a` of the row if `p` is a wildcard without alias,
whatever the projections in front of `p` wrote.  On the test tuple of index
`i`, `*, (int-1)*2 AS int` yields `int: 2 * i`, the computed value, and
`(int-1)*2 AS int, *` yields `int: i + 1`, the field of the tuple. -/
theorem later_projection_wins (ext : Externals) (ps qs : List Projection) (p : Projection)
    (t : Tuple) (m : Map) (a : String)
    (hm : evalProjections ext.withAssign (ps ++ p :: qs) t [] = .ok m)
    (hlater : ∀ q ∈ qs, ¬ WritesName q t a) :
    (p.aliasName = a → a ≠ "*" → p.aliasPath = [] →
      ∃ v, p.evaluator t = .ok v ∧ m.lookup a = some v) ∧
    (p.aliasName = "*" → ∀ fields v, p.evaluator t = .ok (.map fields) →
      (fields.map Prod.fst).Nodup → (a, v) ∈ fields → m.lookup a = some v) ∧
    (∀ (ext2 : Externals) (r : Map), evalProjections ext2 (ps ++ p :: qs) t r =
      match evalProjections ext2 ps t r with
      | .error err => .error err
      | .ok built => evalProjections ext2 (p :: qs) t built) ∧
    (∀ i : Nat, 2 * (i : Int) < 9223372036854775808 →
      evalProjections ext.withAssign (analyzeProjections wildcardThenInt) (getTuple i) []
        = .ok [("int", .int (2 * (i : Int)))] ∧
      evalProjections ext.withAssign (analyzeProjections intThenWildcard) (getTuple i) []
        = .ok [("int", .int ((i : Int) + 1))]) := by
  obtain ⟨built, v, written, _, hp, hw, hlook⟩ :=
    evalProjections_last_writer ext ps qs p t m a hm hlater
  refine ⟨?_, ?_, ?_, ?_⟩
  · intro hname hstar hpath
    refine ⟨v, hp, ?_⟩
    rw [hlook]
    unfold assignOutputValue at hw
    rw [hname, if_neg hstar, hpath] at hw
    simp only [Except.ok.injEq] at hw
    subst hw
    rw [lookup_setField, if_pos rfl]
  · intro hstar fields w hf hnodup hmem
    rw [hlook]
    rw [hf] at hp
    simp only [Except.ok.injEq] at hp
    subst hp
    unfold assignOutputValue at hw
    rw [if_pos hstar] at hw
    simp only [Except.ok.injEq] at hw
    subst hw
    exact lookup_mergeFields fields a w hnodup hmem built
  · intro ext2 r
    exact evalProjections_append ext2 ps (p :: qs) t r
  · intro i hi
    constructor
    · simp [analyzeProjections, wildcardThenInt, analyzeFrom, analyzeProjection,
        evalProjections, Externals.withAssign, assignOutputValue, eval_intMinusOneTimesTwo i hi]
      simp [getTuple, mergeFields, setField]
    · simp [analyzeProjections, intThenWildcard, analyzeFrom, analyzeProjection,
        evalProjections, Externals.withAssign, assignOutputValue, eval_intMinusOneTimesTwo i hi]
      simp [getTuple, mergeFields, setField]

/-- The tests "SELECT clause with a wildcard and an overriding column" and
"SELECT clause with a column and an overriding wildcard" on the four test
tuples, and the theorem at the second tuple: after the wildcard, the
projection with the alias `int` is the last to write `int`. -/
theorem later_projection_wins_witness :
    evalProjections exampleExternals.withAssign
      ([analyzeProjection 1 .wildcard]
        ++ analyzeProjection 2 (.aliasExpression intMinusOneTimesTwo "int" []) :: [])
      (getTuple 1) [] = .ok [("int", .int 2)] ∧
    (∃ v, (analyzeProjection 2 (.aliasExpression intMinusOneTimesTwo "int" [])).evaluator
        (getTuple 1) = .ok v ∧
      List.lookup "int" ([("int", .int 2)] : Map) = some v) ∧
    processAll exampleExternals.withAssign
        (newPlan (analyzeProjections wildcardThenInt) (.Seconds 2) none .Istream) (getTuples 4)
      = [.ok [[("int", .int 0)]], .ok [[("int", .int 2)]], .ok [[("int", .int 4)]],
         .ok [[("int", .int 6)]]] ∧
    processAll exampleExternals.withAssign
        (newPlan (analyzeProjections intThenWildcard) (.Seconds 2) none .Istream) (getTuples 4)
      = [.ok [[("int", .int 1)]], .ok [[("int", .int 2)]], .ok [[("int", .int 3)]],
         .ok [[("int", .int 4)]]] :=
  ⟨rfl,
    (later_projection_wins exampleExternals [analyzeProjection 1 .wildcard] []
      (analyzeProjection 2 (.aliasExpression intMinusOneTimesTwo "int" [])) (getTuple 1)
      [("int", .int 2)] "int" rfl (fun q hq => by cases hq)).1 rfl (by decide) rfl,
    rfl, rfl⟩

/-! ## The names of the projections -/

theorem filterRows_ok (f : Tuple → Except Error Value) (rows : Nat → inputRowWithCachedResult) :
    ∀ (l keep : List Nat), filterRows f rows l = .ok keep →
      keep = l.filter (fun a => passes f (rows a).input) := by
  intro l
  induction l with
  | nil =>
    intro keep h
    simp only [filterRows, Except.ok.injEq] at h
    rw [← h]
    rfl
  | cons a rest ih =>
    intro keep h
    unfold filterRows at h
    cases hf : f (rows a).input with
    | error err => rw [hf] at h; simp at h
    | ok v =>
      rw [hf] at h
      simp only at h
      cases hr : filterRows f rows rest with
      | error err => rw [hr] at h; simp at h
      | ok keep0 =>
        rw [hr] at h
        simp only [Except.ok.injEq] at h
        have h0 := ih keep0 hr
        rw [← h, h0]
        by_cases hv : v = Value.bool true
        · rw [if_pos hv, List.filter_cons_of_pos (by simp [passes, hf, hv])]
        · rw [if_neg hv, List.filter_cons_of_neg (by simp [passes, hf, hv])]

theorem filterRows_total (f : Tuple → Except Error Value) (rows : Nat → inputRowWithCachedResult) :
    ∀ l : List Nat, (∀ a ∈ l, ∃ v, f (rows a).input = .ok v) →
      filterRows f rows l = .ok (l.filter (fun a => passes f (rows a).input)) := by
  intro l
  induction l with
  | nil => intro _; rfl
  | cons a rest ih =>
    intro hall
    obtain ⟨v, hv⟩ := hall a (List.mem_cons_self _ _)
    have hrest := ih (fun b hb => hall b (List.mem_cons_of_mem _ hb))
    unfold filterRows
    rw [hv]
    simp only
    rw [hrest]
    simp only
    by_cases hb : v = Value.bool true
    · rw [if_pos hb, List.filter_cons_of_pos (by simp [passes, hv, hb])]
    · rw [if_neg hb, List.filter_cons_of_neg (by simp [passes, hv, hb])]

theorem eval_intIsEven (a : Nat) :
    intIsEven.eval (getTuple a) = .ok (.bool (decide ((a + 1) % 2 = 0))) := by
  have h : Int.tmod ((a : Int) + 1) 2 = 0 ↔ (a + 1) % 2 = 0 := by
    rw [Int.tmod_eq_emod (by omega) (by omega)]
    omega
  simp [intIsEven, Expression.eval, column, getTuple, List.lookup, evalBinaryOp, h]

theorem passes_intIsEven (a : Nat) :
    passes intIsEven.eval (getTuple a) = decide ((a + 1) % 2 = 0) := by
  simp [passes, eval_intIsEven]

theorem evalProjections_intAsB (ext : Externals) (a : Nat) :
    evalProjections ext.withAssign (analyzeProjections intAsB) (getTuple a) []
      = .ok [("b", .int ((a : Int) + 1))] := by
  simp [analyzeProjections, intAsB, analyzeFrom, analyzeProjection, evalProjections,
    Externals.withAssign, assignOutputValue, Expression.eval, column, getTuple, List.lookup,
    setField]

theorem resultOfB_same (ext : Externals) (a b : Nat) :
    (resultOfB ext a).same (resultOfB ext b) = decide (a = b) := by
  by_cases e : a = b
  · subst e
    simp [resultRow.same_self]
  · have hne : ((a : Int) + 1) ≠ ((b : Int) + 1) := by omega
    simp [resultRow.same, resultOfB, e, hne]

theorem resultsBeforeError_map_ok (l : List Nat) (g : Nat → resultRow) :
    resultsBeforeError (l.map (fun a => (Except.ok (g a) : Except Error resultRow)))
      = l.map g := by
  induction l with
  | nil => rfl
  | cons a rest ih => simp [resultsBeforeError, ih]

theorem firstError_map_ok (l : List Nat) (g : Nat → resultRow) :
    firstError (l.map (fun a => (Except.ok (g a) : Except Error resultRow))) = none := by
  induction l with
  | nil => rfl
  | cons a rest ih => simpa [firstError] using ih

/-- ISTREAM on the results of two lists of test tuples emits the results of the
tuples of the second list that are not in the first. -/
theorem istream_resultOfB (ext : Externals) (l1 l2 : List Nat) :
    computeResultTuples .Istream (l1.map (resultOfB ext)) (l2.map (resultOfB ext))
      = (l2.filter (fun a => !decide (a ∈ l1))).map (fun a => (resultOfB ext a).row) := by
  unfold computeResultTuples
  simp only
  rw [List.filter_map, List.map_map]
  congr 1
  apply List.filter_congr
  intro a _
  simp only [Function.comp]
  congr 1
  rw [Bool.eq_iff_iff]
  simp only [List.any_eq_true, decide_eq_true_eq]
  constructor
  · rintro ⟨b, hb, e⟩
    obtain ⟨c, hc, hcb⟩ := List.mem_map.mp hb
    rw [← hcb, resultOfB_same] at e
    have hac : a = c := by simpa using e
    rw [hac]; exact hc
  · intro h
    exact ⟨resultOfB ext a, List.mem_map.mpr ⟨a, h, rfl⟩, resultRow.same_self _⟩

theorem even_window_new (k : Nat) :
    ((List.range (k + 1)).filter
        (fun a => decide ((a + 1) % 2 = 0) && decide (k + 1 ≤ a + 3))).filter
      (fun a => !decide (a ∈ (List.range k).filter
        (fun a => decide ((a + 1) % 2 = 0) && decide (k ≤ a + 3))))
      = if (k + 1) % 2 = 0 then [k] else [] := by
  rw [List.range_succ, List.filter_append, List.filter_append]
  have h1 : ((List.range k).filter
        (fun a => decide ((a + 1) % 2 = 0) && decide (k + 1 ≤ a + 3))).filter
      (fun a => !decide (a ∈ (List.range k).filter
        (fun a => decide ((a + 1) % 2 = 0) && decide (k ≤ a + 3)))) = [] := by
    rw [List.filter_eq_nil_iff]
    intro a ha
    obtain ⟨hr, hq⟩ := List.mem_filter.mp ha
    simp only [Bool.and_eq_true, decide_eq_true_eq] at hq
    simp only [Bool.not_eq_true', decide_eq_false_iff_not, not_not, Bool.not_eq_true,
      List.mem_filter, Bool.and_eq_true, decide_eq_true_eq]
    exact ⟨hr, hq.1, by omega⟩
  rw [h1, List.nil_append]
  have hk : k ∉ (List.range k).filter
      (fun a => decide ((a + 1) % 2 = 0) && decide (k ≤ a + 3)) := by
    intro h
    have := List.mem_range.mp (List.mem_filter.mp h).1
    omega
  by_cases he : (k + 1) % 2 = 0
  · rw [if_pos he]
    simp [he, hk]
  · rw [if_neg he]
    simp [he]

theorem getTuple_timestamp (a : Nat) : (getTuple a).Timestamp = (a : Int) * 1000000000 := rfl

/-- One cycle of the test query with the filter `int % 2 = 0` on the next test
tuple: the invariant is kept and the output is the projection of the tuple
if its `int` is even, nothing otherwise. -/
theorem process_even (ext : Externals) (s : PlanState) (k : Nat) (hinv : EvenInv ext s k) :
    EvenInv ext (process ext.withAssign s (getTuple k)).2 (k + 1) ∧
    (process ext.withAssign s (getTuple k)).1
      = .ok (if (k + 1) % 2 = 0 then [[("b", .int ((k : Int) + 1))]] else []) := by
  obtain ⟨hsep, hproj, hfilter, hwin, hemit, hnext, hinput, hres, hbuf, hcur⟩ := hinv
  have hrow : ∀ a, (ingest s (getTuple k)).ep.heap.rows a
      = if a = k then ⟨getTuple k, none, 0⟩ else s.ep.heap.rows a := by
    intro a
    show Function.update s.ep.heap.rows s.nextRow ⟨getTuple k, none, 0⟩ a = _
    rw [hnext]
    by_cases e : a = k
    · subst e; simp
    · simp [Function.update, e]
  have hinput1 : ∀ a, a < k + 1 → ((ingest s (getTuple k)).ep.heap.rows a).input = getTuple a := by
    intro a ha
    rw [hrow a]
    by_cases e : a = k
    · rw [if_pos e, e]
    · rw [if_neg e]
      exact hinput a (by omega)
  have hres1 : ∀ a, a < k + 1 →
      rowResult ext.withAssign (analyzeProjections intAsB)
        ((ingest s (getTuple k)).ep.heap.rows a) = .ok (resultOfB ext a) := by
    intro a ha
    rw [hrow a]
    by_cases e : a = k
    · rw [if_pos e, e]
      unfold rowResult
      simp only
      rw [evalProjections_intAsB]
      rfl
    · rw [if_neg e]
      exact hres a (by omega)
  have hts1 : ∀ a, a < k + 1 →
      ((ingest s (getTuple k)).ep.heap.rows a).input.Timestamp = (a : Int) * 1000000000 := by
    intro a ha
    rw [hinput1 a ha, getTuple_timestamp]
  have hmemk : ∀ a ∈ s.buffer ++ [k], a < k + 1 := by
    intro a ha
    rcases List.mem_append.mp ha with h | h
    · rw [hbuf] at h
      have := List.mem_range.mp (List.mem_filter.mp h).1
      omega
    · have : a = k := by simpa using h
      omega
  have hbuf1 : (ingest s (getTuple k)).buffer
      = (List.range (k + 1)).filter (fun a => decide (k + 1 ≤ a + 3)) := by
    have e0 : (ingest s (getTuple k)).buffer
        = evictSeconds 2 (getTuple k).Timestamp (ingest s (getTuple k)).ep.heap.rows
          (s.buffer ++ [k]) := by
      rw [ingest_buffer, hwin, ← hnext]
      rfl
    rw [e0]
    have hsorted : (s.buffer ++ [k]).Pairwise (fun a b =>
        ((ingest s (getTuple k)).ep.heap.rows a).input.Timestamp
          ≤ ((ingest s (getTuple k)).ep.heap.rows b).input.Timestamp) := by
      have hsub : List.Sublist (s.buffer ++ [k]) (List.range (k + 1)) := by
        rw [hbuf, List.range_succ]
        exact List.Sublist.append (List.filter_sublist _) (List.Sublist.refl _)
      apply List.Pairwise.sublist hsub
      apply List.Pairwise.imp_of_mem _ (List.pairwise_lt_range (k + 1))
      intro a b ha hb hab
      rw [hts1 a (List.mem_range.mp ha), hts1 b (List.mem_range.mp hb)]
      omega
    rw [evictSeconds_eq_filter 2 _ _ _ hsorted, List.filter_append, hbuf, List.filter_filter,
      List.range_succ, List.filter_append]
    congr 1
    · apply List.filter_congr
      intro a ha
      have ha2 : a < k := List.mem_range.mp ha
      rw [hts1 a (by omega), getTuple_timestamp, Bool.eq_iff_iff]
      simp only [Bool.and_eq_true, decide_eq_true_eq, Nat.cast_ofNat]
      constructor
      · rintro ⟨h1, _⟩
        omega
      · intro h1
        constructor <;> omega
    · apply List.filter_congr
      intro a ha
      have ea : a = k := by simpa using ha
      rw [hts1 a (by omega), getTuple_timestamp, Bool.eq_iff_iff, ea]
      simp only [decide_eq_true_eq, Nat.cast_ofNat]
      constructor
      · intro _
        omega
      · intro _
        omega
  have hf : filteredRows (ingest s (getTuple k))
      = .ok ((List.range (k + 1)).filter
          (fun a => decide ((a + 1) % 2 = 0) && decide (k + 1 ≤ a + 3))) := by
    have hfl : (ingest s (getTuple k)).filter = some intIsEven.eval := hfilter
    unfold filteredRows
    rw [hfl]
    simp only
    rw [filterRows_total, hbuf1, List.filter_filter]
    · congr 1
      apply List.filter_congr
      intro a ha
      rw [hinput1 a (List.mem_range.mp ha), passes_intIsEven]
    · intro a ha
      rw [hbuf1] at ha
      have := List.mem_range.mp (List.mem_filter.mp ha).1
      rw [hinput1 a this, eval_intIsEven]
      exact ⟨_, rfl⟩
  have hproj1 : (ingest s (getTuple k)).ep.projections = analyzeProjections intAsB := hproj
  have hout : outcomes ext.withAssign (ingest s (getTuple k)).ep.projections
      (ingest s (getTuple k)).ep.heap
      ((List.range (k + 1)).filter (fun a => decide ((a + 1) % 2 = 0) && decide (k + 1 ≤ a + 3)))
      = ((List.range (k + 1)).filter
          (fun a => decide ((a + 1) % 2 = 0) && decide (k + 1 ≤ a + 3))).map
          (fun a => (Except.ok (resultOfB ext a) : Except Error resultRow)) := by
    unfold outcomes
    apply List.map_congr_left
    intro a ha
    rw [hproj1]
    exact hres1 a (List.mem_range.mp (List.mem_filter.mp ha).1)
  have hok : (cycle ext.withAssign (ingest s (getTuple k)).ep
      ((List.range (k + 1)).filter
        (fun a => decide ((a + 1) % 2 = 0) && decide (k + 1 ≤ a + 3)))).1 = none := by
    rw [cycle_error, hout, firstError_map_ok]
  have hsep1 : Separate (ingest s (getTuple k)).ep := hsep
  have hprev : (cycle ext.withAssign (ingest s (getTuple k)).ep
      ((List.range (k + 1)).filter
        (fun a => decide ((a + 1) % 2 = 0) && decide (k + 1 ≤ a + 3)))).2.heap.contents
      (cycle ext.withAssign (ingest s (getTuple k)).ep
      ((List.range (k + 1)).filter
        (fun a => decide ((a + 1) % 2 = 0) && decide (k + 1 ≤ a + 3)))).2.prevResults
      = ((List.range k).filter
          (fun a => decide ((a + 1) % 2 = 0) && decide (k ≤ a + 3))).map (resultOfB ext) := by
    have e : (cycle ext.withAssign (ingest s (getTuple k)).ep
      ((List.range (k + 1)).filter
        (fun a => decide ((a + 1) % 2 = 0) && decide (k + 1 ≤ a + 3)))).2.prevResults
        = (ingest s (getTuple k)).ep.curResults := (performQueryOnBuffer_ok _ _ hok).2
    rw [e, cycle_keeps_cur _ _ _ hsep1]
    exact hcur
  have hnew : (cycle ext.withAssign (ingest s (getTuple k)).ep
      ((List.range (k + 1)).filter
        (fun a => decide ((a + 1) % 2 = 0) && decide (k + 1 ≤ a + 3)))).2.heap.contents
      (cycle ext.withAssign (ingest s (getTuple k)).ep
      ((List.range (k + 1)).filter
        (fun a => decide ((a + 1) % 2 = 0) && decide (k + 1 ≤ a + 3)))).2.curResults
      = ((List.range (k + 1)).filter
          (fun a => decide ((a + 1) % 2 = 0) && decide (k + 1 ≤ a + 3))).map (resultOfB ext) := by
    rw [cycle_cur_contents _ _ _ hok, hout, resultsBeforeError_map_ok]
  rw [process_ok ext.withAssign s (getTuple k) _ hf hok]
  refine ⟨⟨cycle_separate _ _ _ hsep1, ?_, hfilter, hwin, hemit, ?_, ?_, ?_, hbuf1, hnew⟩, ?_⟩
  · rw [cycle_projections]; exact hproj1
  · show s.nextRow + 1 = k + 1
    rw [hnext]
  · intro a ha
    show ((cycle ext.withAssign (ingest s (getTuple k)).ep _).2.heap.rows a).input = _
    rw [cycle_input]
    exact hinput1 a ha
  · intro a ha
    show rowResult ext.withAssign (analyzeProjections intAsB)
      ((cycle ext.withAssign (ingest s (getTuple k)).ep _).2.heap.rows a) = _
    have h1 := cycle_rows ext.withAssign (ingest s (getTuple k)).ep
      ((List.range (k + 1)).filter
        (fun a => decide ((a + 1) % 2 = 0) && decide (k + 1 ≤ a + 3))) a
    rw [hproj1] at h1
    rcases h1 with e | e
    · rw [e]; exact hres1 a ha
    · rw [e, rowResult_filledRow]; exact hres1 a ha
  · simp only
    rw [hprev, hnew, hemit, istream_resultOfB, even_window_new]
    by_cases he : (k + 1) % 2 = 0
    · rw [if_pos he, if_pos he]
      rfl
    · rw [if_neg he, if_neg he]
      rfl

theorem newPlan_even (ext : Externals) :
    EvenInv ext (newPlan (analyzeProjections intAsB) (.Seconds 2) (some intIsEven.eval) .Istream)
      0 := by
  refine ⟨⟨?_, trivial, trivial⟩, rfl, rfl, rfl, rfl, rfl, ?_, ?_, rfl, rfl⟩
  · intro h
    exact h
  · intro a ha
    omega
  · intro a ha
    omega

/-- The test query with the filter `int % 2 = 0`, started in a state that has
seen the first `k` test tuples, emits on the following test tuples the
projection of each tuple whose `int` is even and nothing on the others. -/
theorem processAll_even (ext : Externals) :
    ∀ (m : Nat) (s : PlanState) (k : Nat), EvenInv ext s k →
      processAll ext.withAssign s ((List.range' k m).map getTuple)
        = (List.range' k m).map (fun (i : Nat) =>
            (Except.ok (if (i + 1) % 2 = 0 then [[("b", Value.int ((i : Int) + 1))]] else []) :
              Except Error (List Map))) := by
  intro m
  induction m with
  | zero => intro s k _; rfl
  | succ m ih =>
    intro s k hinv
    obtain ⟨hinv2, hout⟩ := process_even ext s k hinv
    show (process ext.withAssign s (getTuple k)).1
        :: processAll ext.withAssign (process ext.withAssign s (getTuple k)).2
            ((List.range' (k + 1) m).map getTuple) = _
    rw [hout, ih _ (k + 1) hinv2]
    rfl

/-- C18: with a WHERE filter `f`, the rows handed to the projections are
exactly the rows of the window whose filter value is `true`, in window order: a
row whose filter value is `false` or Null is not among them, and after a
successful cycle `cur` holds exactly the results of the rows kept. For the test
query `ISTREAM(int AS b) [RANGE 2 SECONDS] WHERE int % 2 = 0` the cycle of the
test tuple with `int = i + 1` emits `b: i + 1` when `i + 1` is even and nothing
when it is odd, for every number of test tuples. -/
theorem filter_selects_true_rows (ext : Externals) (s : PlanState) (t : Tuple)
    (f : Tuple → Except Error Value) (keep : List Nat)
    (hfilter : s.filter = some f) (hkeep : filteredRows (ingest s t) = .ok keep) :
    keep = (ingest s t).buffer.filter
        (fun a => passes f ((ingest s t).ep.heap.rows a).input) ∧
    (∀ a, a ∈ keep ↔
      a ∈ (ingest s t).buffer ∧ f ((ingest s t).ep.heap.rows a).input = .ok (.bool true)) ∧
    (∀ a, f ((ingest s t).ep.heap.rows a).input = .ok (.bool false) ∨
        f ((ingest s t).ep.heap.rows a).input = .ok .null → a ∉ keep) ∧
    ((process ext s t).1.toOption.isSome →
      ((process ext s t).2.ep.heap.contents (process ext s t).2.ep.curResults).map Except.ok
        = keep.map (fun a => rowResult ext s.ep.projections ((ingest s t).ep.heap.rows a))) ∧
    (∀ n, processAll ext.withAssign
        (newPlan (analyzeProjections intAsB) (.Seconds 2) (some intIsEven.eval) .Istream)
        (getTuples n)
      = (List.range n).map (fun (i : Nat) =>
          (Except.ok (if (i + 1) % 2 = 0 then [[("b", Value.int ((i : Int) + 1))]] else []) :
            Except Error (List Map)))) := by
  have hfl : (ingest s t).filter = some f := hfilter
  have hk : keep = (ingest s t).buffer.filter
      (fun a => passes f ((ingest s t).ep.heap.rows a).input) := by
    unfold filteredRows at hkeep
    rw [hfl] at hkeep
    exact filterRows_ok f _ _ _ hkeep
  have hpass : ∀ u : Tuple, passes f u = true ↔ f u = .ok (.bool true) := by
    intro u
    unfold passes
    cases hu : f u with
    | error err => simp
    | ok v => simp
  have hmem : ∀ a, a ∈ keep ↔
      a ∈ (ingest s t).buffer ∧ f ((ingest s t).ep.heap.rows a).input = .ok (.bool true) := by
    intro a
    rw [hk, List.mem_filter, hpass]
  refine ⟨hk, hmem, ?_, ?_, ?_⟩
  · intro a ha hin
    have h := ((hmem a).mp hin).2
    rcases ha with ha | ha
    · rw [ha] at h
      cases h
    · rw [ha] at h
      cases h
  · intro hsome
    cases hc : (cycle ext (ingest s t).ep keep).1 with
    | some err =>
      rw [process_failed ext s t keep err hkeep hc] at hsome
      cases hsome
    | none =>
      rw [process_ok ext s t keep hkeep hc]
      show ((cycle ext (ingest s t).ep keep).2.heap.contents
        (cycle ext (ingest s t).ep keep).2.curResults).map Except.ok = _
      rw [cycle_cur_contents ext _ keep hc]
      rw [cycle_error] at hc
      rw [← firstError_none _ hc]
      rfl
  · intro n
    rw [getTuples, List.range_eq_range']
    exact processAll_even ext n _ 0 (newPlan_even ext)

theorem filter_selects_true_rows_witness :
    (stateAfter exampleExternals.withAssign
        (newPlan (analyzeProjections intAsB) (.Seconds 2) (some intIsEven.eval) .Istream)
        (getTuples 2)).filter = some intIsEven.eval ∧
    filteredRows (ingest (stateAfter exampleExternals.withAssign
        (newPlan (analyzeProjections intAsB) (.Seconds 2) (some intIsEven.eval) .Istream)
        (getTuples 2)) (getTuple 2)) = .ok [1] ∧
    (ingest (stateAfter exampleExternals.withAssign
        (newPlan (analyzeProjections intAsB) (.Seconds 2) (some intIsEven.eval) .Istream)
        (getTuples 2)) (getTuple 2)).buffer = [0, 1, 2] ∧
    processAll exampleExternals.withAssign
        (newPlan (analyzeProjections intAsB) (.Seconds 2) (some intIsEven.eval) .Istream)
        (getTuples 4)
      = [.ok [], .ok [[("b", .int 2)]], .ok [], .ok [[("b", .int 4)]]] :=
  ⟨rfl, rfl, rfl,
    (filter_selects_true_rows exampleExternals
      (stateAfter exampleExternals.withAssign
        (newPlan (analyzeProjections intAsB) (.Seconds 2) (some intIsEven.eval) .Istream)
        (getTuples 2)) (getTuple 2) intIsEven.eval [1] rfl rfl).2.2.2.2 4⟩

/-! ## The capability check -/

/-- C21: `CanBuildDefaultSelectExecutionPlan` returns true if and only if the
grouping flag of the analyzed plan is false (the flag in which the analyzer
records grouping expressions and aggregate functions), and the answer depends
only on that flag of the plan: it is the same for every function registry,
of whatever type, and for every plan with the same flag. -/
theorem canBuild_iff_no_grouping {R1 R2 : Type} (lp : LogicalPlan) (reg : R1) (reg2 : R2) :
    (CanBuildDefaultSelectExecutionPlan lp reg = true ↔ lp.GroupingStmt = false) ∧
    CanBuildDefaultSelectExecutionPlan lp reg = CanBuildDefaultSelectExecutionPlan lp reg2 ∧
    (∀ lp2 : LogicalPlan, lp2.GroupingStmt = lp.GroupingStmt →
      CanBuildDefaultSelectExecutionPlan lp2 reg2 = CanBuildDefaultSelectExecutionPlan lp reg) := by
  refine ⟨?_, rfl, ?_⟩
  · unfold CanBuildDefaultSelectExecutionPlan
    cases lp.GroupingStmt <;> simp
  · intro lp2 h
    unfold CanBuildDefaultSelectExecutionPlan
    rw [h]

/-! ## Hashes of caches and results -/

theorem AsMap_ok (c : Value) (m : Map) (h : AsMap c = .ok m) : c = Value.map m := by
  cases c <;> simp [AsMap] at h
  rw [h]

theorem AsMap_error (c : Value) (h : ∀ m, c ≠ Value.map m) : ∃ e, AsMap c = .error e := by
  cases c with
  | map kvs => exact absurd rfl (h kvs)
  | null => exact ⟨_, rfl⟩
  | bool b => exact ⟨_, rfl⟩
  | int i => exact ⟨_, rfl⟩
  | float f => exact ⟨_, rfl⟩
  | string s => exact ⟨_, rfl⟩
  | blob b => exact ⟨_, rfl⟩
  | timestamp t => exact ⟨_, rfl⟩
  | array vs => exact ⟨_, rfl⟩

/-- A result that a row stands for carries the hash of its Map, when the hash
stored with a present cache is the hash of that cache. -/
theorem rowResult_hash (ext : Externals) (projections : List Projection)
    (r : inputRowWithCachedResult) (x : resultRow)
    (hinv : ∀ c, r.cache = some c → r.hash = ext.Hash c)
    (hx : rowResult ext projections r = .ok x) : x.hash = ext.Hash (Value.map x.row) := by
  unfold rowResult at hx
  cases hc : r.cache with
  | some c =>
    rw [hc] at hx
    simp only at hx
    cases ha : AsMap c with
    | error e => rw [ha] at hx; cases hx
    | ok m =>
      rw [ha] at hx
      simp only [Except.ok.injEq] at hx
      rw [← hx]
      show r.hash = ext.Hash (Value.map m)
      rw [hinv c hc, AsMap_ok c m ha]
  | none =>
    rw [hc] at hx
    simp only at hx
    cases hp : evalProjections ext projections r.input [] with
    | error e => rw [hp] at hx; cases hx
    | ok m =>
      rw [hp] at hx
      simp only [Except.ok.injEq] at hx
      rw [← hx]

/-- The row that `evalItem` leaves behind a successful projection has a cache
and the hash of that cache. -/
theorem filledRow_hash (ext : Externals) (projections : List Projection)
    (r : inputRowWithCachedResult) (x : resultRow)
    (hinv : ∀ c, r.cache = some c → r.hash = ext.Hash c)
    (hx : rowResult ext projections r = .ok x) :
    ∃ c, (filledRow ext projections r).cache = some c ∧
      (filledRow ext projections r).hash = ext.Hash c := by
  unfold filledRow
  unfold rowResult at hx
  cases hc : r.cache with
  | some c =>
    simp only
    exact ⟨c, hc, hinv c hc⟩
  | none =>
    rw [hc] at hx
    simp only at hx ⊢
    cases hp : evalProjections ext projections r.input [] with
    | error e => rw [hp] at hx; cases hx
    | ok m => exact ⟨Value.map m, rfl, rfl⟩

/-- C27: if every filtered row that has a cache stores the hash of that cache
on entry, then after a successful `performQueryOnBuffer` every filtered row
has a cache and stores the hash of it, and every result row in `curResults`
carries the hash of its own Map. -/
theorem performQueryOnBuffer_hashes (ext : Externals) (ep : defaultSelectExecutionPlan)
    (hinv : ∀ io ∈ ep.filteredInputRows, ∀ c, (ep.heap.rows io).cache = some c →
      (ep.heap.rows io).hash = ext.Hash c)
    (hok : (performQueryOnBuffer ext ep).1 = none) :
    (∀ io ∈ ep.filteredInputRows, ∃ c,
      ((performQueryOnBuffer ext ep).2.heap.rows io).cache = some c ∧
      ((performQueryOnBuffer ext ep).2.heap.rows io).hash = ext.Hash c) ∧
    (∀ x ∈ (performQueryOnBuffer ext ep).2.heap.contents
        (performQueryOnBuffer ext ep).2.curResults, x.hash = ext.Hash (Value.map x.row)) := by
  have hall : ∀ io ∈ ep.filteredInputRows,
      ∃ x, rowResult ext ep.projections (ep.heap.rows io) = .ok x := by
    intro io hio
    rw [performQueryOnBuffer_error] at hok
    exact firstError_none_mem _ hok _ (List.mem_map.mpr ⟨io, hio, rfl⟩)
  constructor
  · intro io hio
    have hloop : (loopResult ext ep).1 = none := by
      rw [← hok, performQueryOnBuffer_error]
      exact evalItems_error ext ep.projections ep.filteredInputRows ep.heap _
    rw [performQueryOnBuffer_heap]
    have hrow := evalItems_rows_mem ext ep.projections ep.filteredInputRows ep.heap
      ep.prevResults.reslice00 hloop io hio
    unfold loopResult
    rw [hrow]
    obtain ⟨x, hx⟩ := hall io hio
    exact filledRow_hash ext ep.projections _ x (hinv io hio) hx
  · intro x hx
    have hmem : (Except.ok x : Except Error resultRow) ∈
        ((performQueryOnBuffer ext ep).2.heap.contents
          (performQueryOnBuffer ext ep).2.curResults).map Except.ok :=
      List.mem_map.mpr ⟨x, hx, rfl⟩
    rw [performQueryOnBuffer_ok_outcomes ext ep hok] at hmem
    obtain ⟨io, hio, hr⟩ := List.mem_map.mp hmem
    exact rowResult_hash ext ep.projections _ x (hinv io hio) hr

/-- On the example after a first cycle on row 0: row 0 holds the cache that the
first cycle filled, with the hash of it, row 1 has no cache, and the second
call, on rows 0 and 1, succeeds. -/
theorem performQueryOnBuffer_hashes_witness :
    ((cycle exampleExternals (examplePlan []) [0]).2.heap.rows 0).cache
      = some (Value.map [("a", .int 1)]) ∧
    (performQueryOnBuffer exampleExternals
      { (cycle exampleExternals (examplePlan []) [0]).2 with filteredInputRows := [0, 1] }).1
      = none ∧
    ∀ x ∈ (performQueryOnBuffer exampleExternals
        { (cycle exampleExternals (examplePlan []) [0]).2 with
          filteredInputRows := [0, 1] }).2.heap.contents
        (performQueryOnBuffer exampleExternals
          { (cycle exampleExternals (examplePlan []) [0]).2 with
            filteredInputRows := [0, 1] }).2.curResults,
      x.hash = exampleExternals.Hash (Value.map x.row) :=
  ⟨rfl, rfl,
    (performQueryOnBuffer_hashes exampleExternals
      { (cycle exampleExternals (examplePlan []) [0]).2 with filteredInputRows := [0, 1] }
      (by
        intro io hio c hc
        have hio2 : io = 0 ∨ io = 1 := by simpa using hio
        rcases hio2 with e | e
        · subst e
          have h0 : (cycle exampleExternals (examplePlan []) [0]).2.heap.rows 0
              = ⟨getTuple 0, some (Value.map [("a", .int 1)]), 2⟩ := rfl
          change ((cycle exampleExternals (examplePlan []) [0]).2.heap.rows 0).cache = some c
            at hc
          change ((cycle exampleExternals (examplePlan []) [0]).2.heap.rows 0).hash
            = exampleExternals.Hash c
          rw [h0] at hc ⊢
          cases hc
          rfl
        · subst e
          have h1 : (cycle exampleExternals (examplePlan []) [0]).2.heap.rows 1
              = ⟨getTuple 1, none, 0⟩ := rfl
          change ((cycle exampleExternals (examplePlan []) [0]).2.heap.rows 1).cache = some c
            at hc
          rw [h1] at hc
          cases hc)
      rfl).2⟩

/-! ## A cache that is not a Map -/

theorem firstError_append_error (l1 l2 : List (Except Error resultRow)) (err : Error) :
    firstError (l1 ++ .error err :: l2) ≠ none := by
  induction l1 with
  | nil => simp [firstError]
  | cons a rest ih =>
    cases a with
    | error e => simp [firstError]
    | ok x => simpa [firstError] using ih

theorem resultsBeforeError_append_error (l1 l2 : List (Except Error resultRow)) (err : Error) :
    resultsBeforeError (l1 ++ .error err :: l2) = resultsBeforeError l1 := by
  induction l1 with
  | nil => rfl
  | cons a rest ih =>
    cases a with
    | error e => rfl
    | ok x => simp [resultsBeforeError, ih]

theorem resultsBeforeError_length (l : List (Except Error resultRow)) :
    (resultsBeforeError l).length ≤ l.length := by
  induction l with
  | nil => simp [resultsBeforeError]
  | cons a rest ih =>
    cases a with
    | error e => simp [resultsBeforeError]
    | ok x => simpa [resultsBeforeError] using ih

theorem rowResult_not_map (ext : Externals) (projections : List Projection)
    (r : inputRowWithCachedResult) (c : Value) (hc : r.cache = some c)
    (hnotmap : ∀ m, c ≠ Value.map m) :
    rowResult ext projections r
      = .error ("cached data was not a map: " ++ ext.format (some c)) := by
  obtain ⟨e, he⟩ := AsMap_error c hnotmap
  unfold rowResult
  rw [hc]
  simp only
  rw [he]

/-- When the loop meets a row that fails, the rows that are not in front of it
are left as they are. -/
theorem evalItems_rows_untouched (ext : Externals) (projections : List Projection)
    (after : List Nat) (io : Nat) (err : Error) :
    ∀ (before : List Nat) (h : Heap) (o : Slice),
      rowResult ext projections (h.rows io) = .error err →
      ∀ j, j ∉ before →
        (evalItems ext projections (before ++ io :: after) h o).2.1.rows j = h.rows j := by
  intro before
  induction before with
  | nil =>
    intro h o hio j _
    rw [List.nil_append, evalItems_cons, evalItem_eq, hio]
  | cons a rest ih =>
    intro h o hio j hj
    have hja : j ≠ a := fun e => hj (by rw [e]; exact List.mem_cons_self _ _)
    have hjr : j ∉ rest := fun e => hj (List.mem_cons_of_mem _ e)
    rw [List.cons_append, evalItems_cons, evalItem_eq]
    cases hr : rowResult ext projections (h.rows a) with
    | error e => rfl
    | ok x =>
      simp only
      have hio2 : rowResult ext projections
          ((goAppend ext (fillCache ext projections h a) o x).1.rows io) = .error err := by
        rw [goAppend_rows, fillCache_rowResult]
        exact hio
      rw [ih _ _ hio2 j hjr, goAppend_rows]
      unfold fillCache
      simp [Function.update, hja]

/-- C28, counterexample: on the rows with a corrupted cache, with the filtered
rows 2 and 4: the cache of row 4 is present and is not a Map, but row 2, in
front of it, has no field `int`; the call fails with the error of row 2, which
is not a "cached data was not a map" error. -/
theorem corrupt_cache_counterexample :
    ((corruptPlan [2, 4]).heap.rows 4).cache = some (.int 7) ∧
    (∀ m, Value.int 7 ≠ Value.map m) ∧
    4 ∈ (corruptPlan [2, 4]).filteredInputRows ∧
    (performQueryOnBuffer exampleExternals (corruptPlan [2, 4])).1
      = some "field not found: int" ∧
    (performQueryOnBuffer exampleExternals (corruptPlan [2, 4])).1
      ≠ some ("cached data was not a map: " ++ exampleExternals.format (some (.int 7))) :=
  ⟨rfl, (fun m h => by cases h), by decide, rfl, by decide⟩

/-- C28, amended: if the cache of a filtered row is present but is not a Map,
`performQueryOnBuffer` fails; when every filtered row in front of that row
projects without error, the error is "cached data was not a map" followed by
the formatted cache (otherwise it is the error of the first failing row in
front).  In both cases nothing is appended for that row or any later row (the
output holds only results of rows in front of it), no row from that row on is
touched, `curResults` is the same slice as before the call, and, entered with
`prevResults` and `curResults` not sharing storage, it has the same contents. -/
theorem performQueryOnBuffer_corrupt_cache (ext : Externals) (ep : defaultSelectExecutionPlan)
    (before after : List Nat) (io : Nat) (c : Value)
    (hcache : (ep.heap.rows io).cache = some c) (hnotmap : ∀ m, c ≠ Value.map m) :
    (performQueryOnBuffer ext { ep with filteredInputRows := before ++ io :: after }).1 ≠ none ∧
    ((∀ j ∈ before, ∃ x, rowResult ext ep.projections (ep.heap.rows j) = .ok x) →
      (performQueryOnBuffer ext { ep with filteredInputRows := before ++ io :: after }).1
        = some ("cached data was not a map: " ++ ext.format (some c))) ∧
    (performQueryOnBuffer ext { ep with filteredInputRows := before ++ io :: after }).2.heap.contents
        (performQueryOnBuffer ext
          { ep with filteredInputRows := before ++ io :: after }).2.prevResults
      = resultsBeforeError (outcomes ext ep.projections ep.heap before) ∧
    (resultsBeforeError (outcomes ext ep.projections ep.heap before)).length ≤ before.length ∧
    (∀ j, j ∉ before →
      (performQueryOnBuffer ext { ep with filteredInputRows := before ++ io :: after }).2.heap.rows j
        = ep.heap.rows j) ∧
    (performQueryOnBuffer ext { ep with filteredInputRows := before ++ io :: after }).2.curResults
      = ep.curResults ∧
    (Separate ep →
      (performQueryOnBuffer ext
          { ep with filteredInputRows := before ++ io :: after }).2.heap.contents
        (performQueryOnBuffer ext
          { ep with filteredInputRows := before ++ io :: after }).2.curResults
        = ep.heap.contents ep.curResults) := by
  have hrow := rowResult_not_map ext ep.projections (ep.heap.rows io) c hcache hnotmap
  have hout : outcomes ext ep.projections ep.heap (before ++ io :: after)
      = outcomes ext ep.projections ep.heap before
        ++ .error ("cached data was not a map: " ++ ext.format (some c))
          :: outcomes ext ep.projections ep.heap after := by
    unfold outcomes
    rw [List.map_append, List.map_cons, hrow]
  have hfail : (performQueryOnBuffer ext
      { ep with filteredInputRows := before ++ io :: after }).1 ≠ none := by
    rw [performQueryOnBuffer_error]
    show firstError (outcomes ext ep.projections ep.heap (before ++ io :: after)) ≠ none
    rw [hout]
    exact firstError_append_error _ _ _
  have hf := performQueryOnBuffer_failed ext
    { ep with filteredInputRows := before ++ io :: after } hfail
  refine ⟨hfail, ?_, ?_, ?_, ?_, hf.2, ?_⟩
  · intro hbefore
    have hloop := evalItems_stops ext ep.projections before after io ep.heap
      ep.prevResults.reslice00 _ hbefore hrow
    rw [performQueryOnBuffer_eq]
    have e : loopResult ext { ep with filteredInputRows := before ++ io :: after }
        = evalItems ext ep.projections (before ++ io :: after) ep.heap
            ep.prevResults.reslice00 := rfl
    rw [e, hloop]
  · rw [hf.1, performQueryOnBuffer_heap, loopResult_contents]
    show resultsBeforeError (outcomes ext ep.projections ep.heap (before ++ io :: after)) = _
    rw [hout, resultsBeforeError_append_error]
  · have h := resultsBeforeError_length (outcomes ext ep.projections ep.heap before)
    unfold outcomes at h ⊢
    simpa using h
  · intro j hj
    rw [performQueryOnBuffer_heap]
    exact evalItems_rows_untouched ext ep.projections after io _ before ep.heap
      ep.prevResults.reslice00 hrow j hj
  · intro hsep
    rw [hf.2]
    exact performQueryOnBuffer_keeps_cur ext
      { ep with filteredInputRows := before ++ io :: after } hsep

/-- On the rows with a corrupted cache, with the filtered rows 0, 4, 2: row 0
projects, the cache of row 4 is the Int 7, and the call fails with the "cached
data was not a map" error, leaving in the output only the result of row 0. -/
theorem performQueryOnBuffer_corrupt_cache_witness :
    ((corruptPlan []).heap.rows 4).cache = some (.int 7) ∧
    (performQueryOnBuffer exampleExternals
      { corruptPlan [] with filteredInputRows := [0] ++ 4 :: [2] }).1
      = some "cached data was not a map: ?" ∧
    (performQueryOnBuffer exampleExternals
        { corruptPlan [] with filteredInputRows := [0] ++ 4 :: [2] }).2.heap.contents
      (performQueryOnBuffer exampleExternals
        { corruptPlan [] with filteredInputRows := [0] ++ 4 :: [2] }).2.prevResults
      = [⟨[("a", .int 1)], 2⟩] :=
  ⟨rfl,
    (performQueryOnBuffer_corrupt_cache exampleExternals (corruptPlan []) [0] [2] 4 (.int 7) rfl
      (fun m h => by cases h)).2.1
      (by
        intro j hj
        have e : j = 0 := by simpa using hj
        subst e
        exact ⟨⟨[("a", .int 1)], 2⟩, rfl⟩),
    (performQueryOnBuffer_corrupt_cache exampleExternals (corruptPlan []) [0] [2] 4 (.int 7) rfl
      (fun m h => by cases h)).2.2.1⟩

/-! ## Storage reuse against the naive implementation -/

/-- The loop of the source and the naive loop, started on the same rows and
on outputs with the same contents, return the same error, leave the same rows
and outputs with the same contents. -/
theorem evalItems_naive (ext : Externals) (projections : List Projection) (addrs : List Nat) :
    ∀ (h : Heap) (o : Slice),
      (evalItems ext projections addrs h o).1
        = (naiveEvalItems ext projections addrs h.rows (h.contents o)).1 ∧
      (evalItems ext projections addrs h o).2.1.rows
        = (naiveEvalItems ext projections addrs h.rows (h.contents o)).2.1 ∧
      (evalItems ext projections addrs h o).2.1.contents (evalItems ext projections addrs h o).2.2
        = (naiveEvalItems ext projections addrs h.rows (h.contents o)).2.2 := by
  induction addrs with
  | nil => intro h o; exact ⟨rfl, rfl, rfl⟩
  | cons io rest ih =>
    intro h o
    rw [evalItems_cons]
    unfold evalItem naiveEvalItems
    cases hc : (h.rows io).cache with
    | some c =>
      simp only
      cases ha : AsMap c with
      | error e => exact ⟨rfl, rfl, rfl⟩
      | ok m =>
        simp only
        have h1 := ih (goAppend ext h o ⟨m, (h.rows io).hash⟩).1
          (goAppend ext h o ⟨m, (h.rows io).hash⟩).2
        rw [goAppend_rows, contents_goAppend] at h1
        exact h1
    | none =>
      simp only
      cases hp : evalProjections ext projections (h.rows io).input [] with
      | error e => exact ⟨rfl, rfl, rfl⟩
      | ok m =>
        simp only
        have h1 := ih
          (goAppend ext ⟨Function.update h.rows io
            ⟨(h.rows io).input, some (Value.map m), ext.Hash (Value.map m)⟩, h.arrays, h.next⟩ o
            ⟨m, ext.Hash (Value.map m)⟩).1
          (goAppend ext ⟨Function.update h.rows io
            ⟨(h.rows io).input, some (Value.map m), ext.Hash (Value.map m)⟩, h.arrays, h.next⟩ o
            ⟨m, ext.Hash (Value.map m)⟩).2
        rw [goAppend_rows, contents_goAppend] at h1
        exact h1

/-- One call of `performQueryOnBuffer` against one call of the naive
implementation, from states that agree and without shared storage: the same
error, states that agree again, and after a successful call the same contents
of `prevResults`. -/
theorem cycle_naive (ext : Externals) (ep : defaultSelectExecutionPlan) (np : NaivePlan)
    (hsep : Separate ep) (href : Refines ep np) (filtered : List Nat) :
    (cycle ext ep filtered).1 = (naivePerformQuery ext np filtered).1 ∧
    Refines (cycle ext ep filtered).2 (naivePerformQuery ext np filtered).2 ∧
    ((cycle ext ep filtered).1 = none →
      (cycle ext ep filtered).2.heap.contents (cycle ext ep filtered).2.prevResults
        = (naivePerformQuery ext np filtered).2.prevResults) := by
  obtain ⟨hp, hr, hc⟩ := href
  have sim := evalItems_naive ext ep.projections filtered ep.heap ep.prevResults.reslice00
  rw [contents_reslice00, hp, hr] at sim
  have hloop : loopResult ext { ep with filteredInputRows := filtered }
      = evalItems ext np.projections filtered ep.heap ep.prevResults.reslice00 := by
    unfold loopResult
    rw [← hp]
  have hheap : (cycle ext ep filtered).2.heap
      = (evalItems ext np.projections filtered ep.heap ep.prevResults.reslice00).2.1 := by
    unfold cycle
    rw [performQueryOnBuffer_heap, hloop]
  have herr : (cycle ext ep filtered).1
      = (evalItems ext np.projections filtered ep.heap ep.prevResults.reslice00).1 := by
    rw [cycle_error, hp]
    exact (evalItems_error ext np.projections filtered ep.heap _).symm
  have hprojs : (cycle ext ep filtered).2.projections = np.projections := by
    rw [cycle_projections, hp]
  have hkeep := cycle_keeps_cur ext ep filtered hsep
  obtain ⟨s1, s2, s3⟩ := sim
  unfold naivePerformQuery
  cases hn : naiveEvalItems ext np.projections filtered np.rows [] with
  | mk e rest =>
    obtain ⟨rows2, out⟩ := rest
    rw [hn] at s1 s2 s3
    simp only at s1 s2 s3
    cases e with
    | some err =>
      simp only
      have hfail : (cycle ext ep filtered).1 ≠ none := by
        rw [herr, s1]
        exact fun h => by cases h
      have hcur : (cycle ext ep filtered).2.curResults = ep.curResults :=
        (performQueryOnBuffer_failed ext { ep with filteredInputRows := filtered } hfail).2
      refine ⟨by rw [herr, s1], ⟨hprojs, by rw [hheap, s2], ?_⟩, ?_⟩
      · show (cycle ext ep filtered).2.heap.contents (cycle ext ep filtered).2.curResults
          = np.curResults
        rw [hcur, hkeep, hc]
      · intro hok
        exact absurd hok hfail
    | none =>
      simp only
      have hok : (cycle ext ep filtered).1 = none := by rw [herr, s1]
      have hcur : (cycle ext ep filtered).2.curResults
          = (evalItems ext np.projections filtered ep.heap ep.prevResults.reslice00).2.2 := by
        have h := (performQueryOnBuffer_ok ext { ep with filteredInputRows := filtered } hok).1
        rw [hloop] at h
        exact h
      have hprev : (cycle ext ep filtered).2.prevResults = ep.curResults :=
        (performQueryOnBuffer_ok ext { ep with filteredInputRows := filtered } hok).2
      refine ⟨hok, ⟨hprojs, by rw [hheap, s2], ?_⟩, ?_⟩
      · show (cycle ext ep filtered).2.heap.contents (cycle ext ep filtered).2.curResults = out
        rw [hcur, hheap, s3]
      · intro _
        show (cycle ext ep filtered).2.heap.contents (cycle ext ep filtered).2.prevResults
          = np.curResults
        rw [hprev, hkeep, hc]

theorem runCycles_naive (ext : Externals) (cycles : List (List Nat)) :
    ∀ (ep : defaultSelectExecutionPlan) (np : NaivePlan), Separate ep → Refines ep np →
      Refines (runCycles ext ep cycles) (naiveRun ext np cycles) := by
  induction cycles with
  | nil => intro ep np _ href; exact href
  | cons filtered rest ih =>
    intro ep np hsep href
    exact ih _ _ (cycle_separate ext ep filtered hsep) (cycle_naive ext ep np hsep href filtered).2.1

/-- C29: `performQueryOnBuffer` with its recycled storage against the naive
implementation that allocates a fresh result list every cycle and restores
nothing: started from states that agree (same projections, same rows, same
contents of `curResults`) with `prevResults` and `curResults` not sharing
storage, after any sequence of successful and failing calls the next call
returns the same error in both (so it succeeds in both or fails in both),
`curResults` has the same contents in both after it, and so has `prevResults`
when the call succeeds; the rows and their caches agree as well. -/
theorem storage_reuse_refines_naive (ext : Externals) (ep : defaultSelectExecutionPlan)
    (np : NaivePlan) (hsep : Separate ep) (href : Refines ep np) (cycles : List (List Nat))
    (filtered : List Nat) :
    (cycle ext (runCycles ext ep cycles) filtered).1
      = (naivePerformQuery ext (naiveRun ext np cycles) filtered).1 ∧
    (cycle ext (runCycles ext ep cycles) filtered).2.heap.contents
        (cycle ext (runCycles ext ep cycles) filtered).2.curResults
      = (naivePerformQuery ext (naiveRun ext np cycles) filtered).2.curResults ∧
    ((cycle ext (runCycles ext ep cycles) filtered).1 = none →
      (cycle ext (runCycles ext ep cycles) filtered).2.heap.contents
          (cycle ext (runCycles ext ep cycles) filtered).2.prevResults
        = (naivePerformQuery ext (naiveRun ext np cycles) filtered).2.prevResults) ∧
    (cycle ext (runCycles ext ep cycles) filtered).2.heap.rows
      = (naivePerformQuery ext (naiveRun ext np cycles) filtered).2.rows := by
  have h := cycle_naive ext (runCycles ext ep cycles) (naiveRun ext np cycles)
    (runCycles_separate ext cycles ep hsep) (runCycles_naive ext cycles ep np hsep href) filtered
  exact ⟨h.1, h.2.1.2.2, h.2.2, h.2.1.2.1⟩

/-- On the example: after a successful call, a failing call and the state in
between, the call on rows 0 and 1 succeeds in both implementations and leaves
the same results. -/
theorem storage_reuse_refines_naive_witness :
    Separate (examplePlan []) ∧ Refines (examplePlan []) exampleNaivePlan ∧
    (cycle exampleExternals (runCycles exampleExternals (examplePlan []) [[0], [0, 2]]) [0, 1]).1
      = none ∧
    (naivePerformQuery exampleExternals
        (naiveRun exampleExternals exampleNaivePlan [[0], [0, 2]]) [0, 1]).2.curResults
      = [⟨[("a", .int 1)], 2⟩, ⟨[("a", .int 2)], 3⟩] ∧
    (cycle exampleExternals (runCycles exampleExternals (examplePlan []) [[0], [0, 2]])
        [0, 1]).2.heap.contents
      (cycle exampleExternals (runCycles exampleExternals (examplePlan []) [[0], [0, 2]])
        [0, 1]).2.curResults
      = (naivePerformQuery exampleExternals
          (naiveRun exampleExternals exampleNaivePlan [[0], [0, 2]]) [0, 1]).2.curResults :=
  ⟨by decide, ⟨rfl, rfl, rfl⟩, rfl, rfl,
    (storage_reuse_refines_naive exampleExternals (examplePlan []) exampleNaivePlan (by decide)
      ⟨rfl, rfl, rfl⟩ [[0], [0, 2]] [0, 1]).2.1⟩

/-! ## The shared-state registry -/

theorem lookup_filter_self (name : String) (entries : List (String × Nat)) :
    (entries.filter (fun entry => !(entry.1 == name))).lookup name = none := by
  induction entries with
  | nil => rfl
  | cons a rest ih =>
    by_cases e : a.1 = name
    · have hb : (!(a.1 == name)) = false := by simp [e]
      rw [List.filter_cons_of_neg (by simp [e])]
      exact ih
    · rw [List.filter_cons_of_pos (by simpa using e)]
      obtain ⟨k, v⟩ := a
      have hne : (name == k) = false := by
        simp only [beq_eq_false_iff_ne, ne_eq]
        exact fun h => e h.symm
      simp only [List.lookup, hne]
      exact ih

theorem lookup_filter_other (name other : String) (hne : other ≠ name)
    (entries : List (String × Nat)) :
    (entries.filter (fun entry => !(entry.1 == name))).lookup other = entries.lookup other := by
  induction entries with
  | nil => rfl
  | cons a rest ih =>
    obtain ⟨k, v⟩ := a
    by_cases e : k = name
    · rw [List.filter_cons_of_neg (by simp [e])]
      have hk : (other == k) = false := by
        simp only [beq_eq_false_iff_ne, ne_eq]
        rw [e]
        exact hne
      simp only [List.lookup, hk]
      exact ih
    · rw [List.filter_cons_of_pos (by simpa using e)]
      by_cases e2 : other = k
      · simp [List.lookup, e2]
      · have hk : (other == k) = false := by simpa using e2
        simp only [List.lookup, hk]
        exact ih

/-- The call `add` on a name that is taken. -/
theorem Registry.add_taken {σ : Type} (ops : SharedStateOps σ) (r : Registry σ) (name : String)
    (state old : Nat) (hreg : r.entries.lookup name = some old) :
    r.add ops name state = (.returned () (some (.NameInUse name)), r) := by
  unfold Registry.add
  rw [hreg]

/-- The call `add` on a free name: `init` is called, and the state is inserted
exactly when `init` returns nil. -/
theorem Registry.add_free {σ : Type} (ops : SharedStateOps σ) (r : Registry σ) (name : String)
    (state : Nat) (hfree : r.entries.lookup name = none) :
    r.add ops name state =
      match (ops.Init (r.states state)).1 with
      | .error e =>
        (.returned () (some (.fromState e)),
          { r with
            states := Function.update r.states state (ops.Init (r.states state)).2
            log := r.log ++ [.init name state] })
      | .panic e =>
        (.panicked e,
          { r with
            states := Function.update r.states state (ops.Init (r.states state)).2
            log := r.log ++ [.init name state] })
      | .ok =>
        (.returned () none,
          { states := Function.update r.states state (ops.Init (r.states state)).2
            entries := (name, state) :: r.entries
            log := r.log ++ [.init name state] }) := by
  unfold Registry.add
  rw [hfree]
  simp only
  cases (ops.Init (r.states state)).1 with
  | ok => simp only [hfree]
  | error e => rfl
  | panic e => rfl

/-- The call `remove` on a registered name. -/
theorem Registry.remove_registered {σ : Type} (ops : SharedStateOps σ) (r : Registry σ)
    (name : String) (state : Nat) (hreg : r.entries.lookup name = some state) :
    (r.remove ops name).2 =
        { states := Function.update r.states state (ops.Terminate (r.states state)).2
          entries := r.entries.filter (fun entry => !(entry.1 == name))
          log := r.log ++ [.terminate name state] } ∧
    (r.remove ops name).1 =
      match (ops.Terminate (r.states state)).1 with
      | .ok => .returned (some state) none
      | .error e => .returned (some state) (some (.fromState e))
      | .panic e => .panicked e := by
  unfold Registry.remove
  rw [hreg]
  simp only
  cases (ops.Terminate (r.states state)).1 <;> exact ⟨rfl, rfl⟩

/-- The call `remove` on a name that is not registered. -/
theorem Registry.remove_absent {σ : Type} (ops : SharedStateOps σ) (r : Registry σ)
    (name : String) (hfree : r.entries.lookup name = none) :
    r.remove ops name = (.returned none none, r) := by
  unfold Registry.remove
  rw [hfree]

theorem Registry.get_of_lookup {σ : Type} (r : Registry σ) (name : String) :
    r.get name =
      match r.entries.lookup name with
      | some state => .returned (some state) none
      | none => .returned none (some (.NotFound name)) := rfl

theorem lookup_cons_self (name : String) (state : Nat) (entries : List (String × Nat)) :
    ((name, state) :: entries).lookup name = some state := by
  simp [List.lookup]

/-- C22: when `add(name, s)` is called on a name that is not taken, so that
`init` is called, and `s.init` returns an error, `add` returns that error, the
name is not inserted (the mapping is as before, a following `get(name)` fails
with `NotFound`, and a following `add` under the same name with a state whose
`init` succeeds returns no error and registers that state), and the only call
made on a state object is the `init`: `terminate` is not called, neither by
the failing `add` nor by the calls that follow. -/
theorem add_init_error {σ : Type} (ops : SharedStateOps σ) (r : Registry σ) (name : String)
    (state : Nat) (e : Error)
    (hfree : r.entries.lookup name = none)
    (hinit : (ops.Init (r.states state)).1 = .error e) :
    (r.add ops name state).1 = .returned () (some (.fromState e)) ∧
    (r.add ops name state).2.entries = r.entries ∧
    (r.add ops name state).2.get name = .returned none (some (.NotFound name)) ∧
    (r.add ops name state).2.log = r.log ++ [.init name state] ∧
    (∀ state2, (ops.Init ((r.add ops name state).2.states state2)).1 = .ok →
      ((r.add ops name state).2.add ops name state2).1 = .returned () none ∧
      ((r.add ops name state).2.add ops name state2).2.get name = .returned (some state2) none ∧
      ((r.add ops name state).2.add ops name state2).2.log
        = r.log ++ [.init name state, .init name state2]) := by
  have h := Registry.add_free ops r name state hfree
  rw [hinit] at h
  simp only at h
  rw [h]
  refine ⟨rfl, rfl, ?_, rfl, ?_⟩
  · rw [Registry.get_of_lookup]
    simp only [hfree]
  · intro state2 hok
    have h2 := Registry.add_free ops
      ({ r with
          states := Function.update r.states state (ops.Init (r.states state)).2
          log := r.log ++ [.init name state] } : Registry σ) name state2 hfree
    simp only at hok
    rw [hok] at h2
    simp only at h2
    rw [h2]
    refine ⟨rfl, ?_, ?_⟩
    · rw [Registry.get_of_lookup]
      simp only [lookup_cons_self]
    · simp

/-- The test "When a state fails to initialize while adding it to registry":
the state at address 1 fails its first `init`. -/
theorem add_init_error_witness :
    exampleRegistry.entries.lookup "test_state" = none ∧
    (stubOps.Init (exampleRegistry.states 1)).1 = .error "mock shared state failure" ∧
    (exampleRegistry.add stubOps "test_state" 1).1
      = .returned () (some (.fromState "mock shared state failure")) ∧
    ((exampleRegistry.add stubOps "test_state" 1).2.states 1).terminateCnt = 0 :=
  ⟨rfl, rfl,
    (add_init_error stubOps exampleRegistry "test_state" 1 "mock shared state failure"
      rfl rfl).1, rfl⟩

/-- C23: `add(name, s)` on a name that is already registered returns the
`NameInUse` error, which is neither an error of `init` nor one of `terminate`;
the registry, the state objects and the record of calls are as before, so
`s.init` is not called and `get(name)` returns the existing entry. -/
theorem add_name_in_use {σ : Type} (ops : SharedStateOps σ) (r : Registry σ) (name : String)
    (state old : Nat) (hreg : r.entries.lookup name = some old) :
    (r.add ops name state).1 = .returned () (some (.NameInUse name)) ∧
    (∀ e, (r.add ops name state).1 ≠ .returned () (some (.fromState e))) ∧
    (r.add ops name state).2 = r ∧
    (r.add ops name state).2.log = r.log ∧
    (r.add ops name state).2.states state = r.states state ∧
    (r.add ops name state).2.get name = .returned (some old) none := by
  rw [Registry.add_taken ops r name state old hreg]
  refine ⟨rfl, ?_, rfl, rfl, rfl, ?_⟩
  · intro e h
    cases h
  · rw [Registry.get_of_lookup]
    simp only [hreg]

/-- The test "Then a state which fails on termination and has the same name
cannot be added": the state at address 0 is registered, the state at address
2 is refused. -/
theorem add_name_in_use_witness :
    (exampleRegistry.add stubOps "test_state" 0).2.entries.lookup "test_state" = some 0 ∧
    ((exampleRegistry.add stubOps "test_state" 0).2.add stubOps "test_state" 2).1
      = .returned () (some (.NameInUse "test_state")) ∧
    ((exampleRegistry.add stubOps "test_state" 0).2.add stubOps "test_state" 2).2.get "test_state"
      = .returned (some 0) none :=
  ⟨rfl,
    (add_name_in_use stubOps (exampleRegistry.add stubOps "test_state" 0).2 "test_state" 2 0
      rfl).1,
    (add_name_in_use stubOps (exampleRegistry.add stubOps "test_state" 0).2 "test_state" 2 0
      rfl).2.2.2.2.2⟩

/-- C24: `remove(name)` on a registered name deletes the entry, whatever
`terminate` does: afterwards the name is absent, `get(name)` fails with
`NotFound`, and the other entries are as before.  `terminate` is called once
on the removed state.  When `terminate` returns nil, `remove` returns the
removed state and no error; when `terminate` returns an error, `remove`
returns the removed state together with that error; when `terminate` panics,
the panic is propagated. -/
theorem remove_returns_state {σ : Type} (ops : SharedStateOps σ) (r : Registry σ)
    (name : String) (state : Nat) (hreg : r.entries.lookup name = some state) :
    (r.remove ops name).2.entries.lookup name = none ∧
    (r.remove ops name).2.get name = .returned none (some (.NotFound name)) ∧
    (∀ other, other ≠ name →
      (r.remove ops name).2.entries.lookup other = r.entries.lookup other) ∧
    (r.remove ops name).2.log = r.log ++ [.terminate name state] ∧
    ((ops.Terminate (r.states state)).1 = .ok →
      (r.remove ops name).1 = .returned (some state) none) ∧
    (∀ e, (ops.Terminate (r.states state)).1 = .error e →
      (r.remove ops name).1 = .returned (some state) (some (.fromState e))) ∧
    (∀ e, (ops.Terminate (r.states state)).1 = .panic e →
      (r.remove ops name).1 = .panicked e) := by
  obtain ⟨h2, h1⟩ := Registry.remove_registered ops r name state hreg
  have hl : (r.remove ops name).2.entries.lookup name = none := by
    rw [h2]
    exact lookup_filter_self name r.entries
  refine ⟨hl, ?_, ?_, by rw [h2], ?_, ?_, ?_⟩
  · rw [Registry.get_of_lookup]
    simp only [hl]
  · intro other hne
    rw [h2]
    exact lookup_filter_other name other hne r.entries
  · intro h
    rw [h1, h]
  · intro e h
    rw [h1, h]
  · intro e h
    rw [h1, h]

/-- The test "When removing a state whose termination fails": the state at
address 2 fails its first `terminate`; it is returned with the error and is
no longer registered. -/
theorem remove_returns_state_witness :
    (exampleRegistry.add stubOps "test_state" 2).2.entries.lookup "test_state" = some 2 ∧
    (stubOps.Terminate ((exampleRegistry.add stubOps "test_state" 2).2.states 2)).1
      = .error "mock shared state failure" ∧
    ((exampleRegistry.add stubOps "test_state" 2).2.remove stubOps "test_state").1
      = .returned (some 2) (some (.fromState "mock shared state failure")) ∧
    ((exampleRegistry.add stubOps "test_state" 2).2.remove stubOps "test_state").2.get "test_state"
      = .returned none (some (.NotFound "test_state")) :=
  ⟨rfl, rfl,
    (remove_returns_state stubOps (exampleRegistry.add stubOps "test_state" 2).2 "test_state" 2
      rfl).2.2.2.2.2.1 "mock shared state failure" rfl,
    (remove_returns_state stubOps (exampleRegistry.add stubOps "test_state" 2).2 "test_state" 2
      rfl).2.1⟩

theorem mem_of_lookup (name : String) (state : Nat) :
    ∀ entries : List (String × Nat), entries.lookup name = some state →
      (name, state) ∈ entries := by
  intro entries
  induction entries with
  | nil => intro h; cases h
  | cons a rest ih =>
    intro h
    obtain ⟨k, v⟩ := a
    by_cases e : name = k
    · subst e
      simp only [List.lookup, beq_self_eq_true, Option.some.injEq] at h
      rw [h]
      exact List.mem_cons_self _ _
    · have hk : (name == k) = false := by simpa using e
      simp only [List.lookup, hk] at h
      exact List.mem_cons_of_mem _ (ih h)

/-- One call of a client other than `remove(name)`, on a registry in which
`name` is registered for `state`: the registration stays, and the calls the
registry makes are not on behalf of `name`; if moreover the state is
registered under no other name and is not handed to `add`, none is a call on
that state. -/
theorem Registry.step_keeps {σ : Type} (ops : SharedStateOps σ) (r : Registry σ)
    (name : String) (state : Nat) (c : RegistryCall)
    (hreg : r.entries.lookup name = some state) (hc : c ≠ .remove name) :
    (r.step ops c).entries.lookup name = some state ∧
    ∃ mid, (r.step ops c).log = r.log ++ mid ∧ (∀ ev ∈ mid, ev.name ≠ name) ∧
      ((∀ n, (n, state) ∈ r.entries → n = name) → (∀ n, c ≠ .add n state) →
        (∀ ev ∈ mid, ev.state ≠ state) ∧
        (∀ n, (n, state) ∈ (r.step ops c).entries → n = name)) := by
  cases c with
  | get n => exact ⟨hreg, [], by simp [Registry.step], by simp, fun h _ => ⟨by simp, h⟩⟩
  | list => exact ⟨hreg, [], by simp [Registry.step], by simp, fun h _ => ⟨by simp, h⟩⟩
  | add n s =>
    show ((r.add ops n s).2).entries.lookup name = some state ∧
      ∃ mid, ((r.add ops n s).2).log = r.log ++ mid ∧ (∀ ev ∈ mid, ev.name ≠ name) ∧
        ((∀ n2, (n2, state) ∈ r.entries → n2 = name) → (∀ n2, RegistryCall.add n s ≠ .add n2 state) →
          (∀ ev ∈ mid, ev.state ≠ state) ∧
          (∀ n2, (n2, state) ∈ ((r.add ops n s).2).entries → n2 = name))
    cases hl : r.entries.lookup n with
    | some old =>
      rw [Registry.add_taken ops r n s old hl]
      exact ⟨hreg, [], by simp, by simp, fun h _ => ⟨by simp, h⟩⟩
    | none =>
      have hn : n ≠ name := by
        intro e
        rw [e, hreg] at hl
        cases hl
      have hnb : (name == n) = false := by
        simp only [beq_eq_false_iff_ne, ne_eq]
        exact fun e => hn e.symm
      rw [Registry.add_free ops r n s hl]
      cases (ops.Init (r.states s)).1 with
      | error e =>
        refine ⟨hreg, [.init n s], rfl, ?_, ?_⟩
        · intro ev hev
          have e2 : ev = .init n s := by simpa using hev
          rw [e2]
          exact hn
        · intro hinv hs
          refine ⟨?_, hinv⟩
          intro ev hev
          have e2 : ev = .init n s := by simpa using hev
          rw [e2]
          exact fun e3 => hs n (by rw [show s = state from e3])
      | panic e =>
        refine ⟨hreg, [.init n s], rfl, ?_, ?_⟩
        · intro ev hev
          have e2 : ev = .init n s := by simpa using hev
          rw [e2]
          exact hn
        · intro hinv hs
          refine ⟨?_, hinv⟩
          intro ev hev
          have e2 : ev = .init n s := by simpa using hev
          rw [e2]
          exact fun e3 => hs n (by rw [show s = state from e3])
      | ok =>
        refine ⟨?_, [.init n s], rfl, ?_, ?_⟩
        · show ((n, s) :: r.entries).lookup name = some state
          simp only [List.lookup, hnb]
          exact hreg
        · intro ev hev
          have e2 : ev = .init n s := by simpa using hev
          rw [e2]
          exact hn
        · intro hinv hs
          have hss : s ≠ state := fun e3 => hs n (by rw [e3])
          refine ⟨?_, ?_⟩
          · intro ev hev
            have e2 : ev = .init n s := by simpa using hev
            rw [e2]
            exact hss
          · intro n2 hmem
            rcases List.mem_cons.mp hmem with e3 | e3
            · exact absurd (Prod.mk.inj e3).2.symm hss
            · exact hinv n2 e3
  | remove n =>
    have hn : n ≠ name := fun e => hc (by rw [e])
    show ((r.remove ops n).2).entries.lookup name = some state ∧
      ∃ mid, ((r.remove ops n).2).log = r.log ++ mid ∧ (∀ ev ∈ mid, ev.name ≠ name) ∧
        ((∀ n2, (n2, state) ∈ r.entries → n2 = name) →
          (∀ n2, RegistryCall.remove n ≠ .add n2 state) →
          (∀ ev ∈ mid, ev.state ≠ state) ∧
          (∀ n2, (n2, state) ∈ ((r.remove ops n).2).entries → n2 = name))
    cases hl : r.entries.lookup n with
    | none =>
      rw [Registry.remove_absent ops r n hl]
      exact ⟨hreg, [], by simp, by simp, fun h _ => ⟨by simp, h⟩⟩
    | some a =>
      rw [(Registry.remove_registered ops r n a hl).1]
      refine ⟨?_, [.terminate n a], rfl, ?_, ?_⟩
      · show (r.entries.filter (fun entry => !(entry.1 == n))).lookup name = some state
        rw [lookup_filter_other n name (fun e => hn e.symm)]
        exact hreg
      · intro ev hev
        have e2 : ev = .terminate n a := by simpa using hev
        rw [e2]
        exact hn
      · intro hinv _
        refine ⟨?_, ?_⟩
        · intro ev hev
          have e2 : ev = .terminate n a := by simpa using hev
          rw [e2]
          intro e3
          have e4 : a = state := e3
          rw [e4] at hl
          exact hn (hinv n (mem_of_lookup n state r.entries hl))
        · intro n2 hmem
          exact hinv n2 (List.mem_of_mem_filter hmem)

/-- A sequence of calls none of which is `remove(name)`. -/
theorem Registry.run_keeps {σ : Type} (ops : SharedStateOps σ) (name : String) (state : Nat)
    (calls : List RegistryCall) :
    ∀ r : Registry σ, r.entries.lookup name = some state →
      (∀ c ∈ calls, c ≠ .remove name) →
      (r.run ops calls).entries.lookup name = some state ∧
      ∃ mid, (r.run ops calls).log = r.log ++ mid ∧ (∀ ev ∈ mid, ev.name ≠ name) ∧
        ((∀ n, (n, state) ∈ r.entries → n = name) → (∀ c ∈ calls, ∀ n, c ≠ .add n state) →
          (∀ ev ∈ mid, ev.state ≠ state)) := by
  induction calls with
  | nil =>
    intro r hreg _
    exact ⟨hreg, [], by simp [Registry.run], by simp, fun _ _ => by simp⟩
  | cons c rest ih =>
    intro r hreg hcalls
    obtain ⟨h1, mid1, hlog1, hname1, hstate1⟩ :=
      Registry.step_keeps ops r name state c hreg (hcalls c (List.mem_cons_self _ _))
    obtain ⟨h2, mid2, hlog2, hname2, hstate2⟩ :=
      ih (r.step ops c) h1 (fun c2 hc2 => hcalls c2 (List.mem_cons_of_mem _ hc2))
    refine ⟨h2, mid1 ++ mid2, ?_, ?_, ?_⟩
    · show ((r.step ops c).run ops rest).log = _
      rw [hlog2, hlog1, List.append_assoc]
    · intro ev hev
      rcases List.mem_append.mp hev with h | h
      · exact hname1 ev h
      · exact hname2 ev h
    · intro hinv hadds ev hev
      obtain ⟨ha, hb⟩ := hstate1 hinv (hadds c (List.mem_cons_self _ _))
      rcases List.mem_append.mp hev with h | h
      · exact ha ev h
      · exact hstate2 hb (fun c2 hc2 => hadds c2 (List.mem_cons_of_mem _ hc2)) ev h

/-- C25: for a state added successfully under `name` and removed later (by the
first `remove(name)` after any calls of clients), the registry calls `init`
for that registration exactly once, then `terminate` exactly once, and in
between makes no call on behalf of `name`; if the state is registered under
no other name and is not handed to another `add`, there is no other call on
the state at all.  A second `remove(name)` returns (nil, no error), changes
nothing and so does not call `terminate` again. -/
theorem init_once_terminate_once {σ : Type} (ops : SharedStateOps σ) (r : Registry σ)
    (name : String) (state : Nat) (calls : List RegistryCall)
    (hadd : (r.add ops name state).1 = .returned () none)
    (hcalls : ∀ c ∈ calls, c ≠ .remove name) :
    (∃ mid,
      ((((r.add ops name state).2).run ops calls).remove ops name).2.log
        = r.log ++ [.init name state] ++ mid ++ [.terminate name state] ∧
      (∀ ev ∈ mid, ev.name ≠ name) ∧
      ((∀ n, (n, state) ∉ r.entries) → (∀ c ∈ calls, ∀ n, c ≠ .add n state) →
        ∀ ev ∈ mid, ev.state ≠ state)) ∧
    (((((r.add ops name state).2).run ops calls).remove ops name).2.remove ops name
      = (.returned none none,
          ((((r.add ops name state).2).run ops calls).remove ops name).2)) := by
  have hfree : r.entries.lookup name = none := by
    cases hl : r.entries.lookup name with
    | none => rfl
    | some old =>
      rw [Registry.add_taken ops r name state old hl] at hadd
      cases hadd
  have hform := Registry.add_free ops r name state hfree
  have hinit : (ops.Init (r.states state)).1 = .ok := by
    cases hi : (ops.Init (r.states state)).1 with
    | ok => rfl
    | error e =>
      rw [hi] at hform
      rw [hform] at hadd
      cases hadd
    | panic e =>
      rw [hi] at hform
      rw [hform] at hadd
      cases hadd
  rw [hinit] at hform
  simp only at hform
  have hreg1 : (r.add ops name state).2.entries.lookup name = some state := by
    rw [hform]
    exact lookup_cons_self name state r.entries
  have hlog1 : (r.add ops name state).2.log = r.log ++ [.init name state] := by
    rw [hform]
  have hentries1 : (r.add ops name state).2.entries = (name, state) :: r.entries := by
    rw [hform]
  obtain ⟨hreg2, mid, hlog2, hname, hstate⟩ :=
    Registry.run_keeps ops name state calls (r.add ops name state).2 hreg1 hcalls
  obtain ⟨hrem2, _⟩ := Registry.remove_registered ops
    ((r.add ops name state).2.run ops calls) name state hreg2
  constructor
  · refine ⟨mid, ?_, hname, ?_⟩
    · rw [hrem2]
      show ((r.add ops name state).2.run ops calls).log ++ [Event.terminate name state] = _
      rw [hlog2, hlog1]
    · intro hnew hadds
      apply hstate _ hadds
      intro n hmem
      rw [hentries1] at hmem
      rcases List.mem_cons.mp hmem with e | e
      · exact (Prod.mk.inj e).1
      · exact absurd e (hnew n)
  · apply Registry.remove_absent
    rw [hrem2]
    exact lookup_filter_self name _

/-- The test "Then it can be removed": the state at address 0 is added, looked
up and listed, removed, and removed a second time; `init` and `terminate` have
each been called once. -/
theorem init_once_terminate_once_witness :
    (exampleRegistry.add stubOps "test_state" 0).1 = .returned () none ∧
    ((((exampleRegistry.add stubOps "test_state" 0).2).run stubOps
        [.get "test_state", .list]).remove stubOps "test_state").2.log
      = [.init "test_state" 0, .terminate "test_state" 0] ∧
    (((((exampleRegistry.add stubOps "test_state" 0).2).run stubOps
        [.get "test_state", .list]).remove stubOps "test_state").2.remove stubOps "test_state").1
      = .returned none none ∧
    ((((((exampleRegistry.add stubOps "test_state" 0).2).run stubOps
        [.get "test_state", .list]).remove stubOps "test_state").2.remove stubOps
          "test_state").2.states 0).terminateCnt = 1 :=
  ⟨rfl, rfl,
    congrArg Prod.fst
      (init_once_terminate_once stubOps exampleRegistry "test_state" 0
        [.get "test_state", .list] rfl
        (by
          intro c hc
          have h : c = .get "test_state" ∨ c = .list := by simpa using hc
          rcases h with e | e <;> rw [e] <;> exact fun h2 => by cases h2)).2,
    rfl⟩

/-! ## The parser -/

theorem Peg.run_call (n : Nat) (r : pegRule) (input : List Char) :
    Peg.run (n + 1) (.call r) input = Peg.run n (rules r) input := rfl

theorem Peg.run_seq (n : Nat) (a b : Peg) (input : List Char) :
    Peg.run (n + 1) (.seq a b) input =
      match Peg.run n a input with
      | .matched rest => Peg.run n b rest
      | .failed => .failed
      | .outOfFuel => .outOfFuel := rfl

theorem Peg.run_choice (n : Nat) (a b : Peg) (input : List Char) :
    Peg.run (n + 1) (.choice a b) input =
      match Peg.run n a input with
      | .matched rest => .matched rest
      | .failed => Peg.run n b input
      | .outOfFuel => .outOfFuel := rfl

theorem Peg.run_star (n : Nat) (a : Peg) (input : List Char) :
    Peg.run (n + 1) (.star a) input =
      match Peg.run n a input with
      | .matched rest => Peg.run n (.star a) rest
      | .failed => .matched input
      | .outOfFuel => .outOfFuel := rfl

theorem Peg.run_optional (n : Nat) (a : Peg) (input : List Char) :
    Peg.run (n + 1) (.optional a) input =
      match Peg.run n a input with
      | .matched rest => .matched rest
      | .failed => .matched input
      | .outOfFuel => .outOfFuel := rfl

theorem Peg.run_notPredicate (n : Nat) (a : Peg) (input : List Char) :
    Peg.run (n + 1) (.notPredicate a) input =
      match Peg.run n a input with
      | .matched _ => .failed
      | .failed => .matched input
      | .outOfFuel => .outOfFuel := rfl

theorem Peg.run_text (n : Nat) (a : Peg) (input : List Char) :
    Peg.run (n + 1) (.text a) input = Peg.run n a input := rfl

/-- More fuel does not change a result: one more level. -/
theorem Peg.run_succ (n : Nat) :
    ∀ (e : Peg) (input : List Char) (r : MatchResult),
      Peg.run n e input = r → r ≠ .outOfFuel → Peg.run (n + 1) e input = r := by
  induction n with
  | zero =>
    intro e input r h hr
    exact absurd h.symm hr
  | succ n ih =>
    intro e input r h hr
    cases e with
    | char c => exact h
    | range lo hi => exact h
    | dot => exact h
    | empty => exact h
    | action k => exact h
    | call q =>
      rw [Peg.run_call] at h ⊢
      exact ih _ _ _ h hr
    | seq a b =>
      rw [Peg.run_seq] at h ⊢
      cases ha : Peg.run n a input with
      | matched rest =>
        rw [ha] at h
        rw [ih a input _ ha (by simp)]
        exact ih _ _ _ h hr
      | failed =>
        rw [ha] at h
        rw [ih a input _ ha (by simp)]
        exact h
      | outOfFuel =>
        rw [ha] at h
        exact absurd h.symm hr
    | choice a b =>
      rw [Peg.run_choice] at h ⊢
      cases ha : Peg.run n a input with
      | matched rest =>
        rw [ha] at h
        rw [ih a input _ ha (by simp)]
        exact h
      | failed =>
        rw [ha] at h
        rw [ih a input _ ha (by simp)]
        exact ih _ _ _ h hr
      | outOfFuel =>
        rw [ha] at h
        exact absurd h.symm hr
    | star a =>
      rw [Peg.run_star] at h ⊢
      cases ha : Peg.run n a input with
      | matched rest =>
        rw [ha] at h
        rw [ih a input _ ha (by simp)]
        exact ih _ _ _ h hr
      | failed =>
        rw [ha] at h
        rw [ih a input _ ha (by simp)]
        exact h
      | outOfFuel =>
        rw [ha] at h
        exact absurd h.symm hr
    | optional a =>
      rw [Peg.run_optional] at h ⊢
      cases ha : Peg.run n a input with
      | matched rest =>
        rw [ha] at h
        rw [ih a input _ ha (by simp)]
        exact h
      | failed =>
        rw [ha] at h
        rw [ih a input _ ha (by simp)]
        exact h
      | outOfFuel =>
        rw [ha] at h
        exact absurd h.symm hr
    | notPredicate a =>
      rw [Peg.run_notPredicate] at h ⊢
      cases ha : Peg.run n a input with
      | matched rest =>
        rw [ha] at h
        rw [ih a input _ ha (by simp)]
        exact h
      | failed =>
        rw [ha] at h
        rw [ih a input _ ha (by simp)]
        exact h
      | outOfFuel =>
        rw [ha] at h
        exact absurd h.symm hr
    | text a =>
      rw [Peg.run_text] at h ⊢
      exact ih _ _ _ h hr

/-- More fuel does not change a result. -/
theorem Peg.run_le (n m : Nat) (hnm : n ≤ m) (e : Peg) (input : List Char) (r : MatchResult)
    (h : Peg.run n e input = r) (hr : r ≠ .outOfFuel) : Peg.run m e input = r := by
  induction m, hnm using Nat.le_induction with
  | base => exact h
  | succ k _ ih => exact Peg.run_succ k e input r ih hr

/-- The result with which a run returns is unique. -/
theorem Returns.unique {e : Peg} {input : List Char} {r1 r2 : MatchResult}
    (h1 : Returns e input r1) (h2 : Returns e input r2) : r1 = r2 := by
  obtain ⟨hr1, n1, hn1⟩ := h1
  obtain ⟨hr2, n2, hn2⟩ := h2
  have e1 := Peg.run_le n1 (max n1 n2) (Nat.le_max_left _ _) e input r1 hn1 hr1
  have e2 := Peg.run_le n2 (max n1 n2) (Nat.le_max_right _ _) e input r2 hn2 hr2
  rw [← e1, ← e2]

theorem Returns.of_run {e : Peg} {input : List Char} {r : MatchResult} (n : Nat)
    (h : Peg.run n e input = r) (hr : r ≠ .outOfFuel) : Returns e input r :=
  ⟨hr, n, h⟩

theorem Returns_call (q : pegRule) (input : List Char) (r : MatchResult) :
    Returns (.call q) input r ↔ Returns (rules q) input r := by
  constructor
  · rintro ⟨hr, n, hn⟩
    cases n with
    | zero => exact absurd hn.symm hr
    | succ k => exact ⟨hr, k, hn⟩
  · rintro ⟨hr, n, hn⟩
    exact ⟨hr, n + 1, hn⟩

theorem Returns_seq (a b : Peg) (input : List Char) (r : MatchResult) :
    Returns (.seq a b) input r ↔
      (∃ rest, Returns a input (.matched rest) ∧ Returns b rest r) ∨
      (Returns a input .failed ∧ r = .failed) := by
  constructor
  · rintro ⟨hr, n, hn⟩
    cases n with
    | zero => exact absurd hn.symm hr
    | succ k =>
      rw [Peg.run_seq] at hn
      cases ha : Peg.run k a input with
      | matched rest =>
        rw [ha] at hn
        exact Or.inl ⟨rest, ⟨by simp, k, ha⟩, ⟨hr, k, hn⟩⟩
      | failed =>
        rw [ha] at hn
        exact Or.inr ⟨⟨by simp, k, ha⟩, hn.symm⟩
      | outOfFuel =>
        rw [ha] at hn
        exact absurd hn.symm hr
  · rintro (⟨rest, ⟨_, n1, h1⟩, ⟨hr, n2, h2⟩⟩ | ⟨⟨_, n1, h1⟩, hr⟩)
    · refine ⟨hr, max n1 n2 + 1, ?_⟩
      rw [Peg.run_seq, Peg.run_le n1 _ (Nat.le_max_left _ _) a input _ h1 (by simp)]
      exact Peg.run_le n2 _ (Nat.le_max_right _ _) b rest _ h2 hr
    · refine ⟨by rw [hr]; simp, n1 + 1, ?_⟩
      rw [Peg.run_seq, h1, hr]

theorem Returns_choice (a b : Peg) (input : List Char) (r : MatchResult) :
    Returns (.choice a b) input r ↔
      (∃ rest, Returns a input (.matched rest) ∧ r = .matched rest) ∨
      (Returns a input .failed ∧ Returns b input r) := by
  constructor
  · rintro ⟨hr, n, hn⟩
    cases n with
    | zero => exact absurd hn.symm hr
    | succ k =>
      rw [Peg.run_choice] at hn
      cases ha : Peg.run k a input with
      | matched rest =>
        rw [ha] at hn
        exact Or.inl ⟨rest, ⟨by simp, k, ha⟩, hn.symm⟩
      | failed =>
        rw [ha] at hn
        exact Or.inr ⟨⟨by simp, k, ha⟩, ⟨hr, k, hn⟩⟩
      | outOfFuel =>
        rw [ha] at hn
        exact absurd hn.symm hr
  · rintro (⟨rest, ⟨_, n1, h1⟩, hr⟩ | ⟨⟨_, n1, h1⟩, ⟨hr, n2, h2⟩⟩)
    · refine ⟨by rw [hr]; simp, n1 + 1, ?_⟩
      rw [Peg.run_choice, h1, hr]
    · refine ⟨hr, max n1 n2 + 1, ?_⟩
      rw [Peg.run_choice, Peg.run_le n1 _ (Nat.le_max_left _ _) a input _ h1 (by simp)]
      exact Peg.run_le n2 _ (Nat.le_max_right _ _) b input _ h2 hr

theorem Returns_notPredicate (a : Peg) (input : List Char) (r : MatchResult) :
    Returns (.notPredicate a) input r ↔
      (∃ rest, Returns a input (.matched rest) ∧ r = .failed) ∨
      (Returns a input .failed ∧ r = .matched input) := by
  constructor
  · rintro ⟨hr, n, hn⟩
    cases n with
    | zero => exact absurd hn.symm hr
    | succ k =>
      rw [Peg.run_notPredicate] at hn
      cases ha : Peg.run k a input with
      | matched rest =>
        rw [ha] at hn
        exact Or.inl ⟨rest, ⟨by simp, k, ha⟩, hn.symm⟩
      | failed =>
        rw [ha] at hn
        exact Or.inr ⟨⟨by simp, k, ha⟩, hn.symm⟩
      | outOfFuel =>
        rw [ha] at hn
        exact absurd hn.symm hr
  · rintro (⟨rest, ⟨_, n1, h1⟩, hr⟩ | ⟨⟨_, n1, h1⟩, hr⟩)
    · refine ⟨by rw [hr]; simp, n1 + 1, ?_⟩
      rw [Peg.run_notPredicate, h1, hr]
    · refine ⟨by rw [hr]; simp, n1 + 1, ?_⟩
      rw [Peg.run_notPredicate, h1, hr]

theorem Returns_char (c : Char) (input : List Char) (r : MatchResult) :
    Returns (.char c) input r ↔
      (∃ rest, input = c :: rest ∧ r = .matched rest) ∨
      ((∀ rest, input ≠ c :: rest) ∧ r = .failed) := by
  have hrun : ∀ n, Peg.run (n + 1) (.char c) input =
      match input with
      | x :: rest => if x = c then .matched rest else .failed
      | [] => .failed := fun _ => rfl
  constructor
  · rintro ⟨hr, n, hn⟩
    cases n with
    | zero => exact absurd hn.symm hr
    | succ k =>
      rw [hrun] at hn
      cases input with
      | nil => exact Or.inr ⟨(fun rest h => by cases h), hn.symm⟩
      | cons x rest =>
        simp only at hn
        by_cases e : x = c
        · rw [if_pos e] at hn
          exact Or.inl ⟨rest, by rw [e], hn.symm⟩
        · rw [if_neg e] at hn
          exact Or.inr ⟨fun rest2 h => e (by injection h), hn.symm⟩
  · rintro (⟨rest, hi, hr⟩ | ⟨hi, hr⟩)
    · refine ⟨by rw [hr]; simp, 1, ?_⟩
      rw [hrun, hi, hr]
      simp
    · refine ⟨by rw [hr]; simp, 1, ?_⟩
      rw [hrun, hr]
      cases input with
      | nil => rfl
      | cons x rest =>
        simp only
        rw [if_neg (fun e => hi rest (by rw [e]))]

theorem Returns_dot (input : List Char) (r : MatchResult) :
    Returns .dot input r ↔
      (∃ x rest, input = x :: rest ∧ r = .matched rest) ∨ (input = [] ∧ r = .failed) := by
  have hrun : ∀ n, Peg.run (n + 1) .dot input =
      match input with
      | _ :: rest => .matched rest
      | [] => .failed := fun _ => rfl
  constructor
  · rintro ⟨hr, n, hn⟩
    cases n with
    | zero => exact absurd hn.symm hr
    | succ k =>
      rw [hrun] at hn
      cases input with
      | nil => exact Or.inr ⟨rfl, hn.symm⟩
      | cons x rest => exact Or.inl ⟨x, rest, rfl, hn.symm⟩
  · rintro (⟨x, rest, hi, hr⟩ | ⟨hi, hr⟩)
    · refine ⟨by rw [hr]; simp, 1, ?_⟩
      rw [hrun, hi, hr]
    · refine ⟨by rw [hr]; simp, 1, ?_⟩
      rw [hrun, hi, hr]

/-- The loop `.*` moves to the end of the buffer, whatever the buffer holds. -/
theorem Returns_star_dot (input : List Char) (r : MatchResult) :
    Returns (.star .dot) input r ↔ r = .matched [] := by
  have hall : ∀ i : List Char, Peg.run (i.length + 2) (.star .dot) i = .matched [] := by
    intro i
    induction i with
    | nil => rfl
    | cons x rest ih =>
      show Peg.run (rest.length + 2 + 1) (.star .dot) (x :: rest) = .matched []
      rw [Peg.run_star]
      exact ih
  constructor
  · intro h
    exact Returns.unique h ⟨by simp, _, hall input⟩
  · intro h
    rw [h]
    exact ⟨by simp, _, hall input⟩

/-- The parsing expression of the rule `Statements`:
`sp ((Statement sp ';' .*) / Statement) !.` -/
theorem rules_Statements :
    rules .ruleStatements =
      .seq (.call .rulesp)
        (.seq
          (.choice
            (.seq (.call .ruleStatement) (.seq (.call .rulesp) (.seq (.char ';') (.star .dot))))
            (.call .ruleStatement))
          (.notPredicate .dot)) := rfl

theorem Returns_sp_nil : Returns (.call .rulesp) [] (.matched []) :=
  ⟨by simp, 20, by decide⟩

/-- When the rule `Statements` returns `true`. -/
theorem Returns_Statements_matched (input rest : List Char) :
    Returns (.call .ruleStatements) input (.matched rest) ↔
      rest = [] ∧ ∃ i1 i2, Returns (.call .rulesp) input (.matched i1) ∧
        Returns (.call .ruleStatement) i1 (.matched i2) ∧
        (i2 = [] ∨ ∃ i3 more, Returns (.call .rulesp) i2 (.matched i3) ∧ i3 = ';' :: more) := by
  rw [Returns_call, rules_Statements, Returns_seq]
  constructor
  · rintro (⟨i1, hsp, hx⟩ | ⟨_, h⟩)
    · rw [Returns_seq] at hx
      rcases hx with ⟨j, hch, hnot⟩ | ⟨_, h⟩
      · rw [Returns_notPredicate] at hnot
        rcases hnot with ⟨_, _, h⟩ | ⟨hdot, hrest⟩
        · cases h
        · rw [Returns_dot] at hdot
          rcases hdot with ⟨_, _, _, h⟩ | ⟨hj, _⟩
          · cases h
          · have hr : rest = [] := by
              injection hrest with h1
              rw [h1, hj]
            refine ⟨hr, i1, ?_⟩
            rw [Returns_choice] at hch
            rcases hch with ⟨r2, ha, hr2⟩ | ⟨_, hst⟩
            · rw [Returns_seq] at ha
              rcases ha with ⟨i2, hst, hb⟩ | ⟨_, h⟩
              · rw [Returns_seq] at hb
                rcases hb with ⟨i3, hsp2, hc⟩ | ⟨_, h⟩
                · rw [Returns_seq] at hc
                  rcases hc with ⟨i4, hsemi, _⟩ | ⟨_, h⟩
                  · rw [Returns_char] at hsemi
                    rcases hsemi with ⟨more, hi3, hm⟩ | ⟨_, h⟩
                    · exact ⟨i2, hsp, hst, Or.inr ⟨i3, more, hsp2, hi3⟩⟩
                    · cases h
                  · cases h
                · cases h
              · cases h
            · rw [hj] at hst
              exact ⟨[], hsp, hst, Or.inl rfl⟩
      · cases h
    · cases h
  · rintro ⟨hrest, i1, i2, hsp, hst, hend⟩
    left
    refine ⟨i1, hsp, ?_⟩
    rw [Returns_seq]
    left
    refine ⟨[], ?_, ?_⟩
    · rw [Returns_choice]
      rcases hend with hi2 | ⟨i3, more, hsp2, hi3⟩
      · right
        rw [hi2] at hst
        refine ⟨?_, hst⟩
        rw [Returns_seq]
        left
        refine ⟨[], hst, ?_⟩
        rw [Returns_seq]
        left
        refine ⟨[], Returns_sp_nil, ?_⟩
        rw [Returns_seq]
        right
        refine ⟨?_, rfl⟩
        rw [Returns_char]
        exact Or.inr ⟨(fun r h => by cases h), rfl⟩
      · left
        refine ⟨[], ?_, rfl⟩
        rw [Returns_seq]
        left
        refine ⟨i2, hst, ?_⟩
        rw [Returns_seq]
        left
        refine ⟨i3, hsp2, ?_⟩
        rw [Returns_seq]
        left
        refine ⟨more, ?_, ?_⟩
        · rw [Returns_char]
          exact Or.inl ⟨more, hi3, rfl⟩
        · rw [Returns_star_dot]
    · rw [Returns_notPredicate, hrest]
      right
      refine ⟨?_, rfl⟩
      rw [Returns_dot]
      exact Or.inr ⟨rfl, rfl⟩

set_option maxRecDepth 100000 in
theorem run_aliasStatement :
    Peg.run 185 (.call .ruleStatement) aliasStatement.toList = .failed := by decide

set_option maxRecDepth 100000 in
theorem run_aliasStatement_Statements :
    Peg.run 190 (.call .ruleStatements) aliasStatement.toList = .failed := by decide

set_option maxRecDepth 100000 in
theorem run_aliasStatement_Emitter :
    Peg.run 80 (.call .ruleEmitter) "ISTREAM(int-1 AS a, int AS b) FROM src".toList
      = .matched "(int-1 AS a, int AS b) FROM src".toList := by decide

set_option maxRecDepth 100000 in
theorem run_aliasStatement_Projections :
    Peg.run 160 (.call .ruleProjections) "(int-1 AS a, int AS b) FROM src".toList
      = .failed := by decide

set_option maxRecDepth 100000 in
theorem run_aliasStatement_Expression :
    Peg.run 160 (.call .ruleExpression) "int-1 AS a, int AS b) FROM src".toList
      = .matched "AS a, int AS b) FROM src".toList := by decide

set_option maxRecDepth 100000 in
theorem run_aliasStatementPlain :
    Peg.run 153 (.call .ruleStatement) aliasStatementPlain.toList = .matched [] := by decide

set_option maxRecDepth 100000 in
theorem run_constantStatement :
    Peg.run 178 (.call .ruleStatement) constantStatement.toList = .matched [] := by decide

set_option maxRecDepth 100000 in
theorem run_wildcardStatement :
    Peg.run 178 (.call .ruleStatement) wildcardStatement.toList = .failed := by decide

/-- C26: on the statement of the test "SELECT clause with a column alias",
`CREATE STREAM box AS SELECT ISTREAM(int-1 AS a, int AS b) FROM src [RANGE 2
SECONDS]`, the rule `Statement` returns `false`, and so does `Statements`,
with which `Parse` starts: no amount of fuel makes it match.  `Emitter`
matches `ISTREAM` and stops in front of the parenthesis; there `Projections`
fails, because the only rule that reads a parenthesis is the parenthesised
expression of `baseExpr`, and behind `(` the expression `int-1` is followed by
`AS`, not by `)`.  The same statement without the parentheses is matched in
full, and so is `ISTREAM(2)`, whose parentheses enclose one expression;
`ISTREAM(*)` is not matched. -/
theorem statement_rejects_parenthesised_list :
    Returns (.call .ruleStatement) aliasStatement.toList .failed ∧
    Returns (.call .ruleStatements) aliasStatement.toList .failed ∧
    (∀ fuel rest, Peg.run fuel (.call .ruleStatement) aliasStatement.toList ≠ .matched rest) ∧
    Returns (.call .ruleEmitter) "ISTREAM(int-1 AS a, int AS b) FROM src".toList
      (.matched "(int-1 AS a, int AS b) FROM src".toList) ∧
    Returns (.call .ruleProjections) "(int-1 AS a, int AS b) FROM src".toList .failed ∧
    Returns (.call .ruleExpression) "int-1 AS a, int AS b) FROM src".toList
      (.matched "AS a, int AS b) FROM src".toList) ∧
    Returns (.call .ruleStatement) aliasStatementPlain.toList (.matched []) ∧
    Returns (.call .ruleStatement) constantStatement.toList (.matched []) ∧
    Returns (.call .ruleStatement) wildcardStatement.toList .failed := by
  have h1 : Returns (.call .ruleStatement) aliasStatement.toList .failed :=
    ⟨by simp, 185, run_aliasStatement⟩
  refine ⟨h1, ⟨by simp, 190, run_aliasStatement_Statements⟩, ?_,
    ⟨by simp, 80, run_aliasStatement_Emitter⟩, ⟨by simp, 160, run_aliasStatement_Projections⟩,
    ⟨by simp, 160, run_aliasStatement_Expression⟩, ⟨by simp, 153, run_aliasStatementPlain⟩,
    ⟨by simp, 178, run_constantStatement⟩, ⟨by simp, 178, run_wildcardStatement⟩⟩
  intro fuel rest h
  have h2 : Returns (.call .ruleStatement) aliasStatement.toList (.matched rest) :=
    ⟨by simp, fuel, h⟩
  cases Returns.unique h1 h2

set_option maxRecDepth 100000 in
theorem run_semicolonStatement_sp :
    Peg.run 79 (.call .rulesp) semicolonStatement.toList
      = .matched "SELECT ISTREAM a FROM b [RANGE 1 TUPLES] ; garbage ((".toList := by decide

set_option maxRecDepth 100000 in
theorem run_semicolonStatement_Statement :
    Peg.run 134 (.call .ruleStatement)
        "SELECT ISTREAM a FROM b [RANGE 1 TUPLES] ; garbage ((".toList
      = .matched "; garbage ((".toList := by decide

set_option maxRecDepth 100000 in
theorem run_semicolonStatement_sp2 :
    Peg.run 79 (.call .rulesp) "; garbage ((".toList = .matched "; garbage ((".toList := by
  decide

set_option maxRecDepth 100000 in
theorem run_trailingStatement :
    Peg.run 139 (.call .ruleStatements) trailingStatement.toList = .failed := by decide


theorem Peg.run_star_ne_failed (a : Peg) :
    ∀ (n : Nat) (input : List Char), Peg.run n (.star a) input ≠ .failed := by
  intro n
  induction n with
  | zero => intro input h; cases h
  | succ k ih =>
    intro input h
    rw [Peg.run_star] at h
    cases ha : Peg.run k a input with
    | matched rest =>
      rw [ha] at h
      exact ih rest h
    | failed =>
      rw [ha] at h
      cases h
    | outOfFuel =>
      rw [ha] at h
      cases h

/-- The rule `sp` is a loop and does not return `false`. -/
theorem Returns_sp_ne_failed (input : List Char) : ¬ Returns (.call .rulesp) input .failed := by
  rw [Returns_call]
  rintro ⟨_, n, hn⟩
  have e : rules .rulesp = .star (.choices [.char ' ', .char (Char.ofNat 9),
      .char (Char.ofNat 10), .char (Char.ofNat 13), .call .rulecomment]) := rfl
  rw [e] at hn
  exact Peg.run_star_ne_failed _ n input hn

/-- When the rule `Statements` returns `false`. -/
theorem Returns_Statements_failed (input : List Char) :
    Returns (.call .ruleStatements) input .failed ↔
      ∃ i1, Returns (.call .rulesp) input (.matched i1) ∧
        (Returns (.call .ruleStatement) i1 .failed ∨
          ∃ i2 i3, Returns (.call .ruleStatement) i1 (.matched i2) ∧ i2 ≠ [] ∧
            Returns (.call .rulesp) i2 (.matched i3) ∧ ∀ more, i3 ≠ ';' :: more) := by
  have hnotdot : ∀ j : List Char, Returns (.notPredicate .dot) j .failed ↔ j ≠ [] := by
    intro j
    rw [Returns_notPredicate]
    constructor
    · rintro (⟨rest, hd, _⟩ | ⟨_, h⟩)
      · rw [Returns_dot] at hd
        rcases hd with ⟨x, r, hj, _⟩ | ⟨_, h⟩
        · rw [hj]
          exact fun h => by cases h
        · cases h
      · cases h
    · intro hj
      cases j with
      | nil => exact absurd rfl hj
      | cons x r =>
        left
        refine ⟨r, ?_, rfl⟩
        rw [Returns_dot]
        exact Or.inl ⟨x, r, rfl, rfl⟩
  have htail : ∀ i2 : List Char,
      Returns (.seq (.call .rulesp) (.seq (.char ';') (.star .dot))) i2 .failed ↔
        ∃ i3, Returns (.call .rulesp) i2 (.matched i3) ∧ ∀ more, i3 ≠ ';' :: more := by
    intro i2
    rw [Returns_seq]
    constructor
    · rintro (⟨i3, hsp, hc⟩ | ⟨hsp, _⟩)
      · rw [Returns_seq] at hc
        rcases hc with ⟨i4, _, hs⟩ | ⟨hsemi, _⟩
        · rw [Returns_star_dot] at hs
          cases hs
        · rw [Returns_char] at hsemi
          rcases hsemi with ⟨_, _, h⟩ | ⟨hno, _⟩
          · cases h
          · exact ⟨i3, hsp, hno⟩
      · exact absurd hsp (Returns_sp_ne_failed i2)
    · rintro ⟨i3, hsp, hno⟩
      left
      refine ⟨i3, hsp, ?_⟩
      rw [Returns_seq]
      right
      refine ⟨?_, rfl⟩
      rw [Returns_char]
      exact Or.inr ⟨hno, rfl⟩
  rw [Returns_call, rules_Statements, Returns_seq]
  constructor
  · rintro (⟨i1, hsp, hx⟩ | ⟨hsp, _⟩)
    · refine ⟨i1, hsp, ?_⟩
      rw [Returns_seq] at hx
      rcases hx with ⟨j, hch, hnot⟩ | ⟨hch, _⟩
      · rw [hnotdot] at hnot
        rw [Returns_choice] at hch
        rcases hch with ⟨r2, ha, hr2⟩ | ⟨ha, hst⟩
        · exfalso
          injection hr2 with hj
          rw [Returns_seq] at ha
          rcases ha with ⟨i2, _, hb⟩ | ⟨_, h⟩
          · rw [Returns_seq] at hb
            rcases hb with ⟨i3, _, hc⟩ | ⟨_, h⟩
            · rw [Returns_seq] at hc
              rcases hc with ⟨i4, _, hs⟩ | ⟨_, h⟩
              · rw [Returns_star_dot] at hs
                injection hs with hs2
                exact hnot (by rw [hj, hs2])
              · cases h
            · cases h
          · cases h
        · right
          rw [Returns_seq] at ha
          rcases ha with ⟨i2, hst2, hb⟩ | ⟨hstf, _⟩
          · have e : MatchResult.matched i2 = MatchResult.matched j := Returns.unique hst2 hst
            injection e with e2
            rw [e2] at hb
            obtain ⟨i3, hsp2, hno⟩ := (htail j).mp hb
            exact ⟨j, i3, hst, hnot, hsp2, hno⟩
          · cases Returns.unique hstf hst
      · left
        rw [Returns_choice] at hch
        rcases hch with ⟨_, _, h⟩ | ⟨_, hst⟩
        · cases h
        · exact hst
    · exact absurd hsp (Returns_sp_ne_failed input)
  · rintro ⟨i1, hsp, hcase⟩
    left
    refine ⟨i1, hsp, ?_⟩
    rw [Returns_seq]
    rcases hcase with hstf | ⟨i2, i3, hst, hne, hsp2, hno⟩
    · right
      refine ⟨?_, rfl⟩
      rw [Returns_choice]
      right
      refine ⟨?_, hstf⟩
      rw [Returns_seq]
      exact Or.inr ⟨hstf, rfl⟩
    · left
      refine ⟨i2, ?_, (hnotdot i2).mpr hne⟩
      rw [Returns_choice]
      right
      refine ⟨?_, hst⟩
      rw [Returns_seq]
      left
      exact ⟨i2, hst, (htail i2).mpr ⟨i3, hsp2, hno⟩⟩

theorem Returns_text (a : Peg) (input : List Char) (r : MatchResult) :
    Returns (.text a) input r ↔ Returns a input r := by
  constructor
  · rintro ⟨hr, n, hn⟩
    cases n with
    | zero => exact absurd hn.symm hr
    | succ k => exact ⟨hr, k, hn⟩
  · rintro ⟨hr, n, hn⟩
    exact ⟨hr, n + 1, hn⟩

theorem Returns_action (k : Nat) (input : List Char) (r : MatchResult) :
    Returns (.action k) input r ↔ r = .matched input := by
  constructor
  · rintro ⟨hr, n, hn⟩
    cases n with
    | zero => exact absurd hn.symm hr
    | succ m => exact hn.symm
  · intro h
    rw [h]
    exact ⟨by simp, 1, rfl⟩

theorem Returns_optional (a : Peg) (input : List Char) (r : MatchResult) :
    Returns (.optional a) input r ↔
      (∃ rest, Returns a input (.matched rest) ∧ r = .matched rest) ∨
      (Returns a input .failed ∧ r = .matched input) := by
  constructor
  · rintro ⟨hr, n, hn⟩
    cases n with
    | zero => exact absurd hn.symm hr
    | succ k =>
      rw [Peg.run_optional] at hn
      cases ha : Peg.run k a input with
      | matched rest =>
        rw [ha] at hn
        exact Or.inl ⟨rest, ⟨by simp, k, ha⟩, hn.symm⟩
      | failed =>
        rw [ha] at hn
        exact Or.inr ⟨⟨by simp, k, ha⟩, hn.symm⟩
      | outOfFuel =>
        rw [ha] at hn
        exact absurd hn.symm hr
  · rintro (⟨rest, ⟨_, n1, h1⟩, hr⟩ | ⟨⟨_, n1, h1⟩, hr⟩)
    · refine ⟨by rw [hr]; simp, n1 + 1, ?_⟩
      rw [Peg.run_optional, h1, hr]
    · refine ⟨by rw [hr]; simp, n1 + 1, ?_⟩
      rw [Peg.run_optional, h1, hr]

theorem Returns_star (a : Peg) (input : List Char) (r : MatchResult) :
    Returns (.star a) input r ↔
      (∃ rest, Returns a input (.matched rest) ∧ Returns (.star a) rest r) ∨
      (Returns a input .failed ∧ r = .matched input) := by
  constructor
  · rintro ⟨hr, n, hn⟩
    cases n with
    | zero => exact absurd hn.symm hr
    | succ k =>
      rw [Peg.run_star] at hn
      cases ha : Peg.run k a input with
      | matched rest =>
        rw [ha] at hn
        exact Or.inl ⟨rest, ⟨by simp, k, ha⟩, ⟨hr, k, hn⟩⟩
      | failed =>
        rw [ha] at hn
        exact Or.inr ⟨⟨by simp, k, ha⟩, hn.symm⟩
      | outOfFuel =>
        rw [ha] at hn
        exact absurd hn.symm hr
  · rintro (⟨rest, ⟨_, n1, h1⟩, ⟨hr, n2, h2⟩⟩ | ⟨⟨_, n1, h1⟩, hr⟩)
    · refine ⟨hr, max n1 n2 + 1, ?_⟩
      rw [Peg.run_star, Peg.run_le n1 _ (Nat.le_max_left _ _) a input _ h1 (by simp)]
      exact Peg.run_le n2 _ (Nat.le_max_right _ _) (.star a) rest _ h2 hr
    · refine ⟨by rw [hr]; simp, n1 + 1, ?_⟩
      rw [Peg.run_star, h1, hr]


set_option maxRecDepth 100000 in
/-- On the rest of the buffer: on every input that begins with `=`, `!=`, `<>`,
`<=`, `<`, `>=` or `>` the rule `ComparisonOp` matches the operator that
`comparisonOperator` reads, the rule of that operator matches the same text,
and every alternative in front of it fails; on every other input
`ComparisonOp` fails. -/
theorem Returns_comparisonOperator (input : List Char) :
    rules .ruleComparisonOp = .choices (comparisonAlternatives.map .call) ∧
    match comparisonOperator input with
    | some (op, rest) =>
      Returns (.call .ruleComparisonOp) input (.matched rest) ∧
      Returns (.call op) input (.matched rest) ∧
      ∀ q ∈ comparisonAlternatives.takeWhile (fun q => q ≠ op),
        Returns (.call q) input .failed
    | none => Returns (.call .ruleComparisonOp) input .failed := by
  refine ⟨rfl, ?_⟩
  have key : ∀ (q : pegRule) (r : MatchResult), r ≠ .outOfFuel →
      Peg.run 20 (.call q) input = r → Returns (.call q) input r :=
    fun q r hr h => ⟨hr, 20, h⟩
  cases input with
  | nil => exact ⟨by simp, 20, rfl⟩
  | cons x t =>
    by_cases e1 : x = '='
    · subst e1
      exact ⟨⟨by simp, 20, rfl⟩, ⟨by simp, 20, rfl⟩, by simp [comparisonAlternatives]⟩
    by_cases e2 : x = '!'
    · subst e2
      cases t with
      | nil => exact ⟨by simp, 20, rfl⟩
      | cons y t2 =>
        by_cases f1 : y = '='
        · subst f1
          refine ⟨⟨by simp, 20, rfl⟩, ⟨by simp, 20, rfl⟩, ?_⟩
          intro q hq
          simp [comparisonAlternatives, List.takeWhile] at hq
          subst hq
          exact ⟨by simp, 20, rfl⟩
        · simp only [comparisonOperator, f1]
          refine ⟨by simp, 20, ?_⟩
          simp [Peg.run, rules, Peg.seqs, Peg.choices, f1]
    by_cases e3 : x = '<'
    · subst e3
      cases t with
      | nil =>
        refine ⟨⟨by simp, 20, rfl⟩, ⟨by simp, 20, rfl⟩, ?_⟩
        intro q hq
        simp [comparisonAlternatives, List.takeWhile] at hq
        rcases hq with rfl | rfl | rfl <;> exact ⟨by simp, 20, rfl⟩
      | cons y t2 =>
        by_cases f1 : y = '>'
        · subst f1
          refine ⟨⟨by simp, 20, rfl⟩, ⟨by simp, 20, rfl⟩, ?_⟩
          intro q hq
          simp [comparisonAlternatives, List.takeWhile] at hq
          subst hq
          exact ⟨by simp, 20, rfl⟩
        by_cases f2 : y = '='
        · subst f2
          refine ⟨⟨by simp, 20, rfl⟩, ⟨by simp, 20, rfl⟩, ?_⟩
          intro q hq
          simp [comparisonAlternatives, List.takeWhile] at hq
          rcases hq with rfl | rfl <;> exact ⟨by simp, 20, rfl⟩
        · simp only [comparisonOperator, e1, e2, f1, f2]
          refine ⟨⟨by simp, 20, ?_⟩, ⟨by simp, 20, ?_⟩, ?_⟩
          · simp [Peg.run, rules, Peg.seqs, Peg.choices, f1, f2]
          · simp [Peg.run, rules, Peg.seqs, Peg.choices, f1, f2]
          · intro q hq
            simp [comparisonAlternatives, List.takeWhile] at hq
            rcases hq with rfl | rfl | rfl <;> refine ⟨by simp, 20, ?_⟩ <;>
              simp [Peg.run, rules, Peg.seqs, Peg.choices, f1, f2]
    by_cases e4 : x = '>'
    · subst e4
      cases t with
      | nil =>
        refine ⟨⟨by simp, 20, rfl⟩, ⟨by simp, 20, rfl⟩, ?_⟩
        intro q hq
        simp [comparisonAlternatives, List.takeWhile] at hq
        rcases hq with rfl | rfl | rfl | rfl | rfl <;> exact ⟨by simp, 20, rfl⟩
      | cons y t2 =>
        by_cases f2 : y = '='
        · subst f2
          refine ⟨⟨by simp, 20, rfl⟩, ⟨by simp, 20, rfl⟩, ?_⟩
          intro q hq
          simp [comparisonAlternatives, List.takeWhile] at hq
          rcases hq with rfl | rfl | rfl | rfl <;> exact ⟨by simp, 20, rfl⟩
        · simp only [comparisonOperator, e1, e2, e3, f2]
          refine ⟨⟨by simp, 20, ?_⟩, ⟨by simp, 20, ?_⟩, ?_⟩
          · simp [Peg.run, rules, Peg.seqs, Peg.choices, f2]
          · simp [Peg.run, rules, Peg.seqs, Peg.choices, f2]
          · intro q hq
            simp [comparisonAlternatives, List.takeWhile] at hq
            rcases hq with rfl | rfl | rfl | rfl | rfl <;> refine ⟨by simp, 20, ?_⟩ <;>
              simp [Peg.run, rules, Peg.seqs, Peg.choices, f2]
    · simp only [comparisonOperator, e1, e2, e3, e4]
      refine ⟨by simp, 20, ?_⟩
      simp [Peg.run, rules, Peg.seqs, Peg.choices, e1, e2, e3, e4]


set_option maxRecDepth 100000 in
theorem run_baseExpr_true (c1 c2 c3 c4 : Char) (tail : List Char)
    (h1 : c1 = 't' ∨ c1 = 'T') (h2 : c2 = 'r' ∨ c2 = 'R') (h3 : c3 = 'u' ∨ c3 = 'U')
    (h4 : c4 = 'e' ∨ c4 = 'E') :
    Peg.run 30 (.call .rulebaseExpr) (c1 :: c2 :: c3 :: c4 :: tail) = .matched tail := by
  rcases h1 with rfl | rfl <;> rcases h2 with rfl | rfl <;> rcases h3 with rfl | rfl <;>
    rcases h4 with rfl | rfl <;> rfl

set_option maxRecDepth 100000 in
theorem run_baseExpr_false (c1 c2 c3 c4 c5 : Char) (tail : List Char)
    (h1 : c1 = 'f' ∨ c1 = 'F') (h2 : c2 = 'a' ∨ c2 = 'A') (h3 : c3 = 'l' ∨ c3 = 'L')
    (h4 : c4 = 's' ∨ c4 = 'S') (h5 : c5 = 'e' ∨ c5 = 'E') :
    Peg.run 30 (.call .rulebaseExpr) (c1 :: c2 :: c3 :: c4 :: c5 :: tail) = .matched tail := by
  rcases h1 with rfl | rfl <;> rcases h2 with rfl | rfl <;> rcases h3 with rfl | rfl <;>
    rcases h4 with rfl | rfl <;> rcases h5 with rfl | rfl <;> rfl

set_option maxRecDepth 100000 in
theorem run_baseExpr_null (c1 c2 c3 c4 : Char) (tail : List Char)
    (h1 : c1 = 'n' ∨ c1 = 'N') (h2 : c2 = 'u' ∨ c2 = 'U') (h3 : c3 = 'l' ∨ c3 = 'L')
    (h4 : c4 = 'l' ∨ c4 = 'L') :
    Peg.run 30 (.call .rulebaseExpr) (c1 :: c2 :: c3 :: c4 :: tail) = .matched tail := by
  rcases h1 with rfl | rfl <;> rcases h2 with rfl | rfl <;> rcases h3 with rfl | rfl <;>
    rcases h4 with rfl | rfl <;> rfl

set_option maxRecDepth 100000 in
theorem run_RowValue_nullable :
    Peg.run 30 (.call .ruleRowValue) "nullable".toList = .matched [] := by decide


set_option maxRecDepth 100000 in
theorem run_BooleanLiteral_true (c1 c2 c3 c4 : Char) (tail : List Char)
    (h1 : c1 = 't' ∨ c1 = 'T') (h2 : c2 = 'r' ∨ c2 = 'R') (h3 : c3 = 'u' ∨ c3 = 'U')
    (h4 : c4 = 'e' ∨ c4 = 'E') :
    Peg.run 30 (.call .ruleBooleanLiteral) (c1 :: c2 :: c3 :: c4 :: tail) = .matched tail := by
  rcases h1 with rfl | rfl <;> rcases h2 with rfl | rfl <;> rcases h3 with rfl | rfl <;>
    rcases h4 with rfl | rfl <;> rfl

set_option maxRecDepth 100000 in
theorem run_BooleanLiteral_false (c1 c2 c3 c4 c5 : Char) (tail : List Char)
    (h1 : c1 = 'f' ∨ c1 = 'F') (h2 : c2 = 'a' ∨ c2 = 'A') (h3 : c3 = 'l' ∨ c3 = 'L')
    (h4 : c4 = 's' ∨ c4 = 'S') (h5 : c5 = 'e' ∨ c5 = 'E') :
    Peg.run 30 (.call .ruleBooleanLiteral) (c1 :: c2 :: c3 :: c4 :: c5 :: tail) =
      .matched tail := by
  rcases h1 with rfl | rfl <;> rcases h2 with rfl | rfl <;> rcases h3 with rfl | rfl <;>
    rcases h4 with rfl | rfl <;> rcases h5 with rfl | rfl <;> rfl

set_option maxRecDepth 100000 in
theorem run_NullLiteral_null (c1 c2 c3 c4 : Char) (tail : List Char)
    (h1 : c1 = 'n' ∨ c1 = 'N') (h2 : c2 = 'u' ∨ c2 = 'U') (h3 : c3 = 'l' ∨ c3 = 'L')
    (h4 : c4 = 'l' ∨ c4 = 'L') :
    Peg.run 30 (.call .ruleNullLiteral) (c1 :: c2 :: c3 :: c4 :: tail) = .matched tail := by
  rcases h1 with rfl | rfl <;> rcases h2 with rfl | rfl <;> rcases h3 with rfl | rfl <;>
    rcases h4 with rfl | rfl <;> rfl

set_option maxRecDepth 100000 in
theorem run_Expression_or (tail : List Char) :
    Peg.run 100 (.call .ruleExpression) ("a OR b OR c".toList ++ tail) =
      .matched ("OR c".toList ++ tail) := rfl

set_option maxRecDepth 100000 in
theorem run_Expression_and (tail : List Char) :
    Peg.run 100 (.call .ruleExpression) ("a AND b AND c".toList ++ tail) =
      .matched ("AND c".toList ++ tail) := rfl

set_option maxRecDepth 100000 in
theorem run_Expression_eq (tail : List Char) :
    Peg.run 100 (.call .ruleExpression) ("a = b = c".toList ++ tail) =
      .matched ("= c".toList ++ tail) := rfl

set_option maxRecDepth 100000 in
theorem termBody_chain (ops : List Char) (h : ∀ op ∈ ops, op = '+' ∨ op = '-') :
    Returns (.star (.seqs [.call .rulePlusMinusOp, .call .rulesp, .call .ruleproductExpr,
      .call .rulesp])) (operands ops) (.matched []) := by
  induction ops with
  | nil => exact ⟨by simp, 20, rfl⟩
  | cons op ops ih =>
    have hop := h op (List.mem_cons_self _ _)
    have ih2 := ih (fun o ho => h o (List.mem_cons_of_mem _ ho))
    rw [Returns_star]
    left
    refine ⟨operands ops, ⟨by simp, 60, ?_⟩, ih2⟩
    cases ops with
    | nil => rcases hop with rfl | rfl <;> rfl
    | cons op2 ops2 =>
      have hop2 := h op2 (List.mem_cons_of_mem _ (List.mem_cons_self _ _))
      rcases hop with rfl | rfl <;> rcases hop2 with rfl | rfl <;> rfl

set_option maxRecDepth 100000 in
theorem Returns_operatorOnce (operand operator : pegRule) (n : Nat) (input rest : List Char)
    (h : Returns (.seq (.text (.seq (.call operand) (.seq (.call .rulesp)
      (.optional (.seq (.call operator) (.seq (.call .rulesp) (.call operand))))))) (.action n))
      input (.matched rest)) :
    AtMostOneOperator operand operator input rest := by
  rw [Returns_seq] at h
  rcases h with ⟨j, ht, ha⟩ | ⟨_, h⟩
  · rw [Returns_action] at ha
    injection ha with ha
    subst ha
    rw [Returns_text, Returns_seq] at ht
    rcases ht with ⟨i1, hA, hx⟩ | ⟨_, h⟩
    · rw [Returns_seq] at hx
      rcases hx with ⟨i2, hsp, ho⟩ | ⟨_, h⟩
      · refine ⟨i1, i2, hA, hsp, ?_⟩
        rw [Returns_optional] at ho
        rcases ho with ⟨r2, hb, hr⟩ | ⟨_, hr⟩
        · injection hr with hr
          subst hr
          right
          rw [Returns_seq] at hb
          rcases hb with ⟨i3, hop, hy⟩ | ⟨_, h⟩
          · rw [Returns_seq] at hy
            rcases hy with ⟨i4, hsp2, hB⟩ | ⟨_, h⟩
            · exact ⟨i3, i4, hop, hsp2, hB⟩
            · cases h
          · cases h
        · injection hr with hr
          exact Or.inl hr
      · cases h
    · cases h
  · cases h

set_option maxRecDepth 100000 in
theorem Returns_level (X : pegRule) (T : Peg) (n : Nat) (input i1 i2 rest : List Char)
    (hX : Returns (.call X) input (.matched i1)) (hsp : Returns (.call .rulesp) i1 (.matched i2))
    (hT : Returns T i2 (.matched rest)) :
    Returns (.seq (.text (.seq (.call X) (.seq (.call .rulesp) T))) (.action n)) input
      (.matched rest) := by
  rw [Returns_seq]
  left
  refine ⟨rest, ?_, (Returns_action _ _ _).2 rfl⟩
  rw [Returns_text, Returns_seq]
  left
  refine ⟨i1, hX, ?_⟩
  rw [Returns_seq]
  left
  exact ⟨i2, hsp, hT⟩

set_option maxRecDepth 100000 in
theorem termExpr_of_productExpr (input : List Char)
    (h : Returns (.call .ruleproductExpr) input (.matched [])) :
    Returns (.call .ruletermExpr) input (.matched []) :=
  (Returns_call _ _ _).2
    (Returns_level .ruleproductExpr _ 40 input [] [] [] h Returns_sp_nil ⟨by simp, 20, by decide⟩)

set_option maxRecDepth 100000 in
theorem otherOpExpr_of_termExpr (input : List Char)
    (h : Returns (.call .ruletermExpr) input (.matched [])) :
    Returns (.call .ruleotherOpExpr) input (.matched []) :=
  (Returns_call _ _ _).2
    (Returns_level .ruleisExpr _ 38 input [] [] []
      ((Returns_call _ _ _).2
        (Returns_level .ruletermExpr _ 39 input [] [] [] h Returns_sp_nil
          ⟨by simp, 20, by decide⟩))
      Returns_sp_nil ⟨by simp, 20, by decide⟩)

set_option maxRecDepth 100000 in
theorem Expression_of_otherOpExpr (t : List Char)
    (h : Returns (.call .ruleotherOpExpr) ('a' :: t) (.matched [])) :
    Returns (.call .ruleExpression) ('a' :: t) (.matched []) := by
  have h1 : Returns (.call .rulecomparisonExpr) ('a' :: t) (.matched []) :=
    (Returns_call _ _ _).2
      (Returns_level .ruleotherOpExpr _ 37 _ [] [] [] h Returns_sp_nil ⟨by simp, 20, by decide⟩)
  have h2 : Returns (.call .rulenotExpr) ('a' :: t) (.matched []) := by
    rw [Returns_call]
    show Returns (.seq (.text (.seq (.optional (.seqs [.call .ruleNot, .call .rulesp]))
      (.call .rulecomparisonExpr))) (.action 36)) ('a' :: t) (.matched [])
    rw [Returns_seq]
    left
    refine ⟨[], ?_, (Returns_action _ _ _).2 rfl⟩
    rw [Returns_text, Returns_seq]
    left
    exact ⟨'a' :: t, ⟨by simp, 20, rfl⟩, h1⟩
  have h3 : Returns (.call .ruleandExpr) ('a' :: t) (.matched []) :=
    (Returns_call _ _ _).2
      (Returns_level .rulenotExpr _ 35 _ [] [] [] h2 Returns_sp_nil ⟨by simp, 20, by decide⟩)
  have h4 : Returns (.call .ruleorExpr) ('a' :: t) (.matched []) :=
    (Returns_call _ _ _).2
      (Returns_level .ruleandExpr _ 34 _ [] [] [] h3 Returns_sp_nil ⟨by simp, 20, by decide⟩)
  exact (Returns_call .ruleExpression _ _).2 h4

set_option maxRecDepth 100000 in
theorem productBody_chain (ops : List Char) (h : ∀ op ∈ ops, op = '*' ∨ op = '/' ∨ op = '%') :
    Returns (.star (.seqs [.call .ruleMultDivOp, .call .rulesp, .call .ruleminusExpr,
      .call .rulesp])) (operands ops) (.matched []) := by
  induction ops with
  | nil => exact ⟨by simp, 20, rfl⟩
  | cons op ops ih =>
    have hop := h op (List.mem_cons_self _ _)
    have ih2 := ih (fun o ho => h o (List.mem_cons_of_mem _ ho))
    rw [Returns_star]
    left
    refine ⟨operands ops, ⟨by simp, 60, ?_⟩, ih2⟩
    cases ops with
    | nil => rcases hop with rfl | rfl | rfl <;> rfl
    | cons op2 ops2 =>
      have hop2 := h op2 (List.mem_cons_of_mem _ (List.mem_cons_self _ _))
      rcases hop with rfl | rfl | rfl <;> rcases hop2 with rfl | rfl | rfl <;> rfl

set_option maxRecDepth 100000 in
theorem otherOpBody_chain (n : Nat) :
    Returns (.star (.seqs [.call .ruleOtherOp, .call .rulesp, .call .ruleisExpr,
      .call .rulesp])) (concatenations n) (.matched []) := by
  induction n with
  | zero => exact ⟨by simp, 20, rfl⟩
  | succ n ih =>
    rw [Returns_star]
    left
    refine ⟨concatenations n, ⟨by simp, 60, ?_⟩, ih⟩
    cases n with
    | zero => rfl
    | succ m => rfl

set_option maxRecDepth 100000 in
theorem Expression_plusMinus_chain (ops : List Char) (h : ∀ op ∈ ops, op = '+' ∨ op = '-') :
    Returns (.call .ruleExpression) ('a' :: operands ops) (.matched []) := by
  apply Expression_of_otherOpExpr
  apply otherOpExpr_of_termExpr
  rw [Returns_call]
  refine Returns_level .ruleproductExpr _ 40 _ (operands ops) (operands ops) [] ?_ ?_
    (termBody_chain ops h)
  · refine ⟨by simp, 60, ?_⟩
    cases ops with
    | nil => rfl
    | cons op ops2 => rcases h op (List.mem_cons_self _ _) with rfl | rfl <;> rfl
  · refine ⟨by simp, 60, ?_⟩
    cases ops with
    | nil => rfl
    | cons op ops2 => rcases h op (List.mem_cons_self _ _) with rfl | rfl <;> rfl

set_option maxRecDepth 100000 in
theorem Expression_multDiv_chain (ops : List Char)
    (h : ∀ op ∈ ops, op = '*' ∨ op = '/' ∨ op = '%') :
    Returns (.call .ruleExpression) ('a' :: operands ops) (.matched []) := by
  apply Expression_of_otherOpExpr
  apply otherOpExpr_of_termExpr
  apply termExpr_of_productExpr
  rw [Returns_call]
  refine Returns_level .ruleminusExpr _ 41 _ (operands ops) (operands ops) [] ?_ ?_
    (productBody_chain ops h)
  · refine ⟨by simp, 60, ?_⟩
    cases ops with
    | nil => rfl
    | cons op ops2 => rcases h op (List.mem_cons_self _ _) with rfl | rfl | rfl <;> rfl
  · refine ⟨by simp, 60, ?_⟩
    cases ops with
    | nil => rfl
    | cons op ops2 => rcases h op (List.mem_cons_self _ _) with rfl | rfl | rfl <;> rfl

set_option maxRecDepth 100000 in
theorem Expression_concat_chain (n : Nat) :
    Returns (.call .ruleExpression) ('a' :: concatenations n) (.matched []) := by
  apply Expression_of_otherOpExpr
  rw [Returns_call]
  refine Returns_level .ruleisExpr _ 38 _ (concatenations n) (concatenations n) [] ?_ ?_
    (otherOpBody_chain n)
  · refine ⟨by simp, 60, ?_⟩
    cases n with
    | zero => rfl
    | succ m => rfl
  · refine ⟨by simp, 60, ?_⟩
    cases n with
    | zero => rfl
    | succ m => rfl

set_option maxRecDepth 100000 in
theorem run_orExpr_example :
    Peg.run 100 (.call .ruleorExpr) "a OR b OR c".toList = .matched "OR c".toList := by decide

set_option maxRecDepth 100000 in
theorem afterLineEnd_length (text after : List Char) (h : afterLineEnd text = some after) :
    after.length < text.length := by
  induction text with
  | nil => simp [afterLineEnd] at h
  | cons x rest ih =>
    unfold afterLineEnd at h
    split at h
    · injection h with h
      subst h
      simp
    · have := ih h
      simp
      omega

set_option maxRecDepth 100000 in
/-- The inner loop of a comment and its end. -/
theorem Returns_commentEnd (text : List Char) :
    Returns (.seqs [.star (.seqs [.notPredicate (.choices [.char (Char.ofNat 13),
      .char (Char.ofNat 10)]), .dot]), .choices [.char (Char.ofNat 13), .char (Char.ofNat 10)]])
      text (match afterLineEnd text with | some after => .matched after | none => .failed) := by
  induction text with
  | nil => exact ⟨by simp [afterLineEnd], 20, rfl⟩
  | cons c t ih =>
    by_cases h1 : c = Char.ofNat 13
    · subst h1
      exact ⟨by simp [afterLineEnd], 20, rfl⟩
    by_cases h2 : c = Char.ofNat 10
    · subst h2
      exact ⟨by simp [afterLineEnd], 20, rfl⟩
    have he : afterLineEnd (c :: t) = afterLineEnd t := by
      simp [afterLineEnd, h1, h2]
    rw [he]
    have hb : Returns (.seqs [.notPredicate (.choices [.char (Char.ofNat 13),
        .char (Char.ofNat 10)]), .dot]) (c :: t) (.matched t) := by
      refine ⟨by simp, 20, ?_⟩
      simp [Peg.run, Peg.seqs, Peg.choices, h1, h2]
    show Returns (.seq _ _) _ _
    have ih2 : Returns (.seq _ _) _ _ := ih
    rw [Returns_seq] at ih2 ⊢
    rcases ih2 with ⟨rest, hs, hr⟩ | ⟨hs, hr⟩
    · left
      refine ⟨rest, ?_, hr⟩
      rw [Returns_star]
      exact Or.inl ⟨t, hb, hs⟩
    · right
      refine ⟨?_, hr⟩
      rw [Returns_star]
      exact Or.inl ⟨t, hb, hs⟩

set_option maxRecDepth 100000 in
theorem Returns_spLoop (n : Nat) : ∀ input : List Char, input.length ≤ n →
    Returns (.star (.choices [.char ' ', .char (Char.ofNat 9), .char (Char.ofNat 10),
      .char (Char.ofNat 13), .call .rulecomment])) input
      (.matched (skipBlanksAndCommentsN n input)) := by
  induction n using Nat.strong_induction_on with
  | _ n ih =>
    intro input hlen
    cases input with
    | nil =>
      cases n with
      | zero => exact ⟨by simp, 20, rfl⟩
      | succ m => exact ⟨by simp, 20, rfl⟩
    | cons x rest =>
      cases n with
      | zero => simp at hlen
      | succ m =>
        have hrest : rest.length ≤ m := by
          simp at hlen
          exact hlen
        have blank : Returns (.choices [.char ' ', .char (Char.ofNat 9), .char (Char.ofNat 10),
            .char (Char.ofNat 13), .call .rulecomment]) (x :: rest) (.matched rest) →
            (x = ' ' ∨ x = Char.ofNat 9 ∨ x = Char.ofNat 10 ∨ x = Char.ofNat 13) →
            Returns (.star (.choices [.char ' ', .char (Char.ofNat 9), .char (Char.ofNat 10),
              .char (Char.ofNat 13), .call .rulecomment])) (x :: rest)
              (.matched (skipBlanksAndCommentsN (m + 1) (x :: rest))) := by
          intro hb hx
          have e : skipBlanksAndCommentsN (m + 1) (x :: rest) = skipBlanksAndCommentsN m rest := by
            simp [skipBlanksAndCommentsN, hx]
          rw [e, Returns_star]
          exact Or.inl ⟨rest, hb, ih m (Nat.lt_succ_self m) rest hrest⟩
        by_cases h1 : x = ' '
        · subst h1
          exact blank ⟨by simp, 20, rfl⟩ (Or.inl rfl)
        by_cases h2 : x = Char.ofNat 9
        · subst h2
          exact blank ⟨by simp, 20, rfl⟩ (Or.inr (Or.inl rfl))
        by_cases h3 : x = Char.ofNat 10
        · subst h3
          exact blank ⟨by simp, 20, rfl⟩ (Or.inr (Or.inr (Or.inl rfl)))
        by_cases h4 : x = Char.ofNat 13
        · subst h4
          exact blank ⟨by simp, 20, rfl⟩ (Or.inr (Or.inr (Or.inr rfl)))
        have stop : Returns (.choices [.char ' ', .char (Char.ofNat 9), .char (Char.ofNat 10),
            .char (Char.ofNat 13), .call .rulecomment]) (x :: rest) .failed →
            skipBlanksAndCommentsN (m + 1) (x :: rest) = x :: rest →
            Returns (.star (.choices [.char ' ', .char (Char.ofNat 9), .char (Char.ofNat 10),
              .char (Char.ofNat 13), .call .rulecomment])) (x :: rest)
              (.matched (skipBlanksAndCommentsN (m + 1) (x :: rest))) := by
          intro hb e
          rw [e, Returns_star]
          exact Or.inr ⟨hb, rfl⟩
        by_cases h5 : x = '-'
        · subst h5
          cases rest with
          | nil => exact stop ⟨by simp, 20, rfl⟩ (by simp [skipBlanksAndCommentsN])
          | cons y rest2 =>
            by_cases h6 : y = '-'
            · subst h6
              have hc := Returns_commentEnd rest2
              have hcomment : ∀ r, Returns (.seqs [.star (.seqs [.notPredicate
                  (.choices [.char (Char.ofNat 13), .char (Char.ofNat 10)]), .dot]),
                  .choices [.char (Char.ofNat 13), .char (Char.ofNat 10)]]) rest2 r →
                  Returns (.choices [.char ' ', .char (Char.ofNat 9), .char (Char.ofNat 10),
                    .char (Char.ofNat 13), .call .rulecomment]) ('-' :: '-' :: rest2) r := by
                rintro r ⟨hr, k, hk⟩
                refine ⟨hr, k + 8, ?_⟩
                show Peg.run (k + 8) (.choice (.char ' ') (.choice (.char (Char.ofNat 9))
                  (.choice (.char (Char.ofNat 10)) (.choice (.char (Char.ofNat 13))
                    (.call .rulecomment))))) ('-' :: '-' :: rest2) = r
                have e1 : ∀ j (c : Char), c ≠ '-' →
                    Peg.run (j + 1) (.char c) ('-' :: '-' :: rest2) = .failed := by
                  intro j c hc
                  show (if '-' = c then MatchResult.matched ('-' :: rest2) else .failed) = .failed
                  rw [if_neg (fun h => hc h.symm)]
                rw [Peg.run_choice, e1 _ _ (by decide), Peg.run_choice, e1 _ _ (by decide),
                  Peg.run_choice, e1 _ _ (by decide), Peg.run_choice, e1 _ _ (by decide)]
                simp only
                rw [Peg.run_call]
                show Peg.run (k + 3) (.seq (.char '-') (.seq (.char '-') (.seqs [.star
                  (.seqs [.notPredicate (.choices [.char (Char.ofNat 13), .char (Char.ofNat 10)]),
                    .dot]), .choices [.char (Char.ofNat 13), .char (Char.ofNat 10)]])))
                  ('-' :: '-' :: rest2) = r
                rw [Peg.run_seq]
                have e2 : Peg.run (k + 2) (.char '-') ('-' :: '-' :: rest2) =
                    .matched ('-' :: rest2) := rfl
                rw [e2]
                simp only
                rw [Peg.run_seq]
                have e3 : Peg.run (k + 1) (.char '-') ('-' :: rest2) = .matched rest2 := rfl
                rw [e3]
                simp only
                exact Peg.run_le k (k + 1) (Nat.le_succ k) _ _ _ hk hr
              cases ha : afterLineEnd rest2 with
              | none =>
                rw [ha] at hc
                exact stop (hcomment _ hc) (by simp [skipBlanksAndCommentsN, ha])
              | some after =>
                rw [ha] at hc
                have hlt := afterLineEnd_length rest2 after ha
                have e : skipBlanksAndCommentsN (m + 1) ('-' :: '-' :: rest2) =
                    skipBlanksAndCommentsN m after := by
                  simp [skipBlanksAndCommentsN, ha]
                rw [e, Returns_star]
                refine Or.inl ⟨after, hcomment _ hc, ih m (Nat.lt_succ_self m) after ?_⟩
                simp at hrest
                omega
            · refine stop ⟨by simp, 20, ?_⟩ (by simp [skipBlanksAndCommentsN, h6])
              simp [Peg.run, rules, Peg.seqs, Peg.choices, h6]
        · refine stop ⟨by simp, 20, ?_⟩ (by simp [skipBlanksAndCommentsN, h1, h2, h3, h4, h5])
          simp [Peg.run, rules, Peg.seqs, Peg.choices, h1, h2, h3, h4, h5]

set_option maxRecDepth 100000 in
theorem Returns_sp (input : List Char) :
    Returns (.call .rulesp) input (.matched (skipBlanksAndComments input)) :=
  (Returns_call _ _ _).2 (Returns_spLoop input.length input (Nat.le_refl _))

set_option maxRecDepth 100000 in
theorem skipBlanksAndComments_unterminated (text : List Char) (h : afterLineEnd text = none) :
    skipBlanksAndComments ('-' :: '-' :: text) = '-' :: '-' :: text := by
  simp [skipBlanksAndComments, skipBlanksAndCommentsN, h]

/-! ## The execution on the variables of the parser -/

theorem toNat_lt_end_symbol (c : Char) : c.toNat < end_symbol := by
  have h := c.valid
  unfold end_symbol
  show c.val.toNat < 1114112
  rcases h with h | ⟨_, h⟩
  · have : c.val.toNat < 55296 := h
    omega
  · exact h

theorem toNat_inj (x c : Char) (h : x.toNat = c.toNat) : x = c := by
  rw [← Char.ofNat_toNat x, h, Char.ofNat_toNat]

theorem Init_runesOf (input : List Char) :
    Init (runesOf input) = runesOf input ++ [end_symbol] := by
  unfold Init
  rw [if_neg]
  intro h
  have hm := List.mem_of_getLast?_eq_some h
  unfold runesOf at hm
  rw [List.mem_map] at hm
  obtain ⟨c, _, hc⟩ := hm
  have := toNat_lt_end_symbol c
  omega

theorem buffer_drop_cons (input : List Char) (p : Nat) (x : Char) (rest : List Char)
    (h : input.drop p = x :: rest) :
    (runesOf input ++ [end_symbol])[p]? = some x.toNat ∧ input.drop (p + 1) = rest ∧
      p < input.length := by
  have hp : p < input.length := by
    by_contra hn
    rw [List.drop_of_length_le (by omega)] at h
    cases h
  refine ⟨?_, ?_, hp⟩
  · have hx : input[p]? = some x := by
      have := List.getElem?_drop input p 0
      rw [h] at this
      simpa using this.symm
    unfold runesOf
    rw [List.getElem?_append_left (by simpa using hp), List.getElem?_map, hx]
    rfl
  · have := List.drop_drop 1 p input
    rw [h] at this
    simpa [Nat.add_comm] using this.symm

theorem buffer_drop_nil (input : List Char) (p : Nat) (hp : p ≤ input.length)
    (h : input.drop p = []) : (runesOf input ++ [end_symbol])[p]? = some end_symbol := by
  have hlen : input.length ≤ p := by
    by_contra hn
    have := List.length_drop p input
    rw [h] at this
    simp at this
    omega
  have e : p = input.length := by omega
  subst e
  unfold runesOf
  rw [List.getElem?_append_right (by simp)]
  simp

theorem uint32Dec_uint32Inc (d : Nat) (h : d < 4294967296) : uint32Dec (uint32Inc d) = d := by
  unfold uint32Dec uint32Inc
  omega

theorem uint32Inc_lt (d : Nat) : uint32Inc d < 4294967296 := by
  unfold uint32Inc
  omega

theorem uint32Inc_le (d : Nat) : uint32Inc d ≤ d + 1 := by
  unfold uint32Inc
  omega

theorem uint32Inc_of_lt (d : Nat) (h : d + 1 < 4294967296) : uint32Inc d = d + 1 := by
  unfold uint32Inc
  omega

theorem Peg.exec_char (B : List Nat) (n : Nat) (c : Char) (s : ParserState) :
    Peg.exec B (n + 1) (.char c) s =
      match B[s.position]? with
      | none => .outOfBounds
      | some x =>
        if x = c.toNat then .matched { s with position := uint32Inc s.position } else .failed :=
  rfl

theorem Peg.exec_range (B : List Nat) (n : Nat) (lo hi : Char) (s : ParserState) :
    Peg.exec B (n + 1) (.range lo hi) s =
      match B[s.position]? with
      | none => .outOfBounds
      | some x =>
        if lo.toNat ≤ x ∧ x ≤ hi.toNat then .matched { s with position := uint32Inc s.position }
        else .failed := rfl

theorem Peg.exec_dot (B : List Nat) (n : Nat) (s : ParserState) :
    Peg.exec B (n + 1) .dot s =
      match B[s.position]? with
      | none => .outOfBounds
      | some x =>
        if x ≠ end_symbol then .matched { s with position := uint32Inc s.position } else .failed :=
  rfl

theorem Peg.exec_call (B : List Nat) (n : Nat) (r : pegRule) (s : ParserState) :
    Peg.exec B (n + 1) (.call r) s =
      match Peg.exec B n (rules r) { s with depth := uint32Inc s.depth } with
      | .matched s2 =>
        .matched { s2 with depth := uint32Dec s2.depth, tokenIndex := s2.tokenIndex + 1 }
      | .failed => .failed
      | .outOfBounds => .outOfBounds
      | .outOfFuel => .outOfFuel := rfl

theorem Peg.exec_text (B : List Nat) (n : Nat) (a : Peg) (s : ParserState) :
    Peg.exec B (n + 1) (.text a) s =
      match Peg.exec B n a { s with depth := uint32Inc s.depth } with
      | .matched s2 =>
        .matched { s2 with depth := uint32Dec s2.depth, tokenIndex := s2.tokenIndex + 1 }
      | .failed => .failed
      | .outOfBounds => .outOfBounds
      | .outOfFuel => .outOfFuel := rfl

theorem Peg.exec_seq (B : List Nat) (n : Nat) (a b : Peg) (s : ParserState) :
    Peg.exec B (n + 1) (.seq a b) s =
      match Peg.exec B n a s with
      | .matched s2 => Peg.exec B n b s2
      | .failed => .failed
      | .outOfBounds => .outOfBounds
      | .outOfFuel => .outOfFuel := rfl

theorem Peg.exec_choice (B : List Nat) (n : Nat) (a b : Peg) (s : ParserState) :
    Peg.exec B (n + 1) (.choice a b) s =
      match Peg.exec B n a s with
      | .matched s2 => .matched s2
      | .failed => Peg.exec B n b s
      | .outOfBounds => .outOfBounds
      | .outOfFuel => .outOfFuel := rfl

theorem Peg.exec_star (B : List Nat) (n : Nat) (a : Peg) (s : ParserState) :
    Peg.exec B (n + 1) (.star a) s =
      match Peg.exec B n a s with
      | .matched s2 => Peg.exec B n (.star a) s2
      | .failed => .matched s
      | .outOfBounds => .outOfBounds
      | .outOfFuel => .outOfFuel := rfl

theorem Peg.exec_optional (B : List Nat) (n : Nat) (a : Peg) (s : ParserState) :
    Peg.exec B (n + 1) (.optional a) s =
      match Peg.exec B n a s with
      | .matched s2 => .matched s2
      | .failed => .matched s
      | .outOfBounds => .outOfBounds
      | .outOfFuel => .outOfFuel := rfl

theorem Peg.exec_notPredicate (B : List Nat) (n : Nat) (a : Peg) (s : ParserState) :
    Peg.exec B (n + 1) (.notPredicate a) s =
      match Peg.exec B n a s with
      | .matched _ => .failed
      | .failed => .matched s
      | .outOfBounds => .outOfBounds
      | .outOfFuel => .outOfFuel := rfl

/-- The rune at a position up to the index of the end symbol: only below
that index it differs from the end symbol. -/
theorem buffer_get (input : List Char) (p : Nat) (hp : p ≤ input.length) :
    ∃ x, (runesOf input ++ [end_symbol])[p]? = some x ∧ (x ≠ end_symbol → p < input.length) := by
  cases hd : input.drop p with
  | nil => exact ⟨end_symbol, buffer_drop_nil input p hp hd, fun h => absurd rfl h⟩
  | cons x rest =>
    obtain ⟨h1, _, h3⟩ := buffer_drop_cons input p x rest hd
    exact ⟨x.toNat, h1, fun _ => h3⟩

/-- A test of a rune at a position up to the index of the end symbol reads
inside the buffer, and the position it leaves is again at most that index. -/
theorem exec_inBounds (input : List Char) :
    ∀ (fuel : Nat) (e : Peg) (s : ParserState), s.position ≤ input.length →
      Peg.exec (runesOf input ++ [end_symbol]) fuel e s ≠ .outOfBounds ∧
      ∀ s2, Peg.exec (runesOf input ++ [end_symbol]) fuel e s = .matched s2 →
        s2.position ≤ input.length := by
  intro fuel
  induction fuel with
  | zero =>
    intro e s _
    exact ⟨by simp [Peg.exec], fun s2 h => by simp [Peg.exec] at h⟩
  | succ n ih =>
    intro e s hs
    have step : ∀ x, (runesOf input ++ [end_symbol])[s.position]? = some x →
        (x ≠ end_symbol → s.position < input.length) → ∀ (p : Prop) [Decidable p],
        (p → x ≠ end_symbol) →
        (if p then ExecResult.matched { s with position := uint32Inc s.position }
          else ExecResult.failed) ≠ .outOfBounds ∧
        ∀ s2, (if p then ExecResult.matched { s with position := uint32Inc s.position }
          else ExecResult.failed) = .matched s2 → s2.position ≤ input.length := by
      intro x _ hlt p _ hp
      by_cases h : p
      · rw [if_pos h]
        refine ⟨by simp, fun s2 h2 => ?_⟩
        injection h2 with h2
        subst h2
        have := hlt (hp h)
        have := uint32Inc_le s.position
        show uint32Inc s.position ≤ input.length
        omega
      · rw [if_neg h]
        exact ⟨by simp, fun s2 h2 => by cases h2⟩
    cases e with
    | char c =>
      obtain ⟨x, hx, hlt⟩ := buffer_get input s.position hs
      rw [Peg.exec_char, hx]
      refine step x hx hlt _ (fun h => ?_)
      have := toNat_lt_end_symbol c
      omega
    | range lo hi =>
      obtain ⟨x, hx, hlt⟩ := buffer_get input s.position hs
      rw [Peg.exec_range, hx]
      refine step x hx hlt _ (fun h => ?_)
      have := toNat_lt_end_symbol hi
      omega
    | dot =>
      obtain ⟨x, hx, hlt⟩ := buffer_get input s.position hs
      rw [Peg.exec_dot, hx]
      exact step x hx hlt _ (fun h => h)
    | empty =>
      refine ⟨by simp [Peg.exec], fun s2 h => ?_⟩
      have e : Peg.exec (runesOf input ++ [end_symbol]) (n + 1) .empty s = .matched s := rfl
      rw [e] at h
      injection h with h
      rw [← h]
      exact hs
    | action k =>
      refine ⟨by simp [Peg.exec], fun s2 h => ?_⟩
      have e : Peg.exec (runesOf input ++ [end_symbol]) (n + 1) (.action k) s =
        .matched { s with tokenIndex := s.tokenIndex + 1 } := rfl
      rw [e] at h
      injection h with h
      rw [← h]
      exact hs
    | call q =>
      rw [Peg.exec_call]
      have ih1 := ih (rules q) { s with depth := uint32Inc s.depth } hs
      cases ha : Peg.exec (runesOf input ++ [end_symbol]) n (rules q)
          { s with depth := uint32Inc s.depth } with
      | matched s3 =>
        refine ⟨by simp, fun s2 h => ?_⟩
        injection h with h
        rw [← h]
        exact ih1.2 s3 ha
      | failed => exact ⟨by simp, fun s2 h => by cases h⟩
      | outOfBounds => exact absurd ha ih1.1
      | outOfFuel => exact ⟨by simp, fun s2 h => by cases h⟩
    | text a =>
      rw [Peg.exec_text]
      have ih1 := ih a { s with depth := uint32Inc s.depth } hs
      cases ha : Peg.exec (runesOf input ++ [end_symbol]) n a
          { s with depth := uint32Inc s.depth } with
      | matched s3 =>
        refine ⟨by simp, fun s2 h => ?_⟩
        injection h with h
        rw [← h]
        exact ih1.2 s3 ha
      | failed => exact ⟨by simp, fun s2 h => by cases h⟩
      | outOfBounds => exact absurd ha ih1.1
      | outOfFuel => exact ⟨by simp, fun s2 h => by cases h⟩
    | seq a b =>
      rw [Peg.exec_seq]
      have ih1 := ih a s hs
      cases ha : Peg.exec (runesOf input ++ [end_symbol]) n a s with
      | matched s3 => exact ih b s3 (ih1.2 s3 ha)
      | failed => exact ⟨by simp, fun s2 h => by cases h⟩
      | outOfBounds => exact absurd ha ih1.1
      | outOfFuel => exact ⟨by simp, fun s2 h => by cases h⟩
    | choice a b =>
      rw [Peg.exec_choice]
      have ih1 := ih a s hs
      cases ha : Peg.exec (runesOf input ++ [end_symbol]) n a s with
      | matched s3 =>
        refine ⟨by simp, fun s2 h => ?_⟩
        injection h with h
        rw [← h]
        exact ih1.2 s3 ha
      | failed => exact ih b s hs
      | outOfBounds => exact absurd ha ih1.1
      | outOfFuel => exact ⟨by simp, fun s2 h => by cases h⟩
    | star a =>
      rw [Peg.exec_star]
      have ih1 := ih a s hs
      cases ha : Peg.exec (runesOf input ++ [end_symbol]) n a s with
      | matched s3 => exact ih (.star a) s3 (ih1.2 s3 ha)
      | failed =>
        refine ⟨by simp, fun s2 h => ?_⟩
        injection h with h
        rw [← h]
        exact hs
      | outOfBounds => exact absurd ha ih1.1
      | outOfFuel => exact ⟨by simp, fun s2 h => by cases h⟩
    | optional a =>
      rw [Peg.exec_optional]
      have ih1 := ih a s hs
      cases ha : Peg.exec (runesOf input ++ [end_symbol]) n a s with
      | matched s3 =>
        refine ⟨by simp, fun s2 h => ?_⟩
        injection h with h
        rw [← h]
        exact ih1.2 s3 ha
      | failed =>
        refine ⟨by simp, fun s2 h => ?_⟩
        injection h with h
        rw [← h]
        exact hs
      | outOfBounds => exact absurd ha ih1.1
      | outOfFuel => exact ⟨by simp, fun s2 h => by cases h⟩
    | notPredicate a =>
      rw [Peg.exec_notPredicate]
      have ih1 := ih a s hs
      cases ha : Peg.exec (runesOf input ++ [end_symbol]) n a s with
      | matched s3 => exact ⟨by simp, fun s2 h => by cases h⟩
      | failed =>
        refine ⟨by simp, fun s2 h => ?_⟩
        injection h with h
        rw [← h]
        exact hs
      | outOfBounds => exact absurd ha ih1.1
      | outOfFuel => exact ⟨by simp, fun s2 h => by cases h⟩

theorem Simulates.matched_inv {input : List Char} {s : ParserState} {rest : List Char}
    {x : ExecResult} (h : Simulates input s (.matched rest) x) :
    ∃ s2, x = .matched s2 ∧ input.drop s2.position = rest ∧ s.position ≤ s2.position ∧
      s2.position ≤ input.length ∧ s2.depth = s.depth ∧ s.tokenIndex ≤ s2.tokenIndex := by
  cases x with
  | matched s2 => exact ⟨s2, rfl, h⟩
  | failed => exact absurd h (by simp [Simulates])
  | outOfBounds => exact absurd h (by simp [Simulates])
  | outOfFuel => exact absurd h (by simp [Simulates])

theorem Simulates.failed_inv {input : List Char} {s : ParserState} {x : ExecResult}
    (h : Simulates input s .failed x) : x = .failed := by
  cases x with
  | matched s2 => exact absurd h (by simp [Simulates])
  | failed => rfl
  | outOfBounds => exact absurd h (by simp [Simulates])
  | outOfFuel => exact absurd h (by simp [Simulates])

theorem Simulates.outOfFuel_inv {input : List Char} {s : ParserState} {x : ExecResult}
    (h : Simulates input s .outOfFuel x) : x = .outOfFuel := by
  cases x with
  | matched s2 => exact absurd h (by simp [Simulates])
  | failed => exact absurd h (by simp [Simulates])
  | outOfBounds => exact absurd h (by simp [Simulates])
  | outOfFuel => rfl

/-- A result that agrees from a later state agrees from the state of entry. -/
theorem Simulates.from_later {input : List Char} {s s1 : ParserState} {r : MatchResult}
    {x : ExecResult} (hp : s.position ≤ s1.position) (hd : s1.depth = s.depth)
    (ht : s.tokenIndex ≤ s1.tokenIndex) (h : Simulates input s1 r x) : Simulates input s r x := by
  cases r with
  | matched rest =>
    obtain ⟨s2, hx, h1, h2, h3, h4, h5⟩ := h.matched_inv
    rw [hx]
    exact ⟨h1, Nat.le_trans hp h2, h3, h4.trans hd, Nat.le_trans ht h5⟩
  | failed => rw [h.failed_inv]; trivial
  | outOfFuel => rw [h.outOfFuel_inv]; trivial

/-- The execution on the variables of the parser and the execution on the
rest of the buffer agree, with the same fuel, on every input of fewer than
2^32 runes. -/
theorem exec_run (input : List Char) (hlen : input.length < 4294967296) :
    ∀ (fuel : Nat) (e : Peg) (s : ParserState), s.position ≤ input.length →
      s.depth < 4294967296 →
      Simulates input s (Peg.run fuel e (input.drop s.position))
        (Peg.exec (runesOf input ++ [end_symbol]) fuel e s) := by
  intro fuel
  induction fuel with
  | zero =>
    intro e s _ _
    show Simulates input s .outOfFuel .outOfFuel
    trivial
  | succ n ih =>
    intro e s hs hd
    have wrap : ∀ (a : Peg),
        Simulates input s (Peg.run n a (input.drop s.position))
          (match Peg.exec (runesOf input ++ [end_symbol]) n a
              { s with depth := uint32Inc s.depth } with
            | .matched s2 =>
              .matched { s2 with depth := uint32Dec s2.depth, tokenIndex := s2.tokenIndex + 1 }
            | .failed => .failed
            | .outOfBounds => .outOfBounds
            | .outOfFuel => .outOfFuel) := by
      intro a
      have ih1 := ih a { s with depth := uint32Inc s.depth } hs (uint32Inc_lt _)
      cases ha : Peg.run n a (input.drop s.position) with
      | matched rest =>
        have ih2 : Simulates input _ (Peg.run n a (input.drop s.position)) _ := ih1
        rw [ha] at ih2
        obtain ⟨s2, hx, h1, h2, h3, h4, h5⟩ := ih2.matched_inv
        rw [hx]
        refine ⟨h1, h2, h3, ?_, Nat.le_succ_of_le h5⟩
        show uint32Dec s2.depth = s.depth
        rw [h4]
        exact uint32Dec_uint32Inc _ hd
      | failed =>
        have ih2 : Simulates input _ (Peg.run n a (input.drop s.position)) _ := ih1
        rw [ha] at ih2
        rw [ih2.failed_inv]
        trivial
      | outOfFuel =>
        have ih2 : Simulates input _ (Peg.run n a (input.drop s.position)) _ := ih1
        rw [ha] at ih2
        rw [ih2.outOfFuel_inv]
        trivial
    have advance : ∀ x rest, input.drop s.position = x :: rest →
        Simulates input s (.matched rest)
          (.matched { s with position := uint32Inc s.position }) := by
      intro x rest hdrop
      obtain ⟨_, h2, h3⟩ := buffer_drop_cons input s.position x rest hdrop
      have e : uint32Inc s.position = s.position + 1 := uint32Inc_of_lt _ (by omega)
      refine ⟨?_, ?_, ?_, rfl, Nat.le_refl _⟩
      · show input.drop (uint32Inc s.position) = rest
        rw [e]
        exact h2
      · show s.position ≤ uint32Inc s.position
        omega
      · show uint32Inc s.position ≤ input.length
        omega
    have stay : Simulates input s (.matched (input.drop s.position)) (.matched s) :=
      ⟨rfl, Nat.le_refl _, hs, rfl, Nat.le_refl _⟩
    cases e with
    | char c =>
      rw [Peg.exec_char]
      cases hdrop : input.drop s.position with
      | nil =>
        rw [buffer_drop_nil input s.position hs hdrop]
        have := toNat_lt_end_symbol c
        have hne : end_symbol ≠ c.toNat := by omega
        show Simulates input s .failed (if end_symbol = c.toNat then _ else _)
        rw [if_neg hne]
        trivial
      | cons x rest =>
        rw [(buffer_drop_cons input s.position x rest hdrop).1]
        show Simulates input s (if x = c then .matched rest else .failed)
          (if x.toNat = c.toNat then _ else _)
        by_cases hx : x = c
        · rw [if_pos hx, if_pos (by rw [hx])]
          exact advance x rest hdrop
        · have hne : x.toNat ≠ c.toNat := fun h => hx (toNat_inj x c h)
          rw [if_neg hx, if_neg hne]
          trivial
    | range lo hi =>
      rw [Peg.exec_range]
      cases hdrop : input.drop s.position with
      | nil =>
        rw [buffer_drop_nil input s.position hs hdrop]
        have := toNat_lt_end_symbol hi
        have hne : ¬ (lo.toNat ≤ end_symbol ∧ end_symbol ≤ hi.toNat) := by omega
        show Simulates input s .failed (if lo.toNat ≤ end_symbol ∧ end_symbol ≤ hi.toNat
          then _ else _)
        rw [if_neg hne]
        trivial
      | cons x rest =>
        rw [(buffer_drop_cons input s.position x rest hdrop).1]
        show Simulates input s
          (if lo.toNat ≤ x.toNat ∧ x.toNat ≤ hi.toNat then .matched rest else .failed)
          (if lo.toNat ≤ x.toNat ∧ x.toNat ≤ hi.toNat then _ else _)
        by_cases hx : lo.toNat ≤ x.toNat ∧ x.toNat ≤ hi.toNat
        · rw [if_pos hx, if_pos hx]
          exact advance x rest hdrop
        · rw [if_neg hx, if_neg hx]
          trivial
    | dot =>
      rw [Peg.exec_dot]
      cases hdrop : input.drop s.position with
      | nil =>
        rw [buffer_drop_nil input s.position hs hdrop]
        show Simulates input s .failed (if end_symbol ≠ end_symbol then _ else _)
        rw [if_neg (fun h => h rfl)]
        trivial
      | cons x rest =>
        rw [(buffer_drop_cons input s.position x rest hdrop).1]
        show Simulates input s (.matched rest) (if x.toNat ≠ end_symbol then _ else _)
        have := toNat_lt_end_symbol x
        rw [if_pos (by omega)]
        exact advance x rest hdrop
    | empty => exact stay
    | action k =>
      exact ⟨rfl, Nat.le_refl _, hs, rfl, Nat.le_succ _⟩
    | call q =>
      rw [Peg.exec_call, Peg.run_call]
      exact wrap (rules q)
    | text a =>
      rw [Peg.exec_text, Peg.run_text]
      exact wrap a
    | seq a b =>
      rw [Peg.exec_seq, Peg.run_seq]
      have ih1 := ih a s hs hd
      cases ha : Peg.run n a (input.drop s.position) with
      | matched rest =>
        rw [ha] at ih1
        obtain ⟨s2, hx, h1, h2, h3, h4, h5⟩ := ih1.matched_inv
        rw [hx]
        have ih2 := ih b s2 h3 (by rw [h4]; exact hd)
        rw [h1] at ih2
        exact ih2.from_later h2 h4 h5
      | failed =>
        rw [ha] at ih1
        rw [ih1.failed_inv]
        trivial
      | outOfFuel =>
        rw [ha] at ih1
        rw [ih1.outOfFuel_inv]
        trivial
    | choice a b =>
      rw [Peg.exec_choice, Peg.run_choice]
      have ih1 := ih a s hs hd
      cases ha : Peg.run n a (input.drop s.position) with
      | matched rest =>
        rw [ha] at ih1
        obtain ⟨s2, hx, h1, h2, h3, h4, h5⟩ := ih1.matched_inv
        rw [hx]
        exact ⟨h1, h2, h3, h4, h5⟩
      | failed =>
        rw [ha] at ih1
        rw [ih1.failed_inv]
        exact ih b s hs hd
      | outOfFuel =>
        rw [ha] at ih1
        rw [ih1.outOfFuel_inv]
        trivial
    | star a =>
      rw [Peg.exec_star, Peg.run_star]
      have ih1 := ih a s hs hd
      cases ha : Peg.run n a (input.drop s.position) with
      | matched rest =>
        rw [ha] at ih1
        obtain ⟨s2, hx, h1, h2, h3, h4, h5⟩ := ih1.matched_inv
        rw [hx]
        have ih2 := ih (.star a) s2 h3 (by rw [h4]; exact hd)
        rw [h1] at ih2
        exact ih2.from_later h2 h4 h5
      | failed =>
        rw [ha] at ih1
        rw [ih1.failed_inv]
        exact stay
      | outOfFuel =>
        rw [ha] at ih1
        rw [ih1.outOfFuel_inv]
        trivial
    | optional a =>
      rw [Peg.exec_optional, Peg.run_optional]
      have ih1 := ih a s hs hd
      cases ha : Peg.run n a (input.drop s.position) with
      | matched rest =>
        rw [ha] at ih1
        obtain ⟨s2, hx, h1, h2, h3, h4, h5⟩ := ih1.matched_inv
        rw [hx]
        exact ⟨h1, h2, h3, h4, h5⟩
      | failed =>
        rw [ha] at ih1
        rw [ih1.failed_inv]
        exact stay
      | outOfFuel =>
        rw [ha] at ih1
        rw [ih1.outOfFuel_inv]
        trivial
    | notPredicate a =>
      rw [Peg.exec_notPredicate, Peg.run_notPredicate]
      have ih1 := ih a s hs hd
      cases ha : Peg.run n a (input.drop s.position) with
      | matched rest =>
        rw [ha] at ih1
        obtain ⟨s2, hx, h1, h2, h3, h4, h5⟩ := ih1.matched_inv
        rw [hx]
        trivial
      | failed =>
        rw [ha] at ih1
        rw [ih1.failed_inv]
        exact stay
      | outOfFuel =>
        rw [ha] at ih1
        rw [ih1.outOfFuel_inv]
        trivial


/-- What a rule returns on the rest of the buffer, its function returns on the
variables of the parser, on every input of fewer than 2^32 runes: `true` with
`position` where the rest begins, or `false` with the variables restored. -/
theorem callRule_of_Returns (input : List Char) (hlen : input.length < 4294967296) (r : pegRule)
    (s : ParserState) (hs : s.position ≤ input.length) (hd : s.depth < 4294967296)
    (res : MatchResult) (h : Returns (.call r) (input.drop s.position) res) :
    ∃ fuel, match res with
      | .matched rest => ∃ s2, callRule (Init (runesOf input)) fuel r s = .returned true s2 ∧
          input.drop s2.position = rest ∧ s2.depth = s.depth
      | .failed => callRule (Init (runesOf input)) fuel r s = .returned false s
      | .outOfFuel => False := by
  obtain ⟨hne, fuel, hrun⟩ := h
  have hsim := exec_run input hlen fuel (.call r) s hs hd
  rw [hrun] at hsim
  refine ⟨fuel, ?_⟩
  rw [Init_runesOf]
  unfold callRule
  cases res with
  | matched rest =>
    obtain ⟨s2, hx, h1, _, _, h4, _⟩ := hsim.matched_inv
    rw [hx]
    exact ⟨s2, rfl, h1, h4⟩
  | failed =>
    rw [hsim.failed_inv]
  | outOfFuel => exact absurd rfl hne

/-- An execution that matches leaves `depth` as it was on entry and removes
no token, whatever the buffer holds. -/
theorem exec_depth (B : List Nat) :
    ∀ (fuel : Nat) (e : Peg) (s s2 : ParserState), s.depth < 4294967296 →
      Peg.exec B fuel e s = .matched s2 → s2.depth = s.depth ∧ s.tokenIndex ≤ s2.tokenIndex := by
  intro fuel
  induction fuel with
  | zero =>
    intro e s s2 _ h
    cases h
  | succ n ih =>
    intro e s s2 hd h
    have atom : ∀ (p : Nat → Prop) [DecidablePred p],
        (match B[s.position]? with
          | none => ExecResult.outOfBounds
          | some x =>
            if p x then .matched { s with position := uint32Inc s.position } else .failed) =
          .matched s2 → s2.depth = s.depth ∧ s.tokenIndex ≤ s2.tokenIndex := by
      intro p _ h
      cases hb : B[s.position]? with
      | none =>
        rw [hb] at h
        cases h
      | some x =>
        rw [hb] at h
        have h2 : (if p x then ExecResult.matched { s with position := uint32Inc s.position }
          else .failed) = .matched s2 := h
        by_cases hp : p x
        · rw [if_pos hp] at h2
          injection h2 with h2
          rw [← h2]
          exact ⟨rfl, Nat.le_refl _⟩
        · rw [if_neg hp] at h2
          cases h2
    have wrap : ∀ (a : Peg),
        (match Peg.exec B n a { s with depth := uint32Inc s.depth } with
          | .matched s3 =>
            ExecResult.matched
              { s3 with depth := uint32Dec s3.depth, tokenIndex := s3.tokenIndex + 1 }
          | .failed => .failed
          | .outOfBounds => .outOfBounds
          | .outOfFuel => .outOfFuel) = .matched s2 →
        s2.depth = s.depth ∧ s.tokenIndex ≤ s2.tokenIndex := by
      intro a h
      cases ha : Peg.exec B n a { s with depth := uint32Inc s.depth } with
      | matched s3 =>
        rw [ha] at h
        injection h with h
        have h1 := ih a _ s3 (uint32Inc_lt _) ha
        rw [← h]
        refine ⟨?_, Nat.le_succ_of_le h1.2⟩
        show uint32Dec s3.depth = s.depth
        rw [h1.1]
        exact uint32Dec_uint32Inc _ hd
      | failed =>
        rw [ha] at h
        cases h
      | outOfBounds =>
        rw [ha] at h
        cases h
      | outOfFuel =>
        rw [ha] at h
        cases h
    cases e with
    | char c =>
      rw [Peg.exec_char] at h
      exact atom (fun x => x = c.toNat) h
    | range lo hi =>
      rw [Peg.exec_range] at h
      exact atom (fun x => lo.toNat ≤ x ∧ x ≤ hi.toNat) h
    | dot =>
      rw [Peg.exec_dot] at h
      exact atom (fun x => x ≠ end_symbol) h
    | empty =>
      have e : Peg.exec B (n + 1) .empty s = .matched s := rfl
      rw [e] at h
      injection h with h
      rw [← h]
      exact ⟨rfl, Nat.le_refl _⟩
    | action k =>
      have e : Peg.exec B (n + 1) (.action k) s =
        .matched { s with tokenIndex := s.tokenIndex + 1 } := rfl
      rw [e] at h
      injection h with h
      rw [← h]
      exact ⟨rfl, Nat.le_succ _⟩
    | call q =>
      rw [Peg.exec_call] at h
      exact wrap (rules q) h
    | text a =>
      rw [Peg.exec_text] at h
      exact wrap a h
    | seq a b =>
      rw [Peg.exec_seq] at h
      cases ha : Peg.exec B n a s with
      | matched s3 =>
        rw [ha] at h
        have h1 := ih a s s3 hd ha
        have h2 := ih b s3 s2 (by rw [h1.1]; exact hd) h
        exact ⟨h2.1.trans h1.1, Nat.le_trans h1.2 h2.2⟩
      | failed =>
        rw [ha] at h
        cases h
      | outOfBounds =>
        rw [ha] at h
        cases h
      | outOfFuel =>
        rw [ha] at h
        cases h
    | choice a b =>
      rw [Peg.exec_choice] at h
      cases ha : Peg.exec B n a s with
      | matched s3 =>
        rw [ha] at h
        injection h with h
        rw [← h]
        exact ih a s s3 hd ha
      | failed =>
        rw [ha] at h
        exact ih b s s2 hd h
      | outOfBounds =>
        rw [ha] at h
        cases h
      | outOfFuel =>
        rw [ha] at h
        cases h
    | star a =>
      rw [Peg.exec_star] at h
      cases ha : Peg.exec B n a s with
      | matched s3 =>
        rw [ha] at h
        have h1 := ih a s s3 hd ha
        have h2 := ih (.star a) s3 s2 (by rw [h1.1]; exact hd) h
        exact ⟨h2.1.trans h1.1, Nat.le_trans h1.2 h2.2⟩
      | failed =>
        rw [ha] at h
        injection h with h
        rw [← h]
        exact ⟨rfl, Nat.le_refl _⟩
      | outOfBounds =>
        rw [ha] at h
        cases h
      | outOfFuel =>
        rw [ha] at h
        cases h
    | optional a =>
      rw [Peg.exec_optional] at h
      cases ha : Peg.exec B n a s with
      | matched s3 =>
        rw [ha] at h
        injection h with h
        rw [← h]
        exact ih a s s3 hd ha
      | failed =>
        rw [ha] at h
        injection h with h
        rw [← h]
        exact ⟨rfl, Nat.le_refl _⟩
      | outOfBounds =>
        rw [ha] at h
        cases h
      | outOfFuel =>
        rw [ha] at h
        cases h
    | notPredicate a =>
      rw [Peg.exec_notPredicate] at h
      cases ha : Peg.exec B n a s with
      | matched s3 =>
        rw [ha] at h
        cases h
      | failed =>
        rw [ha] at h
        injection h with h
        rw [← h]
        exact ⟨rfl, Nat.le_refl _⟩
      | outOfBounds =>
        rw [ha] at h
        cases h
      | outOfFuel =>
        rw [ha] at h
        cases h

/-! ## Termination -/

theorem nullableRule_sound (q : pegRule) : nullableRule q = false → (rules q).nullable = false := by
  cases q <;> decide

theorem rules_wellFormed (q : pegRule) :
    (rules q).callsBelow (rank q) = true ∧ (rules q).loopsConsume = true := by
  cases q <;> decide


/-- What a match leaves is not longer than the input, and shorter when the
expression is not nullable. -/
theorem Peg.run_length : ∀ (fuel : Nat) (e : Peg) (input rest : List Char),
    Peg.run fuel e input = .matched rest →
      rest.length ≤ input.length ∧ (e.nullable = false → rest.length < input.length) := by
  intro fuel
  induction fuel with
  | zero =>
    intro e input rest h
    cases h
  | succ n ih =>
    intro e input rest h
    cases e with
    | char c =>
      cases input with
      | nil => cases h
      | cons x t =>
        have e : Peg.run (n + 1) (.char c) (x :: t) = if x = c then .matched t else .failed := rfl
        rw [e] at h
        by_cases hx : x = c
        · rw [if_pos hx] at h
          injection h with h
          subst h
          simp
        · rw [if_neg hx] at h
          cases h
    | range lo hi =>
      cases input with
      | nil => cases h
      | cons x t =>
        have e : Peg.run (n + 1) (.range lo hi) (x :: t) =
          if lo.toNat ≤ x.toNat ∧ x.toNat ≤ hi.toNat then .matched t else .failed := rfl
        rw [e] at h
        by_cases hx : lo.toNat ≤ x.toNat ∧ x.toNat ≤ hi.toNat
        · rw [if_pos hx] at h
          injection h with h
          subst h
          simp
        · rw [if_neg hx] at h
          cases h
    | dot =>
      cases input with
      | nil => cases h
      | cons x t =>
        have e : Peg.run (n + 1) .dot (x :: t) = .matched t := rfl
        rw [e] at h
        injection h with h
        subst h
        simp
    | empty =>
      have e : Peg.run (n + 1) .empty input = .matched input := rfl
      rw [e] at h
      injection h with h
      subst h
      exact ⟨Nat.le_refl _, fun h => by cases h⟩
    | action k =>
      have e : Peg.run (n + 1) (.action k) input = .matched input := rfl
      rw [e] at h
      injection h with h
      subst h
      exact ⟨Nat.le_refl _, fun h => by cases h⟩
    | call q =>
      rw [Peg.run_call] at h
      have := ih (rules q) input rest h
      exact ⟨this.1, fun hn => this.2 (nullableRule_sound q hn)⟩
    | text a =>
      rw [Peg.run_text] at h
      exact ih a input rest h
    | seq a b =>
      rw [Peg.run_seq] at h
      cases ha : Peg.run n a input with
      | matched mid =>
        rw [ha] at h
        have h1 := ih a input mid ha
        have h2 := ih b mid rest h
        refine ⟨Nat.le_trans h2.1 h1.1, fun hn => ?_⟩
        have hn2 : (a.nullable && b.nullable) = false := hn
        rw [Bool.and_eq_false_iff] at hn2
        rcases hn2 with hn2 | hn2
        · exact Nat.lt_of_le_of_lt h2.1 (h1.2 hn2)
        · exact Nat.lt_of_lt_of_le (h2.2 hn2) h1.1
      | failed =>
        rw [ha] at h
        cases h
      | outOfFuel =>
        rw [ha] at h
        cases h
    | choice a b =>
      rw [Peg.run_choice] at h
      have hnul : (Peg.choice a b).nullable = false → a.nullable = false ∧ b.nullable = false := by
        intro hn
        have hn2 : (a.nullable || b.nullable) = false := hn
        rw [Bool.or_eq_false_iff] at hn2
        exact hn2
      cases ha : Peg.run n a input with
      | matched mid =>
        rw [ha] at h
        injection h with h
        subst h
        have h1 := ih a input mid ha
        exact ⟨h1.1, fun hn => h1.2 (hnul hn).1⟩
      | failed =>
        rw [ha] at h
        have h2 := ih b input rest h
        exact ⟨h2.1, fun hn => h2.2 (hnul hn).2⟩
      | outOfFuel =>
        rw [ha] at h
        cases h
    | star a =>
      rw [Peg.run_star] at h
      cases ha : Peg.run n a input with
      | matched mid =>
        rw [ha] at h
        have h1 := ih a input mid ha
        have h2 := ih (.star a) mid rest h
        exact ⟨Nat.le_trans h2.1 h1.1, fun hn => by cases hn⟩
      | failed =>
        rw [ha] at h
        injection h with h
        subst h
        exact ⟨Nat.le_refl _, fun hn => by cases hn⟩
      | outOfFuel =>
        rw [ha] at h
        cases h
    | optional a =>
      rw [Peg.run_optional] at h
      cases ha : Peg.run n a input with
      | matched mid =>
        rw [ha] at h
        injection h with h
        subst h
        exact ⟨(ih a input mid ha).1, fun hn => by cases hn⟩
      | failed =>
        rw [ha] at h
        injection h with h
        subst h
        exact ⟨Nat.le_refl _, fun hn => by cases hn⟩
      | outOfFuel =>
        rw [ha] at h
        cases h
    | notPredicate a =>
      rw [Peg.run_notPredicate] at h
      cases ha : Peg.run n a input with
      | matched mid =>
        rw [ha] at h
        cases h
      | failed =>
        rw [ha] at h
        injection h with h
        subst h
        exact ⟨Nat.le_refl _, fun hn => by cases hn⟩
      | outOfFuel =>
        rw [ha] at h
        cases h

theorem Returns.length {e : Peg} {input rest : List Char} (h : Returns e input (.matched rest)) :
    rest.length ≤ input.length ∧ (e.nullable = false → rest.length < input.length) := by
  obtain ⟨_, n, hn⟩ := h
  exact Peg.run_length n e input rest hn

/-- The cases of a result that is not `outOfFuel`. -/
theorem Returns.cases {e : Peg} {input : List Char} {r : MatchResult} (h : Returns e input r) :
    (∃ rest, r = .matched rest) ∨ r = .failed := by
  cases r with
  | matched rest => exact Or.inl ⟨rest, rfl⟩
  | failed => exact Or.inr rfl
  | outOfFuel => exact absurd rfl h.1

theorem Returns_atom (e : Peg) (input : List Char)
    (h : Peg.run 1 e input ≠ .outOfFuel) : ∃ r, Returns e input r :=
  ⟨_, h, 1, rfl⟩

theorem returns_char (c : Char) (i : List Char) : ∃ r, Returns (.char c) i r := by
  refine Returns_atom _ _ ?_
  cases i with
  | nil => simp [Peg.run]
  | cons x t =>
    show (if x = c then MatchResult.matched t else .failed) ≠ .outOfFuel
    split <;> simp

theorem returns_range (lo hi : Char) (i : List Char) : ∃ r, Returns (.range lo hi) i r := by
  refine Returns_atom _ _ ?_
  cases i with
  | nil => simp [Peg.run]
  | cons x t =>
    show (if lo.toNat ≤ x.toNat ∧ x.toNat ≤ hi.toNat then MatchResult.matched t else .failed) ≠
      .outOfFuel
    split <;> simp

theorem returns_dot (i : List Char) : ∃ r, Returns .dot i r := by
  refine Returns_atom _ _ ?_
  cases i with
  | nil => simp [Peg.run]
  | cons x t => simp [Peg.run]

theorem returns_empty (i : List Char) : ∃ r, Returns .empty i r :=
  Returns_atom _ _ (by simp [Peg.run])

theorem returns_action (k : Nat) (i : List Char) : ∃ r, Returns (.action k) i r :=
  Returns_atom _ _ (by simp [Peg.run])

/-- An expression whose loops consume returns on every input of at most `m`
runes when every rule does. -/
theorem returns_of_loopsConsume (m : Nat)
    (hrules : ∀ (q : pegRule) (i : List Char), i.length ≤ m → ∃ r, Returns (.call q) i r) :
    ∀ (e : Peg), e.loopsConsume = true → ∀ (i : List Char), i.length ≤ m →
      ∃ r, Returns e i r := by
  intro e
  induction e with
  | char c => exact fun _ i _ => returns_char c i
  | range lo hi => exact fun _ i _ => returns_range lo hi i
  | dot => exact fun _ i _ => returns_dot i
  | empty => exact fun _ i _ => returns_empty i
  | action k => exact fun _ i _ => returns_action k i
  | call q =>
    intro _ i hi
    exact hrules q i hi
  | text a iha =>
    intro hl i hi
    obtain ⟨r, hr⟩ := iha hl i hi
    exact ⟨r, (Returns_text _ _ _).2 hr⟩
  | seq a b iha ihb =>
    intro hl i hi
    have hl2 : (a.loopsConsume && b.loopsConsume) = true := hl
    rw [Bool.and_eq_true] at hl2
    obtain ⟨r, hr⟩ := iha hl2.1 i hi
    rcases hr.cases with ⟨mid, rfl⟩ | rfl
    · obtain ⟨r2, hr2⟩ := ihb hl2.2 mid (Nat.le_trans hr.length.1 hi)
      exact ⟨r2, (Returns_seq _ _ _ _).2 (Or.inl ⟨mid, hr, hr2⟩)⟩
    · exact ⟨.failed, (Returns_seq _ _ _ _).2 (Or.inr ⟨hr, rfl⟩)⟩
  | choice a b iha ihb =>
    intro hl i hi
    have hl2 : (a.loopsConsume && b.loopsConsume) = true := hl
    rw [Bool.and_eq_true] at hl2
    obtain ⟨r, hr⟩ := iha hl2.1 i hi
    rcases hr.cases with ⟨mid, rfl⟩ | rfl
    · exact ⟨_, (Returns_choice _ _ _ _).2 (Or.inl ⟨mid, hr, rfl⟩)⟩
    · obtain ⟨r2, hr2⟩ := ihb hl2.2 i hi
      exact ⟨r2, (Returns_choice _ _ _ _).2 (Or.inr ⟨hr, hr2⟩)⟩
  | optional a iha =>
    intro hl i hi
    obtain ⟨r, hr⟩ := iha hl i hi
    rcases hr.cases with ⟨mid, rfl⟩ | rfl
    · exact ⟨_, (Returns_optional _ _ _).2 (Or.inl ⟨mid, hr, rfl⟩)⟩
    · exact ⟨_, (Returns_optional _ _ _).2 (Or.inr ⟨hr, rfl⟩)⟩
  | notPredicate a iha =>
    intro hl i hi
    obtain ⟨r, hr⟩ := iha hl i hi
    rcases hr.cases with ⟨mid, rfl⟩ | rfl
    · exact ⟨_, (Returns_notPredicate _ _ _).2 (Or.inl ⟨mid, hr, rfl⟩)⟩
    · exact ⟨_, (Returns_notPredicate _ _ _).2 (Or.inr ⟨hr, rfl⟩)⟩
  | star a iha =>
    intro hl
    have hl2 : (!a.nullable && a.loopsConsume) = true := hl
    rw [Bool.and_eq_true] at hl2
    have hnul : a.nullable = false := by
      have := hl2.1
      simpa using this
    have key : ∀ (len : Nat) (i : List Char), i.length ≤ len → i.length ≤ m →
        ∃ r, Returns (.star a) i r := by
      intro len
      induction len with
      | zero =>
        intro i h0 hi
        obtain ⟨r, hr⟩ := iha hl2.2 i hi
        rcases hr.cases with ⟨mid, rfl⟩ | rfl
        · have hlt := hr.length.2 hnul
          omega
        · exact ⟨_, (Returns_star _ _ _).2 (Or.inr ⟨hr, rfl⟩)⟩
      | succ len ihl =>
        intro i h0 hi
        obtain ⟨r, hr⟩ := iha hl2.2 i hi
        rcases hr.cases with ⟨mid, rfl⟩ | rfl
        · have hlt := hr.length.2 hnul
          obtain ⟨r2, hr2⟩ := ihl mid (by omega) (by omega)
          exact ⟨r2, (Returns_star _ _ _).2 (Or.inl ⟨mid, hr, hr2⟩)⟩
        · exact ⟨_, (Returns_star _ _ _).2 (Or.inr ⟨hr, rfl⟩)⟩
    exact fun i hi => key i.length i (Nat.le_refl _) hi

/-- An expression returns on every input of at most `len` runes when the
rules that it can call before a rune is consumed do, and every rule returns on
shorter inputs. -/
theorem returns_of_callsBelow (len k : Nat)
    (hbelow : ∀ (q : pegRule), rank q < k → ∀ (i : List Char), i.length ≤ len →
      ∃ r, Returns (.call q) i r)
    (hshorter : ∀ (q : pegRule) (i : List Char), i.length < len → ∃ r, Returns (.call q) i r) :
    ∀ (e : Peg), e.callsBelow k = true → e.loopsConsume = true → ∀ (i : List Char),
      i.length ≤ len → ∃ r, Returns e i r := by
  have shorter : ∀ (e : Peg), e.loopsConsume = true → ∀ (i : List Char), i.length < len →
      ∃ r, Returns e i r := by
    intro e hl i hi
    exact returns_of_loopsConsume i.length
      (fun q j hj => hshorter q j (Nat.lt_of_le_of_lt hj hi)) e hl i (Nat.le_refl _)
  intro e
  induction e with
  | char c => exact fun _ _ i _ => returns_char c i
  | range lo hi => exact fun _ _ i _ => returns_range lo hi i
  | dot => exact fun _ _ i _ => returns_dot i
  | empty => exact fun _ _ i _ => returns_empty i
  | action n => exact fun _ _ i _ => returns_action n i
  | call q =>
    intro hc _ i hi
    have hc2 : decide (rank q < k) = true := hc
    exact hbelow q (of_decide_eq_true hc2) i hi
  | text a iha =>
    intro hc hl i hi
    obtain ⟨r, hr⟩ := iha hc hl i hi
    exact ⟨r, (Returns_text _ _ _).2 hr⟩
  | seq a b iha ihb =>
    intro hc hl i hi
    have hl2 : (a.loopsConsume && b.loopsConsume) = true := hl
    rw [Bool.and_eq_true] at hl2
    have hc2 : (a.callsBelow k && (!a.nullable || b.callsBelow k)) = true := hc
    rw [Bool.and_eq_true] at hc2
    obtain ⟨r, hr⟩ := iha hc2.1 hl2.1 i hi
    rcases hr.cases with ⟨mid, rfl⟩ | rfl
    · have hb : ∃ r2, Returns b mid r2 := by
        cases hn : a.nullable with
        | true =>
          have := hc2.2
          rw [hn] at this
          exact ihb (by simpa using this) hl2.2 mid (Nat.le_trans hr.length.1 hi)
        | false =>
          exact shorter b hl2.2 mid (Nat.lt_of_lt_of_le (hr.length.2 hn) hi)
      obtain ⟨r2, hr2⟩ := hb
      exact ⟨r2, (Returns_seq _ _ _ _).2 (Or.inl ⟨mid, hr, hr2⟩)⟩
    · exact ⟨.failed, (Returns_seq _ _ _ _).2 (Or.inr ⟨hr, rfl⟩)⟩
  | choice a b iha ihb =>
    intro hc hl i hi
    have hl2 : (a.loopsConsume && b.loopsConsume) = true := hl
    rw [Bool.and_eq_true] at hl2
    have hc2 : (a.callsBelow k && b.callsBelow k) = true := hc
    rw [Bool.and_eq_true] at hc2
    obtain ⟨r, hr⟩ := iha hc2.1 hl2.1 i hi
    rcases hr.cases with ⟨mid, rfl⟩ | rfl
    · exact ⟨_, (Returns_choice _ _ _ _).2 (Or.inl ⟨mid, hr, rfl⟩)⟩
    · obtain ⟨r2, hr2⟩ := ihb hc2.2 hl2.2 i hi
      exact ⟨r2, (Returns_choice _ _ _ _).2 (Or.inr ⟨hr, hr2⟩)⟩
  | optional a iha =>
    intro hc hl i hi
    obtain ⟨r, hr⟩ := iha hc hl i hi
    rcases hr.cases with ⟨mid, rfl⟩ | rfl
    · exact ⟨_, (Returns_optional _ _ _).2 (Or.inl ⟨mid, hr, rfl⟩)⟩
    · exact ⟨_, (Returns_optional _ _ _).2 (Or.inr ⟨hr, rfl⟩)⟩
  | notPredicate a iha =>
    intro hc hl i hi
    obtain ⟨r, hr⟩ := iha hc hl i hi
    rcases hr.cases with ⟨mid, rfl⟩ | rfl
    · exact ⟨_, (Returns_notPredicate _ _ _).2 (Or.inl ⟨mid, hr, rfl⟩)⟩
    · exact ⟨_, (Returns_notPredicate _ _ _).2 (Or.inr ⟨hr, rfl⟩)⟩
  | star a iha =>
    intro hc hl i hi
    have hl2 : (!a.nullable && a.loopsConsume) = true := hl
    rw [Bool.and_eq_true] at hl2
    have hnul : a.nullable = false := by
      have := hl2.1
      simpa using this
    obtain ⟨r, hr⟩ := iha hc hl2.2 i hi
    rcases hr.cases with ⟨mid, rfl⟩ | rfl
    · obtain ⟨r2, hr2⟩ := shorter (.star a) hl mid (Nat.lt_of_lt_of_le (hr.length.2 hnul) hi)
      exact ⟨r2, (Returns_star _ _ _).2 (Or.inl ⟨mid, hr, hr2⟩)⟩
    · exact ⟨_, (Returns_star _ _ _).2 (Or.inr ⟨hr, rfl⟩)⟩

/-- Every rule returns on every input. -/
theorem rule_returns (q : pegRule) (input : List Char) : ∃ r, Returns (.call q) input r := by
  have main : ∀ (len : Nat) (q : pegRule) (i : List Char), i.length ≤ len →
      ∃ r, Returns (.call q) i r := by
    intro len
    induction len using Nat.strong_induction_on with
    | _ len ihlen =>
      have hshorter : ∀ (q : pegRule) (i : List Char), i.length < len →
          ∃ r, Returns (.call q) i r :=
        fun q i hi => ihlen i.length hi q i (Nat.le_refl _)
      have byRank : ∀ (k : Nat) (q : pegRule), rank q < k → ∀ (i : List Char), i.length ≤ len →
          ∃ r, Returns (.call q) i r := by
        intro k
        induction k with
        | zero => exact fun q h => absurd h (Nat.not_lt_zero _)
        | succ k ihk =>
          intro q hq i hi
          have hw := rules_wellFormed q
          obtain ⟨r, hr⟩ := returns_of_callsBelow len (rank q)
            (fun q2 h2 => ihk q2 (by omega)) hshorter (rules q) hw.1 hw.2 i hi
          exact ⟨r, (Returns_call _ _ _).2 hr⟩
      exact fun q i hi => byRank (rank q + 1) q (Nat.lt_succ_self _) i hi
  exact main input.length q input (Nat.le_refl _)

/-- The body of a loop inside an expression whose loops consume is not
nullable. -/
theorem starBodies_not_nullable : ∀ (e : Peg), e.loopsConsume = true →
    ∀ a ∈ e.starBodies, a.nullable = false := by
  intro e
  induction e with
  | char c => exact fun _ a ha => by cases ha
  | range lo hi => exact fun _ a ha => by cases ha
  | dot => exact fun _ a ha => by cases ha
  | empty => exact fun _ a ha => by cases ha
  | action n => exact fun _ a ha => by cases ha
  | call q => exact fun _ a ha => by cases ha
  | text b ih => exact fun hl a ha => ih hl a ha
  | optional b ih => exact fun hl a ha => ih hl a ha
  | notPredicate b ih => exact fun hl a ha => ih hl a ha
  | seq b c ihb ihc =>
    intro hl a ha
    have hl2 : (b.loopsConsume && c.loopsConsume) = true := hl
    rw [Bool.and_eq_true] at hl2
    have ha2 : a ∈ b.starBodies ++ c.starBodies := ha
    rw [List.mem_append] at ha2
    rcases ha2 with h | h
    · exact ihb hl2.1 a h
    · exact ihc hl2.2 a h
  | choice b c ihb ihc =>
    intro hl a ha
    have hl2 : (b.loopsConsume && c.loopsConsume) = true := hl
    rw [Bool.and_eq_true] at hl2
    have ha2 : a ∈ b.starBodies ++ c.starBodies := ha
    rw [List.mem_append] at ha2
    rcases ha2 with h | h
    · exact ihb hl2.1 a h
    · exact ihc hl2.2 a h
  | star b ih =>
    intro hl a ha
    have hl2 : (!b.nullable && b.loopsConsume) = true := hl
    rw [Bool.and_eq_true] at hl2
    have ha2 : a ∈ b :: b.starBodies := ha
    rw [List.mem_cons] at ha2
    rcases ha2 with h | h
    · rw [h]
      have := hl2.1
      simpa using this
    · exact ih hl2.2 a h


/-! ## Positions beyond 2^32 - 1 -/

/-- The body of the loop of `sp`. -/
theorem rules_sp : rules .rulesp =
    .star (.choice (.char ' ') (.choice (.char (Char.ofNat 9)) (.choice (.char (Char.ofNat 10))
      (.choice (.char (Char.ofNat 13)) (.call .rulecomment))))) := rfl

/-- On a blank the body of the loop of `sp` matches and moves the position by
one, as a `uint32`. -/
theorem exec_spBody_blank (B : List Nat) (g : Nat) (s : ParserState)
    (h : B[s.position]? = some 32) (b : Peg) :
    Peg.exec B (g + 2) (.choice (.char ' ') b) s =
      .matched { s with position := uint32Inc s.position } := by
  rw [Peg.exec_choice, Peg.exec_char, h]
  rfl

/-- In a buffer whose first 2^32 runes are blanks the loop of `sp` does not
end: the position wraps around from 2^32 - 1 to 0. -/
theorem exec_spLoop_blanks (B : List Nat) (h : ∀ p, p < 4294967296 → B[p]? = some 32)
    (b : Peg) : ∀ (fuel : Nat) (s : ParserState), s.position < 4294967296 →
      Peg.exec B fuel (.star (.choice (.char ' ') b)) s = .outOfFuel := by
  intro fuel
  induction fuel with
  | zero => exact fun _ _ => rfl
  | succ n ih =>
    intro s hs
    rw [Peg.exec_star]
    cases n with
    | zero => rfl
    | succ m =>
      cases m with
      | zero => rfl
      | succ g =>
        rw [exec_spBody_blank B g s (h _ hs) b]
        exact ih _ (uint32Inc_lt _)

theorem blanks_get (n p : Nat) (h : p < n) :
    (runesOf (List.replicate n ' ') ++ [end_symbol])[p]? = some 32 := by
  unfold runesOf
  rw [List.getElem?_append_left (by simpa using h), List.getElem?_map,
    List.getElem?_replicate, if_pos h]
  rfl

/-- The rule `Statements` on a buffer whose first 2^32 runes are blanks. -/
theorem callRule_Statements_blanks (B : List Nat) (h : ∀ p, p < 4294967296 → B[p]? = some 32)
    (fuel : Nat) (s : ParserState) (hs : s.position < 4294967296) :
    callRule B fuel .ruleStatements s = .outOfFuel := by
  have hsp : ∀ f (s1 : ParserState), s1.position < 4294967296 →
      Peg.exec B f (.call .rulesp) s1 = .outOfFuel := by
    intro f s1 h1
    cases f with
    | zero => rfl
    | succ g =>
      rw [Peg.exec_call, rules_sp,
        exec_spLoop_blanks B h _ g { s1 with depth := uint32Inc s1.depth } h1]
  unfold callRule
  cases fuel with
  | zero => rfl
  | succ f =>
    rw [Peg.exec_call, rules_Statements]
    cases f with
    | zero => rfl
    | succ g =>
      rw [Peg.exec_seq, hsp g { s with depth := uint32Inc s.depth } hs]

/-- C35, counterexample: on the text of 2^32 blanks the call of `Statements`
with which `Parse` starts does not return, whatever the fuel: `sp` reads
blanks up to position 2^32 - 1, `position++` wraps around to 0, and the loop
reads the same blanks again. -/
theorem statements_never_returns_on_blanks :
    (List.replicate 4294967296 ' ').length = 4294967296 ∧
    ∀ fuel : Nat, callRule (Init (runesOf (List.replicate 4294967296 ' '))) fuel .ruleStatements
      ⟨0, 0, 0⟩ = .outOfFuel := by
  refine ⟨List.length_replicate _ _, fun fuel => ?_⟩
  rw [Init_runesOf]
  exact callRule_Statements_blanks _ (fun p hp => blanks_get 4294967296 p hp) fuel ⟨0, 0, 0⟩
    (by show 0 < 4294967296; omega)

/-- A run of blanks up to position 2^32 - 1: the loop of `sp` continues at
position 0. -/
theorem exec_spLoop_wraps (B : List Nat) (b : Peg) (f : Nat) : ∀ (k : Nat) (s : ParserState),
    s.position + k + 1 = 4294967296 →
    (∀ p, s.position ≤ p → p < 4294967296 → B[p]? = some 32) →
    Peg.exec B (f + 2 + (k + 1)) (.star (.choice (.char ' ') b)) s =
      Peg.exec B (f + 2) (.star (.choice (.char ' ') b)) { s with position := 0 } := by
  intro k
  induction k with
  | zero =>
    intro s hk h
    show Peg.exec B (f + 2 + 1) _ s = _
    rw [Peg.exec_star B (f + 2), exec_spBody_blank B f s (h _ (Nat.le_refl _) (by omega)) b]
    have e : uint32Inc s.position = 0 := by
      unfold uint32Inc
      omega
    rw [e]
  | succ k ih =>
    intro s hk h
    show Peg.exec B (f + 2 + (k + 1) + 1) _ s = _
    rw [Peg.exec_star B (f + 2 + (k + 1))]
    have e1 : Peg.exec B (f + 2 + (k + 1)) (.choice (.char ' ') b) s =
        .matched { s with position := uint32Inc s.position } := by
      have e2 : f + 2 + (k + 1) = (f + 1 + k) + 2 := by omega
      rw [e2]
      exact exec_spBody_blank B (f + 1 + k) s (h _ (Nat.le_refl _) (by omega)) b
    rw [e1]
    have e : uint32Inc s.position = s.position + 1 := uint32Inc_of_lt _ (by omega)
    rw [e]
    exact ih { s with position := s.position + 1 } (by show s.position + 1 + k + 1 = _; omega)
      (fun p hp1 hp2 => h p (by have : s.position + 1 ≤ p := hp1; omega) hp2)

theorem dropSink_get (n p : Nat) (h1 : 9 ≤ p) (h2 : p < 9 + n) :
    (runesOf ("DROP SINK".toList ++ List.replicate n ' ') ++ [end_symbol])[p]? = some 32 := by
  unfold runesOf
  rw [List.getElem?_append_left (by simp; omega), List.getElem?_map,
    List.getElem?_append_right (by simp; omega), List.getElem?_replicate,
    if_pos (by simp; omega)]
  rfl

theorem dropSink_head (n : Nat) :
    (runesOf ("DROP SINK".toList ++ List.replicate n ' ') ++ [end_symbol])[0]? = some 68 := rfl

/-- The loop of `sp` at a rune that is no blank and no `-`: it ends at once. -/
theorem exec_spLoop_stops (B : List Nat) (s : ParserState) (h : B[s.position]? = some 68) :
    Peg.exec B 12 (rules .rulesp) s = .matched s := by
  simp [Peg.exec, rules, Peg.seqs, Peg.choices, h]

/-- The rule `sp`, entered at position 9 of a buffer that holds `DROP SINK` and
blanks up to position 2^32 - 1, returns `true` at position 0. -/
theorem callRule_sp_wraps (B : List Nat) (k t d : Nat) (hk : 9 + k + 1 = 4294967296)
    (hd : d < 4294967296)
    (h0 : B[0]? = some 68) (h : ∀ p, 9 ≤ p → p < 4294967296 → B[p]? = some 32) :
    callRule B (10 + 2 + (k + 1) + 1) .rulesp ⟨9, t, d⟩ = .returned true ⟨0, t + 1, d⟩ := by
  unfold callRule
  rw [Peg.exec_call, rules_sp,
    exec_spLoop_wraps B _ 10 k { position := 9, tokenIndex := t, depth := uint32Inc d } hk h]
  have e := exec_spLoop_stops B { position := 0, tokenIndex := t, depth := uint32Inc d } h0
  rw [rules_sp] at e
  rw [e]
  simp only
  rw [uint32Dec_uint32Inc d hd]

/-- C37, counterexample: on `DROP SINK` followed by 2^32 - 9 blanks the rule
`sp`, called at position 9, returns `true` with the position at 0. -/
theorem sp_returns_in_front_of_entry :
    callRule (Init (runesOf ("DROP SINK".toList ++ List.replicate 4294967287 ' '))) 4294967300
      .rulesp ⟨9, 2, 4⟩ = .returned true ⟨0, 3, 4⟩ := by
  rw [Init_runesOf]
  exact callRule_sp_wraps _ 4294967286 2 4 (by omega) (by omega) (dropSink_head 4294967287)
    (fun p h1 h2 => dropSink_get 4294967287 p h1 (by omega))


/-! ## The claims on the variables of the parser -/

theorem exec_atoms_at_end (input : List Char) (t d : Nat) :
    (∀ c, Peg.exec (runesOf input ++ [end_symbol]) 1 (.char c) ⟨input.length, t, d⟩ = .failed) ∧
    (∀ lo hi, Peg.exec (runesOf input ++ [end_symbol]) 1 (.range lo hi) ⟨input.length, t, d⟩ =
      .failed) ∧
    Peg.exec (runesOf input ++ [end_symbol]) 1 .dot ⟨input.length, t, d⟩ = .failed := by
  have hb : (runesOf input ++ [end_symbol])[input.length]? = some end_symbol :=
    buffer_drop_nil input input.length (Nat.le_refl _) (List.drop_length input)
  refine ⟨fun c => ?_, fun lo hi => ?_, ?_⟩
  · rw [Peg.exec_char]
    show (match (runesOf input ++ [end_symbol])[input.length]? with
      | none => ExecResult.outOfBounds
      | some x => if x = c.toNat then _ else _) = _
    rw [hb]
    have := toNat_lt_end_symbol c
    exact if_neg (by omega)
  · rw [Peg.exec_range]
    show (match (runesOf input ++ [end_symbol])[input.length]? with
      | none => ExecResult.outOfBounds
      | some x => if lo.toNat ≤ x ∧ x ≤ hi.toNat then _ else _) = _
    rw [hb]
    have := toNat_lt_end_symbol hi
    exact if_neg (by omega)
  · rw [Peg.exec_dot]
    show (match (runesOf input ++ [end_symbol])[input.length]? with
      | none => ExecResult.outOfBounds
      | some x => if x ≠ end_symbol then _ else _) = _
    rw [hb]
    exact if_neg (fun h => h rfl)

/-- C36: for every text, `Init` leaves its runes followed by the end symbol,
which is the code point of no character, so that at the index of the end
symbol every test of a literal, of a range and `matchDot` fail.  Every
execution of a parsing expression (in particular of a rule) that is entered
with `position` at most the index of the end symbol reads `buffer[position]`
only inside the buffer, whatever the fuel, and leaves `position` at most the
index of the end symbol. -/
theorem reads_in_bounds (input : List Char) (fuel : Nat) (e : Peg) (s : ParserState)
    (hs : s.position ≤ input.length) :
    Init (runesOf input) = runesOf input ++ [end_symbol] ∧
    (∀ c : Char, c.toNat ≠ end_symbol) ∧
    (∀ t d, (∀ c, Peg.exec (Init (runesOf input)) 1 (.char c) ⟨input.length, t, d⟩ = .failed) ∧
      (∀ lo hi, Peg.exec (Init (runesOf input)) 1 (.range lo hi) ⟨input.length, t, d⟩ = .failed) ∧
      Peg.exec (Init (runesOf input)) 1 .dot ⟨input.length, t, d⟩ = .failed) ∧
    Peg.exec (Init (runesOf input)) fuel e s ≠ .outOfBounds ∧
    (∀ s2, Peg.exec (Init (runesOf input)) fuel e s = .matched s2 →
      s2.position ≤ input.length) ∧
    (∀ r, callRule (Init (runesOf input)) fuel r s ≠ .outOfBounds ∧
      ∀ ok s2, callRule (Init (runesOf input)) fuel r s = .returned ok s2 →
        s2.position ≤ input.length) := by
  rw [Init_runesOf]
  refine ⟨rfl, fun c h => ?_, fun t d => exec_atoms_at_end input t d,
    (exec_inBounds input fuel e s hs).1, (exec_inBounds input fuel e s hs).2, fun r => ?_⟩
  · have := toNat_lt_end_symbol c
    omega
  · have hb := exec_inBounds input fuel (.call r) s hs
    unfold callRule
    cases hx : Peg.exec (runesOf input ++ [end_symbol]) fuel (.call r) s with
    | matched s3 =>
      refine ⟨by simp, fun ok s2 h => ?_⟩
      injection h with _ h
      rw [← h]
      exact hb.2 s3 hx
    | failed =>
      refine ⟨by simp, fun ok s2 h => ?_⟩
      injection h with _ h
      rw [← h]
      exact hs
    | outOfBounds => exact absurd hx hb.1
    | outOfFuel => exact ⟨by simp, fun ok s2 h => by cases h⟩

set_option maxRecDepth 100000 in
/-- The rule `Statements` on `DROP SINK a`, entered at position 0: it returns
`true` at position 11, the index of the end symbol, without a read outside the
buffer. -/
theorem reads_in_bounds_witness :
    callRule (Init (runesOf "DROP SINK a".toList)) 100 .ruleStatements ⟨0, 0, 0⟩ =
      .returned true ⟨11, 12, 0⟩ ∧
    callRule (Init (runesOf "DROP SINK a".toList)) 100 .ruleStatements ⟨0, 0, 0⟩ ≠ .outOfBounds ∧
    ∀ ok s2, callRule (Init (runesOf "DROP SINK a".toList)) 100 .ruleStatements ⟨0, 0, 0⟩ =
      .returned ok s2 → s2.position ≤ 11 :=
  ⟨by decide,
    (reads_in_bounds "DROP SINK a".toList 100 (.call .ruleStatements) ⟨0, 0, 0⟩
      (Nat.zero_le _)).2.2.2.2.2 .ruleStatements⟩

theorem Simulates.of_matched {input : List Char} {s s2 : ParserState} {r : MatchResult}
    (h : Simulates input s r (.matched s2)) :
    r = .matched (input.drop s2.position) ∧ s.position ≤ s2.position ∧
      s2.position ≤ input.length ∧ s2.depth = s.depth ∧ s.tokenIndex ≤ s2.tokenIndex := by
  cases r with
  | matched rest =>
    obtain ⟨h1, h2, h3, h4, h5⟩ := h
    exact ⟨by rw [h1], h2, h3, h4, h5⟩
  | failed => exact absurd h (by simp [Simulates])
  | outOfFuel => exact absurd h (by simp [Simulates])

/-- C37, amended: a rule that returns `false` leaves `position`, `tokenIndex`
and `depth` as they were on entry, and a rule that returns `true` leaves
`depth` unchanged and removes no token; on an input of fewer than 2^32 runes,
called with `position` at most the index of the end symbol, it does not move
`position` backwards.  An action rule returns `true` and only adds its token. -/
theorem rule_restores_or_advances (input : List Char) (fuel : Nat) (r : pegRule)
    (s : ParserState) (hd : s.depth < 4294967296) :
    (∀ s2, callRule (Init (runesOf input)) fuel r s = .returned false s2 → s2 = s) ∧
    (∀ s2, callRule (Init (runesOf input)) fuel r s = .returned true s2 →
      s2.depth = s.depth ∧ s.tokenIndex ≤ s2.tokenIndex ∧
      (input.length < 4294967296 → s.position ≤ input.length → s.position ≤ s2.position)) ∧
    (∀ n, Peg.exec (Init (runesOf input)) (fuel + 1) (.action n) s =
      .matched { s with tokenIndex := s.tokenIndex + 1 }) := by
  rw [Init_runesOf]
  refine ⟨?_, ?_, fun n => rfl⟩ <;> unfold callRule <;>
    cases hx : Peg.exec (runesOf input ++ [end_symbol]) fuel (.call r) s
  · exact fun s2 h => by injection h with h _; cases h
  · exact fun s2 h => by injection h with _ h; exact h.symm
  · exact fun s2 h => by cases h
  · exact fun s2 h => by cases h
  · rename_i s3
    intro s2 h
    injection h with _ h
    rw [← h]
    have h1 := exec_depth _ fuel (.call r) s s3 hd hx
    refine ⟨h1.1, h1.2, fun hlen hs => ?_⟩
    have hsim := exec_run input hlen fuel (.call r) s hs hd
    rw [hx] at hsim
    exact hsim.of_matched.2.1
  · exact fun s2 h => by injection h with h _; cases h
  · exact fun s2 h => by cases h
  · exact fun s2 h => by cases h

set_option maxRecDepth 100000 in
/-- The rules `SelectStmt` and `sp` on `DROP SINK a`, in the states in which
the parse of this text calls them: `SelectStmt` returns `false` and leaves the
three variables as they were, `sp` is entered at position 9 and returns `true`
at position 10 with the depth of entry and one more token. -/
theorem rule_restores_or_advances_witness :
    callRule (Init (runesOf "DROP SINK a".toList)) 100 .ruleSelectStmt ⟨0, 1, 2⟩ =
      .returned false ⟨0, 1, 2⟩ ∧
    callRule (Init (runesOf "DROP SINK a".toList)) 100 .rulesp ⟨9, 2, 4⟩ =
      .returned true ⟨10, 3, 4⟩ ∧
    (∀ s2, callRule (Init (runesOf "DROP SINK a".toList)) 100 .ruleSelectStmt ⟨0, 1, 2⟩ =
      .returned false s2 → s2 = ⟨0, 1, 2⟩) ∧
    (∀ s2, callRule (Init (runesOf "DROP SINK a".toList)) 100 .rulesp ⟨9, 2, 4⟩ =
      .returned true s2 → s2.depth = 4 ∧ 2 ≤ s2.tokenIndex ∧ 9 ≤ s2.position) :=
  ⟨by decide, by decide,
    (rule_restores_or_advances "DROP SINK a".toList 100 .ruleSelectStmt ⟨0, 1, 2⟩ (by decide)).1,
    fun s2 h =>
      have h2 := (rule_restores_or_advances "DROP SINK a".toList 100 .rulesp ⟨9, 2, 4⟩
        (by decide)).2.1 s2 h
      ⟨h2.1, h2.2.1, h2.2.2 (by decide) (by decide)⟩⟩

/-- The execution on the variables of the parser returns when the execution
on the rest of the buffer does. -/
theorem callRule_returns (input : List Char) (hlen : input.length < 4294967296) (r : pegRule)
    (s : ParserState) (hs : s.position ≤ input.length) (hd : s.depth < 4294967296) :
    ∃ fuel ok s2, callRule (runesOf input ++ [end_symbol]) fuel r s = .returned ok s2 := by
  obtain ⟨res, hne, fuel, hrun⟩ := rule_returns r (input.drop s.position)
  have hsim := exec_run input hlen fuel (.call r) s hs hd
  rw [hrun] at hsim
  refine ⟨fuel, ?_⟩
  unfold callRule
  cases res with
  | matched rest =>
    obtain ⟨s2, hx, _⟩ := hsim.matched_inv
    rw [hx]
    exact ⟨true, s2, rfl⟩
  | failed =>
    rw [hsim.failed_inv]
    exact ⟨false, s, rfl⟩
  | outOfFuel => exact absurd rfl hne

/-- An iteration of a loop of the grammar moves the position forwards. -/
theorem loop_body_advances (input : List Char) (hlen : input.length < 4294967296)
    (s : ParserState) (hs : s.position ≤ input.length) (hd : s.depth < 4294967296)
    (q : pegRule) (a : Peg) (ha : a ∈ (rules q).starBodies) (fuel : Nat) (s2 : ParserState)
    (h : Peg.exec (runesOf input ++ [end_symbol]) fuel a s = .matched s2) :
    s.position < s2.position := by
  have hsim := exec_run input hlen fuel a s hs hd
  rw [h] at hsim
  obtain ⟨hr, h2, h3, _, _⟩ := hsim.of_matched
  have hnul := starBodies_not_nullable (rules q) (rules_wellFormed q).2 a ha
  have hl := (Peg.run_length fuel a _ _ hr).2 hnul
  rw [List.length_drop, List.length_drop] at hl
  omega

/-- C35, amended: on an input of fewer than 2^32 runes every rule returns:
called with `position` at most the index of the end symbol, its function
returns `true` or `false` for some fuel.  Every iteration of every loop `e*`
of the grammar that matches leaves the position behind where it began, and
every rule that the function of a rule can call before a rune is consumed has
a smaller rank than that rule, so that no rule calls itself again at the same
position.  On the rest of the buffer, where no position wraps around, every
rule returns on every text. -/
theorem rules_terminate (input : List Char) (hlen : input.length < 4294967296) (r : pegRule)
    (s : ParserState) (hs : s.position ≤ input.length) (hd : s.depth < 4294967296) :
    (∃ fuel ok s2, callRule (Init (runesOf input)) fuel r s = .returned ok s2) ∧
    (∀ q, ∀ a ∈ (rules q).starBodies, ∀ fuel s2,
      Peg.exec (Init (runesOf input)) fuel a s = .matched s2 → s.position < s2.position) ∧
    (∀ q, (rules q).callsBelow (rank q) = true ∧ (rules q).loopsConsume = true) ∧
    (∀ text : List Char, ∃ res, Returns (.call r) text res) := by
  rw [Init_runesOf]
  exact ⟨callRule_returns input hlen r s hs hd,
    fun q a ha fuel s2 h => loop_body_advances input hlen s hs hd q a ha fuel s2 h,
    rules_wellFormed, rule_returns r⟩

set_option maxRecDepth 100000 in
/-- The rule `Statements` returns on `DROP SINK a`: with fuel 31 it returns
`true` at the end of the text. -/
theorem rules_terminate_witness :
    callRule (Init (runesOf "DROP SINK a".toList)) 31 .ruleStatements ⟨0, 0, 0⟩ =
      .returned true ⟨11, 12, 0⟩ ∧
    ∃ fuel ok s2, callRule (Init (runesOf "DROP SINK a".toList)) fuel .ruleStatements ⟨0, 0, 0⟩ =
      .returned ok s2 :=
  ⟨by decide,
    (rules_terminate "DROP SINK a".toList (by decide) .ruleStatements ⟨0, 0, 0⟩ (Nat.zero_le _)
      (by decide)).1⟩

/-! ## The rule functions on positions of the input -/

/-- What the rule functions return on the variables of the parser is what the
rules return on the rest of the buffer, on inputs of fewer than 2^32 runes:
from the rest of the buffer to the variables. -/
theorem RuleMatches_of_Returns (input : List Char) (hlen : input.length < 4294967296)
    (r : pegRule) (p : Nat) (hp : p ≤ input.length) (rest : List Char)
    (h : Returns (.call r) (input.drop p) (.matched rest)) :
    RuleMatches input r p (input.length - rest.length) ∧
      input.drop (input.length - rest.length) = rest ∧ p ≤ input.length - rest.length ∧
      rest.length ≤ input.length := by
  obtain ⟨hne, fuel, hrun⟩ := h
  have key : ∀ t d, d < 4294967296 → ∃ s2,
      Peg.exec (runesOf input ++ [end_symbol]) fuel (.call r) ⟨p, t, d⟩ = .matched s2 ∧
      s2.position = input.length - rest.length ∧ s2.depth = d ∧
      input.drop s2.position = rest ∧ p ≤ s2.position ∧ s2.position ≤ input.length := by
    intro t d hd
    have hsim := exec_run input hlen fuel (.call r) ⟨p, t, d⟩ hp hd
    have hrun2 : Peg.run fuel (.call r) (input.drop p) = .matched rest := hrun
    rw [show (ParserState.mk p t d).position = p from rfl, hrun2] at hsim
    obtain ⟨s2, hx, h1, h2, h3, h4, _⟩ := hsim.matched_inv
    refine ⟨s2, hx, ?_, h4, h1, h2, h3⟩
    have hl := congrArg List.length h1
    rw [List.length_drop] at hl
    omega
  obtain ⟨s0, _, e0, _, e1, e2, e3⟩ := key 0 0 (by omega)
  refine ⟨fun t d hd => ?_, by rw [← e0]; exact e1, by rw [← e0]; exact e2, ?_⟩
  · obtain ⟨s2, hx, h1, h2, _⟩ := key t d hd
    refine ⟨fuel, s2.tokenIndex, ?_⟩
    rw [Init_runesOf]
    unfold callRule
    rw [hx]
    cases s2
    simp only at h1 h2
    rw [h1, h2]
  · have hl := congrArg List.length e1
    rw [List.length_drop] at hl
    omega

theorem RuleFails_of_Returns (input : List Char) (hlen : input.length < 4294967296)
    (r : pegRule) (p : Nat) (hp : p ≤ input.length)
    (h : Returns (.call r) (input.drop p) .failed) : RuleFails input r p := by
  obtain ⟨hne, fuel, hrun⟩ := h
  intro t d hd
  have hsim := exec_run input hlen fuel (.call r) ⟨p, t, d⟩ hp hd
  have hrun2 : Peg.run fuel (.call r) (input.drop p) = .failed := hrun
  rw [show (ParserState.mk p t d).position = p from rfl, hrun2] at hsim
  refine ⟨fuel, ?_⟩
  rw [Init_runesOf]
  unfold callRule
  rw [hsim.failed_inv]

/-- From the variables to the rest of the buffer. -/
theorem Returns_of_callRule (input : List Char) (hlen : input.length < 4294967296)
    (fuel : Nat) (r : pegRule) (s s2 : ParserState) (hs : s.position ≤ input.length)
    (hd : s.depth < 4294967296)
    (h : callRule (Init (runesOf input)) fuel r s = .returned true s2) :
    Returns (.call r) (input.drop s.position) (.matched (input.drop s2.position)) ∧
      s.position ≤ s2.position ∧ s2.position ≤ input.length := by
  rw [Init_runesOf] at h
  unfold callRule at h
  have hsim := exec_run input hlen fuel (.call r) s hs hd
  cases hx : Peg.exec (runesOf input ++ [end_symbol]) fuel (.call r) s with
  | matched s3 =>
    rw [hx] at h hsim
    injection h with _ h
    subst h
    obtain ⟨h1, h2, h3, _, _⟩ := hsim.of_matched
    exact ⟨⟨by simp, fuel, h1⟩, h2, h3⟩
  | failed =>
    rw [hx] at h
    injection h with h _
    cases h
  | outOfBounds =>
    rw [hx] at h
    cases h
  | outOfFuel =>
    rw [hx] at h
    cases h

theorem Returns_of_callRule_false (input : List Char) (hlen : input.length < 4294967296)
    (fuel : Nat) (r : pegRule) (s s2 : ParserState) (hs : s.position ≤ input.length)
    (hd : s.depth < 4294967296)
    (h : callRule (Init (runesOf input)) fuel r s = .returned false s2) :
    Returns (.call r) (input.drop s.position) .failed := by
  rw [Init_runesOf] at h
  unfold callRule at h
  have hsim := exec_run input hlen fuel (.call r) s hs hd
  cases hx : Peg.exec (runesOf input ++ [end_symbol]) fuel (.call r) s with
  | matched s3 =>
    rw [hx] at h
    injection h with h _
    cases h
  | failed =>
    rw [hx] at hsim
    cases hr : Peg.run fuel (.call r) (input.drop s.position) with
    | matched rest =>
      rw [hr] at hsim
      exact absurd hsim (by simp [Simulates])
    | failed => exact ⟨by simp, fuel, hr⟩
    | outOfFuel =>
      rw [hr] at hsim
      exact absurd hsim (by simp [Simulates])
  | outOfBounds =>
    rw [hx] at h
    cases h
  | outOfFuel =>
    rw [hx] at h
    cases h

theorem Returns_of_RuleMatches (input : List Char) (hlen : input.length < 4294967296)
    (r : pegRule) (p q : Nat) (hp : p ≤ input.length) (h : RuleMatches input r p q) :
    Returns (.call r) (input.drop p) (.matched (input.drop q)) ∧ p ≤ q ∧ q ≤ input.length := by
  obtain ⟨fuel, t2, hc⟩ := h 0 0 (by omega)
  exact Returns_of_callRule input hlen fuel r ⟨p, 0, 0⟩ ⟨q, t2, 0⟩ hp (by show 0 < _; omega) hc

theorem Returns_of_RuleFails (input : List Char) (hlen : input.length < 4294967296)
    (r : pegRule) (p : Nat) (hp : p ≤ input.length) (h : RuleFails input r p) :
    Returns (.call r) (input.drop p) .failed := by
  obtain ⟨fuel, hc⟩ := h 0 0 (by omega)
  exact Returns_of_callRule_false input hlen fuel r ⟨p, 0, 0⟩ ⟨p, 0, 0⟩ hp
    (by show 0 < _; omega) hc

/-- The position at which the rest of the buffer begins. -/
theorem drop_position (input : List Char) (q : Nat) (rest : List Char) (hq : q ≤ input.length)
    (h : input.drop q = rest) : q = input.length - rest.length := by
  have hl := congrArg List.length h
  rw [List.length_drop] at hl
  omega

/-- More fuel does not change a result of the execution on the variables of
the parser: one more level. -/
theorem Peg.exec_succ (B : List Nat) (n : Nat) :
    ∀ (e : Peg) (s : ParserState) (r : ExecResult),
      Peg.exec B n e s = r → r ≠ .outOfFuel → Peg.exec B (n + 1) e s = r := by
  induction n with
  | zero =>
    intro e s r h hr
    exact absurd h.symm hr
  | succ n ih =>
    intro e s r h hr
    have wrap : ∀ (a : Peg),
        (match Peg.exec B n a { s with depth := uint32Inc s.depth } with
          | .matched s2 =>
            ExecResult.matched
              { s2 with depth := uint32Dec s2.depth, tokenIndex := s2.tokenIndex + 1 }
          | .failed => .failed
          | .outOfBounds => .outOfBounds
          | .outOfFuel => .outOfFuel) = r →
        (match Peg.exec B (n + 1) a { s with depth := uint32Inc s.depth } with
          | .matched s2 =>
            ExecResult.matched
              { s2 with depth := uint32Dec s2.depth, tokenIndex := s2.tokenIndex + 1 }
          | .failed => .failed
          | .outOfBounds => .outOfBounds
          | .outOfFuel => .outOfFuel) = r := by
      intro a h
      cases ha : Peg.exec B n a { s with depth := uint32Inc s.depth } with
      | matched s3 =>
        rw [ha] at h
        rw [ih a _ _ ha (by simp)]
        exact h
      | failed =>
        rw [ha] at h
        rw [ih a _ _ ha (by simp)]
        exact h
      | outOfBounds =>
        rw [ha] at h
        rw [ih a _ _ ha (by simp)]
        exact h
      | outOfFuel =>
        rw [ha] at h
        exact absurd h.symm hr
    cases e with
    | char c => exact h
    | range lo hi => exact h
    | dot => exact h
    | empty => exact h
    | action k => exact h
    | call q =>
      rw [Peg.exec_call] at h ⊢
      exact wrap (rules q) h
    | text a =>
      rw [Peg.exec_text] at h ⊢
      exact wrap a h
    | seq a b =>
      rw [Peg.exec_seq] at h ⊢
      cases ha : Peg.exec B n a s with
      | matched s3 =>
        rw [ha] at h
        rw [ih a s _ ha (by simp)]
        exact ih _ _ _ h hr
      | failed =>
        rw [ha] at h
        rw [ih a s _ ha (by simp)]
        exact h
      | outOfBounds =>
        rw [ha] at h
        rw [ih a s _ ha (by simp)]
        exact h
      | outOfFuel =>
        rw [ha] at h
        exact absurd h.symm hr
    | choice a b =>
      rw [Peg.exec_choice] at h ⊢
      cases ha : Peg.exec B n a s with
      | matched s3 =>
        rw [ha] at h
        rw [ih a s _ ha (by simp)]
        exact h
      | failed =>
        rw [ha] at h
        rw [ih a s _ ha (by simp)]
        exact ih _ _ _ h hr
      | outOfBounds =>
        rw [ha] at h
        rw [ih a s _ ha (by simp)]
        exact h
      | outOfFuel =>
        rw [ha] at h
        exact absurd h.symm hr
    | star a =>
      rw [Peg.exec_star] at h ⊢
      cases ha : Peg.exec B n a s with
      | matched s3 =>
        rw [ha] at h
        rw [ih a s _ ha (by simp)]
        exact ih _ _ _ h hr
      | failed =>
        rw [ha] at h
        rw [ih a s _ ha (by simp)]
        exact h
      | outOfBounds =>
        rw [ha] at h
        rw [ih a s _ ha (by simp)]
        exact h
      | outOfFuel =>
        rw [ha] at h
        exact absurd h.symm hr
    | optional a =>
      rw [Peg.exec_optional] at h ⊢
      cases ha : Peg.exec B n a s with
      | matched s3 =>
        rw [ha] at h
        rw [ih a s _ ha (by simp)]
        exact h
      | failed =>
        rw [ha] at h
        rw [ih a s _ ha (by simp)]
        exact h
      | outOfBounds =>
        rw [ha] at h
        rw [ih a s _ ha (by simp)]
        exact h
      | outOfFuel =>
        rw [ha] at h
        exact absurd h.symm hr
    | notPredicate a =>
      rw [Peg.exec_notPredicate] at h ⊢
      cases ha : Peg.exec B n a s with
      | matched s3 =>
        rw [ha] at h
        rw [ih a s _ ha (by simp)]
        exact h
      | failed =>
        rw [ha] at h
        rw [ih a s _ ha (by simp)]
        exact h
      | outOfBounds =>
        rw [ha] at h
        rw [ih a s _ ha (by simp)]
        exact h
      | outOfFuel =>
        rw [ha] at h
        exact absurd h.symm hr

/-- More fuel does not change a result of the execution on the variables of
the parser. -/
theorem Peg.exec_le (B : List Nat) (n m : Nat) (hnm : n ≤ m) (e : Peg) (s : ParserState)
    (r : ExecResult) (h : Peg.exec B n e s = r) (hr : r ≠ .outOfFuel) :
    Peg.exec B m e s = r := by
  induction m, hnm using Nat.le_induction with
  | base => exact h
  | succ k _ ih => exact Peg.exec_succ B k e s r ih hr

/-- A loop `e*` never fails, whatever the buffer holds. -/
theorem Peg.exec_star_ne_failed (B : List Nat) (a : Peg) :
    ∀ (fuel : Nat) (s : ParserState), Peg.exec B fuel (.star a) s ≠ .failed := by
  intro fuel
  induction fuel with
  | zero =>
    intro s h
    cases h
  | succ n ih =>
    intro s h
    rw [Peg.exec_star] at h
    cases ha : Peg.exec B n a s with
    | matched s2 =>
      rw [ha] at h
      exact ih s2 h
    | failed =>
      rw [ha] at h
      cases h
    | outOfBounds =>
      rw [ha] at h
      cases h
    | outOfFuel =>
      rw [ha] at h
      cases h

/-- The function of `sp` never returns `false`, whatever the buffer holds. -/
theorem callRule_sp_ne_false (B : List Nat) (fuel : Nat) (s s2 : ParserState) :
    callRule B fuel .rulesp s ≠ .returned false s2 := by
  unfold callRule
  cases fuel with
  | zero =>
    intro h
    cases h
  | succ n =>
    rw [Peg.exec_call, rules_sp]
    cases ha : Peg.exec B n (.star (.choice (.char ' ') (.choice (.char (Char.ofNat 9))
        (.choice (.char (Char.ofNat 10)) (.choice (.char (Char.ofNat 13))
          (.call .rulecomment)))))) { s with depth := uint32Inc s.depth } with
    | matched s3 =>
      intro h
      injection h with h _
      cases h
    | failed => exact absurd ha (Peg.exec_star_ne_failed B _ n _)
    | outOfBounds =>
      intro h
      cases h
    | outOfFuel =>
      intro h
      cases h


theorem drop_eq_cons_iff (input : List Char) (p : Nat) (x : Char) :
    (∃ more, input.drop p = x :: more) ↔ input[p]? = some x := by
  constructor
  · rintro ⟨more, h⟩
    have := List.getElem?_drop input p 0
    rw [h] at this
    simpa using this.symm
  · intro h
    have hp : p < input.length := by
      by_contra hn
      rw [List.getElem?_eq_none (by omega)] at h
      cases h
    refine ⟨input.drop (p + 1), ?_⟩
    rw [List.drop_eq_getElem_cons hp]
    rw [List.getElem?_eq_getElem hp] at h
    injection h with h
    rw [h]

theorem drop_eq_nil_iff_position (input : List Char) (p : Nat) (hp : p ≤ input.length) :
    input.drop p = [] ↔ p = input.length := by
  constructor
  · intro h
    have hl := congrArg List.length h
    rw [List.length_drop] at hl
    simp at hl
    omega
  · intro h
    rw [h]
    exact List.drop_length input

/-- The function of `Statements` at the start of the buffer, on the variables
of the parser, on inputs of fewer than 2^32 runes: when it returns `true`. -/
theorem callRule_Statements_true (input : List Char) (hlen : input.length < 4294967296) :
    (∃ fuel s2, callRule (Init (runesOf input)) fuel .ruleStatements ⟨0, 0, 0⟩ =
        .returned true s2) ↔
      ∃ p1 p2, RuleMatches input .rulesp 0 p1 ∧ RuleMatches input .ruleStatement p1 p2 ∧
        (p2 = input.length ∨ ∃ p3, RuleMatches input .rulesp p2 p3 ∧ input[p3]? = some ';') := by
  constructor
  · rintro ⟨fuel, s2, h⟩
    have h1 := (Returns_of_callRule input hlen fuel .ruleStatements ⟨0, 0, 0⟩ s2
      (Nat.zero_le _) (by show 0 < _; omega) h).1
    rw [show (ParserState.mk 0 0 0).position = 0 from rfl, List.drop_zero,
      Returns_Statements_matched] at h1
    obtain ⟨_, i1, i2, hsp, hst, hend⟩ := h1
    have hsp0 : Returns (.call .rulesp) (input.drop 0) (.matched i1) := by
      rw [List.drop_zero]; exact hsp
    obtain ⟨m1, e1, l1, _⟩ := RuleMatches_of_Returns input hlen .rulesp 0 (Nat.zero_le _) i1 hsp0
    have hq1 : input.length - i1.length ≤ input.length := Nat.sub_le _ _
    rw [← e1] at hst
    obtain ⟨m2, e2, l2, _⟩ := RuleMatches_of_Returns input hlen .ruleStatement _ hq1 i2 hst
    have hq2 : input.length - i2.length ≤ input.length := Nat.sub_le _ _
    refine ⟨_, _, m1, m2, ?_⟩
    rcases hend with hnil | ⟨i3, more, hsp2, hi3⟩
    · left
      rw [hnil]
      rfl
    · right
      rw [← e2] at hsp2
      obtain ⟨m3, e3, _, _⟩ := RuleMatches_of_Returns input hlen .rulesp _ hq2 i3 hsp2
      refine ⟨_, m3, ?_⟩
      rw [← drop_eq_cons_iff]
      exact ⟨more, by rw [e3, hi3]⟩
  · rintro ⟨p1, p2, m1, m2, hend⟩
    obtain ⟨r1, _, b1⟩ := Returns_of_RuleMatches input hlen .rulesp 0 p1 (Nat.zero_le _) m1
    obtain ⟨r2, _, b2⟩ := Returns_of_RuleMatches input hlen .ruleStatement p1 p2 b1 m2
    rw [List.drop_zero] at r1
    have hst : Returns (.call .ruleStatements) (input.drop 0) (.matched []) := by
      rw [List.drop_zero, Returns_Statements_matched]
      refine ⟨rfl, _, _, r1, r2, ?_⟩
      rcases hend with hp2 | ⟨p3, m3, hsemi⟩
      · left
        exact (drop_eq_nil_iff_position input p2 b2).2 hp2
      · right
        obtain ⟨r3, _, _⟩ := Returns_of_RuleMatches input hlen .rulesp p2 p3 b2 m3
        obtain ⟨more, hmore⟩ := (drop_eq_cons_iff input p3 ';').2 hsemi
        exact ⟨_, more, r3, hmore⟩
    obtain ⟨m, _⟩ := RuleMatches_of_Returns input hlen .ruleStatements 0 (Nat.zero_le _) [] hst
    obtain ⟨fuel, t2, hc⟩ := m 0 0 (by omega)
    exact ⟨fuel, _, hc⟩

/-- When the function of `Statements` returns `false`. -/
theorem callRule_Statements_false (input : List Char) (hlen : input.length < 4294967296) :
    (∃ fuel, callRule (Init (runesOf input)) fuel .ruleStatements ⟨0, 0, 0⟩ =
        .returned false ⟨0, 0, 0⟩) ↔
      ∃ p1, RuleMatches input .rulesp 0 p1 ∧
        (RuleFails input .ruleStatement p1 ∨
          ∃ p2 p3, RuleMatches input .ruleStatement p1 p2 ∧ p2 ≠ input.length ∧
            RuleMatches input .rulesp p2 p3 ∧ input[p3]? ≠ some ';') := by
  constructor
  · rintro ⟨fuel, h⟩
    have h1 := Returns_of_callRule_false input hlen fuel .ruleStatements ⟨0, 0, 0⟩ _
      (Nat.zero_le _) (by show 0 < _; omega) h
    rw [show (ParserState.mk 0 0 0).position = 0 from rfl, List.drop_zero,
      Returns_Statements_failed] at h1
    obtain ⟨i1, hsp, hrest⟩ := h1
    have hsp0 : Returns (.call .rulesp) (input.drop 0) (.matched i1) := by
      rw [List.drop_zero]; exact hsp
    obtain ⟨m1, e1, l1, _⟩ := RuleMatches_of_Returns input hlen .rulesp 0 (Nat.zero_le _) i1 hsp0
    have hq1 : input.length - i1.length ≤ input.length := Nat.sub_le _ _
    refine ⟨_, m1, ?_⟩
    rcases hrest with hf | ⟨i2, i3, hst, hne, hsp2, hno⟩
    · left
      rw [← e1] at hf
      exact RuleFails_of_Returns input hlen .ruleStatement _ hq1 hf
    · right
      rw [← e1] at hst
      obtain ⟨m2, e2, l2, _⟩ := RuleMatches_of_Returns input hlen .ruleStatement _ hq1 i2 hst
      have hq2 : input.length - i2.length ≤ input.length := Nat.sub_le _ _
      rw [← e2] at hsp2
      obtain ⟨m3, e3, _, _⟩ := RuleMatches_of_Returns input hlen .rulesp _ hq2 i3 hsp2
      refine ⟨_, _, m2, ?_, m3, ?_⟩
      · intro hp2
        apply hne
        rw [← e2]
        exact (drop_eq_nil_iff_position input _ hq2).2 hp2
      · intro hsemi
        obtain ⟨more, hmore⟩ := (drop_eq_cons_iff input _ ';').2 hsemi
        rw [e3] at hmore
        exact hno more hmore
  · rintro ⟨p1, m1, hrest⟩
    obtain ⟨r1, _, b1⟩ := Returns_of_RuleMatches input hlen .rulesp 0 p1 (Nat.zero_le _) m1
    rw [List.drop_zero] at r1
    have hst : Returns (.call .ruleStatements) (input.drop 0) .failed := by
      rw [List.drop_zero, Returns_Statements_failed]
      refine ⟨_, r1, ?_⟩
      rcases hrest with hf | ⟨p2, p3, m2, hne, m3, hno⟩
      · left
        exact Returns_of_RuleFails input hlen .ruleStatement p1 b1 hf
      · right
        obtain ⟨r2, _, b2⟩ := Returns_of_RuleMatches input hlen .ruleStatement p1 p2 b1 m2
        obtain ⟨r3, _, _⟩ := Returns_of_RuleMatches input hlen .rulesp p2 p3 b2 m3
        refine ⟨_, _, r2, ?_, r3, ?_⟩
        · intro hnil
          exact hne ((drop_eq_nil_iff_position input p2 b2).1 hnil)
        · intro more hmore
          exact hno ((drop_eq_cons_iff input p3 ';').1 ⟨more, hmore⟩)
    exact RuleFails_of_Returns input hlen .ruleStatements 0 (Nat.zero_le _) hst 0 0 (by omega)

theorem callRule_Statements_end (input : List Char) (hlen : input.length < 4294967296)
    (fuel : Nat) (s2 : ParserState)
    (h : callRule (Init (runesOf input)) fuel .ruleStatements ⟨0, 0, 0⟩ = .returned true s2) :
    s2.position = input.length := by
  obtain ⟨h1, _, h3⟩ := Returns_of_callRule input hlen fuel .ruleStatements ⟨0, 0, 0⟩ s2
    (Nat.zero_le _) (by show 0 < _; omega) h
  rw [show (ParserState.mk 0 0 0).position = 0 from rfl, List.drop_zero,
    Returns_Statements_matched] at h1
  exact (drop_eq_nil_iff_position input _ h3).1 h1.1


theorem AtMostOneOperatorAt_of (input : List Char) (hlen : input.length < 4294967296)
    (operand operator : pegRule) (p q : Nat) (hp : p ≤ input.length) (hq : q ≤ input.length)
    (h : AtMostOneOperator operand operator (input.drop p) (input.drop q)) :
    AtMostOneOperatorAt input operand operator p q := by
  obtain ⟨i1, i2, h1, h2, hrest⟩ := h
  obtain ⟨m1, e1, _, _⟩ := RuleMatches_of_Returns input hlen operand p hp i1 h1
  have hq1 : input.length - i1.length ≤ input.length := Nat.sub_le _ _
  rw [← e1] at h2
  obtain ⟨m2, e2, _, _⟩ := RuleMatches_of_Returns input hlen .rulesp _ hq1 i2 h2
  have hq2 : input.length - i2.length ≤ input.length := Nat.sub_le _ _
  refine ⟨_, _, m1, m2, ?_⟩
  rcases hrest with hr | ⟨i3, i4, h3, h4, h5⟩
  · left
    exact drop_position input q i2 hq hr
  · right
    rw [← e2] at h3
    obtain ⟨m3, e3, _, _⟩ := RuleMatches_of_Returns input hlen operator _ hq2 i3 h3
    have hq3 : input.length - i3.length ≤ input.length := Nat.sub_le _ _
    rw [← e3] at h4
    obtain ⟨m4, e4, _, _⟩ := RuleMatches_of_Returns input hlen .rulesp _ hq3 i4 h4
    have hq4 : input.length - i4.length ≤ input.length := Nat.sub_le _ _
    rw [← e4] at h5
    obtain ⟨m5, _, _, _⟩ := RuleMatches_of_Returns input hlen operand _ hq4 _ h5
    have e : q = input.length - (input.drop q).length := drop_position input q _ hq rfl
    rw [← e] at m5
    exact ⟨_, _, m3, m4, m5⟩

/-- A rule that matches a given text at the position leaves the position
behind that text. -/
theorem RuleMatches_of_text (input : List Char) (hlen : input.length < 4294967296)
    (r : pegRule) (p : Nat) (hp : p ≤ input.length) (text tail : List Char)
    (hdrop : input.drop p = text ++ tail)
    (h : Returns (.call r) (text ++ tail) (.matched tail)) :
    RuleMatches input r p (p + text.length) := by
  rw [← hdrop] at h
  obtain ⟨m, _, _, _⟩ := RuleMatches_of_Returns input hlen r p hp tail h
  have hl := congrArg List.length hdrop
  rw [List.length_drop, List.length_append] at hl
  have e : input.length - tail.length = p + text.length := by omega
  rw [e] at m
  exact m


/-! ## The claims on the grammar, on the rule functions -/

/-- C34, amended: the function of `sp` never returns `false`, whatever the
buffer and the state.  On an input of fewer than 2^32 runes, called at any
position up to the end of the input, it returns `true` exactly behind the
leading run of spaces, tabs, carriage returns, line feeds and comments that
begins there (a comment being `--` with what follows it up to and including
the first carriage return or line feed), as `skipBlanksAndComments` reads it;
in front of a `--` that is followed by no carriage return and no line feed up
to the end of the input it returns without moving the position. -/
theorem sp_function_skips (input : List Char) (hlen : input.length < 4294967296) (p : Nat)
    (hp : p ≤ input.length) :
    (∀ (buffer : List Nat) (fuel : Nat) (s s2 : ParserState),
      callRule buffer fuel .rulesp s ≠ .returned false s2) ∧
    (∃ q, RuleMatches input .rulesp p q ∧ p ≤ q ∧ q ≤ input.length ∧
      input.drop q = skipBlanksAndComments (input.drop p)) ∧
    (∀ text, input.drop p = '-' :: '-' :: text → afterLineEnd text = none →
      RuleMatches input .rulesp p p) := by
  have h := RuleMatches_of_Returns input hlen .rulesp p hp _ (Returns_sp (input.drop p))
  refine ⟨fun buffer fuel s s2 => callRule_sp_ne_false buffer fuel s s2,
    ⟨_, h.1, h.2.2.1, by omega, h.2.1⟩, fun text htext hnone => ?_⟩
  have e : skipBlanksAndComments (input.drop p) = input.drop p := by
    rw [htext]
    exact skipBlanksAndComments_unterminated text hnone
  rw [e] at h
  have e2 : input.length - (input.drop p).length = p := by
    rw [List.length_drop]
    omega
  rw [e2] at h
  exact h.1

/-- The function of `sp` on blanks, a comment, a line feed and a comment that
runs to the end of the input: called at position 0 it returns at position 7,
in front of the second comment, and called there it returns where it is. -/
theorem sp_function_skips_witness :
    RuleMatches (' ' :: Char.ofNat 9 :: "-- a".toList ++ Char.ofNat 10 :: "-- b".toList) .rulesp
      7 7 ∧
    ∃ q, RuleMatches (' ' :: Char.ofNat 9 :: "-- a".toList ++ Char.ofNat 10 :: "-- b".toList)
      .rulesp 0 q ∧ 0 ≤ q ∧ q ≤ 11 ∧
      (' ' :: Char.ofNat 9 :: "-- a".toList ++ Char.ofNat 10 :: "-- b".toList).drop q =
        "-- b".toList :=
  ⟨(sp_function_skips (' ' :: Char.ofNat 9 :: "-- a".toList ++ Char.ofNat 10 :: "-- b".toList)
      (by decide) 7 (by decide)).2.2 " b".toList rfl (by decide),
    (sp_function_skips (' ' :: Char.ofNat 9 :: "-- a".toList ++ Char.ofNat 10 :: "-- b".toList)
      (by decide) 0 (by decide)).2.1⟩

/-- C33, amended: the alternatives of `baseExpr` are tried in the order of the
grammar, `BooleanLiteral` and `NullLiteral` in front of `RowValue`.  On an
input of fewer than 2^32 runes, at every position where the text begins, in
any letter case, with `true`, `false` or `null`, the function of `baseExpr`
returns `true` behind exactly that keyword, whatever follows it, and so does
the function of `BooleanLiteral` resp. `NullLiteral`.  On `nullable` the
function of `RowValue` on its own matches the whole name, but that of
`baseExpr` matches `null` and returns at position 4, in front of `able`. -/
theorem baseExpr_function_keyword_first (input : List Char) (hlen : input.length < 4294967296)
    (p : Nat) (hp : p ≤ input.length) (tail : List Char) :
    rules .rulebaseExpr =
      .choices [.seqs [.char '(', .call .rulesp, .call .ruleExpression, .call .rulesp, .char ')'],
        .call .ruleBooleanLiteral, .call .ruleNullLiteral, .call .ruleRowMeta,
        .call .ruleFuncTypeCast, .call .ruleFuncApp, .call .ruleRowValue, .call .ruleLiteral] ∧
    (∀ c1 c2 c3 c4 : Char, (c1 = 't' ∨ c1 = 'T') → (c2 = 'r' ∨ c2 = 'R') →
      (c3 = 'u' ∨ c3 = 'U') → (c4 = 'e' ∨ c4 = 'E') →
      input.drop p = c1 :: c2 :: c3 :: c4 :: tail →
      RuleMatches input .rulebaseExpr p (p + 4) ∧
      RuleMatches input .ruleBooleanLiteral p (p + 4)) ∧
    (∀ c1 c2 c3 c4 c5 : Char, (c1 = 'f' ∨ c1 = 'F') → (c2 = 'a' ∨ c2 = 'A') →
      (c3 = 'l' ∨ c3 = 'L') → (c4 = 's' ∨ c4 = 'S') → (c5 = 'e' ∨ c5 = 'E') →
      input.drop p = c1 :: c2 :: c3 :: c4 :: c5 :: tail →
      RuleMatches input .rulebaseExpr p (p + 5) ∧
      RuleMatches input .ruleBooleanLiteral p (p + 5)) ∧
    (∀ c1 c2 c3 c4 : Char, (c1 = 'n' ∨ c1 = 'N') → (c2 = 'u' ∨ c2 = 'U') →
      (c3 = 'l' ∨ c3 = 'L') → (c4 = 'l' ∨ c4 = 'L') →
      input.drop p = c1 :: c2 :: c3 :: c4 :: tail →
      RuleMatches input .rulebaseExpr p (p + 4) ∧
      RuleMatches input .ruleNullLiteral p (p + 4)) ∧
    RuleMatches "nullable".toList .ruleRowValue 0 8 ∧
    RuleMatches "nullable".toList .rulebaseExpr 0 4 :=
  ⟨rfl,
    fun c1 c2 c3 c4 h1 h2 h3 h4 hd =>
      ⟨RuleMatches_of_text input hlen .rulebaseExpr p hp [c1, c2, c3, c4] tail hd
          ⟨by simp, 30, run_baseExpr_true c1 c2 c3 c4 tail h1 h2 h3 h4⟩,
        RuleMatches_of_text input hlen .ruleBooleanLiteral p hp [c1, c2, c3, c4] tail hd
          ⟨by simp, 30, run_BooleanLiteral_true c1 c2 c3 c4 tail h1 h2 h3 h4⟩⟩,
    fun c1 c2 c3 c4 c5 h1 h2 h3 h4 h5 hd =>
      ⟨RuleMatches_of_text input hlen .rulebaseExpr p hp [c1, c2, c3, c4, c5] tail hd
          ⟨by simp, 30, run_baseExpr_false c1 c2 c3 c4 c5 tail h1 h2 h3 h4 h5⟩,
        RuleMatches_of_text input hlen .ruleBooleanLiteral p hp [c1, c2, c3, c4, c5] tail hd
          ⟨by simp, 30, run_BooleanLiteral_false c1 c2 c3 c4 c5 tail h1 h2 h3 h4 h5⟩⟩,
    fun c1 c2 c3 c4 h1 h2 h3 h4 hd =>
      ⟨RuleMatches_of_text input hlen .rulebaseExpr p hp [c1, c2, c3, c4] tail hd
          ⟨by simp, 30, run_baseExpr_null c1 c2 c3 c4 tail h1 h2 h3 h4⟩,
        RuleMatches_of_text input hlen .ruleNullLiteral p hp [c1, c2, c3, c4] tail hd
          ⟨by simp, 30, run_NullLiteral_null c1 c2 c3 c4 tail h1 h2 h3 h4⟩⟩,
    RuleMatches_of_text "nullable".toList (by decide) .ruleRowValue 0 (by decide)
      "nullable".toList [] rfl ⟨by simp, 30, run_RowValue_nullable⟩,
    RuleMatches_of_text "nullable".toList (by decide) .rulebaseExpr 0 (by decide)
      "null".toList "able".toList rfl
      ⟨by simp, 30, run_baseExpr_null 'n' 'u' 'l' 'l' "able".toList (Or.inl rfl) (Or.inl rfl)
        (Or.inl rfl) (Or.inl rfl)⟩⟩

/-- The function of `baseExpr` on `a = NULLIF(b)`, called at position 4: it
matches `NULL` as the null literal and returns at position 8, in front of
`IF(b)`. -/
theorem baseExpr_function_keyword_first_witness :
    RuleMatches "a = NULLIF(b)".toList .rulebaseExpr 4 8 ∧
    RuleMatches "a = NULLIF(b)".toList .ruleNullLiteral 4 8 :=
  (baseExpr_function_keyword_first "a = NULLIF(b)".toList (by decide) 4 (by decide)
    "IF(b)".toList).2.2.2.1 'N' 'U' 'L' 'L' (Or.inr rfl) (Or.inr rfl) (Or.inr rfl) (Or.inr rfl)
    rfl

/-- C32, amended: `ComparisonOp` tries the alternatives `Equal`, `NotEqual`,
`LessOrEqual`, `Less`, `GreaterOrEqual`, `Greater` in this order.  On an input
of fewer than 2^32 runes, at every position where the text begins with `=`,
`!=`, `<>`, `<=`, `<`, `>=` or `>`, its function returns `true` behind the
operator that `comparisonOperator` reads, the operators of two characters
first: the function of the rule of that operator returns at the same
position, and the function of every alternative in front of it returns
`false`, so `<>` and `!=` are matched as `NotEqual`, `<=` as `LessOrEqual` and
`>=` as `GreaterOrEqual`, with `position` two runes further.  At every other
position the function of `ComparisonOp` returns `false`. -/
theorem comparisonOp_function_two_character_first (input : List Char)
    (hlen : input.length < 4294967296) (p : Nat) (hp : p ≤ input.length) :
    rules .ruleComparisonOp = .choices (comparisonAlternatives.map .call) ∧
    (match comparisonOperator (input.drop p) with
    | some (op, rest) =>
      RuleMatches input .ruleComparisonOp p (input.length - rest.length) ∧
      RuleMatches input op p (input.length - rest.length) ∧
      input.drop (input.length - rest.length) = rest ∧
      ∀ q ∈ comparisonAlternatives.takeWhile (fun q => q ≠ op), RuleFails input q p
    | none => RuleFails input .ruleComparisonOp p) ∧
    (∀ tail, input.drop p = '<' :: '>' :: tail →
      RuleMatches input .ruleComparisonOp p (p + 2) ∧ RuleMatches input .ruleNotEqual p (p + 2)) ∧
    (∀ tail, input.drop p = '!' :: '=' :: tail →
      RuleMatches input .ruleComparisonOp p (p + 2) ∧ RuleMatches input .ruleNotEqual p (p + 2)) ∧
    (∀ tail, input.drop p = '<' :: '=' :: tail →
      RuleMatches input .ruleComparisonOp p (p + 2) ∧
      RuleMatches input .ruleLessOrEqual p (p + 2) ∧ RuleFails input .ruleEqual p ∧
      RuleFails input .ruleNotEqual p) ∧
    (∀ tail, input.drop p = '>' :: '=' :: tail →
      RuleMatches input .ruleComparisonOp p (p + 2) ∧
      RuleMatches input .ruleGreaterOrEqual p (p + 2)) := by
  have key : ∀ (op : pegRule) (c1 c2 : Char) (tail : List Char),
      comparisonOperator (c1 :: c2 :: tail) = some (op, tail) →
      input.drop p = c1 :: c2 :: tail →
      RuleMatches input .ruleComparisonOp p (p + 2) ∧ RuleMatches input op p (p + 2) ∧
        ∀ q ∈ comparisonAlternatives.takeWhile (fun q => q ≠ op), RuleFails input q p := by
    intro op c1 c2 tail hop hd
    have h := (Returns_comparisonOperator (c1 :: c2 :: tail)).2
    rw [hop] at h
    have h1 : Returns (.call .ruleComparisonOp) ([c1, c2] ++ tail) (.matched tail) := h.1
    have h2 : Returns (.call op) ([c1, c2] ++ tail) (.matched tail) := h.2.1
    refine ⟨RuleMatches_of_text input hlen _ p hp [c1, c2] tail hd h1,
      RuleMatches_of_text input hlen _ p hp [c1, c2] tail hd h2, fun q hq => ?_⟩
    refine RuleFails_of_Returns input hlen q p hp ?_
    rw [hd]
    exact h.2.2 q hq
  refine ⟨rfl, ?_, fun tail hd => ?_, fun tail hd => ?_, fun tail hd => ?_, fun tail hd => ?_⟩
  · have h := (Returns_comparisonOperator (input.drop p)).2
    cases hc : comparisonOperator (input.drop p) with
    | none =>
      rw [hc] at h
      exact RuleFails_of_Returns input hlen _ p hp h
    | some x =>
      obtain ⟨op, rest⟩ := x
      rw [hc] at h
      have m := RuleMatches_of_Returns input hlen .ruleComparisonOp p hp rest h.1
      exact ⟨m.1, (RuleMatches_of_Returns input hlen op p hp rest h.2.1).1, m.2.1,
        fun q hq => RuleFails_of_Returns input hlen q p hp (h.2.2 q hq)⟩
  · have k := key .ruleNotEqual '<' '>' tail rfl hd
    exact ⟨k.1, k.2.1⟩
  · have k := key .ruleNotEqual '!' '=' tail rfl hd
    exact ⟨k.1, k.2.1⟩
  · have k := key .ruleLessOrEqual '<' '=' tail rfl hd
    exact ⟨k.1, k.2.1, k.2.2 .ruleEqual (by decide), k.2.2 .ruleNotEqual (by decide)⟩
  · have k := key .ruleGreaterOrEqual '>' '=' tail rfl hd
    exact ⟨k.1, k.2.1⟩

/-- The function of `ComparisonOp` on `a <= b`, called at position 2: it
returns `true` at position 4 with `<=` matched as `LessOrEqual`; on `a < b` it
returns at position 3, and at position 0, where an `a` stands, it returns
`false`. -/
theorem comparisonOp_function_two_character_first_witness :
    (RuleMatches "a <= b".toList .ruleComparisonOp 2 4 ∧
      RuleMatches "a <= b".toList .ruleLessOrEqual 2 4 ∧
      RuleFails "a <= b".toList .ruleEqual 2 ∧ RuleFails "a <= b".toList .ruleNotEqual 2) ∧
    RuleMatches "a < b".toList .ruleComparisonOp 2 3 ∧
    RuleFails "a < b".toList .ruleComparisonOp 0 :=
  ⟨(comparisonOp_function_two_character_first "a <= b".toList (by decide) 2
      (by decide)).2.2.2.2.1 " b".toList rfl,
    (comparisonOp_function_two_character_first "a < b".toList (by decide) 2 (by decide)).2.1.1,
    (comparisonOp_function_two_character_first "a < b".toList (by decide) 0 (by decide)).2.1⟩

/-- C31, amended: on an input of fewer than 2^32 runes, whenever the function
of `orExpr`, of `andExpr` or of `comparisonExpr` returns `true`, what it has
consumed is one operand, blanks and at most one operator with its operand
(`AtMostOneOperatorAt`).  Where the text `a OR b OR c` begins, whatever
follows it, the function of `Expression` returns `true` seven runes further,
behind `a OR b ` and in front of `OR c`; on `a AND b AND c` it returns eight
runes further, in front of `AND c`, on `a = b = c` six runes further, in front
of `= c`.  A chain of `||`, of `+` and `-`, or of `*`, `/` and `%` between
operands `a` is matched by the function of `Expression` to its end, whatever
its length below 2^32. -/
theorem operators_once_or_chained (input : List Char) (hlen : input.length < 4294967296) :
    (∀ fuel s s2, s.position ≤ input.length → s.depth < 4294967296 →
      callRule (Init (runesOf input)) fuel .ruleorExpr s = .returned true s2 →
      AtMostOneOperatorAt input .ruleandExpr .ruleOr s.position s2.position) ∧
    (∀ fuel s s2, s.position ≤ input.length → s.depth < 4294967296 →
      callRule (Init (runesOf input)) fuel .ruleandExpr s = .returned true s2 →
      AtMostOneOperatorAt input .rulenotExpr .ruleAnd s.position s2.position) ∧
    (∀ fuel s s2, s.position ≤ input.length → s.depth < 4294967296 →
      callRule (Init (runesOf input)) fuel .rulecomparisonExpr s = .returned true s2 →
      AtMostOneOperatorAt input .ruleotherOpExpr .ruleComparisonOp s.position s2.position) ∧
    (∀ p tail, p ≤ input.length → input.drop p = "a OR b OR c".toList ++ tail →
      RuleMatches input .ruleExpression p (p + 7)) ∧
    (∀ p tail, p ≤ input.length → input.drop p = "a AND b AND c".toList ++ tail →
      RuleMatches input .ruleExpression p (p + 8)) ∧
    (∀ p tail, p ≤ input.length → input.drop p = "a = b = c".toList ++ tail →
      RuleMatches input .ruleExpression p (p + 6)) ∧
    (∀ n, input = 'a' :: concatenations n → RuleMatches input .ruleExpression 0 input.length) ∧
    (∀ ops : List Char, (∀ op ∈ ops, op = '+' ∨ op = '-') → input = 'a' :: operands ops →
      RuleMatches input .ruleExpression 0 input.length) ∧
    (∀ ops : List Char, (∀ op ∈ ops, op = '*' ∨ op = '/' ∨ op = '%') →
      input = 'a' :: operands ops → RuleMatches input .ruleExpression 0 input.length) := by
  have once : ∀ (X operand operator : pegRule) (n : Nat),
      rules X = .seq (.text (.seq (.call operand) (.seq (.call .rulesp)
        (.optional (.seq (.call operator) (.seq (.call .rulesp) (.call operand))))))) (.action n) →
      ∀ fuel s s2, s.position ≤ input.length → s.depth < 4294967296 →
        callRule (Init (runesOf input)) fuel X s = .returned true s2 →
        AtMostOneOperatorAt input operand operator s.position s2.position := by
    intro X operand operator n hX fuel s s2 hs hd h
    have hr := Returns_of_callRule input hlen fuel X s s2 hs hd h
    have h2 := (Returns_call _ _ _).1 hr.1
    rw [hX] at h2
    exact AtMostOneOperatorAt_of input hlen operand operator s.position s2.position hs hr.2.2
      (Returns_operatorOnce operand operator n _ _ h2)
  have whole : ∀ text : List Char, input = text →
      Returns (.call .ruleExpression) text (.matched []) →
      RuleMatches input .ruleExpression 0 input.length := by
    intro text he h
    subst he
    have m := RuleMatches_of_text input hlen .ruleExpression 0 (Nat.zero_le _) input []
      (by simp) (by rw [List.append_nil]; exact h)
    rw [Nat.zero_add] at m
    exact m
  exact ⟨once .ruleorExpr .ruleandExpr .ruleOr 34 rfl,
    once .ruleandExpr .rulenotExpr .ruleAnd 35 rfl,
    once .rulecomparisonExpr .ruleotherOpExpr .ruleComparisonOp 37 rfl,
    fun p tail hp hd =>
      RuleMatches_of_text input hlen .ruleExpression p hp "a OR b ".toList
        ("OR c".toList ++ tail) hd ⟨by simp, 100, run_Expression_or tail⟩,
    fun p tail hp hd =>
      RuleMatches_of_text input hlen .ruleExpression p hp "a AND b ".toList
        ("AND c".toList ++ tail) hd ⟨by simp, 100, run_Expression_and tail⟩,
    fun p tail hp hd =>
      RuleMatches_of_text input hlen .ruleExpression p hp "a = b ".toList
        ("= c".toList ++ tail) hd ⟨by simp, 100, run_Expression_eq tail⟩,
    fun n he => whole _ he (Expression_concat_chain n),
    fun ops hops he => whole _ he (Expression_plusMinus_chain ops hops),
    fun ops hops he => whole _ he (Expression_multDiv_chain ops hops)⟩

set_option maxRecDepth 100000 in
/-- The function of `orExpr` on `x = a OR b OR c`, called at position 4 in the
state in which the parse of an expression would call it: it returns `true` at
position 11, having consumed one operator; the function of `Expression`
returns there as well, and the chains `a+a-a+a` and `a*a/a%a` are matched to
their end. -/
theorem operators_once_or_chained_witness :
    callRule (Init (runesOf "x = a OR b OR c".toList)) 100 .ruleorExpr ⟨4, 0, 1⟩ =
      .returned true ⟨11, 84, 1⟩ ∧
    AtMostOneOperatorAt "x = a OR b OR c".toList .ruleandExpr .ruleOr 4 11 ∧
    RuleMatches "x = a OR b OR c".toList .ruleExpression 4 11 ∧
    RuleMatches ('a' :: operands ['+', '-', '+']) .ruleExpression 0 7 ∧
    RuleMatches ('a' :: operands ['*', '/', '%']) .ruleExpression 0 7 :=
  ⟨by decide,
    (operators_once_or_chained "x = a OR b OR c".toList (by decide)).1 100 ⟨4, 0, 1⟩ ⟨11, 84, 1⟩
      (by decide) (by decide) (by decide),
    (operators_once_or_chained "x = a OR b OR c".toList (by decide)).2.2.2.1 4 [] (by decide) rfl,
    (operators_once_or_chained ('a' :: operands ['+', '-', '+']) (by decide)).2.2.2.2.2.2.2.1
      ['+', '-', '+'] (by simp) rfl,
    (operators_once_or_chained ('a' :: operands ['*', '/', '%']) (by decide)).2.2.2.2.2.2.2.2
      ['*', '/', '%'] (by simp) rfl⟩

/-- C30, amended: on an input of fewer than 2^32 runes the call of `Statements`
with which `Parse` starts returns `true` exactly when `sp` (blanks, tabs, line
ends and comments) leads from position 0 to a position where the function of
`Statement` returns `true` and then either the end of the input is reached,
or `sp` leads from there to a `;`; whatever follows that `;` is skipped by
`.*` without being parsed, and the function returns with `position` at the
end of the input.  It returns `false` exactly when `Statement` returns `false`
behind the leading `sp`, or returns `true` and leaves something that does not
continue, after `sp`, with a `;`: without a `;` nothing may follow what
`Statement` consumed. -/
theorem statements_function_returns (input : List Char) (hlen : input.length < 4294967296) :
    ((∃ fuel s2, callRule (Init (runesOf input)) fuel .ruleStatements ⟨0, 0, 0⟩ =
        .returned true s2) ↔
      ∃ p1 p2, RuleMatches input .rulesp 0 p1 ∧ RuleMatches input .ruleStatement p1 p2 ∧
        (p2 = input.length ∨ ∃ p3, RuleMatches input .rulesp p2 p3 ∧ input[p3]? = some ';')) ∧
    (∀ fuel s2, callRule (Init (runesOf input)) fuel .ruleStatements ⟨0, 0, 0⟩ =
        .returned true s2 → s2.position = input.length) ∧
    ((∃ fuel, callRule (Init (runesOf input)) fuel .ruleStatements ⟨0, 0, 0⟩ =
        .returned false ⟨0, 0, 0⟩) ↔
      ∃ p1, RuleMatches input .rulesp 0 p1 ∧
        (RuleFails input .ruleStatement p1 ∨
          ∃ p2 p3, RuleMatches input .ruleStatement p1 p2 ∧ p2 ≠ input.length ∧
            RuleMatches input .rulesp p2 p3 ∧ input[p3]? ≠ some ';')) :=
  ⟨callRule_Statements_true input hlen,
    fun fuel s2 h => callRule_Statements_end input hlen fuel s2 h,
    callRule_Statements_false input hlen⟩

set_option maxRecDepth 100000 in
/-- The call of `Statements` on a statement with a comment in front and text
that is no statement behind the semicolon: it returns `true` at the end of the
text; on a statement followed by such text without a semicolon it returns
`false`. -/
theorem statements_function_returns_witness :
    callRule (Init (runesOf semicolonStatement.toList)) 100 .ruleStatements ⟨0, 0, 0⟩ =
      .returned true ⟨61, 106, 0⟩ ∧
    (∃ p1 p2, RuleMatches semicolonStatement.toList .rulesp 0 p1 ∧
      RuleMatches semicolonStatement.toList .ruleStatement p1 p2 ∧
      (p2 = semicolonStatement.toList.length ∨
        ∃ p3, RuleMatches semicolonStatement.toList .rulesp p2 p3 ∧
          semicolonStatement.toList[p3]? = some ';')) ∧
    callRule (Init (runesOf trailingStatement.toList)) 100 .ruleStatements ⟨0, 0, 0⟩ =
      .returned false ⟨0, 0, 0⟩ ∧
    ∃ p1, RuleMatches trailingStatement.toList .rulesp 0 p1 ∧
      (RuleFails trailingStatement.toList .ruleStatement p1 ∨
        ∃ p2 p3, RuleMatches trailingStatement.toList .ruleStatement p1 p2 ∧
          p2 ≠ trailingStatement.toList.length ∧
          RuleMatches trailingStatement.toList .rulesp p2 p3 ∧
          trailingStatement.toList[p3]? ≠ some ';') :=
  ⟨by decide,
    (statements_function_returns semicolonStatement.toList (by decide)).1.mp
      ⟨100, ⟨61, 106, 0⟩, by decide⟩,
    by decide,
    (statements_function_returns trailingStatement.toList (by decide)).2.2.mp
      ⟨100, by decide⟩⟩

/-! ## The claims on the grammar beyond 2^32 - 1 runes -/

theorem runesOf_append (a b : List Char) : runesOf (a ++ b) = runesOf a ++ runesOf b := by
  unfold runesOf
  exact List.map_append _ _ _

theorem runesOf_length (a : List Char) : (runesOf a).length = a.length := by
  unfold runesOf
  exact List.length_map _ _

/-- The runes of a text that consists of a beginning, `n` blanks and an end:
those of the beginning. -/
theorem window_beginning (pre suf : List Char) (n i x : Nat) (h : (runesOf pre)[i]? = some x) :
    (runesOf (pre ++ List.replicate n ' ' ++ suf) ++ [end_symbol])[i]? = some x := by
  have hi : i < (runesOf pre).length := by
    rcases Nat.lt_or_ge i (runesOf pre).length with h1 | h1
    · exact h1
    · rw [List.getElem?_eq_none h1] at h
      cases h
  rw [runesOf_append, runesOf_append, List.append_assoc, List.append_assoc,
    List.getElem?_append_left hi]
  exact h

/-- The runes of a text that consists of a beginning, `n` blanks and an end:
the blanks. -/
theorem window_blank (pre suf : List Char) (n i : Nat) (h1 : pre.length ≤ i)
    (h2 : i < pre.length + n) :
    (runesOf (pre ++ List.replicate n ' ' ++ suf) ++ [end_symbol])[i]? = some 32 := by
  rw [runesOf_append, runesOf_append, List.append_assoc, List.append_assoc,
    List.getElem?_append_right (by rw [runesOf_length]; exact h1), runesOf_length,
    List.getElem?_append_left (by rw [runesOf_length, List.length_replicate]; omega)]
  unfold runesOf
  rw [List.getElem?_map, List.getElem?_replicate, if_pos (by omega)]
  rfl

/-- The runes of a text that consists of a beginning, `n` blanks and an end:
those of the end, and the end symbol. -/
theorem window_suffix (pre suf : List Char) (n i j x : Nat) (hi : i = pre.length + n + j)
    (h : (runesOf suf ++ [end_symbol])[j]? = some x) :
    (runesOf (pre ++ List.replicate n ' ' ++ suf) ++ [end_symbol])[i]? = some x := by
  rw [runesOf_append, runesOf_append, List.append_assoc, List.append_assoc,
    List.getElem?_append_right (by rw [runesOf_length]; omega), runesOf_length,
    List.getElem?_append_right (by rw [runesOf_length, List.length_replicate]; omega),
    runesOf_length, List.length_replicate]
  have e : i - pre.length - n = j := by omega
  rw [e]
  exact h

theorem window_drop (pre suf : List Char) (n i : Nat) (hi : i = pre.length + n) :
    (pre ++ List.replicate n ' ' ++ suf).drop i = suf :=
  List.drop_left' (by rw [List.length_append, List.length_replicate, hi])

/-- The rule `sp`, entered at position `p` of a buffer that holds a `D` at
position 0 and blanks from `p` up to position 2^32 - 1, returns `true` at
position 0. -/
theorem exec_sp_wraps (B : List Nat) (p k t d : Nat) (hk : p + k + 1 = 4294967296)
    (hd : d < 4294967296)
    (h0 : B[0]? = some 68) (h : ∀ q, p ≤ q → q < 4294967296 → B[q]? = some 32) :
    Peg.exec B (10 + 2 + (k + 1) + 1) (.call .rulesp) ⟨p, t, d⟩ = .matched ⟨0, t + 1, d⟩ := by
  rw [Peg.exec_call, rules_sp,
    exec_spLoop_wraps B _ 10 k { position := p, tokenIndex := t, depth := uint32Inc d } hk h]
  have e := exec_spLoop_stops B { position := 0, tokenIndex := t, depth := uint32Inc d } h0
  rw [rules_sp] at e
  rw [e]
  simp only
  rw [uint32Dec_uint32Inc d hd]

theorem Peg.exec_seq_of (B : List Nat) (n : Nat) (a b : Peg) (s s2 : ParserState)
    (r : ExecResult) (h1 : Peg.exec B n a s = .matched s2) (h2 : Peg.exec B n b s2 = r) :
    Peg.exec B (n + 1) (.seq a b) s = r := by
  rw [Peg.exec_seq, h1]
  exact h2

theorem Peg.exec_choice_of (B : List Nat) (n : Nat) (a b : Peg) (s : ParserState)
    (r : ExecResult) (h1 : Peg.exec B n a s = .failed) (h2 : Peg.exec B n b s = r) :
    Peg.exec B (n + 1) (.choice a b) s = r := by
  rw [Peg.exec_choice, h1]
  exact h2

set_option maxRecDepth 100000 in
set_option maxHeartbeats 4000000 in
/-- The call of `Statements` on a buffer that holds `DROP SINK a` and blanks up
to position 2^32 - 1: `sp` behind the statement returns at position 0, where
no `;` stands, and behind the statement the end of the input is not reached. -/
theorem callRule_Statements_wraps (B : List Nat) (k : Nat) (hk : 11 + k + 1 = 4294967296)
    (h0 : B[0]? = some 68) (h1 : B[1]? = some 82) (h2 : B[2]? = some 79) (h3 : B[3]? = some 80)
    (h4 : B[4]? = some 32) (h5 : B[5]? = some 83) (h6 : B[6]? = some 73) (h7 : B[7]? = some 78)
    (h8 : B[8]? = some 75) (h9 : B[9]? = some 32) (h10 : B[10]? = some 97)
    (hb : ∀ q, 11 ≤ q → q < 4294967296 → B[q]? = some 32) :
    callRule B (k + 101) .ruleStatements ⟨0, 0, 0⟩ = .returned false ⟨0, 0, 0⟩ := by
  have h11 : B[11]? = some 32 := hb 11 (Nat.le_refl _) (by omega)
  have L : ∀ (n m : Nat) (e : Peg) (s : ParserState) (r : ExecResult), n ≤ m →
      r ≠ .outOfFuel → Peg.exec B n e s = r → Peg.exec B m e s = r :=
    fun n m e s r hn hr h => Peg.exec_le B n m hn e s r h hr
  have f1 : Peg.exec B 14 (.call .rulesp) ⟨0, 0, 1⟩ = .matched ⟨0, 1, 1⟩ := by
    simp [Peg.exec, rules, Peg.seqs, Peg.choices, h0, uint32Inc, uint32Dec]
  have f2 : Peg.exec B 60 (.call .ruleStatement) ⟨0, 1, 1⟩ = .matched ⟨11, 11, 1⟩ := by
    simp [Peg.exec, rules, Peg.seqs, Peg.choices, ci, h0, h1, h2, h3, h4, h5, h6, h7, h8, h9,
      h10, h11, uint32Inc, uint32Dec]
  have f3 : Peg.exec B (10 + 2 + (k + 1) + 1) (.call .rulesp) ⟨11, 11, 1⟩ =
      .matched ⟨0, 12, 1⟩ := exec_sp_wraps B 11 k 11 1 hk (by omega) h0 hb
  have f4 : Peg.exec B 3 (.seq (.char ';') (.star .dot)) ⟨0, 12, 1⟩ = .failed := by
    simp [Peg.exec, h0]
  have f5 : Peg.exec B 2 (.notPredicate .dot) ⟨11, 11, 1⟩ = .failed := by
    simp [Peg.exec, h11, end_symbol, uint32Inc]
  have g1 : Peg.exec B (k + 95 + 1) (.seq (.call .rulesp) (.seq (.char ';') (.star .dot)))
      ⟨11, 11, 1⟩ = .failed :=
    Peg.exec_seq_of B (k + 95) _ _ _ _ _ (L _ _ _ _ _ (by omega) (by simp) f3)
      (L _ _ _ _ _ (by omega) (by simp) f4)
  have g2 : Peg.exec B (k + 96 + 1) (.seq (.call .ruleStatement)
      (.seq (.call .rulesp) (.seq (.char ';') (.star .dot)))) ⟨0, 1, 1⟩ = .failed :=
    Peg.exec_seq_of B (k + 96) _ _ _ _ _ (L _ _ _ _ _ (by omega) (by simp) f2)
      (L _ _ _ _ _ (by omega) (by simp) g1)
  have g3 : Peg.exec B (k + 97 + 1) (.choice (.seq (.call .ruleStatement)
      (.seq (.call .rulesp) (.seq (.char ';') (.star .dot)))) (.call .ruleStatement)) ⟨0, 1, 1⟩ =
      .matched ⟨11, 11, 1⟩ :=
    Peg.exec_choice_of B (k + 97) _ _ _ _ (L _ _ _ _ _ (by omega) (by simp) g2)
      (L _ _ _ _ _ (by omega) (by simp) f2)
  have g4 : Peg.exec B (k + 98 + 1) (.seq (.choice (.seq (.call .ruleStatement)
      (.seq (.call .rulesp) (.seq (.char ';') (.star .dot)))) (.call .ruleStatement))
      (.notPredicate .dot)) ⟨0, 1, 1⟩ = .failed :=
    Peg.exec_seq_of B (k + 98) _ _ _ _ _ (L _ _ _ _ _ (by omega) (by simp) g3)
      (L _ _ _ _ _ (by omega) (by simp) f5)
  have g5 : Peg.exec B (k + 99 + 1) (rules .ruleStatements) ⟨0, 0, 1⟩ = .failed := by
    rw [rules_Statements]
    exact Peg.exec_seq_of B (k + 99) _ _ _ _ _ (L _ _ _ _ _ (by omega) (by simp) f1)
      (L _ _ _ _ _ (by omega) (by simp) g4)
  have g6 : Peg.exec B (k + 99 + 1 + 1) (.call .ruleStatements) ⟨0, 0, 0⟩ = .failed := by
    rw [Peg.exec_call]
    show (match Peg.exec B (k + 99 + 1) (rules .ruleStatements) ⟨0, 0, 1⟩ with
      | .matched s2 =>
        ExecResult.matched { s2 with depth := uint32Dec s2.depth, tokenIndex := s2.tokenIndex + 1 }
      | .failed => .failed
      | .outOfBounds => .outOfBounds
      | .outOfFuel => .outOfFuel) = _
    rw [g5]
  unfold callRule
  show (match Peg.exec B (k + 99 + 1 + 1) (.call .ruleStatements) ⟨0, 0, 0⟩ with
    | .matched s2 => RuleReturn.returned true s2
    | .failed => .returned false ⟨0, 0, 0⟩
    | .outOfBounds => .outOfBounds
    | .outOfFuel => .outOfFuel) = _
  rw [g6]

/-- C30, counterexample: on `DROP SINK a` followed by 2^32 - 11 blanks and a
`;`, which then stands at index 2^32, the call of `Statements` with which
`Parse` starts returns `false`: `sp` behind the statement reads the blanks up
to position 2^32 - 1, `position++` wraps around to 0, where the `D` stands and
no `;`.  With two blanks in the place of the 2^32 - 11 it returns `true`. -/
theorem statements_misses_semicolon_behind_wrap :
    ("DROP SINK a".toList ++ List.replicate 4294967285 ' ' ++ [';']).drop 4294967296 = [';'] ∧
    callRule (Init (runesOf ("DROP SINK a".toList ++ List.replicate 4294967285 ' ' ++ [';'])))
      4294967385 .ruleStatements ⟨0, 0, 0⟩ = .returned false ⟨0, 0, 0⟩ ∧
    callRule (Init (runesOf ("DROP SINK a".toList ++ List.replicate 2 ' ' ++ [';'])))
      100 .ruleStatements ⟨0, 0, 0⟩ = .returned true ⟨14, 13, 0⟩ := by
  refine ⟨window_drop _ _ _ _ (by decide), ?_, by decide⟩
  rw [Init_runesOf]
  exact callRule_Statements_wraps _ 4294967284 (by omega)
    (window_beginning _ _ _ 0 68 rfl) (window_beginning _ _ _ 1 82 rfl) (window_beginning _ _ _ 2 79 rfl)
    (window_beginning _ _ _ 3 80 rfl) (window_beginning _ _ _ 4 32 rfl) (window_beginning _ _ _ 5 83 rfl)
    (window_beginning _ _ _ 6 73 rfl) (window_beginning _ _ _ 7 78 rfl) (window_beginning _ _ _ 8 75 rfl)
    (window_beginning _ _ _ 9 32 rfl) (window_beginning _ _ _ 10 97 rfl)
    (fun q hq1 hq2 => window_blank _ _ _ q hq1 (by
      show q < 11 + 4294967285
      omega))

set_option maxRecDepth 100000 in
set_option maxHeartbeats 4000000 in
/-- The function of `Expression`, called at position 2^32 - 1 of a buffer that
holds an `a` there and `SELECT IST` at its beginning. -/
theorem callRule_Expression_wraps (B : List Nat) (h0 : B[0]? = some 83) (h1 : B[1]? = some 69)
    (h2 : B[2]? = some 76) (h3 : B[3]? = some 69) (h4 : B[4]? = some 67) (h5 : B[5]? = some 84)
    (h6 : B[6]? = some 32) (h7 : B[7]? = some 73) (h8 : B[8]? = some 83) (h9 : B[9]? = some 84)
    (hl : B[4294967295]? = some 97) :
    callRule B 100 .ruleExpression ⟨4294967295, 8, 7⟩ = .returned true ⟨7, 51, 7⟩ := by
  simp [callRule, Peg.exec, rules, Peg.seqs, Peg.choices, ci, h0, h1, h2, h3, h4, h5, h6, h7, h8,
    h9, hl, uint32Inc, uint32Dec]

/-- C31, counterexample: in `SELECT ISTREAM `, 2^32 - 16 blanks and
`a OR b OR c` the expression begins at position 2^32 - 1.  The function of
`Expression`, called there, does not return behind `a OR b `: it reads the `a`,
`position++` wraps around to 0, the name is continued with `SELECT` from the
beginning of the buffer, and the function returns `true` at position 7. -/
theorem expression_reads_across_wrap :
    ("SELECT ISTREAM ".toList ++ List.replicate 4294967280 ' ' ++ "a OR b OR c".toList).drop
      4294967295 = "a OR b OR c".toList ∧
    callRule (Init (runesOf
      ("SELECT ISTREAM ".toList ++ List.replicate 4294967280 ' ' ++ "a OR b OR c".toList)))
      100 .ruleExpression ⟨4294967295, 8, 7⟩ = .returned true ⟨7, 51, 7⟩ := by
  refine ⟨window_drop _ _ _ _ (by decide), ?_⟩
  rw [Init_runesOf]
  exact callRule_Expression_wraps _
    (window_beginning _ _ _ 0 83 rfl) (window_beginning _ _ _ 1 69 rfl) (window_beginning _ _ _ 2 76 rfl)
    (window_beginning _ _ _ 3 69 rfl) (window_beginning _ _ _ 4 67 rfl) (window_beginning _ _ _ 5 84 rfl)
    (window_beginning _ _ _ 6 32 rfl) (window_beginning _ _ _ 7 73 rfl) (window_beginning _ _ _ 8 83 rfl)
    (window_beginning _ _ _ 9 84 rfl) (window_suffix _ _ _ _ 0 97 (by decide) rfl)

set_option maxRecDepth 100000 in
set_option maxHeartbeats 4000000 in
/-- The functions of `ComparisonOp`, `LessOrEqual` and `Less`, called at
position 2^32 - 1 of a buffer that holds a `<` there and an `S` at its
beginning. -/
theorem callRule_ComparisonOp_wraps (B : List Nat) (h0 : B[0]? = some 83)
    (hl : B[4294967295]? = some 60) :
    callRule B 30 .ruleComparisonOp ⟨4294967295, 36, 16⟩ = .returned true ⟨0, 40, 16⟩ ∧
    callRule B 30 .ruleLessOrEqual ⟨4294967295, 36, 17⟩ =
      .returned false ⟨4294967295, 36, 17⟩ ∧
    callRule B 30 .ruleLess ⟨4294967295, 36, 17⟩ = .returned true ⟨0, 39, 17⟩ := by
  refine ⟨?_, ?_, ?_⟩ <;>
    simp [callRule, Peg.exec, rules, Peg.seqs, Peg.choices, h0, hl, uint32Inc, uint32Dec]

/-- C32, counterexample: in `SELECT ISTREAM a`, 2^32 - 17 blanks and `<= b` the
operator `<=` begins at position 2^32 - 1.  The function of `ComparisonOp`,
called there, reads the `<`, `position++` wraps around to 0, where the `S`
stands and no `=`: `LessOrEqual` returns `false`, and the operator is matched
as `Less` with one rune consumed. -/
theorem comparisonOp_splits_operator_at_wrap :
    ("SELECT ISTREAM a".toList ++ List.replicate 4294967279 ' ' ++ "<= b".toList).drop
      4294967295 = "<= b".toList ∧
    callRule (Init (runesOf
      ("SELECT ISTREAM a".toList ++ List.replicate 4294967279 ' ' ++ "<= b".toList)))
      30 .ruleComparisonOp ⟨4294967295, 36, 16⟩ = .returned true ⟨0, 40, 16⟩ ∧
    callRule (Init (runesOf
      ("SELECT ISTREAM a".toList ++ List.replicate 4294967279 ' ' ++ "<= b".toList)))
      30 .ruleLessOrEqual ⟨4294967295, 36, 17⟩ = .returned false ⟨4294967295, 36, 17⟩ ∧
    callRule (Init (runesOf
      ("SELECT ISTREAM a".toList ++ List.replicate 4294967279 ' ' ++ "<= b".toList)))
      30 .ruleLess ⟨4294967295, 36, 17⟩ = .returned true ⟨0, 39, 17⟩ := by
  refine ⟨window_drop _ _ _ _ (by decide), ?_⟩
  rw [Init_runesOf]
  exact callRule_ComparisonOp_wraps _ (window_beginning _ _ _ 0 83 rfl)
    (window_suffix _ _ _ _ 0 60 (by decide) rfl)

set_option maxRecDepth 100000 in
set_option maxHeartbeats 4000000 in
/-- The functions of `baseExpr` and `NullLiteral`, called at position 2^32 - 2
of a buffer that holds `nu` there and `SELECT I` at its beginning. -/
theorem callRule_baseExpr_wraps (B : List Nat) (h0 : B[0]? = some 83) (h1 : B[1]? = some 69)
    (h2 : B[2]? = some 76) (h3 : B[3]? = some 69) (h4 : B[4]? = some 67) (h5 : B[5]? = some 84)
    (h6 : B[6]? = some 32) (h7 : B[7]? = some 73)
    (hk : B[4294967294]? = some 110) (hl : B[4294967295]? = some 117) :
    callRule B 100 .rulebaseExpr ⟨4294967294, 8, 28⟩ = .returned true ⟨6, 13, 28⟩ ∧
    callRule B 100 .ruleNullLiteral ⟨4294967294, 8, 29⟩ =
      .returned false ⟨4294967294, 8, 29⟩ := by
  constructor <;>
    simp [callRule, Peg.exec, rules, Peg.seqs, Peg.choices, ci, h0, h1, h2, h3, h4, h5, h6, h7,
      hk, hl, uint32Inc, uint32Dec]

/-- C33, counterexample: in `SELECT ISTREAM `, 2^32 - 17 blanks and `null` the
keyword begins at position 2^32 - 2.  The function of `NullLiteral`, called
there, reads `nu`, `position++` wraps around to 0, where `SELECT` stands, and
it returns `false`; the function of `baseExpr` returns `true` at position 6
with the row value `nuSELECT`, not behind the keyword. -/
theorem baseExpr_misses_keyword_at_wrap :
    ("SELECT ISTREAM ".toList ++ List.replicate 4294967279 ' ' ++ "null".toList).drop
      4294967294 = "null".toList ∧
    callRule (Init (runesOf
      ("SELECT ISTREAM ".toList ++ List.replicate 4294967279 ' ' ++ "null".toList)))
      100 .rulebaseExpr ⟨4294967294, 8, 28⟩ = .returned true ⟨6, 13, 28⟩ ∧
    callRule (Init (runesOf
      ("SELECT ISTREAM ".toList ++ List.replicate 4294967279 ' ' ++ "null".toList)))
      100 .ruleNullLiteral ⟨4294967294, 8, 29⟩ = .returned false ⟨4294967294, 8, 29⟩ := by
  refine ⟨window_drop _ _ _ _ (by decide), ?_⟩
  rw [Init_runesOf]
  exact callRule_baseExpr_wraps _
    (window_beginning _ _ _ 0 83 rfl) (window_beginning _ _ _ 1 69 rfl) (window_beginning _ _ _ 2 76 rfl)
    (window_beginning _ _ _ 3 69 rfl) (window_beginning _ _ _ 4 67 rfl) (window_beginning _ _ _ 5 84 rfl)
    (window_beginning _ _ _ 6 32 rfl) (window_beginning _ _ _ 7 73 rfl)
    (window_suffix _ _ _ _ 0 110 (by decide) rfl) (window_suffix _ _ _ _ 1 117 (by decide) rfl)

theorem leadingBlanks_get (n p : Nat) (suf : List Char) (h : p < n) :
    (runesOf (List.replicate n ' ' ++ suf) ++ [end_symbol])[p]? = some 32 := by
  rw [runesOf_append, List.append_assoc,
    List.getElem?_append_left (by rw [runesOf_length, List.length_replicate]; exact h)]
  unfold runesOf
  rw [List.getElem?_map, List.getElem?_replicate, if_pos h]
  rfl

/-- The rule `sp` on a buffer whose first 2^32 runes are blanks. -/
theorem callRule_sp_blanks (B : List Nat) (h : ∀ p, p < 4294967296 → B[p]? = some 32)
    (fuel : Nat) (s : ParserState) (hs : s.position < 4294967296) :
    callRule B fuel .rulesp s = .outOfFuel := by
  unfold callRule
  cases fuel with
  | zero => rfl
  | succ g =>
    rw [Peg.exec_call, rules_sp,
      exec_spLoop_blanks B h _ g { s with depth := uint32Inc s.depth } hs]

/-- C34, counterexample: on 2^32 blanks followed by `DROP SINK a` the function
of `sp`, called at position 0 as the parse of the text calls it, does not
return, whatever the fuel: it reads the blanks up to position 2^32 - 1,
`position++` wraps around to 0, and the loop reads the same blanks again; the
run of blanks, which ends at position 2^32 in front of `DROP SINK a`, is not
skipped.  On `DROP SINK`, 2^32 - 9 blanks and `a` the function, called at
position 9, returns `true` at position 0, not in front of the `a`. -/
theorem sp_never_leaves_the_blanks :
    (List.replicate 4294967296 ' ' ++ "DROP SINK a".toList).drop 4294967296 =
      "DROP SINK a".toList ∧
    (∀ fuel : Nat, callRule (Init (runesOf
      (List.replicate 4294967296 ' ' ++ "DROP SINK a".toList))) fuel .rulesp ⟨0, 0, 1⟩ =
        .outOfFuel) ∧
    ("DROP SINK".toList ++ List.replicate 4294967287 ' ' ++ ['a']).drop 4294967296 = ['a'] ∧
    callRule (Init (runesOf ("DROP SINK".toList ++ List.replicate 4294967287 ' ' ++ ['a'])))
      4294967300 .rulesp ⟨9, 2, 4⟩ = .returned true ⟨0, 3, 4⟩ := by
  refine ⟨List.drop_left' (List.length_replicate _ _), fun fuel => ?_,
    window_drop _ _ _ _ (by decide), ?_⟩
  · rw [Init_runesOf]
    exact callRule_sp_blanks _ (fun p hp => leadingBlanks_get 4294967296 p _ hp) fuel ⟨0, 0, 1⟩
      (by show 0 < 4294967296; omega)
  · rw [Init_runesOf]
    exact callRule_sp_wraps _ 4294967286 2 4 (by omega) (by omega) (window_beginning _ _ _ 0 68 rfl)
      (fun p h1 h2 => window_blank _ _ _ p h1 (by
        show p < 9 + 4294967287
        omega))

end Sensorbee
